import Mathlib

/-!
# Concurrent folder tree (`Tree.c`): sequential semantics of the public operations

The C program keeps a tree of folders.  Every node (`struct Tree`) owns a map from
child names to child nodes, a pointer to its parent (`ancestor`) and a readers/writers
"room" (counters guarded by a mutex).  The embedding below is shallow:

* memory is a partial map from addresses to `Tree` records plus a bump allocator;
* a pointer is an address, `NULL` is `none`;
* every C function becomes a function passing the memory explicitly and returning an
  `Option`: `none` means that the call does not return (it waits on a condition variable
  that nobody can signal, it dereferences a pointer that is not allocated, or a loop runs
  out of the fuel given to it);
* C strings are lists of characters.
-/

namespace FolderTree

/-! ## Constants -/

/-- Value of `EINVAL` in `<errno.h>` (Linux). -/
def EINVAL : Int := 22
/-- Value of `EEXIST` in `<errno.h>` (Linux). -/
def EEXIST : Int := 17
/-- Value of `ENOENT` in `<errno.h>` (Linux). -/
def ENOENT : Int := 2
/-- Value of `EBUSY` in `<errno.h>` (Linux). -/
def EBUSY : Int := 16
/-- Value of `ENOTEMPTY` in `<errno.h>` (Linux). -/
def ENOTEMPTY : Int := 39
/-- The line `#define MY_ERROR -1` of `Tree.c`. -/
def MY_ERROR : Int := -1

/-- Modelled from the spec: the constant `MAX_FOLDER_NAME_LENGTH` of `path_utils.h`
(`MAX_NAME` is `255`). -/
def MAX_FOLDER_NAME_LENGTH : Nat := 255

/-! ## Path utilities (`path_utils.h`) -/

/-- A folder name, a C string without `/`. -/
abbrev Name := List Char

/-- A path, a C string. -/
abbrev Path := List Char

/-- Lowercase letter test used for folder names. -/
def isNameChar (c : Char) : Bool := decide ('a'.toNat ≤ c.toNat) && decide (c.toNat ≤ 'z'.toNat)

/-- A folder name has between 1 and `MAX_FOLDER_NAME_LENGTH` lowercase letters. -/
def validName (n : Name) : Bool :=
  !n.isEmpty && decide (n.length ≤ MAX_FOLDER_NAME_LENGTH) && n.all isNameChar

/-- Reads the characters after the leading `/`; `cur` is the component read so far. -/
def parseAux : List Char → Name → Option (List Name)
  | [], cur => if cur.isEmpty then some [] else none
  | ch :: rest, cur =>
    if ch = '/' then
      if validName cur then (parseAux rest []).map (fun cs => cur :: cs) else none
    else parseAux rest (cur ++ [ch])

/-- The components of a path, `none` when the string is not a canonical path. -/
def path_components : Path → Option (List Name)
  | [] => none
  | ch :: rest => if ch = '/' then parseAux rest [] else none

/-- The characters after the leading `/` of the path with the given components. -/
def renderAux : List Name → List Char
  | [] => []
  | c :: cs => c ++ '/' :: renderAux cs

/-- The path `/c1/c2/.../cN/` with the given components (`/` for the empty list). -/
def render (cs : List Name) : Path := '/' :: renderAux cs

/-- Modelled from the spec: `is_path_valid` of `path_utils.c`; true iff the path is `/`
or matches `(/[a-z]{1..MAX_NAME})+/`. -/
def is_path_valid (path : Path) : Bool := (path_components path).isSome

/-- Splits a string at its first `/`: the characters before it, and the rest from that
`/` on (`strchr`). -/
def cutAtSlash : List Char → Option (List Char × List Char)
  | [] => none
  | ch :: rest =>
    if ch = '/' then some ([], ch :: rest)
    else (cutAtSlash rest).map (fun r => (ch :: r.1, r.2))

/-- Modelled from the spec: `split_path` of `path_utils.c`; splits off the first
component of a path and gives the rest of the path, starting at the second `/`; `NULL`
(`none`) when the path is `/`. -/
def split_path (path : Path) : Option (Name × Path) :=
  match path with
  | [] => none
  | _ :: rest => cutAtSlash rest

/-- Modelled from the spec: `make_path_to_parent` of `path_utils.c`; the parent path and
the last component of a valid path other than `/`, `NULL` (`none`) otherwise. -/
def make_path_to_parent (path : Path) : Option (Path × Name) :=
  match path_components path with
  | none => none
  | some cs =>
    match cs.getLast? with
    | none => none
    | some last => some (render cs.dropLast, last)

/-- Longest common beginning of two component lists. -/
def commonComponents : List Name → List Name → List Name
  | a :: as, b :: bs => if a = b then a :: commonComponents as bs else []
  | _, _ => []

/-- Modelled from the spec: `last_common_ancestor` of `path_utils.c`; the longest common
valid-path beginning of two paths, ending at a component boundary. -/
def last_common_ancestor (a b : Path) : Option Path :=
  match path_components a, path_components b with
  | some ca, some cb => some (render (commonComponents ca cb))
  | _, _ => none

/-- Modelled from the spec: `is_a_prefix_of` of `path_utils.c`; true iff the components
of `a` are the first components of `b`. -/
def is_a_prefix_of (a b : Path) : Bool :=
  match path_components a, path_components b with
  | some ca, some cb => ca.isPrefixOf cb
  | _, _ => false

/-! ## The map of children (`HashMap.h`) -/

/-- Modelled from the spec: the `HashMap` of `HashMap.h`, a finite map from names to
node addresses, kept as an association list. -/
abbrev HashMap := List (Name × Nat)

/-- Modelled from the spec: `hmap_new`, the empty map. -/
def hmap_new : HashMap := []

/-- Modelled from the spec: `hmap_get`, the value stored under a key or `NULL`. -/
def hmap_get : HashMap → Name → Option Nat
  | [], _ => none
  | kv :: rest, key => if kv.1 = key then some kv.2 else hmap_get rest key

/-- Modelled from the spec: `hmap_insert`, insert-if-absent; the flag tells whether the
pair was inserted. -/
def hmap_insert (map : HashMap) (key : Name) (value : Nat) : HashMap × Bool :=
  match hmap_get map key with
  | some _ => (map, false)
  | none => ((key, value) :: map, true)

/-- Modelled from the spec: `hmap_remove`, removes a key. -/
def hmap_remove (map : HashMap) (key : Name) : HashMap :=
  map.filter (fun kv => decide (kv.1 ≠ key))

/-- Modelled from the spec: `hmap_size`, the number of keys. -/
def hmap_size (map : HashMap) : Nat := map.length

/-- Insertion of a name into a list of names sorted by `<` on character lists. -/
def insertName (n : Name) : List Name → List Name
  | [] => [n]
  | x :: xs => if n < x then n :: x :: xs else x :: insertName n xs

/-- Names in ascending lexicographic order. -/
def sortNames : List Name → List Name
  | [] => []
  | x :: xs => insertName x (sortNames xs)

/-- Names joined by commas. -/
def joinNames : List Name → List Char
  | [] => []
  | [x] => x
  | x :: y :: rest => x ++ ',' :: joinNames (y :: rest)

/-- Modelled from the spec: `make_map_contents_string` of `path_utils.c`; the child names
in ascending lexicographic order joined by `,`. -/
def make_map_contents_string (map : HashMap) : List Char :=
  joinNames (sortNames (map.map Prod.fst))

/-! ## Nodes and memory -/

/-- The `struct Tree` of `Tree.c`.  The mutex and the two condition variables carry no
data; `contents` is the map the node owns. -/
structure Tree where
  ancestor : Option Nat
  contents : HashMap
  readers_number : Int
  writers_number : Int
  waiting_readers : Int
  waiting_writers : Int
  whose_turn : Int
deriving DecidableEq

/-- The heap: the node stored at each allocated address, and the next address `malloc`
hands out. -/
structure Mem where
  cell : Nat → Option Tree
  next : Nat

/-- Memory with nothing allocated. -/
def Mem.empty : Mem := { cell := fun _ => none, next := 0 }

/-- Stores a node at an address. -/
def Mem.set (m : Mem) (a : Nat) (t : Tree) : Mem :=
  { m with cell := fun x => if x = a then some t else m.cell x }

/-- Releases an address (`free`). -/
def Mem.free (m : Mem) (a : Nat) : Mem :=
  { m with cell := fun x => if x = a then none else m.cell x }

/-! ## The room of a node -/

/-- The function `start_reading`: entry protocol of a reader.  When the loop condition
holds the caller waits; in a run with no other thread it waits forever. -/
def start_reading (m : Mem) (T : Nat) : Option Mem :=
  match m.cell T with
  | none => none
  | some t =>
    if t.writers_number = 1 ∨ (t.waiting_writers > 0 ∧ t.whose_turn = 1) then none
    else some (m.set T { t with readers_number := t.readers_number + 1 })

/-- The function `finish_reading`: exit protocol of a reader. -/
def finish_reading (m : Mem) (T : Nat) : Option Mem :=
  match m.cell T with
  | none => none
  | some t => some (m.set T { t with readers_number := t.readers_number - 1 })

/-- The function `start_writing`: entry protocol of a writer. -/
def start_writing (m : Mem) (T : Nat) : Option Mem :=
  match m.cell T with
  | none => none
  | some t =>
    if t.readers_number > 0 ∨ t.writers_number = 1 then none
    else some (m.set T { t with whose_turn := 1, writers_number := t.writers_number + 1 })

/-- The function `finish_writing`: exit protocol of a writer. -/
def finish_writing (m : Mem) (T : Nat) : Option Mem :=
  match m.cell T with
  | none => none
  | some t =>
    let t1 := { t with writers_number := t.writers_number - 1 }
    if t1.waiting_readers > 0 then some (m.set T { t1 with whose_turn := 0 })
    else some (m.set T t1)

/-! ## Locking and unlocking a path -/

/-- The statement `if (curr_tree != NULL) curr_tree = curr_tree->ancestor;`. -/
def next_ancestor (m : Mem) (curr_tree : Option Nat) : Option (Option Nat) :=
  match curr_tree with
  | none => some none
  | some c =>
    match m.cell c with
    | none => none
    | some t => some t.ancestor

/-- The `while (prev_tree != NULL)` loop of `unlock_path`. -/
def unlock_path_loop : Nat → Mem → Option Nat → Option Nat → Option Mem
  | _, m, none, _ => some m
  | 0, _, some _, _ => none
  | fuel + 1, m, some prev_tree, curr_tree =>
    match finish_reading m prev_tree with
    | none => none
    | some m1 =>
      match next_ancestor m1 curr_tree with
      | none => none
      | some curr_next => unlock_path_loop fuel m1 curr_tree curr_next

/-- The function `unlock_path`: lets the writer or reader out of `tree` and a reader out
of every node on the `ancestor` chain above it. -/
def unlock_path (fuel : Nat) (m : Mem) (tree : Option Nat) (writer : Bool) : Option Mem :=
  match tree with
  | none => some m
  | some prev_tree =>
    match m.cell prev_tree with
    | none => none
    | some t =>
      match (if writer then finish_writing m prev_tree else finish_reading m prev_tree) with
      | none => none
      | some m1 =>
        match next_ancestor m1 t.ancestor with
        | none => none
        | some curr_next => unlock_path_loop fuel m1 t.ancestor curr_next

/-- The `while` loop of `lock_path` followed by the code after it.  `curr_map` is the
map read through `curr_tree->contents`; the room functions never write it. -/
def lock_path_loop (writer success : Bool) :
    Nat → Mem → Nat → Nat → HashMap → Path → Option (Mem × Option Nat × Bool)
  | 0, _, _, _, _, _ => none
  | fuel + 1, m, last_locked, curr_tree, curr_map, subfolder_path =>
    match split_path subfolder_path with
    | none =>
      match (if writer then start_writing m curr_tree else start_reading m curr_tree) with
      | none => none
      | some m1 => some (m1, some last_locked, true)
    | some (component, subpath) =>
      match start_reading m curr_tree with
      | none => none
      | some m1 =>
        match hmap_get curr_map component with
        | none => some (m1, some last_locked, success)
        | some c =>
          match m1.cell c with
          | none => none
          | some t => lock_path_loop writer success fuel m1 c c t.contents subpath

/-- The function `lock_path`.  The result holds the new memory, the returned node
(`last_locked`) and the value of `*success` after the call. -/
def lock_path (fuel : Nat) (m : Mem) (tree : Option Nat) (path : Path) (writer success : Bool) :
    Option (Mem × Option Nat × Bool) :=
  match tree with
  | none => some (m, none, success)
  | some r =>
    match m.cell r with
    | none => none
    | some t => lock_path_loop writer success fuel m r r t.contents path

/-- The `while` loop of `get_folder_tree`. -/
def get_folder_tree_loop : Nat → Mem → Nat → HashMap → Path → Option (Option Nat)
  | 0, _, _, _, _ => none
  | fuel + 1, m, curr_tree, result_map, subfolder_path =>
    match split_path subfolder_path with
    | none => some (some curr_tree)
    | some (component, subpath) =>
      match hmap_get result_map component with
      | none => some none
      | some c =>
        match m.cell c with
        | none => none
        | some t => get_folder_tree_loop fuel m c t.contents subpath

/-- The function `get_folder_tree`: the node of a path, or `NULL` if there is none. -/
def get_folder_tree (fuel : Nat) (m : Mem) (tree : Option Nat) (path : Path) :
    Option (Option Nat) :=
  match tree with
  | none => some none
  | some r =>
    match m.cell r with
    | none => none
    | some t => get_folder_tree_loop fuel m r t.contents path

/-- The function `check_tree_and_unlock`; the flag is the returned `bool`. -/
def check_tree_and_unlock (fuel : Nat) (m : Mem) (tree last_locked : Option Nat)
    (success : Bool) : Option (Mem × Bool) :=
  match tree with
  | none =>
    match (if success then unlock_path fuel m last_locked true
           else unlock_path fuel m last_locked false) with
    | none => none
    | some m1 => some (m1, false)
  | some _ => some (m, true)

/-- The function `get_parent_tree`; the result holds the memory, the returned node and
the name written to `component`. -/
def get_parent_tree (fuel : Nat) (m : Mem) (tree : Option Nat) (path : Path)
    (last_locked : Option Nat) (success : Bool) : Option (Mem × Option Nat × Name) :=
  match make_path_to_parent path with
  | none => none
  | some (path_to_parent, component) =>
    match get_folder_tree fuel m tree path_to_parent with
    | none => none
    | some parent_tree =>
      match check_tree_and_unlock fuel m parent_tree last_locked success with
      | none => none
      | some (m1, ok) => if ok then some (m1, parent_tree, component) else some (m1, none, component)

/-- The function `get_and_lock_parent`; the result holds the memory, the returned node,
the name written to `component` and the node written to `*last_locked`. -/
def get_and_lock_parent (fuel : Nat) (m : Mem) (tree : Option Nat) (path : Path) :
    Option (Mem × Option Nat × Name × Option Nat) :=
  match make_path_to_parent path with
  | none => none
  | some (path_to_parent, component) =>
    match lock_path fuel m tree path_to_parent true false with
    | none => none
    | some (m1, last_locked, _) =>
      match get_folder_tree fuel m1 tree path_to_parent with
      | none => none
      | some none =>
        match unlock_path fuel m1 last_locked false with
        | none => none
        | some m2 => some (m2, none, component, last_locked)
      | some (some parent_tree) => some (m1, some parent_tree, component, last_locked)

/-- The function `lock_lca`. -/
def lock_lca (fuel : Nat) (m : Mem) (tree : Option Nat) (source target : Path) (success : Bool) :
    Option (Mem × Option Nat × Bool) :=
  match last_common_ancestor source target with
  | none => none
  | some lca => lock_path fuel m tree lca true success

/-- The function `check_source_and_target`: `none` when it returns `true`, otherwise the
value it writes to `*ret_val`. -/
def check_source_and_target (source target : Path) : Option Int :=
  if !is_path_valid source || !is_path_valid target then some EINVAL
  else if source = ['/'] then some EBUSY
  else if target = ['/'] then some EEXIST
  else if is_a_prefix_of source target && decide (target ≠ source) then some MY_ERROR
  else none

/-! ## Public operations -/

/-- The function `tree_new`: a fresh node with an empty map, at the address given by
`malloc`. -/
def tree_new (m : Mem) : Mem × Nat :=
  ({ cell := fun x =>
       if x = m.next then
         some { ancestor := none, contents := hmap_new, readers_number := 0,
                writers_number := 0, waiting_readers := 0, waiting_writers := 0,
                whose_turn := 2 }
       else m.cell x,
     next := m.next + 1 }, m.next)

/-- The function `tree_free`: frees the children found in the map, then the node. -/
def tree_free : Nat → Mem → Nat → Option Mem
  | 0, _, _ => none
  | fuel + 1, m, tree =>
    match m.cell tree with
    | none => none
    | some t =>
      match t.contents.foldlM (fun acc kv => tree_free fuel acc kv.2) m with
      | none => none
      | some m1 => some (m1.free tree)

/-- The function `tree_list`; the result holds the memory and the returned string
(`none` for `NULL`). -/
def tree_list (fuel : Nat) (m : Mem) (tree : Option Nat) (path : Path) :
    Option (Mem × Option (List Char)) :=
  if !is_path_valid path then some (m, none)
  else
    match lock_path fuel m tree path false false with
    | none => none
    | some (m1, last_locked, _) =>
      match get_folder_tree fuel m1 tree path with
      | none => none
      | some none =>
        match unlock_path fuel m1 last_locked false with
        | none => none
        | some m2 => some (m2, none)
      | some (some result_tree) =>
        match m1.cell result_tree with
        | none => none
        | some t =>
          match unlock_path fuel m1 last_locked false with
          | none => none
          | some m2 => some (m2, some (make_map_contents_string t.contents))

/-- The function `tree_create`; the result holds the memory and the returned code. -/
def tree_create (fuel : Nat) (m : Mem) (tree : Option Nat) (path : Path) : Option (Mem × Int) :=
  if !is_path_valid path then some (m, EINVAL)
  else if path = ['/'] then some (m, EEXIST)
  else
    match get_and_lock_parent fuel m tree path with
    | none => none
    | some (m1, none, _, _) => some (m1, ENOENT)
    | some (m1, some parent_tree, new_folder, last_locked) =>
      match tree_new m1 with
      | (m2, created) =>
        match m2.cell parent_tree with
        | none => none
        | some pt =>
          match hmap_insert pt.contents new_folder created with
          | (map1, true) =>
            match (m2.set parent_tree { pt with contents := map1 }).cell created with
            | none => none
            | some ct =>
              match unlock_path fuel
                  ((m2.set parent_tree { pt with contents := map1 }).set created
                    { ct with ancestor := some parent_tree }) last_locked true with
              | none => none
              | some m3 => some (m3, 0)
          | (_, false) =>
            match tree_free fuel m2 created with
            | none => none
            | some m3 =>
              match unlock_path fuel m3 last_locked true with
              | none => none
              | some m4 => some (m4, EEXIST)

/-- The function `tree_remove`; the result holds the memory and the returned code. -/
def tree_remove (fuel : Nat) (m : Mem) (tree : Option Nat) (path : Path) : Option (Mem × Int) :=
  if !is_path_valid path then some (m, EINVAL)
  else if path = ['/'] then some (m, EBUSY)
  else
    match get_and_lock_parent fuel m tree path with
    | none => none
    | some (m1, none, _, _) => some (m1, ENOENT)
    | some (m1, some parent_tree, to_remove, last_locked) =>
      match m1.cell parent_tree with
      | none => none
      | some pt =>
        match hmap_get pt.contents to_remove with
        | none =>
          match unlock_path fuel m1 last_locked true with
          | none => none
          | some m2 => some (m2, ENOENT)
        | some tree_to_remove =>
          match m1.cell tree_to_remove with
          | none => none
          | some vt =>
            if hmap_size vt.contents ≠ 0 then
              match unlock_path fuel m1 last_locked true with
              | none => none
              | some m2 => some (m2, ENOTEMPTY)
            else
              match tree_free fuel
                  (m1.set parent_tree { pt with contents := hmap_remove pt.contents to_remove })
                  tree_to_remove with
              | none => none
              | some m2 =>
                match unlock_path fuel m2 last_locked true with
                | none => none
                | some m3 => some (m3, 0)

/-- The function `tree_move`; the result holds the memory and the returned code. -/
def tree_move (fuel : Nat) (m : Mem) (tree : Option Nat) (source target : Path) :
    Option (Mem × Int) :=
  match check_source_and_target source target with
  | some ret_val => some (m, ret_val)
  | none =>
    match lock_lca fuel m tree source target false with
    | none => none
    | some (m1, last_locked, success) =>
      match get_parent_tree fuel m1 tree source last_locked success with
      | none => none
      | some (m2, none, _) => some (m2, ENOENT)
      | some (m2, some ancestor_s, folder_to_remove) =>
        match m2.cell ancestor_s with
        | none => none
        | some ps =>
          match check_tree_and_unlock fuel m2 (hmap_get ps.contents folder_to_remove)
              last_locked success with
          | none => none
          | some (m3, false) => some (m3, ENOENT)
          | some (m3, true) =>
            -- `check_tree_and_unlock` returned `true`, so `tree_to_move` is not `NULL`
            match hmap_get ps.contents folder_to_remove with
            | none => none
            | some tree_to_move =>
              match get_parent_tree fuel m3 tree target last_locked success with
              | none => none
              | some (m4, none, _) => some (m4, ENOENT)
              | some (m4, some ancestor_t, folder_to_create) =>
                if source = target then
                  match unlock_path fuel m4 last_locked true with
                  | none => none
                  | some m5 => some (m5, 0)
                else
                  match m4.cell ancestor_t with
                  | none => none
                  | some pt =>
                    match hmap_insert pt.contents folder_to_create tree_to_move with
                    | (_, false) =>
                      match unlock_path fuel m4 last_locked true with
                      | none => none
                      | some m5 => some (m5, EEXIST)
                    | (map1, true) =>
                      match (m4.set ancestor_t { pt with contents := map1 }).cell tree_to_move with
                      | none => none
                      | some vt =>
                        match ((m4.set ancestor_t { pt with contents := map1 }).set tree_to_move
                            { vt with ancestor := some ancestor_t }).cell ancestor_s with
                        | none => none
                        | some ps1 =>
                          match unlock_path fuel
                              (((m4.set ancestor_t { pt with contents := map1 }).set tree_to_move
                                  { vt with ancestor := some ancestor_t }).set ancestor_s
                                { ps1 with contents := hmap_remove ps1.contents folder_to_remove })
                              last_locked true with
                          | none => none
                          | some m5 => some (m5, 0)

/-! ## Auxiliary definitions for the proofs

None of the definitions below comes from the source: they name the folders of a tree, the
states the operations are called in, the states they leave, and the codes the
specification gives. -/

/-- The child of node `a` named `c`, if both exist. -/
def child (m : Mem) (a : Nat) (c : Name) : Option Nat :=
  match m.cell a with
  | none => none
  | some t => hmap_get t.contents c

/-- The node reached from `cur` by following the components, if all of them exist. -/
def resolve (m : Mem) : Nat → List Name → Option Nat
  | cur, [] => some cur
  | cur, c :: cs =>
    match child m cur c with
    | none => none
    | some x => resolve m x cs

/-- The nodes met on the way from `cur` along the components, up to the first missing
one. -/
def chain (m : Mem) : Nat → List Name → List Nat
  | cur, [] => [cur]
  | cur, c :: cs =>
    match child m cur c with
    | none => [cur]
    | some x => cur :: chain m x cs

/-- The last node of `chain`: the deepest existing node on the way. -/
def deepest (m : Mem) : Nat → List Name → Nat
  | cur, [] => cur
  | cur, c :: cs =>
    match child m cur c with
    | none => cur
    | some x => deepest m x cs

/-- The node of the folder with the given path in the tree rooted at `root`; `none` when
the path is not valid or the folder does not exist. -/
def folder (m : Mem) (root : Nat) (path : Path) : Option Nat :=
  match path_components path with
  | none => none
  | some cs => resolve m root cs

/-- The names of the children of a node (empty when the node is not allocated). -/
def childNames (m : Mem) (a : Nat) : List Name :=
  match m.cell a with
  | none => []
  | some t => t.contents.map Prod.fst

/-- A well-formed tree: the root has no parent, every entry of every map points to an
allocated node whose `ancestor` is the owner of the map, no map has a key or a node
twice, and addresses not yet handed out are free. -/
structure WF (m : Mem) (root : Nat) : Prop where
  root_ok : ∃ t, m.cell root = some t ∧ t.ancestor = none
  child_ok : ∀ a t k c, m.cell a = some t → (k, c) ∈ t.contents →
    ∃ tc, m.cell c = some tc ∧ tc.ancestor = some a
  keys_nodup : ∀ a t, m.cell a = some t → (t.contents.map Prod.fst).Nodup
  vals_nodup : ∀ a t, m.cell a = some t → (t.contents.map Prod.snd).Nodup
  fresh : ∀ a, m.next ≤ a → m.cell a = none

/-- No thread is inside or waiting at any room. -/
def Idle (m : Mem) : Prop :=
  ∀ a t, m.cell a = some t →
    t.readers_number = 0 ∧ t.writers_number = 0 ∧ t.waiting_readers = 0 ∧ t.waiting_writers = 0

/-- Applies a function to the node at an address. -/
def Mem.modify (m : Mem) (a : Nat) (f : Tree → Tree) : Mem :=
  { m with cell := fun x => if x = a then (m.cell x).map f else m.cell x }

/-- Effect of `start_reading` on a node. -/
def rIn (t : Tree) : Tree := { t with readers_number := t.readers_number + 1 }

/-- Effect of `finish_reading` on a node. -/
def rOut (t : Tree) : Tree := { t with readers_number := t.readers_number - 1 }

/-- Effect of `start_writing` on a node. -/
def wIn (t : Tree) : Tree := { t with whose_turn := 1, writers_number := t.writers_number + 1 }

/-- Effect of `finish_writing` on a node. -/
def wOut (t : Tree) : Tree :=
  if t.waiting_readers > 0 then { t with writers_number := t.writers_number - 1, whose_turn := 0 }
  else { t with writers_number := t.writers_number - 1 }

/-- The nodes on which `lock_path` leaves a reader hold. -/
def heldReaders (m : Mem) (writer : Bool) : Nat → List Name → List Nat
  | cur, [] => if writer then [] else [cur]
  | cur, c :: cs =>
    match child m cur c with
    | none => [cur]
    | some x => cur :: heldReaders m writer x cs

/-- The node on which `lock_path` leaves a writer hold, if any. -/
def heldWriter (m : Mem) (writer : Bool) : Nat → List Name → Option Nat
  | cur, [] => if writer then some cur else none
  | cur, c :: cs =>
    match child m cur c with
    | none => none
    | some x => heldWriter m writer x cs

/-- Memory in which the given nodes hold one more reader, and one node a writer. -/
def lockedMem (m : Mem) (readers : List Nat) (writer : Option Nat) : Mem :=
  { m with cell := fun x =>
      if writer = some x then (m.cell x).map wIn
      else if x ∈ readers then (m.cell x).map rIn
      else m.cell x }

/-- Memory in which a reader has left the given nodes, and a writer one node. -/
def unlockedMem (m : Mem) (readers : List Nat) (writer : Option Nat) : Mem :=
  { m with cell := fun x =>
      if writer = some x then (m.cell x).map wOut
      else if x ∈ readers then (m.cell x).map rOut
      else m.cell x }

/-- Memory after a writer has passed through the room of `a`: only `whose_turn` of that
node differs. -/
def touch (m : Mem) (a : Nat) : Mem := m.modify a (fun t => { t with whose_turn := 1 })

/-- Both memories hold nodes at the same addresses, with the same `ancestor` and
`contents`. -/
def SameShape (m m1 : Mem) : Prop :=
  ∀ x, (m1.cell x).map (fun t => (t.ancestor, t.contents)) =
    (m.cell x).map (fun t => (t.ancestor, t.contents))

/-- On the listed nodes the second memory still holds nodes with the `ancestor` they have
in the first one. -/
def AncAgree (m m2 : Mem) (K : List Nat) : Prop :=
  ∀ x ∈ K, ∃ t t2, m.cell x = some t ∧ m2.cell x = some t2 ∧ t2.ancestor = t.ancestor

/-- Memory after `lock_path` and the matching `unlock_path`. -/
def afterLock (m : Mem) : Option Nat → Mem
  | none => m
  | some a => touch m a

/-- Replaces the map of a node. -/
def setContents (m : Mem) (a : Nat) (map : HashMap) : Mem :=
  m.modify a (fun t => { t with contents := map })

/-- Replaces the parent pointer of a node. -/
def setAncestor (m : Mem) (a : Nat) (anc : Option Nat) : Mem :=
  m.modify a (fun t => { t with ancestor := anc })

/-- The listing of the children of a node. -/
def listing (m : Mem) (a : Nat) : Option (List Char) :=
  match m.cell a with
  | none => none
  | some t => some (make_map_contents_string t.contents)

/-- Memory after a successful `tree_create` of the child `c` of node `pt`. -/
def createdMem (m : Mem) (pt : Nat) (c : Name) (map : HashMap) : Mem :=
  setAncestor (setContents (tree_new (touch m pt)).1 pt ((c, m.next) :: map)) m.next (some pt)

/-- Memory after a `tree_create` that found the name taken. -/
def createFailedMem (m : Mem) (pt : Nat) : Mem :=
  (tree_new (touch m pt)).1.free m.next

/-- Memory after a successful `tree_remove` of the child `c` (node `v`) of node `pt`. -/
def removedMem (m : Mem) (pt : Nat) (c : Name) (v : Nat) (map : HashMap) : Mem :=
  (setContents (touch m pt) pt (hmap_remove map c)).free v

/-- The paths of a move that passes the input rules. -/
structure MoveArgs (S T : List Name) : Prop where
  validS : ∀ x ∈ S, validName x = true
  validT : ∀ x ∈ T, validName x = true
  neS : S ≠ []
  neT : T ≠ []
  noCycle : ¬ (S <+: T ∧ T ≠ S)

/-- The node on which `tree_move` takes the writer hold, if the common ancestor exists. -/
def moveWriter (m : Mem) (root : Nat) (S T : List Name) : Option Nat :=
  heldWriter m true root (commonComponents S T)

/-- Memory after a successful `tree_move`: `l` is the node of the common ancestor, `v`
the moved node, `ps` and `pt` its old and new parent with their old maps. -/
def movedMem (m : Mem) (l ps pt v : Nat) (sn tn : Name) (mapS mapT : HashMap) : Mem :=
  setContents (setAncestor (setContents (touch m l) pt ((tn, v) :: mapT)) v (some pt)) ps
    (hmap_remove (if ps = pt then (tn, v) :: mapT else mapS) sn)

/-- Removes the entry `k` from the map of node `p`. -/
def detach (m : Mem) (p : Nat) (k : Name) : Mem :=
  m.modify p (fun t => { t with contents := hmap_remove t.contents k })

/-- Adds the entry `k ↦ x` to the map of node `p` and makes `p` the parent of `x`. -/
def attach (m : Mem) (p : Nat) (k : Name) (x : Nat) : Mem :=
  (m.modify p (fun t => { t with contents := (k, x) :: t.contents })).modify x
    (fun t => { t with ancestor := some p })

/-- The node is the value of no entry of any map. -/
def Unlinked (m : Mem) (x : Nat) : Prop :=
  ∀ a t k, m.cell a = some t → (k, x) ∉ t.contents

/-! ### Specified return codes and small trees -/

/-- The memory right after `tree_new()` on an empty heap: the root alone, at address 0. -/
def initMem : Mem := (tree_new Mem.empty).1

/-- The folder of the parent path. -/
def parentFolder (m : Mem) (root : Nat) (path : Path) : Option Nat :=
  match make_path_to_parent path with
  | none => none
  | some (parent, _) => folder m root parent

/-- The code `tree_create` is specified to return. -/
def create_code (m : Mem) (root : Nat) (path : Path) : Int :=
  if is_path_valid path = false then EINVAL
  else if path = ['/'] then EEXIST
  else if (parentFolder m root path).isNone then ENOENT
  else if (folder m root path).isSome then EEXIST
  else 0

/-- The code `tree_remove` is specified to return. -/
def remove_code (m : Mem) (root : Nat) (path : Path) : Int :=
  if is_path_valid path = false then EINVAL
  else if path = ['/'] then EBUSY
  else
    match make_path_to_parent path with
    | none => ENOENT
    | some (parent, name) =>
      match folder m root parent with
      | none => ENOENT
      | some pt =>
        match child m pt name with
        | none => ENOENT
        | some v => if childNames m v ≠ [] then ENOTEMPTY else 0

/-- The code `tree_move` is specified to return once the input rules are passed. -/
def move_code (m : Mem) (root : Nat) (source target : Path) : Int :=
  match make_path_to_parent source, make_path_to_parent target with
  | some (sparent, _), some (tparent, tname) =>
    match folder m root sparent, folder m root source, folder m root tparent with
    | some _, some _, some pt =>
      if source = target then 0
      else if (child m pt tname).isSome then EEXIST
      else 0
    | _, _, _ => ENOENT
  | _, _ => ENOENT

/-- A node whose room is idle. -/
def idleNode (anc : Option Nat) (map : HashMap) (turn : Int) : Tree :=
  { ancestor := anc, contents := map, readers_number := 0, writers_number := 0,
    waiting_readers := 0, waiting_writers := 0, whose_turn := turn }

/-- The tree with the folder `/a/` (node 1). -/
def treeA : Mem := createdMem initMem 0 ['a'] []

/-- The tree with the folders `/a/` (node 1) and `/b/` (node 2). -/
def treeAB : Mem := createdMem treeA 0 ['b'] [(['a'], 1)]

/-- The tree with the folders `/a/` (node 1), `/b/` (node 2) and `/a/x/` (node 3). -/
def treeABX : Mem := createdMem treeAB 1 ['x'] []

/-- The tree with the folders `/a/` (node 1) and `/a/b/` (node 2). -/
def treeNested : Mem := createdMem treeA 1 ['b'] []

/-! ### States reached by the public operations -/

/-- The memories reached from the one `tree_new()` leaves on an empty heap by calls of
`tree_create`, `tree_remove` and `tree_move` on the root (address 0) that return,
whatever code they return; each call has fuel for the length of its paths. -/
inductive Reachable : Mem → Prop
  | init : Reachable initMem
  | create {m m1 : Mem} {code : Int} (fuel : Nat) (p : Path) : Reachable m → p.length ≤ fuel →
      tree_create fuel m (some 0) p = some (m1, code) → Reachable m1
  | remove {m m1 : Mem} {code : Int} (fuel : Nat) (p : Path) : Reachable m → p.length ≤ fuel →
      tree_remove fuel m (some 0) p = some (m1, code) → Reachable m1
  | move {m m1 : Mem} {code : Int} (fuel : Nat) (a b : Path) : Reachable m → a.length ≤ fuel →
      b.length ≤ fuel → tree_move fuel m (some 0) a b = some (m1, code) → Reachable m1

/-- The node reached from `n` by following the `ancestor` pointer `k` times. -/
def ancestor_iter (m : Mem) : Nat → Nat → Option Nat
  | 0, n => some n
  | k + 1, n =>
    match m.cell n with
    | none => none
    | some t =>
      match t.ancestor with
      | none => none
      | some p => ancestor_iter m k p

/-- Every allocated node is the folder of some path. -/
def Connected (m : Mem) (root : Nat) : Prop :=
  ∀ a t, m.cell a = some t → ∃ cs, resolve m root cs = some a

/-! ## One room and the threads around it

This section embeds the four room functions of `Tree.c` once more, now with the threads
that wait.  The functions run under the mutex of the node and give it up only in
`pthread_cond_wait` and at their end; a step below is one such stretch of one thread.  The
counts of threads kept next to the node are not in the source: they record who may take
which step. -/

/-- The loop condition of `start_reading`. -/
def reader_waits (t : Tree) : Bool :=
  decide (t.writers_number = 1 ∨ (t.waiting_writers > 0 ∧ t.whose_turn = 1))

/-- The loop condition of `start_writing`. -/
def writer_waits (t : Tree) : Bool :=
  decide (t.readers_number > 0 ∨ t.writers_number = 1)

/-- A node with the threads at its room: `reading` and `writing` count the callers that
have returned from `start_reading` / `start_writing` and not yet called the matching
finish function; `asleep_readers` and `asleep_writers` count the callers inside
`pthread_cond_wait`. -/
structure Room where
  node : Tree
  reading : Nat
  writing : Nat
  asleep_readers : Nat
  asleep_writers : Nat
deriving DecidableEq

/-- The stretches of code a thread runs under the mutex of a node. -/
inductive RoomCall
  | start_reading
  | wake_reader
  | finish_reading
  | start_writing
  | wake_writer
  | finish_writing
deriving DecidableEq

/-- The rest of `start_reading` from the loop test on. -/
def reader_loop (s : Room) (t : Tree) (wasAsleep : Bool) : Room :=
  if reader_waits t then
    { s with node := { t with waiting_readers := t.waiting_readers + 1 },
             asleep_readers := if wasAsleep then s.asleep_readers else s.asleep_readers + 1 }
  else
    { s with node := { t with readers_number := t.readers_number + 1 },
             asleep_readers := if wasAsleep then s.asleep_readers - 1 else s.asleep_readers,
             reading := s.reading + 1 }

/-- The rest of `start_writing` from the loop test on. -/
def writer_loop (s : Room) (t : Tree) (wasAsleep : Bool) : Room :=
  if writer_waits t then
    { s with node := { t with waiting_writers := t.waiting_writers + 1 },
             asleep_writers := if wasAsleep then s.asleep_writers else s.asleep_writers + 1 }
  else
    { s with node := { t with writers_number := t.writers_number + 1 },
             asleep_writers := if wasAsleep then s.asleep_writers - 1 else s.asleep_writers,
             writing := s.writing + 1 }

/-- One step of one thread at the room; `none` when no thread can take the step: nobody
is asleep to wake, or nobody is inside to finish. -/
def room_step (s : Room) : RoomCall → Option Room
  | RoomCall.start_reading => some (reader_loop s s.node false)
  | RoomCall.wake_reader =>
    if s.asleep_readers = 0 then none
    else some (reader_loop s { s.node with waiting_readers := s.node.waiting_readers - 1 } true)
  | RoomCall.finish_reading =>
    if s.reading = 0 then none
    else some { s with node := { s.node with readers_number := s.node.readers_number - 1 },
                       reading := s.reading - 1 }
  | RoomCall.start_writing => some (writer_loop s { s.node with whose_turn := 1 } false)
  | RoomCall.wake_writer =>
    if s.asleep_writers = 0 then none
    else some (writer_loop s { s.node with waiting_writers := s.node.waiting_writers - 1 } true)
  | RoomCall.finish_writing =>
    if s.writing = 0 then none
    else
      let t1 := { s.node with writers_number := s.node.writers_number - 1 }
      some { s with node := if t1.waiting_readers > 0 then { t1 with whose_turn := 0 } else t1,
                    writing := s.writing - 1 }

/-- The room after a sequence of steps. -/
def room_run (s : Room) : List RoomCall → Option Room
  | [] => some s
  | c :: cs =>
    match room_step s c with
    | none => none
    | some s1 => room_run s1 cs

/-- The room of a node with no thread around. -/
def room_init (t : Tree) : Room :=
  { node := t, reading := 0, writing := 0, asleep_readers := 0, asleep_writers := 0 }

/-- The counters of the node count the threads inside the room, at most one writer is
inside, and no reader is inside together with a writer. -/
def RoomInv (s : Room) : Prop :=
  s.node.readers_number = s.reading ∧ s.node.writers_number = s.writing ∧
    s.writing ≤ 1 ∧ (0 < s.reading → s.writing = 0)

/-- The node `tree_new` makes. -/
def fresh_node : Tree := idleNode none hmap_new 2

/-! ## The operations with a log of events

The functions below are the functions of `Tree.c` once more, passing along with the
memory a log to which every room function that returns, every `malloc` of a node, every
`free` of a node and every call of `hmap_insert` and `hmap_remove` appends one event; the
event of a map call names the node that owns the map.  `get_folder_tree` takes no hold,
allocates nothing and changes no map, so it is used as it is. -/

/-- What a call leaves in the log. -/
inductive Event
  | alloc (a : Nat)
  | free (a : Nat)
  | start_reading (a : Nat)
  | finish_reading (a : Nat)
  | start_writing (a : Nat)
  | finish_writing (a : Nat)
  | map_insert (a : Nat)
  | map_remove (a : Nat)
deriving DecidableEq

/-- Memory and the log so far. -/
abbrev Run := Mem × List Event

/-- The function `start_reading`, logging its return. -/
def start_reading_log (s : Run) (T : Nat) : Option Run :=
  match start_reading s.1 T with
  | none => none
  | some m1 => some (m1, s.2 ++ [Event.start_reading T])

/-- The function `finish_reading`, logging its return. -/
def finish_reading_log (s : Run) (T : Nat) : Option Run :=
  match finish_reading s.1 T with
  | none => none
  | some m1 => some (m1, s.2 ++ [Event.finish_reading T])

/-- The function `start_writing`, logging its return. -/
def start_writing_log (s : Run) (T : Nat) : Option Run :=
  match start_writing s.1 T with
  | none => none
  | some m1 => some (m1, s.2 ++ [Event.start_writing T])

/-- The function `finish_writing`, logging its return. -/
def finish_writing_log (s : Run) (T : Nat) : Option Run :=
  match finish_writing s.1 T with
  | none => none
  | some m1 => some (m1, s.2 ++ [Event.finish_writing T])

/-- The loop of `unlock_path`, with the log. -/
def unlock_path_loop_log : Nat → Run → Option Nat → Option Nat → Option Run
  | _, s, none, _ => some s
  | 0, _, some _, _ => none
  | fuel + 1, s, some prev_tree, curr_tree =>
    match finish_reading_log s prev_tree with
    | none => none
    | some s1 =>
      match next_ancestor s1.1 curr_tree with
      | none => none
      | some curr_next => unlock_path_loop_log fuel s1 curr_tree curr_next

/-- The function `unlock_path`, with the log. -/
def unlock_path_log (fuel : Nat) (s : Run) (tree : Option Nat) (writer : Bool) : Option Run :=
  match tree with
  | none => some s
  | some prev_tree =>
    match s.1.cell prev_tree with
    | none => none
    | some t =>
      match (if writer then finish_writing_log s prev_tree
             else finish_reading_log s prev_tree) with
      | none => none
      | some s1 =>
        match next_ancestor s1.1 t.ancestor with
        | none => none
        | some curr_next => unlock_path_loop_log fuel s1 t.ancestor curr_next

/-- The loop of `lock_path` and the code after it, with the log. -/
def lock_path_loop_log (writer success : Bool) :
    Nat → Run → Nat → Nat → HashMap → Path → Option (Run × Option Nat × Bool)
  | 0, _, _, _, _, _ => none
  | fuel + 1, s, last_locked, curr_tree, curr_map, subfolder_path =>
    match split_path subfolder_path with
    | none =>
      match (if writer then start_writing_log s curr_tree
             else start_reading_log s curr_tree) with
      | none => none
      | some s1 => some (s1, some last_locked, true)
    | some (component, subpath) =>
      match start_reading_log s curr_tree with
      | none => none
      | some s1 =>
        match hmap_get curr_map component with
        | none => some (s1, some last_locked, success)
        | some c =>
          match s1.1.cell c with
          | none => none
          | some t => lock_path_loop_log writer success fuel s1 c c t.contents subpath

/-- The function `lock_path`, with the log. -/
def lock_path_log (fuel : Nat) (s : Run) (tree : Option Nat) (path : Path)
    (writer success : Bool) : Option (Run × Option Nat × Bool) :=
  match tree with
  | none => some (s, none, success)
  | some r =>
    match s.1.cell r with
    | none => none
    | some t => lock_path_loop_log writer success fuel s r r t.contents path

/-- The function `check_tree_and_unlock`, with the log. -/
def check_tree_and_unlock_log (fuel : Nat) (s : Run) (tree last_locked : Option Nat)
    (success : Bool) : Option (Run × Bool) :=
  match tree with
  | none =>
    match (if success then unlock_path_log fuel s last_locked true
           else unlock_path_log fuel s last_locked false) with
    | none => none
    | some s1 => some (s1, false)
  | some _ => some (s, true)

/-- The function `get_parent_tree`, with the log. -/
def get_parent_tree_log (fuel : Nat) (s : Run) (tree : Option Nat) (path : Path)
    (last_locked : Option Nat) (success : Bool) : Option (Run × Option Nat × Name) :=
  match make_path_to_parent path with
  | none => none
  | some (path_to_parent, component) =>
    match get_folder_tree fuel s.1 tree path_to_parent with
    | none => none
    | some parent_tree =>
      match check_tree_and_unlock_log fuel s parent_tree last_locked success with
      | none => none
      | some (s1, ok) => if ok then some (s1, parent_tree, component) else some (s1, none, component)

/-- The function `get_and_lock_parent`, with the log. -/
def get_and_lock_parent_log (fuel : Nat) (s : Run) (tree : Option Nat) (path : Path) :
    Option (Run × Option Nat × Name × Option Nat) :=
  match make_path_to_parent path with
  | none => none
  | some (path_to_parent, component) =>
    match lock_path_log fuel s tree path_to_parent true false with
    | none => none
    | some (s1, last_locked, _) =>
      match get_folder_tree fuel s1.1 tree path_to_parent with
      | none => none
      | some none =>
        match unlock_path_log fuel s1 last_locked false with
        | none => none
        | some s2 => some (s2, none, component, last_locked)
      | some (some parent_tree) => some (s1, some parent_tree, component, last_locked)

/-- The function `lock_lca`, with the log. -/
def lock_lca_log (fuel : Nat) (s : Run) (tree : Option Nat) (source target : Path)
    (success : Bool) : Option (Run × Option Nat × Bool) :=
  match last_common_ancestor source target with
  | none => none
  | some lca => lock_path_log fuel s tree lca true success

/-- The function `tree_new`, logging the allocation. -/
def tree_new_log (s : Run) : Run × Nat :=
  (((tree_new s.1).1, s.2 ++ [Event.alloc s.1.next]), s.1.next)

/-- The function `tree_free`, logging every `free` of a node. -/
def tree_free_log : Nat → Run → Nat → Option Run
  | 0, _, _ => none
  | fuel + 1, s, tree =>
    match s.1.cell tree with
    | none => none
    | some t =>
      match t.contents.foldlM (fun acc kv => tree_free_log fuel acc kv.2) s with
      | none => none
      | some s1 => some (s1.1.free tree, s1.2 ++ [Event.free tree])

/-- The function `tree_list`, with the log. -/
def tree_list_log (fuel : Nat) (s : Run) (tree : Option Nat) (path : Path) :
    Option (Run × Option (List Char)) :=
  if !is_path_valid path then some (s, none)
  else
    match lock_path_log fuel s tree path false false with
    | none => none
    | some (s1, last_locked, _) =>
      match get_folder_tree fuel s1.1 tree path with
      | none => none
      | some none =>
        match unlock_path_log fuel s1 last_locked false with
        | none => none
        | some s2 => some (s2, none)
      | some (some result_tree) =>
        match s1.1.cell result_tree with
        | none => none
        | some t =>
          match unlock_path_log fuel s1 last_locked false with
          | none => none
          | some s2 => some (s2, some (make_map_contents_string t.contents))

/-- The function `tree_create`, with the log. -/
def tree_create_log (fuel : Nat) (s : Run) (tree : Option Nat) (path : Path) :
    Option (Run × Int) :=
  if !is_path_valid path then some (s, EINVAL)
  else if path = ['/'] then some (s, EEXIST)
  else
    match get_and_lock_parent_log fuel s tree path with
    | none => none
    | some (s1, none, _, _) => some (s1, ENOENT)
    | some (s1, some parent_tree, new_folder, last_locked) =>
      match tree_new_log s1 with
      | (s2, created) =>
        match s2.1.cell parent_tree with
        | none => none
        | some pt =>
          match hmap_insert pt.contents new_folder created with
          | (map1, true) =>
            match (s2.1.set parent_tree { pt with contents := map1 }).cell created with
            | none => none
            | some ct =>
              match unlock_path_log fuel
                  (((s2.1.set parent_tree { pt with contents := map1 }).set created
                    { ct with ancestor := some parent_tree }),
                    s2.2 ++ [Event.map_insert parent_tree]) last_locked true with
              | none => none
              | some s3 => some (s3, 0)
          | (_, false) =>
            match tree_free_log fuel (s2.1, s2.2 ++ [Event.map_insert parent_tree]) created with
            | none => none
            | some s3 =>
              match unlock_path_log fuel s3 last_locked true with
              | none => none
              | some s4 => some (s4, EEXIST)

/-- The function `tree_remove`, with the log. -/
def tree_remove_log (fuel : Nat) (s : Run) (tree : Option Nat) (path : Path) :
    Option (Run × Int) :=
  if !is_path_valid path then some (s, EINVAL)
  else if path = ['/'] then some (s, EBUSY)
  else
    match get_and_lock_parent_log fuel s tree path with
    | none => none
    | some (s1, none, _, _) => some (s1, ENOENT)
    | some (s1, some parent_tree, to_remove, last_locked) =>
      match s1.1.cell parent_tree with
      | none => none
      | some pt =>
        match hmap_get pt.contents to_remove with
        | none =>
          match unlock_path_log fuel s1 last_locked true with
          | none => none
          | some s2 => some (s2, ENOENT)
        | some tree_to_remove =>
          match s1.1.cell tree_to_remove with
          | none => none
          | some vt =>
            if hmap_size vt.contents ≠ 0 then
              match unlock_path_log fuel s1 last_locked true with
              | none => none
              | some s2 => some (s2, ENOTEMPTY)
            else
              match tree_free_log fuel
                  (s1.1.set parent_tree { pt with contents := hmap_remove pt.contents to_remove },
                    s1.2 ++ [Event.map_remove parent_tree])
                  tree_to_remove with
              | none => none
              | some s2 =>
                match unlock_path_log fuel s2 last_locked true with
                | none => none
                | some s3 => some (s3, 0)

/-- The function `tree_move`, with the log. -/
def tree_move_log (fuel : Nat) (s : Run) (tree : Option Nat) (source target : Path) :
    Option (Run × Int) :=
  match check_source_and_target source target with
  | some ret_val => some (s, ret_val)
  | none =>
    match lock_lca_log fuel s tree source target false with
    | none => none
    | some (s1, last_locked, success) =>
      match get_parent_tree_log fuel s1 tree source last_locked success with
      | none => none
      | some (s2, none, _) => some (s2, ENOENT)
      | some (s2, some ancestor_s, folder_to_remove) =>
        match s2.1.cell ancestor_s with
        | none => none
        | some ps =>
          match check_tree_and_unlock_log fuel s2 (hmap_get ps.contents folder_to_remove)
              last_locked success with
          | none => none
          | some (s3, false) => some (s3, ENOENT)
          | some (s3, true) =>
            match hmap_get ps.contents folder_to_remove with
            | none => none
            | some tree_to_move =>
              match get_parent_tree_log fuel s3 tree target last_locked success with
              | none => none
              | some (s4, none, _) => some (s4, ENOENT)
              | some (s4, some ancestor_t, folder_to_create) =>
                if source = target then
                  match unlock_path_log fuel s4 last_locked true with
                  | none => none
                  | some s5 => some (s5, 0)
                else
                  match s4.1.cell ancestor_t with
                  | none => none
                  | some pt =>
                    match hmap_insert pt.contents folder_to_create tree_to_move with
                    | (_, false) =>
                      match unlock_path_log fuel (s4.1, s4.2 ++ [Event.map_insert ancestor_t])
                          last_locked true with
                      | none => none
                      | some s5 => some (s5, EEXIST)
                    | (map1, true) =>
                      match (s4.1.set ancestor_t { pt with contents := map1 }).cell
                          tree_to_move with
                      | none => none
                      | some vt =>
                        match ((s4.1.set ancestor_t { pt with contents := map1 }).set tree_to_move
                            { vt with ancestor := some ancestor_t }).cell ancestor_s with
                        | none => none
                        | some ps1 =>
                          match unlock_path_log fuel
                              ((((s4.1.set ancestor_t { pt with contents := map1 }).set
                                  tree_to_move { vt with ancestor := some ancestor_t }).set
                                  ancestor_s
                                { ps1 with contents := hmap_remove ps1.contents folder_to_remove }),
                                s4.2 ++ [Event.map_insert ancestor_t, Event.map_remove ancestor_s])
                              last_locked true with
                          | none => none
                          | some s5 => some (s5, 0)

/-! ### Reading the logs

The definitions below do not come from the source: they sort the events and name the logs
that `lock_path` and `unlock_path` leave on a well-formed tree. -/

/-- The finish event that ends the hold a start event begins. -/
def Event.finish : Event → Event
  | Event.start_reading a => Event.finish_reading a
  | Event.start_writing a => Event.finish_writing a
  | e => e

/-- The event is the return of `start_reading` or `start_writing`. -/
def Event.isStart : Event → Bool
  | Event.start_reading _ => true
  | Event.start_writing _ => true
  | _ => false

/-- The event is the return of `finish_reading` or `finish_writing`. -/
def Event.isFinish : Event → Bool
  | Event.finish_reading _ => true
  | Event.finish_writing _ => true
  | _ => false

/-- The event is a `malloc` or a `free` of a node. -/
def Event.isHeap : Event → Bool
  | Event.alloc _ => true
  | Event.free _ => true
  | _ => false

/-- The event is a call of `hmap_insert` or `hmap_remove`. -/
def Event.isMapCall : Event → Bool
  | Event.map_insert _ => true
  | Event.map_remove _ => true
  | _ => false

/-- The node an event is about. -/
def Event.node : Event → Nat
  | Event.alloc a => a
  | Event.free a => a
  | Event.start_reading a => a
  | Event.finish_reading a => a
  | Event.start_writing a => a
  | Event.finish_writing a => a
  | Event.map_insert a => a
  | Event.map_remove a => a

/-- A log in which the holds are nested around the work: first start events only, then
events that are neither start nor finish events, then the finish events of the holds
taken, the last hold first. -/
def Bracketed (log : List Event) : Prop :=
  ∃ L A, log = L ++ A ++ (L.map Event.finish).reverse ∧
    (∀ e ∈ L, e.isStart = true) ∧ (∀ e ∈ A, e.isHeap = true ∨ e.isMapCall = true)

/-- Every node has as many `finish_reading` events as `start_reading` events in the log,
and as many `finish_writing` events as `start_writing` events. -/
def Matched (log : List Event) : Prop :=
  ∀ a, log.count (Event.start_reading a) = log.count (Event.finish_reading a) ∧
    log.count (Event.start_writing a) = log.count (Event.finish_writing a)

/-- The events of `lock_path` on a tree with idle rooms: a reader enters every node on
the way in turn, and the writer, if any, enters the last one. -/
def lockEvents (m : Mem) (writer : Bool) (cur : Nat) (cs : List Name) : List Event :=
  (heldReaders m writer cur cs).map Event.start_reading ++
    (match heldWriter m writer cur cs with
     | none => []
     | some a => [Event.start_writing a])

/-- The events of the `unlock_path` that gives up what `lock_path` took: the finish
events of the holds, the last hold first. -/
def releaseEvents (m : Mem) (writer : Bool) (cur : Nat) (cs : List Name) : List Event :=
  ((lockEvents m writer cur cs).map Event.finish).reverse

/-- The `ancestor` pointer of a node (`NULL` for `NULL`). -/
def parent_of (m : Mem) : Option Nat → Option Nat
  | none => none
  | some c =>
    match m.cell c with
    | none => none
    | some t => t.ancestor

/-- The events of the loop of `unlock_path` entered at `prev_tree` with `curr_tree` next:
one `finish_reading` on every node up the `ancestor` pointers. -/
def loopEvents : Nat → Mem → Option Nat → Option Nat → List Event
  | _, _, none, _ => []
  | 0, _, some _, _ => []
  | fuel + 1, m, some prev_tree, curr_tree =>
    Event.finish_reading prev_tree :: loopEvents fuel m curr_tree (parent_of m curr_tree)

/-- The events of `unlock_path`: the finish event on `tree`, then those of the loop. -/
def unlockEvents (fuel : Nat) (m : Mem) (tree : Option Nat) (writer : Bool) : List Event :=
  match tree with
  | none => []
  | some p =>
    (if writer then Event.finish_writing p else Event.finish_reading p) ::
      loopEvents fuel m (parent_of m (some p)) (parent_of m (parent_of m (some p)))

/-! ## Facts about paths -/

theorem slash_not_nameChar : isNameChar '/' = false := by decide

theorem validName_no_slash {c : Name} (h : validName c = true) : '/' ∉ c := by
  intro hmem
  simp only [validName, Bool.and_eq_true, List.all_eq_true] at h
  have := h.2 _ hmem
  rw [slash_not_nameChar] at this
  exact Bool.noConfusion this

theorem validName_ne_nil {c : Name} (h : validName c = true) : c ≠ [] := by
  intro hc
  subst hc
  simp [validName] at h

theorem parseAux_append (c : List Char) (hc : '/' ∉ c) (rest cur : List Char) :
    parseAux (c ++ rest) cur = parseAux rest (cur ++ c) := by
  induction c generalizing cur with
  | nil => simp
  | cons ch c ih =>
    have h1 : ch ≠ '/' := fun h => hc (by simp [h])
    have h2 : '/' ∉ c := fun h => hc (by simp [h])
    rw [List.cons_append]
    simp only [parseAux, h1, if_false]
    rw [ih h2]
    simp

theorem parseAux_renderAux (cs : List Name) (hcs : ∀ c ∈ cs, validName c = true) :
    parseAux (renderAux cs) [] = some cs := by
  induction cs with
  | nil => simp [renderAux, parseAux]
  | cons c cs ih =>
    have hc : validName c = true := hcs c (by simp)
    simp only [renderAux]
    rw [parseAux_append c (validName_no_slash hc)]
    simp only [List.nil_append, parseAux, if_true, hc]
    rw [ih (fun x hx => hcs x (by simp [hx]))]
    rfl

theorem path_components_render (cs : List Name) (hcs : ∀ c ∈ cs, validName c = true) :
    path_components (render cs) = some cs := by
  simp [render, path_components, parseAux_renderAux cs hcs]

theorem parseAux_eq_some (l : List Char) (cur : Name) (cs : List Name)
    (h : parseAux l cur = some cs) :
    cur ++ l = renderAux cs ∧ ∀ c ∈ cs, validName c = true := by
  induction l generalizing cur cs with
  | nil =>
    simp only [parseAux] at h
    split at h
    · rename_i hc
      cases h
      simp only [List.isEmpty_iff] at hc
      simp [hc, renderAux]
    · cases h
  | cons ch rest ih =>
    simp only [parseAux] at h
    split at h
    · rename_i hch
      split at h
      · rename_i hv
        cases hr : parseAux rest [] with
        | none => simp [hr] at h
        | some cs1 =>
          simp only [hr, Option.map_some', Option.some.injEq] at h
          subst h
          obtain ⟨h1, h2⟩ := ih [] cs1 hr
          simp only [List.nil_append] at h1
          refine ⟨by simp [renderAux, hch, h1], ?_⟩
          intro c hc
          rcases List.mem_cons.1 hc with rfl | hc
          · exact hv
          · exact h2 c hc
      · cases h
    · obtain ⟨h1, h2⟩ := ih (cur ++ [ch]) cs h
      exact ⟨by simpa using h1, h2⟩

theorem path_components_eq_some {p : Path} {cs : List Name} (h : path_components p = some cs) :
    p = render cs ∧ ∀ c ∈ cs, validName c = true := by
  cases p with
  | nil => simp [path_components] at h
  | cons ch rest =>
    simp only [path_components] at h
    split at h
    · rename_i hch
      obtain ⟨h1, h2⟩ := parseAux_eq_some rest [] cs h
      simp only [List.nil_append] at h1
      exact ⟨by simp [render, hch, h1], h2⟩
    · cases h

theorem is_path_valid_iff (p : Path) :
    is_path_valid p = true ↔ ∃ cs, (∀ c ∈ cs, validName c = true) ∧ p = render cs := by
  constructor
  · intro h
    simp only [is_path_valid, Option.isSome_iff_exists] at h
    obtain ⟨cs, hcs⟩ := h
    exact ⟨cs, (path_components_eq_some hcs).2, (path_components_eq_some hcs).1⟩
  · rintro ⟨cs, hcs, rfl⟩
    simp [is_path_valid, path_components_render cs hcs]

theorem render_injective {as bs : List Name} (ha : ∀ c ∈ as, validName c = true)
    (hb : ∀ c ∈ bs, validName c = true) (h : render as = render bs) : as = bs := by
  have h1 := path_components_render as ha
  rw [h, path_components_render bs hb] at h1
  exact (Option.some.inj h1).symm

theorem render_eq_root_iff (cs : List Name) : render cs = ['/'] ↔ cs = [] := by
  cases cs with
  | nil => simp [render, renderAux]
  | cons c cs => simp [render, renderAux]

theorem cutAtSlash_append (c : List Char) (hc : '/' ∉ c) (rest : List Char) :
    cutAtSlash (c ++ '/' :: rest) = some (c, '/' :: rest) := by
  induction c with
  | nil => simp [cutAtSlash]
  | cons ch c ih =>
    have h1 : ch ≠ '/' := fun h => hc (by simp [h])
    have h2 : '/' ∉ c := fun h => hc (by simp [h])
    simp [cutAtSlash, h1, ih h2]

theorem split_path_render_nil : split_path (render []) = none := by
  simp [split_path, render, renderAux, cutAtSlash]

theorem split_path_render_cons (c : Name) (cs : List Name) (hc : validName c = true) :
    split_path (render (c :: cs)) = some (c, render cs) := by
  simp only [split_path, render, renderAux]
  exact cutAtSlash_append c (validName_no_slash hc) _

theorem make_path_to_parent_render_nil : make_path_to_parent (render []) = none := by
  simp [make_path_to_parent, render, renderAux, path_components, parseAux]

theorem make_path_to_parent_render_concat (cs : List Name) (c : Name)
    (hcs : ∀ x ∈ cs, validName x = true) (hc : validName c = true) :
    make_path_to_parent (render (cs ++ [c])) = some (render cs, c) := by
  have h : ∀ x ∈ cs ++ [c], validName x = true := by
    intro x hx
    rcases List.mem_append.1 hx with hx | hx
    · exact hcs x hx
    · simp at hx; subst hx; exact hc
  simp [make_path_to_parent, path_components_render _ h]

theorem last_common_ancestor_render (as bs : List Name) (ha : ∀ c ∈ as, validName c = true)
    (hb : ∀ c ∈ bs, validName c = true) :
    last_common_ancestor (render as) (render bs) = some (render (commonComponents as bs)) := by
  simp [last_common_ancestor, path_components_render _ ha, path_components_render _ hb]

theorem is_a_prefix_of_render (as bs : List Name) (ha : ∀ c ∈ as, validName c = true)
    (hb : ∀ c ∈ bs, validName c = true) :
    is_a_prefix_of (render as) (render bs) = as.isPrefixOf bs := by
  simp [is_a_prefix_of, path_components_render _ ha, path_components_render _ hb]

theorem renderAux_length (cs : List Name) : cs.length ≤ (renderAux cs).length := by
  induction cs with
  | nil => simp [renderAux]
  | cons c cs ih => simp [renderAux]; omega

theorem render_length (cs : List Name) : cs.length + 1 ≤ (render cs).length := by
  have := renderAux_length cs
  simp [render]; omega

theorem renderAux_append (as bs : List Name) : renderAux (as ++ bs) = renderAux as ++ renderAux bs := by
  induction as with
  | nil => simp [renderAux]
  | cons a as ih => simp [renderAux, ih]

theorem render_length_append_le (as bs : List Name) :
    (render as).length ≤ (render (as ++ bs)).length := by
  simp [render, renderAux_append]

/-! ## Walking down a well-formed tree -/

theorem Mem.ext_cell {m1 m2 : Mem} (hc : ∀ x, m1.cell x = m2.cell x) (hn : m1.next = m2.next) :
    m1 = m2 := by
  cases m1; cases m2
  simp only [Mem.mk.injEq]
  exact ⟨funext hc, hn⟩

theorem hmap_get_mem {map : HashMap} {k : Name} {v : Nat} (h : hmap_get map k = some v) :
    (k, v) ∈ map := by
  induction map with
  | nil => simp [hmap_get] at h
  | cons kv rest ih =>
    simp only [hmap_get] at h
    split at h
    · rename_i hk
      cases h
      simp [← hk]
    · exact List.mem_cons_of_mem _ (ih h)

theorem hmap_get_eq_none_iff {map : HashMap} {k : Name} :
    hmap_get map k = none ↔ k ∉ map.map Prod.fst := by
  induction map with
  | nil => simp [hmap_get]
  | cons kv rest ih =>
    simp only [hmap_get, List.map_cons, List.mem_cons, not_or]
    split
    · rename_i hk
      simp [hk]
    · rename_i hk
      rw [ih]
      constructor
      · intro h
        exact ⟨fun h2 => hk h2.symm, h⟩
      · intro h
        exact h.2

theorem hmap_get_of_mem {map : HashMap} {k : Name} {v : Nat}
    (hnd : (map.map Prod.fst).Nodup) (h : (k, v) ∈ map) : hmap_get map k = some v := by
  induction map with
  | nil => simp at h
  | cons kv rest ih =>
    simp only [List.map_cons, List.nodup_cons] at hnd
    simp only [hmap_get]
    rcases List.mem_cons.1 h with h | h
    · subst h
      simp
    · have : kv.1 ≠ k := by
        intro hk
        apply hnd.1
        rw [hk]
        exact List.mem_map_of_mem Prod.fst h
      simp [this, ih hnd.2 h]

theorem child_eq {m : Mem} {a : Nat} {t : Tree} (h : m.cell a = some t) (c : Name) :
    child m a c = hmap_get t.contents c := by
  simp [child, h]

theorem child_some {m : Mem} {a x : Nat} {c : Name} (h : child m a c = some x) :
    ∃ t, m.cell a = some t ∧ (c, x) ∈ t.contents := by
  unfold child at h
  split at h
  · cases h
  · rename_i t ht
    exact ⟨t, ht, hmap_get_mem h⟩

theorem WF.child_cell {m : Mem} {root : Nat} (hwf : WF m root) {a x : Nat} {c : Name}
    (h : child m a c = some x) : ∃ tx, m.cell x = some tx ∧ tx.ancestor = some a := by
  obtain ⟨t, ht, hmem⟩ := child_some h
  exact hwf.child_ok a t c x ht hmem

theorem resolve_nil (m : Mem) (cur : Nat) : resolve m cur [] = some cur := rfl

theorem resolve_cons_some {m : Mem} {cur x : Nat} {c : Name} (h : child m cur c = some x)
    (cs : List Name) : resolve m cur (c :: cs) = resolve m x cs := by
  simp [resolve, h]

theorem resolve_cons_none {m : Mem} {cur : Nat} {c : Name} (h : child m cur c = none)
    (cs : List Name) : resolve m cur (c :: cs) = none := by
  simp [resolve, h]

theorem resolve_append (m : Mem) (cur : Nat) (as bs : List Name) :
    resolve m cur (as ++ bs) = (resolve m cur as).bind (fun x => resolve m x bs) := by
  induction as generalizing cur with
  | nil => simp [resolve]
  | cons a as ih =>
    cases h : child m cur a with
    | none => simp [resolve, h]
    | some x => simp [resolve, h, ih]

theorem resolve_concat_eq_some {m : Mem} {cur a : Nat} {cs : List Name} {c : Name} :
    resolve m cur (cs ++ [c]) = some a ↔
      ∃ p, resolve m cur cs = some p ∧ child m p c = some a := by
  rw [resolve_append]
  cases h : resolve m cur cs with
  | none => simp
  | some p =>
    simp only [Option.some_bind, Option.some.injEq, exists_eq_left']
    cases h2 : child m p c with
    | none => simp [resolve, h2]
    | some x => simp [resolve, h2]

theorem resolve_prefix_some {m : Mem} {cur a : Nat} {as bs : List Name}
    (h : resolve m cur (as ++ bs) = some a) : ∃ p, resolve m cur as = some p ∧ resolve m p bs = some a := by
  rw [resolve_append] at h
  cases h1 : resolve m cur as with
  | none => simp [h1] at h
  | some p => exact ⟨p, rfl, by simpa [h1] using h⟩

theorem WF.resolve_cell {m : Mem} {root : Nat} (hwf : WF m root) {cur : Nat}
    (hcur : ∃ t, m.cell cur = some t) {cs : List Name} {a : Nat}
    (h : resolve m cur cs = some a) : ∃ t, m.cell a = some t := by
  induction cs generalizing cur with
  | nil =>
    simp only [resolve, Option.some.injEq] at h
    subst h
    exact hcur
  | cons c cs ih =>
    cases hc : child m cur c with
    | none => simp [resolve, hc] at h
    | some x =>
      rw [resolve_cons_some hc] at h
      obtain ⟨tx, htx, -⟩ := hwf.child_cell hc
      exact ih ⟨tx, htx⟩ h

theorem WF.root_cell {m : Mem} {root : Nat} (hwf : WF m root) : ∃ t, m.cell root = some t := by
  obtain ⟨t, ht, -⟩ := hwf.root_ok
  exact ⟨t, ht⟩

theorem WF.folder_cell {m : Mem} {root : Nat} (hwf : WF m root) {cs : List Name} {a : Nat}
    (h : resolve m root cs = some a) : ∃ t, m.cell a = some t :=
  hwf.resolve_cell hwf.root_cell h

theorem child_name_unique {m : Mem} {root : Nat} (hwf : WF m root) {p x : Nat} {c d : Name}
    (h1 : child m p c = some x) (h2 : child m p d = some x) : c = d := by
  obtain ⟨t, ht, hm1⟩ := child_some h1
  obtain ⟨t2, ht2, hm2⟩ := child_some h2
  rw [ht] at ht2
  cases ht2
  have := List.inj_on_of_nodup_map (hwf.vals_nodup p t ht) hm1 hm2 rfl
  exact (Prod.mk.inj this).1

/-- In a well-formed tree a node is the folder of at most one path. -/
theorem WF.resolve_inj {m : Mem} {root : Nat} (hwf : WF m root) :
    ∀ (as bs : List Name) (x : Nat), resolve m root as = some x → resolve m root bs = some x →
      as = bs := by
  intro as
  induction as using List.reverseRecOn with
  | nil =>
    intro bs x ha hb
    simp only [resolve, Option.some.injEq] at ha
    subst ha
    rcases List.eq_nil_or_concat bs with rfl | ⟨bs1, d, rfl⟩
    · rfl
    · rw [List.concat_eq_append] at hb
      obtain ⟨q, -, hq⟩ := resolve_concat_eq_some.1 hb
      obtain ⟨tx, htx, hanc⟩ := hwf.child_cell hq
      obtain ⟨tr, htr, hr⟩ := hwf.root_ok
      rw [htr] at htx
      cases htx
      rw [hr] at hanc
      cases hanc
  | append_singleton as1 c ih =>
    intro bs x ha hb
    obtain ⟨p, hp, hpc⟩ := resolve_concat_eq_some.1 ha
    obtain ⟨tx, htx, hanc⟩ := hwf.child_cell hpc
    rcases List.eq_nil_or_concat bs with rfl | ⟨bs1, d, rfl⟩
    · simp only [resolve, Option.some.injEq] at hb
      subst hb
      obtain ⟨tr, htr, hr⟩ := hwf.root_ok
      rw [htr] at htx
      cases htx
      rw [hr] at hanc
      cases hanc
    · rw [List.concat_eq_append] at hb ⊢
      obtain ⟨q, hq, hqd⟩ := resolve_concat_eq_some.1 hb
      obtain ⟨tx2, htx2, hanc2⟩ := hwf.child_cell hqd
      rw [htx] at htx2
      cases htx2
      rw [hanc] at hanc2
      cases hanc2
      have h1 := ih bs1 p hp hq
      subst h1
      have h2 := child_name_unique hwf hpc hqd
      subst h2
      rfl

/-! ## The chain of nodes along a path -/

theorem chain_cons_some {m : Mem} {cur x : Nat} {c : Name} (h : child m cur c = some x)
    (cs : List Name) : chain m cur (c :: cs) = cur :: chain m x cs := by
  simp [chain, h]

theorem head_mem_chain (m : Mem) (cur : Nat) (cs : List Name) : cur ∈ chain m cur cs := by
  cases cs with
  | nil => simp [chain]
  | cons c cs =>
    cases h : child m cur c with
    | none => simp [chain, h]
    | some x => simp [chain, h]

theorem deepest_mem_chain (m : Mem) (cur : Nat) (cs : List Name) :
    deepest m cur cs ∈ chain m cur cs := by
  induction cs generalizing cur with
  | nil => simp [chain, deepest]
  | cons c cs ih =>
    cases h : child m cur c with
    | none => simp [chain, deepest, h]
    | some x =>
      simp only [chain, deepest, h]
      exact List.mem_cons_of_mem _ (ih x)

theorem mem_chain {m : Mem} {cur x : Nat} {cs : List Name} (h : x ∈ chain m cur cs) :
    ∃ q, q <+: cs ∧ resolve m cur q = some x := by
  induction cs generalizing cur with
  | nil =>
    simp only [chain, List.mem_singleton] at h
    subst h
    exact ⟨[], List.prefix_refl _, rfl⟩
  | cons c cs ih =>
    cases hc : child m cur c with
    | none =>
      simp only [chain, hc, List.mem_singleton] at h
      subst h
      exact ⟨[], List.nil_prefix, rfl⟩
    | some y =>
      simp only [chain, hc, List.mem_cons] at h
      rcases h with rfl | h
      · exact ⟨[], List.nil_prefix, rfl⟩
      · obtain ⟨q, hq, hr⟩ := ih h
        refine ⟨c :: q, ?_, ?_⟩
        · obtain ⟨r, hr2⟩ := hq
          exact ⟨r, by simp [← hr2]⟩
        · rw [resolve_cons_some hc]
          exact hr

theorem resolve_some_deepest {m : Mem} {cur a : Nat} {cs : List Name}
    (h : resolve m cur cs = some a) : deepest m cur cs = a := by
  induction cs generalizing cur with
  | nil =>
    simp only [resolve, Option.some.injEq] at h
    simp [deepest, h]
  | cons c cs ih =>
    cases hc : child m cur c with
    | none => simp [resolve, hc] at h
    | some x =>
      rw [resolve_cons_some hc] at h
      simp only [deepest, hc]
      exact ih h

/-- The deepest existing node on the way is the folder of a beginning of the path. -/
theorem deepest_is_folder (m : Mem) (cur : Nat) (cs : List Name) :
    ∃ pre, pre <+: cs ∧ resolve m cur pre = some (deepest m cur cs) ∧
      chain m cur cs = chain m cur pre := by
  induction cs generalizing cur with
  | nil => exact ⟨[], List.prefix_refl _, rfl, rfl⟩
  | cons c cs ih =>
    cases hc : child m cur c with
    | none =>
      exact ⟨[], List.nil_prefix, by simp [resolve, deepest, hc], by simp [chain, hc]⟩
    | some x =>
      obtain ⟨pre, hp, hr, hch⟩ := ih x
      refine ⟨c :: pre, ?_, ?_, ?_⟩
      · obtain ⟨r, hr2⟩ := hp
        exact ⟨r, by simp [← hr2]⟩
      · rw [resolve_cons_some hc]
        simp only [deepest, hc]
        exact hr
      · simp [chain, hc, hch]

theorem chain_concat {m : Mem} {cur p a : Nat} {cs : List Name} {c : Name}
    (hp : resolve m cur cs = some p) (hc : child m p c = some a) :
    chain m cur (cs ++ [c]) = chain m cur cs ++ [a] := by
  induction cs generalizing cur with
  | nil =>
    simp only [resolve, Option.some.injEq] at hp
    subst hp
    simp [chain, hc]
  | cons d cs ih =>
    cases hd : child m cur d with
    | none => simp [resolve, hd] at hp
    | some x =>
      rw [resolve_cons_some hd] at hp
      simp [chain, hd, ih hp]

/-- In a well-formed tree the nodes along a path are pairwise different. -/
theorem WF.chain_nodup {m : Mem} {root : Nat} (hwf : WF m root) (cs : List Name) :
    (chain m root cs).Nodup := by
  obtain ⟨pre, -, hr, hch⟩ := deepest_is_folder m root cs
  rw [hch]
  generalize deepest m root cs = a at hr
  clear hch
  induction pre using List.reverseRecOn generalizing a with
  | nil => simp [chain]
  | append_singleton pre1 c ih =>
    obtain ⟨p, hp, hpc⟩ := resolve_concat_eq_some.1 hr
    rw [chain_concat hp hpc]
    refine List.Nodup.append (ih p hp) (List.nodup_singleton a) ?_
    intro x hx hx2
    simp only [List.mem_singleton] at hx2
    subst hx2
    obtain ⟨q, hq, hrq⟩ := mem_chain hx
    have := hwf.resolve_inj _ _ _ hrq hr
    have hlen := hq.length_le
    rw [this] at hlen
    simp at hlen

theorem heldReaders_reader (m : Mem) (cur : Nat) (cs : List Name) :
    heldReaders m false cur cs = chain m cur cs ∧ heldWriter m false cur cs = none := by
  induction cs generalizing cur with
  | nil => simp [heldReaders, heldWriter, chain]
  | cons c cs ih =>
    cases hc : child m cur c with
    | none => simp [heldReaders, heldWriter, chain, hc]
    | some x => simp [heldReaders, heldWriter, chain, hc, ih x]

theorem held_of_resolve_none {m : Mem} {cur : Nat} {cs : List Name} (w : Bool)
    (h : resolve m cur cs = none) :
    heldReaders m w cur cs = chain m cur cs ∧ heldWriter m w cur cs = none := by
  induction cs generalizing cur with
  | nil => simp [resolve] at h
  | cons c cs ih =>
    cases hc : child m cur c with
    | none => simp [heldReaders, heldWriter, chain, hc]
    | some x =>
      rw [resolve_cons_some hc] at h
      simp [heldReaders, heldWriter, chain, hc, ih h]

theorem held_writer_of_resolve_some {m : Mem} {cur a : Nat} {cs : List Name}
    (h : resolve m cur cs = some a) :
    heldReaders m true cur cs ++ [a] = chain m cur cs ∧ heldWriter m true cur cs = some a := by
  induction cs generalizing cur with
  | nil =>
    simp only [resolve, Option.some.injEq] at h
    simp [heldReaders, heldWriter, chain, h]
  | cons c cs ih =>
    cases hc : child m cur c with
    | none => simp [resolve, hc] at h
    | some x =>
      rw [resolve_cons_some hc] at h
      simp [heldReaders, heldWriter, chain, hc, ih h]

theorem sameShape_refl (m : Mem) : SameShape m m := fun _ => rfl

theorem sameShape_symm {m m1 : Mem} (h : SameShape m m1) : SameShape m1 m := fun x => (h x).symm

theorem sameShape_trans {m m1 m2 : Mem} (h1 : SameShape m m1) (h2 : SameShape m1 m2) :
    SameShape m m2 := fun x => (h2 x).trans (h1 x)

theorem sameShape_cell_some {m m1 : Mem} (h : SameShape m m1) {x : Nat} {t : Tree}
    (ht : m.cell x = some t) :
    ∃ t1, m1.cell x = some t1 ∧ t1.ancestor = t.ancestor ∧ t1.contents = t.contents := by
  have := h x
  rw [ht] at this
  cases h1 : m1.cell x with
  | none => simp [h1] at this
  | some t1 =>
    simp only [h1, Option.map_some', Option.some.injEq, Prod.mk.injEq] at this
    exact ⟨t1, rfl, this.1, this.2⟩

theorem sameShape_cell_none {m m1 : Mem} (h : SameShape m m1) {x : Nat}
    (ht : m.cell x = none) : m1.cell x = none := by
  have := h x
  rw [ht] at this
  cases h1 : m1.cell x with
  | none => rfl
  | some t1 => simp [h1] at this

theorem sameShape_child {m m1 : Mem} (h : SameShape m m1) (a : Nat) (c : Name) :
    child m1 a c = child m a c := by
  cases ht : m.cell a with
  | none => simp [child, ht, sameShape_cell_none h ht]
  | some t =>
    obtain ⟨t1, ht1, -, hc⟩ := sameShape_cell_some h ht
    simp [child, ht, ht1, hc]

theorem sameShape_resolve {m m1 : Mem} (h : SameShape m m1) (cur : Nat) (cs : List Name) :
    resolve m1 cur cs = resolve m cur cs := by
  induction cs generalizing cur with
  | nil => rfl
  | cons c cs ih =>
    simp only [resolve, sameShape_child h]
    cases child m cur c with
    | none => rfl
    | some x => exact ih x

theorem sameShape_folder {m m1 : Mem} (h : SameShape m m1) (root : Nat) (p : Path) :
    folder m1 root p = folder m root p := by
  unfold folder
  cases path_components p with
  | none => rfl
  | some cs => exact sameShape_resolve h root cs

theorem sameShape_chain {m m1 : Mem} (h : SameShape m m1) (cur : Nat) (cs : List Name) :
    chain m1 cur cs = chain m cur cs := by
  induction cs generalizing cur with
  | nil => rfl
  | cons c cs ih =>
    simp only [chain, sameShape_child h]
    cases child m cur c with
    | none => rfl
    | some x => simp [ih x]

theorem sameShape_deepest {m m1 : Mem} (h : SameShape m m1) (cur : Nat) (cs : List Name) :
    deepest m1 cur cs = deepest m cur cs := by
  induction cs generalizing cur with
  | nil => rfl
  | cons c cs ih =>
    simp only [deepest, sameShape_child h]
    cases child m cur c with
    | none => rfl
    | some x => exact ih x

theorem sameShape_wf {m m1 : Mem} {root : Nat} (h : SameShape m m1) (hn : m1.next = m.next)
    (hwf : WF m root) : WF m1 root := by
  have h' := sameShape_symm h
  constructor
  · obtain ⟨t, ht, ha⟩ := hwf.root_ok
    obtain ⟨t1, ht1, ha1, -⟩ := sameShape_cell_some h ht
    exact ⟨t1, ht1, ha1.trans ha⟩
  · intro a t1 k c ht1 hmem
    obtain ⟨t, ht, -, hc⟩ := sameShape_cell_some h' ht1
    rw [← hc] at hmem
    obtain ⟨tc, htc, hanc⟩ := hwf.child_ok a t k c ht hmem
    obtain ⟨tc1, htc1, ha1, -⟩ := sameShape_cell_some h htc
    exact ⟨tc1, htc1, ha1.trans hanc⟩
  · intro a t1 ht1
    obtain ⟨t, ht, -, hc⟩ := sameShape_cell_some h' ht1
    rw [← hc]
    exact hwf.keys_nodup a t ht
  · intro a t1 ht1
    obtain ⟨t, ht, -, hc⟩ := sameShape_cell_some h' ht1
    rw [← hc]
    exact hwf.vals_nodup a t ht
  · intro a ha
    rw [hn] at ha
    exact sameShape_cell_none h (hwf.fresh a ha)

theorem sameShape_lockedMem (m : Mem) (R : List Nat) (W : Option Nat) :
    SameShape m (lockedMem m R W) := by
  intro x
  simp only [lockedMem]
  split
  · cases m.cell x <;> simp [wIn]
  · split
    · cases m.cell x <;> simp [rIn]
    · rfl

theorem sameShape_touch (m : Mem) (a : Nat) : SameShape m (touch m a) := by
  intro x
  simp only [touch, Mem.modify]
  split
  · cases m.cell x <;> simp
  · rfl

/-! ## `get_folder_tree` finds the folder of a path -/

theorem get_folder_tree_loop_eq {m : Mem} {root : Nat} (hwf : WF m root) :
    ∀ (cs : List Name) (fuel cur : Nat) (t : Tree), cs.length < fuel →
      (∀ c ∈ cs, validName c = true) → m.cell cur = some t →
      get_folder_tree_loop fuel m cur t.contents (render cs) = some (resolve m cur cs) := by
  intro cs
  induction cs with
  | nil =>
    intro fuel cur t hf _ _
    obtain ⟨f, rfl⟩ : ∃ f, fuel = f + 1 := ⟨fuel - 1, by omega⟩
    simp [get_folder_tree_loop, split_path_render_nil, resolve]
  | cons c cs ih =>
    intro fuel cur t hf hv ht
    obtain ⟨f, rfl⟩ : ∃ f, fuel = f + 1 := ⟨fuel - 1, by omega⟩
    have hc : validName c = true := hv c (by simp)
    have hcs : ∀ x ∈ cs, validName x = true := fun x hx => hv x (by simp [hx])
    simp only [get_folder_tree_loop, split_path_render_cons c cs hc]
    rw [← child_eq ht c]
    cases hch : child m cur c with
    | none => simp [resolve, hch]
    | some x =>
      obtain ⟨tx, htx, -⟩ := hwf.child_cell hch
      simp only [htx]
      rw [ih f x tx (by simp at hf; omega) hcs htx, resolve_cons_some hch]

theorem get_folder_tree_eq {m : Mem} {root : Nat} (hwf : WF m root) (cs : List Name)
    (fuel : Nat) (hf : cs.length < fuel) (hv : ∀ c ∈ cs, validName c = true) :
    get_folder_tree fuel m (some root) (render cs) = some (resolve m root cs) := by
  obtain ⟨t, ht⟩ := hwf.root_cell
  simp only [get_folder_tree, ht]
  exact get_folder_tree_loop_eq hwf cs fuel root t hf hv ht

/-! ## `lock_path` -/

theorem lockedMem_cell_of_not_mem {m : Mem} {V : List Nat} {x : Nat} (hx : x ∉ V) :
    (lockedMem m V none).cell x = m.cell x := by
  simp [lockedMem, hx]

theorem start_reading_lockedMem {m : Mem} (hidle : Idle m) {V : List Nat} {cur : Nat} {t : Tree}
    (ht : m.cell cur = some t) (hcur : cur ∉ V) :
    start_reading (lockedMem m V none) cur = some (lockedMem m (V ++ [cur]) none) := by
  obtain ⟨-, h2, -, h4⟩ := hidle cur t ht
  simp only [start_reading, lockedMem_cell_of_not_mem hcur, ht, h2, h4]
  simp only [zero_ne_one, gt_iff_lt, lt_self_iff_false, false_and, or_self, if_false,
    Option.some.injEq]
  apply Mem.ext_cell
  · intro x
    by_cases hx : x = cur
    · subst hx
      simp [Mem.set, lockedMem, ht, rIn, h2, h4]
    · simp [Mem.set, lockedMem, hx]
  · rfl

theorem start_writing_lockedMem {m : Mem} (hidle : Idle m) {V : List Nat} {cur : Nat} {t : Tree}
    (ht : m.cell cur = some t) (hcur : cur ∉ V) :
    start_writing (lockedMem m V none) cur = some (lockedMem m V (some cur)) := by
  obtain ⟨h1, h2, -, -⟩ := hidle cur t ht
  simp only [start_writing, lockedMem_cell_of_not_mem hcur, ht, h1, h2]
  simp only [gt_iff_lt, lt_self_iff_false, zero_ne_one, or_self, if_false, Option.some.injEq]
  apply Mem.ext_cell
  · intro x
    by_cases hx : x = cur
    · subst hx
      simp [Mem.set, lockedMem, ht, wIn, h2, h1]
    · have hx2 : cur ≠ x := fun h => hx h.symm
      simp [Mem.set, lockedMem, hx, hx2]
  · rfl

theorem lock_path_loop_spec {m : Mem} {root : Nat} (hwf : WF m root) (hidle : Idle m)
    (writer s : Bool) :
    ∀ (cs : List Name) (fuel cur : Nat) (V : List Nat) (t : Tree), cs.length < fuel →
      (∀ c ∈ cs, validName c = true) → m.cell cur = some t → (V ++ chain m cur cs).Nodup →
      lock_path_loop writer s fuel (lockedMem m V none) cur cur t.contents (render cs) =
        some (lockedMem m (V ++ heldReaders m writer cur cs) (heldWriter m writer cur cs),
          some (deepest m cur cs), s || (resolve m cur cs).isSome) := by
  intro cs
  induction cs with
  | nil =>
    intro fuel cur V t hf _ ht hnd
    obtain ⟨f, rfl⟩ : ∃ f, fuel = f + 1 := ⟨fuel - 1, by omega⟩
    have hcur : cur ∉ V := by
      intro h
      have := List.disjoint_of_nodup_append hnd h
      simp [chain] at this
    cases writer with
    | true =>
      simp [lock_path_loop, split_path_render_nil, start_writing_lockedMem hidle ht hcur,
        heldReaders, heldWriter, deepest, resolve]
    | false =>
      simp [lock_path_loop, split_path_render_nil, start_reading_lockedMem hidle ht hcur,
        heldReaders, heldWriter, deepest, resolve]
  | cons c cs ih =>
    intro fuel cur V t hf hv ht hnd
    obtain ⟨f, rfl⟩ : ∃ f, fuel = f + 1 := ⟨fuel - 1, by omega⟩
    have hc : validName c = true := hv c (by simp)
    have hcs : ∀ x ∈ cs, validName x = true := fun x hx => hv x (by simp [hx])
    have hcur : cur ∉ V := by
      intro h
      exact List.disjoint_of_nodup_append hnd h (head_mem_chain m cur (c :: cs))
    simp only [lock_path_loop, split_path_render_cons c cs hc,
      start_reading_lockedMem hidle ht hcur]
    rw [← child_eq ht c]
    cases hch : child m cur c with
    | none => simp [heldReaders, heldWriter, deepest, resolve, hch]
    | some x =>
      obtain ⟨tx, htx, -⟩ := hwf.child_cell hch
      rw [chain_cons_some hch] at hnd
      have hnd2 : ((V ++ [cur]) ++ chain m x cs).Nodup := by simpa using hnd
      have hx : x ∉ V ++ [cur] := by
        intro h
        exact List.disjoint_of_nodup_append hnd2 h (head_mem_chain m x cs)
      simp only [lockedMem_cell_of_not_mem hx, htx]
      rw [ih f x (V ++ [cur]) tx (by simp at hf; omega) hcs htx hnd2]
      simp [heldReaders, heldWriter, deepest, resolve, hch]

/-- What `lock_path` does on a well-formed tree whose rooms are idle. -/
theorem lock_path_spec {m : Mem} {root : Nat} (hwf : WF m root) (hidle : Idle m)
    (writer s : Bool) (cs : List Name) (fuel : Nat) (hf : cs.length < fuel)
    (hv : ∀ c ∈ cs, validName c = true) :
    lock_path fuel m (some root) (render cs) writer s =
      some (lockedMem m (heldReaders m writer root cs) (heldWriter m writer root cs),
        some (deepest m root cs), s || (resolve m root cs).isSome) := by
  obtain ⟨t, ht⟩ := hwf.root_cell
  have h0 : lockedMem m [] none = m := by
    apply Mem.ext_cell
    · intro x; simp [lockedMem]
    · rfl
  have := lock_path_loop_spec hwf hidle writer s cs fuel root [] t hf hv ht
    (by simpa using hwf.chain_nodup cs)
  rw [h0] at this
  simpa [lock_path, ht] using this

theorem ancAgree_set_rOut {m m2 : Mem} {K : List Nat} (h : AncAgree m m2 K) (a : Nat) (ta : Tree)
    (hta : m2.cell a = some ta) : AncAgree m (m2.set a (rOut ta)) K := by
  intro x hx
  obtain ⟨t, t2, h1, h2, h3⟩ := h x hx
  by_cases hxa : x = a
  · subst hxa
    rw [hta] at h2
    cases h2
    exact ⟨t, rOut ta, h1, by simp [Mem.set], h3⟩
  · exact ⟨t, t2, h1, by simp [Mem.set, hxa, h2], h3⟩

theorem ancAgree_mono {m m2 : Mem} {K K1 : List Nat} (h : AncAgree m m2 K)
    (hsub : ∀ x ∈ K1, x ∈ K) : AncAgree m m2 K1 :=
  fun x hx => h x (hsub x hx)

theorem unlockedMem_set_rOut {m2 : Mem} {K : List Nat} {a : Nat} {ta : Tree}
    (hta : m2.cell a = some ta) (ha : a ∉ K) :
    unlockedMem (m2.set a (rOut ta)) K none = unlockedMem m2 (K ++ [a]) none := by
  apply Mem.ext_cell
  · intro x
    by_cases hx : x = a
    · subst hx
      simp [unlockedMem, Mem.set, ha, hta]
    · simp [unlockedMem, Mem.set, hx]
  · rfl

theorem finish_reading_eq {m : Mem} {a : Nat} {t : Tree} (h : m.cell a = some t) :
    finish_reading m a = some (m.set a (rOut t)) := by
  simp [finish_reading, h, rOut]

theorem finish_writing_eq {m : Mem} {a : Nat} {t : Tree} (h : m.cell a = some t) :
    finish_writing m a = some (m.set a (wOut t)) := by
  simp only [finish_writing, h, wOut]
  split <;> rfl

theorem unlockedMem_nil (m : Mem) : unlockedMem m [] none = m := by
  apply Mem.ext_cell
  · intro x; simp [unlockedMem]
  · rfl

theorem unlock_path_loop_none (fuel : Nat) (m : Mem) (c : Option Nat) :
    unlock_path_loop fuel m none c = some m := by
  cases fuel <;> simp [unlock_path_loop]

theorem unlock_path_loop_spec {m : Mem} {root : Nat} (hwf : WF m root) :
    ∀ (pre : List Name) (a : Nat), resolve m root pre = some a →
      ∀ (m2 : Mem) (fuel : Nat) (t : Tree), pre.length < fuel → AncAgree m m2 (chain m root pre) →
        m.cell a = some t →
        unlock_path_loop fuel m2 (some a) t.ancestor =
          some (unlockedMem m2 (chain m root pre) none) := by
  intro pre
  induction pre using List.reverseRecOn with
  | nil =>
    intro a ha m2 fuel t hf hag hta
    obtain ⟨f, rfl⟩ : ∃ f, fuel = f + 1 := ⟨fuel - 1, by omega⟩
    simp only [resolve, Option.some.injEq] at ha
    subst ha
    obtain ⟨tr, htr, hr⟩ := hwf.root_ok
    rw [hta] at htr
    cases htr
    obtain ⟨t1, t2, h1, h2, -⟩ := hag root (by simp [chain])
    simp only [unlock_path_loop, finish_reading_eq h2, hr, next_ancestor, unlock_path_loop_none,
      Option.some.injEq, chain]
    have := unlockedMem_set_rOut (K := []) h2 (by simp)
    rw [unlockedMem_nil] at this
    simpa using this
  | append_singleton pre1 c ih =>
    intro a ha m2 fuel t hf hag hta
    obtain ⟨f, rfl⟩ : ∃ f, fuel = f + 1 := ⟨fuel - 1, by simp at hf; omega⟩
    obtain ⟨p, hp, hpc⟩ := resolve_concat_eq_some.1 ha
    obtain ⟨ta, hta2, hanc⟩ := hwf.child_cell hpc
    rw [hta] at hta2
    cases hta2
    have hch := chain_concat hp hpc
    have hnd := hwf.chain_nodup (pre1 ++ [c])
    rw [hch] at hnd hag ⊢
    have ha_notin : a ∉ chain m root pre1 := by
      intro h
      exact List.disjoint_of_nodup_append hnd h (by simp)
    obtain ⟨t1, t2, h1, h2, h3⟩ := hag a (by simp)
    have hp_mem : p ∈ chain m root pre1 := by
      have := deepest_mem_chain m root pre1
      rwa [resolve_some_deepest hp] at this
    have hpa : p ≠ a := fun h => ha_notin (h ▸ hp_mem)
    obtain ⟨tp, tp2, hp1, hp2, hp3⟩ := hag p (by simp [hp_mem])
    have hag1 : AncAgree m (m2.set a (rOut t2)) (chain m root pre1) :=
      ancAgree_set_rOut (ancAgree_mono hag (fun x hx => by simp [hx])) a t2 h2
    have hcellp : (m2.set a (rOut t2)).cell p = some tp2 := by simp [Mem.set, hpa, hp2]
    simp only [unlock_path_loop, finish_reading_eq h2, hanc, next_ancestor, hcellp]
    rw [hp3, ih p hp (m2.set a (rOut t2)) f tp (by simp at hf; omega) hag1 hp1]
    rw [unlockedMem_set_rOut h2 ha_notin]

theorem chain_eq_append_deepest (m : Mem) (cur : Nat) (cs : List Name) :
    ∃ R, R ++ [deepest m cur cs] = chain m cur cs := by
  induction cs generalizing cur with
  | nil => exact ⟨[], rfl⟩
  | cons c cs ih =>
    cases hc : child m cur c with
    | none => exact ⟨[], by simp [chain, deepest, hc]⟩
    | some x =>
      obtain ⟨R, hR⟩ := ih x
      exact ⟨cur :: R, by simp [chain, deepest, hc, hR]⟩

/-- What `unlock_path` does when called on the node returned by `lock_path` with the mode
matching the hold taken there. -/
theorem unlock_path_spec {m : Mem} {root : Nat} (hwf : WF m root) (cs : List Name) (m2 : Mem)
    (fuel : Nat) (hf : cs.length < fuel) (hag : AncAgree m m2 (chain m root cs)) (w : Bool) :
    unlock_path fuel m2 (some (deepest m root cs)) ((resolve m root cs).isSome && w) =
      some (unlockedMem m2 (heldReaders m w root cs) (heldWriter m w root cs)) := by
  obtain ⟨pre, hpre, hr, hch⟩ := deepest_is_folder m root cs
  have hlen := hpre.length_le
  have hmem := deepest_mem_chain m root cs
  obtain ⟨t, t2, h1, h2, h3⟩ := hag _ hmem
  have hnd := hwf.chain_nodup cs
  -- the memory after the first release, and the rest of the chain
  have key : ∀ (g : Tree → Tree) (R : List Nat), R ++ [deepest m root cs] = chain m root cs →
      ∃ curr_next, next_ancestor (m2.set (deepest m root cs) (g t2)) t2.ancestor = some curr_next ∧
        unlock_path_loop fuel (m2.set (deepest m root cs) (g t2)) t2.ancestor curr_next =
          some (unlockedMem (m2.set (deepest m root cs) (g t2)) R none) := by
    intro g R hR
    rcases List.eq_nil_or_concat pre with rfl | ⟨pre1, c, rfl⟩
    · simp only [resolve, Option.some.injEq] at hr
      obtain ⟨tr, htr, hanc⟩ := hwf.root_ok
      rw [hr, h1] at htr
      cases htr
      rw [hch] at hR
      have hR2 : R ++ [deepest m root cs] = [] ++ [root] := by
        simpa [chain] using hR
      have hRnil : R = [] := List.append_inj_left' hR2 rfl
      subst hRnil
      rw [h3, hanc]
      refine ⟨none, rfl, ?_⟩
      rw [unlock_path_loop_none, unlockedMem_nil]
    · rw [List.concat_eq_append] at hr hch hpre hlen
      obtain ⟨p, hp, hpc⟩ := resolve_concat_eq_some.1 hr
      obtain ⟨ta, hta, hanc⟩ := hwf.child_cell hpc
      rw [h1] at hta
      cases hta
      have hch2 := chain_concat hp hpc
      rw [hch, hch2] at hR
      have hReq : R = chain m root pre1 := List.append_inj_left' hR rfl
      subst hReq
      rw [hch, hch2] at hnd hag
      have ha_notin : deepest m root cs ∉ chain m root pre1 := by
        intro h
        exact List.disjoint_of_nodup_append hnd h (by simp)
      have hp_mem : p ∈ chain m root pre1 := by
        have := deepest_mem_chain m root pre1
        rwa [resolve_some_deepest hp] at this
      have hpa : p ≠ deepest m root cs := fun h => ha_notin (h ▸ hp_mem)
      obtain ⟨tp, tp2, hp1, hp2, hp3⟩ := hag p (by simp [hp_mem])
      have hag1 : AncAgree m (m2.set (deepest m root cs) (g t2)) (chain m root pre1) := by
        intro x hx
        obtain ⟨u, u2, hu1, hu2, hu3⟩ := hag x (by simp [hx])
        have hxa : x ≠ deepest m root cs := fun h => ha_notin (h ▸ hx)
        exact ⟨u, u2, hu1, by simp [Mem.set, hxa, hu2], hu3⟩
      have hcellp : (m2.set (deepest m root cs) (g t2)).cell p = some tp2 := by
        simp [Mem.set, hpa, hp2]
      rw [h3, hanc]
      refine ⟨tp.ancestor, by simp [next_ancestor, hcellp, hp3], ?_⟩
      exact unlock_path_loop_spec hwf pre1 p hp _ fuel tp
        (by simp at hlen; omega) hag1 hp1
  obtain ⟨R, hR⟩ := chain_eq_append_deepest m root cs
  have hd_notin : deepest m root cs ∉ R := by
    intro h
    rw [← hR] at hnd
    exact List.disjoint_of_nodup_append hnd h (by simp)
  have hread : unlock_path fuel m2 (some (deepest m root cs)) false =
      some (unlockedMem m2 (chain m root cs) none) := by
    obtain ⟨cn, hk1, hk2⟩ := key rOut R hR
    simp only [unlock_path, h2, finish_reading_eq h2, if_false, Bool.false_eq_true, hk1, hk2]
    rw [unlockedMem_set_rOut h2 hd_notin, hR]
  cases hres : resolve m root cs with
  | none =>
    obtain ⟨hR1, hW1⟩ := held_of_resolve_none w hres
    rw [hR1, hW1]
    simpa using hread
  | some a =>
    cases w with
    | false =>
      obtain ⟨hR1, hW1⟩ := heldReaders_reader m root cs
      rw [hR1, hW1]
      simpa using hread
    | true =>
      obtain ⟨hR1, hW1⟩ := held_writer_of_resolve_some hres
      have hda := resolve_some_deepest hres
      rw [← hda] at hR1 hW1
      have hReq : heldReaders m true root cs = R := List.append_inj_left' (hR1.trans hR.symm) rfl
      rw [hW1, hReq]
      obtain ⟨cn, hk1, hk2⟩ := key wOut R hR
      simp only [Option.isSome_some, Bool.and_self, unlock_path, h2, finish_writing_eq h2, if_true,
        hk1, hk2]
      congr 1
      apply Mem.ext_cell
      · intro x
        by_cases hx : x = deepest m root cs
        · subst hx
          simp [unlockedMem, Mem.set, h2, hd_notin]
        · have hx2 : deepest m root cs ≠ x := fun h => hx h.symm
          simp [unlockedMem, Mem.set, hx, hx2]
      · rfl

theorem set_contents_eq {m : Mem} {a : Nat} {t : Tree} (h : m.cell a = some t) (map : HashMap) :
    m.set a { t with contents := map } = setContents m a map := by
  apply Mem.ext_cell
  · intro x
    by_cases hx : x = a
    · subst hx; simp [Mem.set, setContents, Mem.modify, h]
    · simp [Mem.set, setContents, Mem.modify, hx]
  · rfl

theorem set_ancestor_eq {m : Mem} {a : Nat} {t : Tree} (h : m.cell a = some t) (anc : Option Nat) :
    m.set a { t with ancestor := anc } = setAncestor m a anc := by
  apply Mem.ext_cell
  · intro x
    by_cases hx : x = a
    · subst hx; simp [Mem.set, setAncestor, Mem.modify, h]
    · simp [Mem.set, setAncestor, Mem.modify, hx]
  · rfl

theorem unlockedMem_lockedMem {m : Mem} (hidle : Idle m) (R : List Nat) (W : Option Nat) :
    unlockedMem (lockedMem m R W) R W = afterLock m W := by
  apply Mem.ext_cell
  · intro x
    cases W with
    | none =>
      by_cases hx : x ∈ R
      · cases h : m.cell x with
        | none => simp [unlockedMem, lockedMem, afterLock, hx, h]
        | some t => simp [unlockedMem, lockedMem, afterLock, hx, h, rIn, rOut]
      · simp [unlockedMem, lockedMem, afterLock, hx]
    | some a =>
      by_cases hxa : a = x
      · subst hxa
        cases h : m.cell a with
        | none => simp [unlockedMem, lockedMem, afterLock, touch, Mem.modify, h]
        | some t =>
          obtain ⟨-, -, h3, -⟩ := hidle a t h
          simp [unlockedMem, lockedMem, afterLock, touch, Mem.modify, h, wIn, wOut, h3]
      · have hxa2 : x ≠ a := fun h => hxa h.symm
        by_cases hx : x ∈ R
        · cases h : m.cell x with
          | none => simp [unlockedMem, lockedMem, afterLock, touch, Mem.modify, hx, h, hxa, hxa2]
          | some t =>
            simp [unlockedMem, lockedMem, afterLock, touch, Mem.modify, hx, h, hxa, hxa2, rIn, rOut]
        · simp [unlockedMem, lockedMem, afterLock, touch, Mem.modify, hx, hxa, hxa2]
  · cases W <;> rfl

theorem unlockedMem_modify (m : Mem) (R : List Nat) (W : Option Nat) (a : Nat) (f : Tree → Tree)
    (hr : ∀ t, rOut (f t) = f (rOut t)) (hw : ∀ t, wOut (f t) = f (wOut t)) :
    unlockedMem (m.modify a f) R W = (unlockedMem m R W).modify a f := by
  apply Mem.ext_cell
  · intro x
    simp only [unlockedMem, Mem.modify]
    by_cases hx : x = a
    · subst hx
      simp only [if_true]
      split_ifs <;> cases h : m.cell x <;> simp [hr, hw]
    · simp [hx]
  · rfl

theorem unlockedMem_setContents (m : Mem) (R : List Nat) (W : Option Nat) (a : Nat)
    (map : HashMap) :
    unlockedMem (setContents m a map) R W = setContents (unlockedMem m R W) a map := by
  apply unlockedMem_modify
  · intro t; rfl
  · intro t
    simp only [wOut]
    split <;> rfl

theorem unlockedMem_setAncestor (m : Mem) (R : List Nat) (W : Option Nat) (a : Nat)
    (anc : Option Nat) :
    unlockedMem (setAncestor m a anc) R W = setAncestor (unlockedMem m R W) a anc := by
  apply unlockedMem_modify
  · intro t; rfl
  · intro t
    simp only [wOut]
    split <;> rfl

theorem unlockedMem_free (m : Mem) (R : List Nat) (W : Option Nat) (a : Nat) :
    unlockedMem (m.free a) R W = (unlockedMem m R W).free a := by
  apply Mem.ext_cell
  · intro x
    simp only [unlockedMem, Mem.free]
    by_cases hx : x = a <;> simp [hx]
  · rfl

theorem unlockedMem_tree_new (m : Mem) (R : List Nat) (W : Option Nat)
    (hR : m.next ∉ R) (hW : W ≠ some m.next) :
    unlockedMem (tree_new m).1 R W = (tree_new (unlockedMem m R W)).1 := by
  apply Mem.ext_cell
  · intro x
    simp only [unlockedMem, tree_new]
    by_cases hx : x = m.next
    · subst hx
      simp [hR, hW]
    · simp [hx]
  · rfl

/-! ## Keeping the chain intact while the tree changes -/

theorem WF.chain_cell {m : Mem} {root : Nat} (hwf : WF m root) {cs : List Name} {x : Nat}
    (hx : x ∈ chain m root cs) : ∃ t, m.cell x = some t := by
  obtain ⟨q, -, hq⟩ := mem_chain hx
  exact hwf.folder_cell hq

theorem ancAgree_of_sameShape {m m2 : Mem} (h : SameShape m m2) {K : List Nat}
    (hK : ∀ x ∈ K, ∃ t, m.cell x = some t) : AncAgree m m2 K := by
  intro x hx
  obtain ⟨t, ht⟩ := hK x hx
  obtain ⟨t2, ht2, ha, -⟩ := sameShape_cell_some h ht
  exact ⟨t, t2, ht, ht2, ha⟩

theorem ancAgree_setContents {m m2 : Mem} {K : List Nat} (h : AncAgree m m2 K) (a : Nat)
    (map : HashMap) : AncAgree m (setContents m2 a map) K := by
  intro x hx
  obtain ⟨t, t2, h1, h2, h3⟩ := h x hx
  by_cases hxa : x = a
  · subst hxa
    exact ⟨t, { t2 with contents := map }, h1, by simp [setContents, Mem.modify, h2], h3⟩
  · exact ⟨t, t2, h1, by simp [setContents, Mem.modify, hxa, h2], h3⟩

theorem ancAgree_setAncestor {m m2 : Mem} {K : List Nat} (h : AncAgree m m2 K) (a : Nat)
    (anc : Option Nat) (ha : a ∉ K) : AncAgree m (setAncestor m2 a anc) K := by
  intro x hx
  obtain ⟨t, t2, h1, h2, h3⟩ := h x hx
  have hxa : x ≠ a := fun h => ha (h ▸ hx)
  exact ⟨t, t2, h1, by simp [setAncestor, Mem.modify, hxa, h2], h3⟩

theorem ancAgree_free {m m2 : Mem} {K : List Nat} (h : AncAgree m m2 K) (a : Nat)
    (ha : a ∉ K) : AncAgree m (m2.free a) K := by
  intro x hx
  obtain ⟨t, t2, h1, h2, h3⟩ := h x hx
  have hxa : x ≠ a := fun h => ha (h ▸ hx)
  exact ⟨t, t2, h1, by simp [Mem.free, hxa, h2], h3⟩

theorem ancAgree_tree_new {m m2 : Mem} {K : List Nat} (h : AncAgree m m2 K)
    (ha : m2.next ∉ K) : AncAgree m (tree_new m2).1 K := by
  intro x hx
  obtain ⟨t, t2, h1, h2, h3⟩ := h x hx
  have hxa : x ≠ m2.next := fun h => ha (h ▸ hx)
  exact ⟨t, t2, h1, by simp [tree_new, hxa, h2], h3⟩

theorem WF.next_not_mem_chain {m : Mem} {root : Nat} (hwf : WF m root) (cs : List Name) :
    m.next ∉ chain m root cs := by
  intro h
  obtain ⟨t, ht⟩ := hwf.chain_cell h
  rw [hwf.fresh _ (le_refl _)] at ht
  cases ht

theorem ancAgree_lockedMem {m : Mem} {root : Nat} (hwf : WF m root) (cs : List Name)
    (R : List Nat) (W : Option Nat) : AncAgree m (lockedMem m R W) (chain m root cs) :=
  ancAgree_of_sameShape (sameShape_lockedMem m R W) (fun _ hx => hwf.chain_cell hx)

theorem wf_lockedMem {m : Mem} {root : Nat} (hwf : WF m root) (R : List Nat) (W : Option Nat) :
    WF (lockedMem m R W) root :=
  sameShape_wf (sameShape_lockedMem m R W) rfl hwf

theorem valid_of_concat {cs : List Name} {c : Name} (hv : ∀ x ∈ cs ++ [c], validName x = true) :
    (∀ x ∈ cs, validName x = true) ∧ validName c = true :=
  ⟨fun x hx => hv x (by simp [hx]), hv c (by simp)⟩

/-- Lock followed by unlock, with nothing in between, on a well-formed idle tree. -/
theorem unlock_after_lock {m : Mem} {root : Nat} (hwf : WF m root) (hidle : Idle m)
    (cs : List Name) (fuel : Nat) (hf : cs.length < fuel) (w : Bool) :
    unlock_path fuel (lockedMem m (heldReaders m w root cs) (heldWriter m w root cs))
        (some (deepest m root cs)) ((resolve m root cs).isSome && w) =
      some (afterLock m (heldWriter m w root cs)) := by
  rw [unlock_path_spec hwf cs _ fuel hf (ancAgree_lockedMem hwf cs _ _) w,
    unlockedMem_lockedMem hidle]

/-! ## `get_and_lock_parent` -/

theorem get_and_lock_parent_none {m : Mem} {root : Nat} (hwf : WF m root) (hidle : Idle m)
    (cs : List Name) (c : Name) (hv : ∀ x ∈ cs ++ [c], validName x = true) (fuel : Nat)
    (hf : cs.length < fuel) (hres : resolve m root cs = none) :
    get_and_lock_parent fuel m (some root) (render (cs ++ [c])) =
      some (m, none, c, some (deepest m root cs)) := by
  obtain ⟨hvcs, hvc⟩ := valid_of_concat hv
  have hu := unlock_after_lock hwf hidle cs fuel hf true
  rw [hres, (held_of_resolve_none true hres).2] at hu
  simp only [get_and_lock_parent, make_path_to_parent_render_concat cs c hvcs hvc,
    lock_path_spec hwf hidle true false cs fuel hf hvcs,
    get_folder_tree_eq (wf_lockedMem hwf _ _) cs fuel hf hvcs,
    sameShape_resolve (sameShape_lockedMem m _ _), hres]
  rw [(held_of_resolve_none true hres).2]
  simp only [Option.isSome_none, Bool.false_and] at hu
  simp only [hu, afterLock]

theorem get_and_lock_parent_some {m : Mem} {root : Nat} (hwf : WF m root) (hidle : Idle m)
    (cs : List Name) (c : Name) (hv : ∀ x ∈ cs ++ [c], validName x = true) (fuel : Nat)
    (hf : cs.length < fuel) {pt : Nat} (hres : resolve m root cs = some pt) :
    get_and_lock_parent fuel m (some root) (render (cs ++ [c])) =
      some (lockedMem m (heldReaders m true root cs) (some pt), some pt, c, some pt) := by
  obtain ⟨hvcs, hvc⟩ := valid_of_concat hv
  simp only [get_and_lock_parent, make_path_to_parent_render_concat cs c hvcs hvc,
    lock_path_spec hwf hidle true false cs fuel hf hvcs,
    get_folder_tree_eq (wf_lockedMem hwf _ _) cs fuel hf hvcs,
    sameShape_resolve (sameShape_lockedMem m _ _), hres,
    (held_writer_of_resolve_some hres).2, resolve_some_deepest hres]

theorem tree_list_invalid (fuel : Nat) (m : Mem) (tree : Option Nat) (p : Path)
    (h : is_path_valid p = false) : tree_list fuel m tree p = some (m, none) := by
  simp [tree_list, h]

theorem tree_list_valid {m : Mem} {root : Nat} (hwf : WF m root) (hidle : Idle m)
    (cs : List Name) (hv : ∀ x ∈ cs, validName x = true) (fuel : Nat) (hf : cs.length < fuel) :
    tree_list fuel m (some root) (render cs) =
      some (m, (resolve m root cs).bind (listing m)) := by
  have hval : is_path_valid (render cs) = true := (is_path_valid_iff _).2 ⟨cs, hv, rfl⟩
  have hu := unlock_after_lock hwf hidle cs fuel hf false
  rw [(heldReaders_reader m root cs).1, (heldReaders_reader m root cs).2] at hu
  simp only [Bool.and_false, afterLock] at hu
  simp only [tree_list, hval, Bool.not_true, Bool.false_eq_true, if_false,
    lock_path_spec hwf hidle false false cs fuel hf hv,
    get_folder_tree_eq (wf_lockedMem hwf _ _) cs fuel hf hv,
    sameShape_resolve (sameShape_lockedMem m _ _),
    (heldReaders_reader m root cs).1, (heldReaders_reader m root cs).2]
  cases hres : resolve m root cs with
  | none => simp only [hu, Option.none_bind]
  | some a =>
    obtain ⟨t, ht⟩ := hwf.folder_cell hres
    obtain ⟨t1, ht1, -, hc⟩ := sameShape_cell_some (sameShape_lockedMem m (chain m root cs) none) ht
    simp only [ht1, hu, Option.some_bind, listing, ht, hc]

/-! ## `tree_create` -/

theorem WF.child_not_mem_chain {m : Mem} {root : Nat} (hwf : WF m root) {cs : List Name}
    {c : Name} {pt v : Nat} (hp : resolve m root cs = some pt) (hc : child m pt c = some v) :
    v ∉ chain m root cs := by
  have hnd := hwf.chain_nodup (cs ++ [c])
  rw [chain_concat hp hc] at hnd
  intro h
  exact List.disjoint_of_nodup_append hnd h (by simp)

theorem WF.ne_next {m : Mem} {root : Nat} (hwf : WF m root) {a : Nat} {t : Tree}
    (h : m.cell a = some t) : a ≠ m.next := by
  intro ha
  rw [ha, hwf.fresh _ (le_refl _)] at h
  cases h

theorem render_concat_ne_root (cs : List Name) (c : Name) : render (cs ++ [c]) ≠ ['/'] := by
  intro h
  have := (render_eq_root_iff _).1 h
  simp at this

theorem is_path_valid_render {cs : List Name} (hv : ∀ x ∈ cs, validName x = true) :
    is_path_valid (render cs) = true :=
  (is_path_valid_iff _).2 ⟨cs, hv, rfl⟩

theorem tree_new_eq (m : Mem) : tree_new m = ((tree_new m).1, m.next) := rfl

theorem tree_new_cell_next (m : Mem) :
    (tree_new m).1.cell m.next =
      some { ancestor := none, contents := hmap_new, readers_number := 0, writers_number := 0,
             waiting_readers := 0, waiting_writers := 0, whose_turn := 2 } := by
  simp [tree_new]

theorem tree_new_cell_ne (m : Mem) {x : Nat} (hx : x ≠ m.next) :
    (tree_new m).1.cell x = m.cell x := by
  simp [tree_new, hx]

theorem tree_free_leaf {m : Mem} {a : Nat} {t : Tree} (fuel : Nat) (hf : 0 < fuel)
    (h : m.cell a = some t) (hc : t.contents = []) : tree_free fuel m a = some (m.free a) := by
  obtain ⟨f, rfl⟩ : ∃ f, fuel = f + 1 := ⟨fuel - 1, by omega⟩
  simp only [tree_free, h, hc, List.foldlM_nil]

theorem tree_create_invalid (fuel : Nat) (m : Mem) (tree : Option Nat) (p : Path)
    (h : is_path_valid p = false) : tree_create fuel m tree p = some (m, EINVAL) := by
  simp [tree_create, h]

theorem tree_create_root (fuel : Nat) (m : Mem) (tree : Option Nat) :
    tree_create fuel m tree ['/'] = some (m, EEXIST) := by
  have : is_path_valid ['/'] = true := by decide
  simp [tree_create, this]

theorem tree_create_noent {m : Mem} {root : Nat} (hwf : WF m root) (hidle : Idle m)
    (cs : List Name) (c : Name) (hv : ∀ x ∈ cs ++ [c], validName x = true) (fuel : Nat)
    (hf : cs.length < fuel) (hres : resolve m root cs = none) :
    tree_create fuel m (some root) (render (cs ++ [c])) = some (m, ENOENT) := by
  simp only [tree_create, is_path_valid_render hv, render_concat_ne_root, Bool.not_true,
    Bool.false_eq_true, if_false, get_and_lock_parent_none hwf hidle cs c hv fuel hf hres]

theorem tree_create_success {m : Mem} {root : Nat} (hwf : WF m root) (hidle : Idle m)
    (cs : List Name) (c : Name) (hv : ∀ x ∈ cs ++ [c], validName x = true) (fuel : Nat)
    (hf : cs.length < fuel) {pt : Nat} {tp : Tree} (hres : resolve m root cs = some pt)
    (htp : m.cell pt = some tp) (hc : child m pt c = none) :
    tree_create fuel m (some root) (render (cs ++ [c])) =
      some (createdMem m pt c tp.contents, 0) := by
  have hW := (held_writer_of_resolve_some hres).2
  have hd := resolve_some_deepest hres
  obtain ⟨t1, ht1, -, hc1⟩ := sameShape_cell_some
    (sameShape_lockedMem m (heldReaders m true root cs) (some pt)) htp
  have hptn : pt ≠ m.next := hwf.ne_next htp
  have hget : hmap_get tp.contents c = none := by rw [← child_eq htp c]; exact hc
  have hnext : (lockedMem m (heldReaders m true root cs) (some pt)).next = m.next := rfl
  have hcellp : (tree_new (lockedMem m (heldReaders m true root cs) (some pt))).1.cell pt
      = some t1 := by
    rw [tree_new_cell_ne _ (by rw [hnext]; exact hptn), ht1]
  have hcelln : (setContents (tree_new (lockedMem m (heldReaders m true root cs) (some pt))).1 pt
      ((c, m.next) :: tp.contents)).cell m.next =
      some { ancestor := none, contents := hmap_new, readers_number := 0, writers_number := 0,
             waiting_readers := 0, waiting_writers := 0, whose_turn := 2 } := by
    have : m.next ≠ pt := fun h => hptn h.symm
    have h1 : (setContents (tree_new (lockedMem m (heldReaders m true root cs) (some pt))).1 pt
        ((c, m.next) :: tp.contents)).cell m.next =
        (tree_new (lockedMem m (heldReaders m true root cs) (some pt))).1.cell m.next := by
      simp only [setContents, Mem.modify, this, if_false]
    rw [h1]
    exact tree_new_cell_next (lockedMem m (heldReaders m true root cs) (some pt))
  have hag : AncAgree m (setAncestor (setContents
      (tree_new (lockedMem m (heldReaders m true root cs) (some pt))).1 pt
      ((c, m.next) :: tp.contents)) m.next (some pt)) (chain m root cs) :=
    ancAgree_setAncestor (ancAgree_setContents (ancAgree_tree_new
      (ancAgree_lockedMem hwf cs _ _) (hwf.next_not_mem_chain cs)) _ _) _ _
      (hwf.next_not_mem_chain cs)
  have hu := unlock_path_spec hwf cs _ fuel hf hag true
  rw [hres, hW, hd] at hu
  simp only [Option.isSome_some, Bool.and_self] at hu
  have hRn : m.next ∉ heldReaders m true root cs := by
    intro h
    apply hwf.next_not_mem_chain cs
    rw [← (held_writer_of_resolve_some hres).1]
    simp [h]
  simp only [tree_create, is_path_valid_render hv, render_concat_ne_root, Bool.not_true,
    Bool.false_eq_true, if_false, get_and_lock_parent_some hwf hidle cs c hv fuel hf hres]
  rw [tree_new_eq]
  simp only [hcellp, hnext, hmap_insert, hc1, hget, set_contents_eq hcellp, hcelln,
    set_ancestor_eq hcelln, hu]
  rw [unlockedMem_setAncestor, unlockedMem_setContents,
    unlockedMem_tree_new _ _ _ (by rw [hnext]; exact hRn)
      (by rw [hnext]; intro h; exact hptn (Option.some.inj h)),
    unlockedMem_lockedMem hidle]
  rfl

theorem tree_create_exists {m : Mem} {root : Nat} (hwf : WF m root) (hidle : Idle m)
    (cs : List Name) (c : Name) (hv : ∀ x ∈ cs ++ [c], validName x = true) (fuel : Nat)
    (hf : cs.length < fuel) {pt v : Nat} (hres : resolve m root cs = some pt)
    (hc : child m pt c = some v) :
    tree_create fuel m (some root) (render (cs ++ [c])) =
      some (createFailedMem m pt, EEXIST) := by
  obtain ⟨tp, htp⟩ := hwf.folder_cell hres
  have hW := (held_writer_of_resolve_some hres).2
  have hd := resolve_some_deepest hres
  obtain ⟨t1, ht1, -, hc1⟩ := sameShape_cell_some
    (sameShape_lockedMem m (heldReaders m true root cs) (some pt)) htp
  have hptn : pt ≠ m.next := hwf.ne_next htp
  have hget : hmap_get tp.contents c = some v := by rw [← child_eq htp c]; exact hc
  have hnext : (lockedMem m (heldReaders m true root cs) (some pt)).next = m.next := rfl
  have hcellp : (tree_new (lockedMem m (heldReaders m true root cs) (some pt))).1.cell pt
      = some t1 := by
    rw [tree_new_cell_ne _ (by rw [hnext]; exact hptn), ht1]
  have hfree := tree_free_leaf (m := (tree_new (lockedMem m (heldReaders m true root cs)
    (some pt))).1) fuel (by omega) (tree_new_cell_next _) rfl
  rw [hnext] at hfree
  have hag : AncAgree m ((tree_new (lockedMem m (heldReaders m true root cs) (some pt))).1.free
      m.next) (chain m root cs) :=
    ancAgree_free (ancAgree_tree_new (ancAgree_lockedMem hwf cs _ _)
      (hwf.next_not_mem_chain cs)) _ (hwf.next_not_mem_chain cs)
  have hu := unlock_path_spec hwf cs _ fuel hf hag true
  rw [hres, hW, hd] at hu
  simp only [Option.isSome_some, Bool.and_self] at hu
  have hRn : m.next ∉ heldReaders m true root cs := by
    intro h
    apply hwf.next_not_mem_chain cs
    rw [← (held_writer_of_resolve_some hres).1]
    simp [h]
  simp only [tree_create, is_path_valid_render hv, render_concat_ne_root, Bool.not_true,
    Bool.false_eq_true, if_false, get_and_lock_parent_some hwf hidle cs c hv fuel hf hres]
  rw [tree_new_eq]
  simp only [hcellp, hnext, hmap_insert, hc1, hget, hfree, hu]
  rw [unlockedMem_free, unlockedMem_tree_new _ _ _ (by rw [hnext]; exact hRn)
      (by rw [hnext]; intro h; exact hptn (Option.some.inj h)),
    unlockedMem_lockedMem hidle]
  rfl

/-! ## `tree_remove` -/

theorem tree_remove_invalid (fuel : Nat) (m : Mem) (tree : Option Nat) (p : Path)
    (h : is_path_valid p = false) : tree_remove fuel m tree p = some (m, EINVAL) := by
  simp [tree_remove, h]

theorem tree_remove_root (fuel : Nat) (m : Mem) (tree : Option Nat) :
    tree_remove fuel m tree ['/'] = some (m, EBUSY) := by
  have : is_path_valid ['/'] = true := by decide
  simp [tree_remove, this]

theorem tree_remove_noent_parent {m : Mem} {root : Nat} (hwf : WF m root) (hidle : Idle m)
    (cs : List Name) (c : Name) (hv : ∀ x ∈ cs ++ [c], validName x = true) (fuel : Nat)
    (hf : cs.length < fuel) (hres : resolve m root cs = none) :
    tree_remove fuel m (some root) (render (cs ++ [c])) = some (m, ENOENT) := by
  simp only [tree_remove, is_path_valid_render hv, render_concat_ne_root, Bool.not_true,
    Bool.false_eq_true, if_false, get_and_lock_parent_none hwf hidle cs c hv fuel hf hres]

/-- Unlocking right after `get_and_lock_parent` found the parent. -/
theorem unlock_after_parent_lock {m : Mem} {root : Nat} (hwf : WF m root) (hidle : Idle m)
    (cs : List Name) (fuel : Nat) (hf : cs.length < fuel) {pt : Nat}
    (hres : resolve m root cs = some pt) :
    unlock_path fuel (lockedMem m (heldReaders m true root cs) (some pt)) (some pt) true =
      some (touch m pt) := by
  have hu := unlock_after_lock hwf hidle cs fuel hf true
  rw [hres, (held_writer_of_resolve_some hres).2, resolve_some_deepest hres] at hu
  simpa [afterLock] using hu

theorem tree_remove_noent_child {m : Mem} {root : Nat} (hwf : WF m root) (hidle : Idle m)
    (cs : List Name) (c : Name) (hv : ∀ x ∈ cs ++ [c], validName x = true) (fuel : Nat)
    (hf : cs.length < fuel) {pt : Nat} (hres : resolve m root cs = some pt)
    (hc : child m pt c = none) :
    tree_remove fuel m (some root) (render (cs ++ [c])) = some (touch m pt, ENOENT) := by
  obtain ⟨tp, htp⟩ := hwf.folder_cell hres
  obtain ⟨t1, ht1, -, hc1⟩ := sameShape_cell_some
    (sameShape_lockedMem m (heldReaders m true root cs) (some pt)) htp
  have hget : hmap_get tp.contents c = none := by rw [← child_eq htp c]; exact hc
  simp only [tree_remove, is_path_valid_render hv, render_concat_ne_root, Bool.not_true,
    Bool.false_eq_true, if_false, get_and_lock_parent_some hwf hidle cs c hv fuel hf hres,
    ht1, hc1, hget, unlock_after_parent_lock hwf hidle cs fuel hf hres]

theorem tree_remove_notempty {m : Mem} {root : Nat} (hwf : WF m root) (hidle : Idle m)
    (cs : List Name) (c : Name) (hv : ∀ x ∈ cs ++ [c], validName x = true) (fuel : Nat)
    (hf : cs.length < fuel) {pt v : Nat} {tv : Tree} (hres : resolve m root cs = some pt)
    (hc : child m pt c = some v) (htv : m.cell v = some tv) (hne : tv.contents ≠ []) :
    tree_remove fuel m (some root) (render (cs ++ [c])) = some (touch m pt, ENOTEMPTY) := by
  obtain ⟨tp, htp⟩ := hwf.folder_cell hres
  obtain ⟨t1, ht1, -, hc1⟩ := sameShape_cell_some
    (sameShape_lockedMem m (heldReaders m true root cs) (some pt)) htp
  obtain ⟨tv1, htv1, -, hcv1⟩ := sameShape_cell_some
    (sameShape_lockedMem m (heldReaders m true root cs) (some pt)) htv
  have hget : hmap_get tp.contents c = some v := by rw [← child_eq htp c]; exact hc
  have hsize : hmap_size tv.contents ≠ 0 := by
    simpa [hmap_size] using hne
  simp only [tree_remove, is_path_valid_render hv, render_concat_ne_root, Bool.not_true,
    Bool.false_eq_true, if_false, get_and_lock_parent_some hwf hidle cs c hv fuel hf hres,
    ht1, hc1, hget, htv1, hcv1, hsize, ne_eq, not_false_eq_true, if_true,
    unlock_after_parent_lock hwf hidle cs fuel hf hres]

theorem tree_remove_success {m : Mem} {root : Nat} (hwf : WF m root) (hidle : Idle m)
    (cs : List Name) (c : Name) (hv : ∀ x ∈ cs ++ [c], validName x = true) (fuel : Nat)
    (hf : cs.length < fuel) {pt v : Nat} {tp tv : Tree} (hres : resolve m root cs = some pt)
    (htp : m.cell pt = some tp)
    (hc : child m pt c = some v) (htv : m.cell v = some tv) (hempty : tv.contents = []) :
    tree_remove fuel m (some root) (render (cs ++ [c])) =
      some (removedMem m pt c v tp.contents, 0) := by
  have hW := (held_writer_of_resolve_some hres).2
  have hd := resolve_some_deepest hres
  obtain ⟨t1, ht1, -, hc1⟩ := sameShape_cell_some
    (sameShape_lockedMem m (heldReaders m true root cs) (some pt)) htp
  obtain ⟨tv1, htv1, -, hcv1⟩ := sameShape_cell_some
    (sameShape_lockedMem m (heldReaders m true root cs) (some pt)) htv
  have hget : hmap_get tp.contents c = some v := by rw [← child_eq htp c]; exact hc
  have hsize : hmap_size tv.contents = 0 := by simp [hmap_size, hempty]
  have hvchain := hwf.child_not_mem_chain hres hc
  have hvpt : v ≠ pt := by
    intro h
    apply hvchain
    rw [h]
    have := deepest_mem_chain m root cs
    rwa [hd] at this
  have hcellv : (setContents (lockedMem m (heldReaders m true root cs) (some pt)) pt
      (hmap_remove tp.contents c)).cell v = some tv1 := by
    simp only [setContents, Mem.modify, hvpt, if_false, htv1]
  have hfree := tree_free_leaf fuel (by omega) hcellv (hcv1.trans hempty)
  have hag : AncAgree m ((setContents (lockedMem m (heldReaders m true root cs) (some pt)) pt
      (hmap_remove tp.contents c)).free v) (chain m root cs) :=
    ancAgree_free (ancAgree_setContents (ancAgree_lockedMem hwf cs _ _) _ _) _ hvchain
  have hu := unlock_path_spec hwf cs _ fuel hf hag true
  rw [hres, hW, hd] at hu
  simp only [Option.isSome_some, Bool.and_self] at hu
  simp only [tree_remove, is_path_valid_render hv, render_concat_ne_root, Bool.not_true,
    Bool.false_eq_true, if_false, get_and_lock_parent_some hwf hidle cs c hv fuel hf hres,
    ht1, hc1, hget, htv1, hcv1, hsize, ne_eq, not_true_eq_false, set_contents_eq ht1, hfree, hu]
  rw [unlockedMem_free, unlockedMem_setContents, unlockedMem_lockedMem hidle]
  rfl

/-! ## `tree_move` -/

theorem commonComponents_prefix_left (as bs : List Name) : commonComponents as bs <+: as := by
  induction as generalizing bs with
  | nil => simp [commonComponents]
  | cons a as ih =>
    cases bs with
    | nil => simp [commonComponents]
    | cons b bs =>
      simp only [commonComponents]
      split
      · obtain ⟨r, hr⟩ := ih bs
        exact ⟨r, by simp [hr]⟩
      · exact List.nil_prefix

theorem commonComponents_prefix_right (as bs : List Name) : commonComponents as bs <+: bs := by
  induction as generalizing bs with
  | nil => simp [commonComponents]
  | cons a as ih =>
    cases bs with
    | nil => simp [commonComponents]
    | cons b bs =>
      simp only [commonComponents]
      split
      · rename_i hab
        obtain ⟨r, hr⟩ := ih bs
        exact ⟨r, by simp [hr, hab]⟩
      · exact List.nil_prefix

theorem commonComponents_self (as : List Name) : commonComponents as as = as := by
  induction as with
  | nil => rfl
  | cons a as ih => simp [commonComponents, ih]

theorem resolve_of_isPrefix {m : Mem} {cur a : Nat} {q cs : List Name} (hq : q <+: cs)
    (h : resolve m cur cs = some a) : ∃ p, resolve m cur q = some p := by
  obtain ⟨r, rfl⟩ := hq
  obtain ⟨p, hp, -⟩ := resolve_prefix_some h
  exact ⟨p, hp⟩

theorem valid_of_isPrefix {q cs : List Name} (hq : q <+: cs)
    (hv : ∀ x ∈ cs, validName x = true) : ∀ x ∈ q, validName x = true :=
  fun x hx => hv x (hq.subset hx)

theorem check_source_and_target_invalid (source target : Path)
    (h : is_path_valid source = false ∨ is_path_valid target = false) :
    check_source_and_target source target = some EINVAL := by
  rcases h with h | h <;> simp [check_source_and_target, h]

theorem check_source_and_target_render (S T : List Name) (hS : ∀ x ∈ S, validName x = true)
    (hT : ∀ x ∈ T, validName x = true) :
    check_source_and_target (render S) (render T) =
      if S = [] then some EBUSY
      else if T = [] then some EEXIST
      else if S.isPrefixOf T && decide (T ≠ S) then some MY_ERROR
      else none := by
  have hne : (render T ≠ render S) ↔ T ≠ S := by
    constructor
    · intro h h2; exact h (by rw [h2])
    · intro h h2; exact h (render_injective hT hS h2)
  simp only [check_source_and_target, is_path_valid_render hS, is_path_valid_render hT,
    Bool.not_true, Bool.or_self, Bool.false_eq_true, if_false, render_eq_root_iff,
    is_a_prefix_of_render S T hS hT, hne]

theorem MoveArgs.check {S T : List Name} (h : MoveArgs S T) :
    check_source_and_target (render S) (render T) = none := by
  rw [check_source_and_target_render S T h.validS h.validT]
  have := h.noCycle
  simp only [h.neS, h.neT, if_false]
  rw [if_neg]
  simp only [Bool.and_eq_true, List.isPrefixOf_iff_prefix, decide_eq_true_eq]
  exact this

theorem lock_lca_spec {m : Mem} {root : Nat} (hwf : WF m root) (hidle : Idle m)
    {S T : List Name} (ha : MoveArgs S T) (fuel : Nat) (hf : S.length < fuel) :
    lock_lca fuel m (some root) (render S) (render T) false =
      some (lockedMem m (heldReaders m true root (commonComponents S T)) (moveWriter m root S T),
        some (deepest m root (commonComponents S T)),
        (resolve m root (commonComponents S T)).isSome) := by
  have hlen := (commonComponents_prefix_left S T).length_le
  have hvL := valid_of_isPrefix (commonComponents_prefix_left S T) ha.validS
  simp only [lock_lca, last_common_ancestor_render S T ha.validS ha.validT,
    lock_path_spec hwf hidle true false _ fuel (by omega) hvL, Bool.false_or, moveWriter]

/-- Unlocking after `lock_lca`, in the mode `tree_move` uses on its failure paths. -/
theorem unlock_after_lca {m : Mem} {root : Nat} (hwf : WF m root) (hidle : Idle m)
    (S T : List Name) (fuel : Nat) (hf : S.length < fuel) :
    unlock_path fuel
        (lockedMem m (heldReaders m true root (commonComponents S T)) (moveWriter m root S T))
        (some (deepest m root (commonComponents S T)))
        (resolve m root (commonComponents S T)).isSome =
      some (afterLock m (moveWriter m root S T)) := by
  have hlen := (commonComponents_prefix_left S T).length_le
  have hu := unlock_after_lock hwf hidle (commonComponents S T) fuel (by omega) true
  simpa [moveWriter] using hu

theorem check_tree_and_unlock_none {m : Mem} {root : Nat} (hwf : WF m root) (hidle : Idle m)
    (S T : List Name) (fuel : Nat) (hf : S.length < fuel) :
    check_tree_and_unlock fuel
        (lockedMem m (heldReaders m true root (commonComponents S T)) (moveWriter m root S T))
        none (some (deepest m root (commonComponents S T)))
        (resolve m root (commonComponents S T)).isSome =
      some (afterLock m (moveWriter m root S T), false) := by
  have hu := unlock_after_lca hwf hidle S T fuel hf
  cases h : (resolve m root (commonComponents S T)).isSome <;>
    simp only [check_tree_and_unlock, h, if_true, if_false, Bool.false_eq_true] <;>
    rw [h] at hu <;> simp only [hu]

theorem get_parent_tree_spec {m : Mem} {root : Nat} (hwf : WF m root) (hidle : Idle m)
    (S T : List Name) (fuel : Nat) (hf : S.length < fuel) (cs : List Name) (c : Name)
    (hv : ∀ x ∈ cs ++ [c], validName x = true) (hcs : cs.length < fuel) :
    get_parent_tree fuel
        (lockedMem m (heldReaders m true root (commonComponents S T)) (moveWriter m root S T))
        (some root) (render (cs ++ [c])) (some (deepest m root (commonComponents S T)))
        (resolve m root (commonComponents S T)).isSome =
      match resolve m root cs with
      | none => some (afterLock m (moveWriter m root S T), none, c)
      | some p => some (lockedMem m (heldReaders m true root (commonComponents S T))
          (moveWriter m root S T), some p, c) := by
  obtain ⟨hvcs, hvc⟩ := valid_of_concat hv
  simp only [get_parent_tree, make_path_to_parent_render_concat cs c hvcs hvc,
    get_folder_tree_eq (wf_lockedMem hwf _ _) cs fuel hcs hvcs,
    sameShape_resolve (sameShape_lockedMem m _ _)]
  cases hres : resolve m root cs with
  | none => simp only [check_tree_and_unlock_none hwf hidle S T fuel hf, Bool.false_eq_true, if_false]
  | some p => simp only [check_tree_and_unlock, if_true]

theorem tree_move_rejected (fuel : Nat) (m : Mem) (tree : Option Nat) (source target : Path)
    (code : Int) (h : check_source_and_target source target = some code) :
    tree_move fuel m tree source target = some (m, code) := by
  simp [tree_move, h]

theorem tree_move_noent_source_parent {m : Mem} {root : Nat} (hwf : WF m root) (hidle : Idle m)
    {scs tcs : List Name} {sn tn : Name} (ha : MoveArgs (scs ++ [sn]) (tcs ++ [tn]))
    (fuel : Nat) (hfs : (scs ++ [sn]).length < fuel)
    (hres : resolve m root scs = none) :
    tree_move fuel m (some root) (render (scs ++ [sn])) (render (tcs ++ [tn])) =
      some (afterLock m (moveWriter m root (scs ++ [sn]) (tcs ++ [tn])), ENOENT) := by
  have hs : scs.length < fuel := by simp at hfs; omega
  simp only [tree_move, ha.check, lock_lca_spec hwf hidle ha fuel hfs,
    get_parent_tree_spec hwf hidle _ _ fuel hfs scs sn ha.validS hs, hres]

theorem tree_move_noent_source {m : Mem} {root : Nat} (hwf : WF m root) (hidle : Idle m)
    {scs tcs : List Name} {sn tn : Name} (ha : MoveArgs (scs ++ [sn]) (tcs ++ [tn]))
    (fuel : Nat) (hfs : (scs ++ [sn]).length < fuel)
    {ps : Nat} (hres : resolve m root scs = some ps)
    (hc : child m ps sn = none) :
    tree_move fuel m (some root) (render (scs ++ [sn])) (render (tcs ++ [tn])) =
      some (afterLock m (moveWriter m root (scs ++ [sn]) (tcs ++ [tn])), ENOENT) := by
  have hs : scs.length < fuel := by simp at hfs; omega
  obtain ⟨tp, htp⟩ := hwf.folder_cell hres
  obtain ⟨t1, ht1, -, hc1⟩ := sameShape_cell_some
    (sameShape_lockedMem m (heldReaders m true root (commonComponents (scs ++ [sn]) (tcs ++ [tn])))
      (moveWriter m root (scs ++ [sn]) (tcs ++ [tn]))) htp
  have hget : hmap_get tp.contents sn = none := by rw [← child_eq htp sn]; exact hc
  simp only [tree_move, ha.check, lock_lca_spec hwf hidle ha fuel hfs,
    get_parent_tree_spec hwf hidle _ _ fuel hfs scs sn ha.validS hs, hres, ht1, hc1, hget,
    check_tree_and_unlock_none hwf hidle _ _ fuel hfs]

theorem tree_move_noent_target_parent {m : Mem} {root : Nat} (hwf : WF m root) (hidle : Idle m)
    {scs tcs : List Name} {sn tn : Name} (ha : MoveArgs (scs ++ [sn]) (tcs ++ [tn]))
    (fuel : Nat) (hfs : (scs ++ [sn]).length < fuel) (hft : (tcs ++ [tn]).length < fuel)
    {ps v : Nat} (hres : resolve m root scs = some ps)
    (hc : child m ps sn = some v) (hrt : resolve m root tcs = none) :
    tree_move fuel m (some root) (render (scs ++ [sn])) (render (tcs ++ [tn])) =
      some (afterLock m (moveWriter m root (scs ++ [sn]) (tcs ++ [tn])), ENOENT) := by
  have hs : scs.length < fuel := by simp at hfs; omega
  have ht : tcs.length < fuel := by simp at hft; omega
  obtain ⟨tp, htp⟩ := hwf.folder_cell hres
  obtain ⟨t1, ht1, -, hc1⟩ := sameShape_cell_some
    (sameShape_lockedMem m (heldReaders m true root (commonComponents (scs ++ [sn]) (tcs ++ [tn])))
      (moveWriter m root (scs ++ [sn]) (tcs ++ [tn]))) htp
  have hget : hmap_get tp.contents sn = some v := by rw [← child_eq htp sn]; exact hc
  simp only [tree_move, ha.check, lock_lca_spec hwf hidle ha fuel hfs,
    get_parent_tree_spec hwf hidle _ _ fuel hfs scs sn ha.validS hs, hres, ht1, hc1, hget,
    check_tree_and_unlock,
    get_parent_tree_spec hwf hidle _ _ fuel hfs tcs tn ha.validT ht, hrt]

/-- When the source exists, so does the common ancestor, and `tree_move` holds it as a
writer. -/
theorem moveWriter_of_source {m : Mem} {root : Nat} {scs : List Name} {sn : Name}
    (T : List Name) {ps v : Nat} (hres : resolve m root scs = some ps)
    (hc : child m ps sn = some v) :
    ∃ l, resolve m root (commonComponents (scs ++ [sn]) T) = some l ∧
      moveWriter m root (scs ++ [sn]) T = some l ∧
      deepest m root (commonComponents (scs ++ [sn]) T) = l := by
  have hS : resolve m root (scs ++ [sn]) = some v := resolve_concat_eq_some.2 ⟨ps, hres, hc⟩
  obtain ⟨l, hl⟩ := resolve_of_isPrefix (commonComponents_prefix_left _ _) hS
  exact ⟨l, hl, (held_writer_of_resolve_some hl).2, resolve_some_deepest hl⟩

theorem tree_move_same {m : Mem} {root : Nat} (hwf : WF m root) (hidle : Idle m)
    {scs tcs : List Name} {sn tn : Name} (ha : MoveArgs (scs ++ [sn]) (tcs ++ [tn]))
    (fuel : Nat) (hfs : (scs ++ [sn]).length < fuel) (hft : (tcs ++ [tn]).length < fuel)
    {ps v : Nat} (hres : resolve m root scs = some ps)
    (hc : child m ps sn = some v) (hST : scs ++ [sn] = tcs ++ [tn]) :
    tree_move fuel m (some root) (render (scs ++ [sn])) (render (tcs ++ [tn])) =
      some (afterLock m (moveWriter m root (scs ++ [sn]) (tcs ++ [tn])), 0) := by
  have h1 : scs = tcs := List.append_inj_left' hST rfl
  have h2 : sn = tn := by
    have := List.append_inj_right' hST rfl
    simpa using this
  subst h1 h2
  have hs : scs.length < fuel := by simp at hfs; omega
  obtain ⟨tp, htp⟩ := hwf.folder_cell hres
  obtain ⟨t1, ht1, -, hc1⟩ := sameShape_cell_some
    (sameShape_lockedMem m (heldReaders m true root (commonComponents (scs ++ [sn]) (scs ++ [sn])))
      (moveWriter m root (scs ++ [sn]) (scs ++ [sn]))) htp
  have hget : hmap_get tp.contents sn = some v := by rw [← child_eq htp sn]; exact hc
  obtain ⟨l, hl, hW, hd⟩ := moveWriter_of_source (scs ++ [sn]) hres hc
  have hu := unlock_after_lca hwf hidle (scs ++ [sn]) (scs ++ [sn]) fuel hfs
  rw [hl] at hu
  simp only [Option.isSome_some] at hu
  simp only [tree_move, ha.check, lock_lca_spec hwf hidle ha fuel hfs,
    get_parent_tree_spec hwf hidle _ _ fuel hfs scs sn ha.validS hs, hres, ht1, hc1, hget,
    check_tree_and_unlock,
    if_true, hu]

theorem tree_move_exists {m : Mem} {root : Nat} (hwf : WF m root) (hidle : Idle m)
    {scs tcs : List Name} {sn tn : Name} (ha : MoveArgs (scs ++ [sn]) (tcs ++ [tn]))
    (fuel : Nat) (hfs : (scs ++ [sn]).length < fuel) (hft : (tcs ++ [tn]).length < fuel)
    {ps pt v w : Nat} (hres : resolve m root scs = some ps)
    (hc : child m ps sn = some v) (hrt : resolve m root tcs = some pt)
    (hct : child m pt tn = some w) (hST : scs ++ [sn] ≠ tcs ++ [tn]) :
    tree_move fuel m (some root) (render (scs ++ [sn])) (render (tcs ++ [tn])) =
      some (afterLock m (moveWriter m root (scs ++ [sn]) (tcs ++ [tn])), EEXIST) := by
  have hs : scs.length < fuel := by simp at hfs; omega
  have ht : tcs.length < fuel := by simp at hft; omega
  obtain ⟨tp, htp⟩ := hwf.folder_cell hres
  obtain ⟨t1, ht1, -, hc1⟩ := sameShape_cell_some
    (sameShape_lockedMem m (heldReaders m true root (commonComponents (scs ++ [sn]) (tcs ++ [tn])))
      (moveWriter m root (scs ++ [sn]) (tcs ++ [tn]))) htp
  obtain ⟨tq, htq⟩ := hwf.folder_cell hrt
  obtain ⟨t2, ht2, -, hc2⟩ := sameShape_cell_some
    (sameShape_lockedMem m (heldReaders m true root (commonComponents (scs ++ [sn]) (tcs ++ [tn])))
      (moveWriter m root (scs ++ [sn]) (tcs ++ [tn]))) htq
  have hget : hmap_get tp.contents sn = some v := by rw [← child_eq htp sn]; exact hc
  have hget2 : hmap_get tq.contents tn = some w := by rw [← child_eq htq tn]; exact hct
  obtain ⟨l, hl, hW, hd⟩ := moveWriter_of_source (tcs ++ [tn]) hres hc
  have hu := unlock_after_lca hwf hidle (scs ++ [sn]) (tcs ++ [tn]) fuel hfs
  rw [hl] at hu
  simp only [Option.isSome_some] at hu
  have hne : render (scs ++ [sn]) ≠ render (tcs ++ [tn]) :=
    fun h => hST (render_injective ha.validS ha.validT h)
  simp only [tree_move, ha.check, lock_lca_spec hwf hidle ha fuel hfs,
    get_parent_tree_spec hwf hidle _ _ fuel hfs scs sn ha.validS hs, hres, ht1, hc1, hget,
    check_tree_and_unlock,
    get_parent_tree_spec hwf hidle _ _ fuel hfs tcs tn ha.validT ht, hrt, hne, if_false,
    ht2, hc2, hmap_insert, hget2, hu]

theorem MoveArgs.not_under {S T : List Name} (ha : MoveArgs S T) (hST : S ≠ T) : ¬ S <+: T :=
  fun h => ha.noCycle ⟨h, fun h2 => hST h2.symm⟩

theorem tree_move_success {m : Mem} {root : Nat} (hwf : WF m root) (hidle : Idle m)
    {scs tcs : List Name} {sn tn : Name} (ha : MoveArgs (scs ++ [sn]) (tcs ++ [tn]))
    (fuel : Nat) (hfs : (scs ++ [sn]).length < fuel) (hft : (tcs ++ [tn]).length < fuel)
    {l ps pt v : Nat} {tps tpt : Tree}
    (hl : resolve m root (commonComponents (scs ++ [sn]) (tcs ++ [tn])) = some l)
    (hres : resolve m root scs = some ps) (htps : m.cell ps = some tps)
    (hc : child m ps sn = some v) (hrt : resolve m root tcs = some pt)
    (htpt : m.cell pt = some tpt)
    (hct : child m pt tn = none) (hST : scs ++ [sn] ≠ tcs ++ [tn]) :
    tree_move fuel m (some root) (render (scs ++ [sn])) (render (tcs ++ [tn])) =
      some (movedMem m l ps pt v sn tn tps.contents tpt.contents, 0) := by
  have hs : scs.length < fuel := by simp at hfs; omega
  have ht : tcs.length < fuel := by simp at hft; omega
  have hW : moveWriter m root (scs ++ [sn]) (tcs ++ [tn]) = some l :=
    (held_writer_of_resolve_some hl).2
  have hd := resolve_some_deepest hl
  have hSv : resolve m root (scs ++ [sn]) = some v := resolve_concat_eq_some.2 ⟨ps, hres, hc⟩
  obtain ⟨tv, htv, -⟩ := hwf.child_cell hc
  have hnp := ha.not_under hST
  have hvpt : v ≠ pt := by
    intro h
    rw [h] at hSv
    have := hwf.resolve_inj _ _ _ hSv hrt
    exact hnp ⟨[tn], by rw [this]⟩
  have hvps : v ≠ ps := by
    intro h
    rw [h] at hSv
    have := hwf.resolve_inj _ _ _ hSv hres
    have := congrArg List.length this
    simp at this
  have hvchain : v ∉ chain m root (commonComponents (scs ++ [sn]) (tcs ++ [tn])) := by
    intro h
    obtain ⟨q, hq, hrq⟩ := mem_chain h
    have hqS := hwf.resolve_inj _ _ _ hrq hSv
    rw [hqS] at hq
    exact hnp (hq.trans (commonComponents_prefix_right _ _))
  generalize hR : heldReaders m true root (commonComponents (scs ++ [sn]) (tcs ++ [tn])) = R
  have hshape := sameShape_lockedMem m R (some l)
  obtain ⟨t1, ht1, -, hc1⟩ := sameShape_cell_some hshape htps
  obtain ⟨t2, ht2, -, hc2⟩ := sameShape_cell_some hshape htpt
  obtain ⟨tv1, htv1, -, -⟩ := sameShape_cell_some hshape htv
  have hget : hmap_get tps.contents sn = some v := by rw [← child_eq htps sn]; exact hc
  have hget2 : hmap_get tpt.contents tn = none := by rw [← child_eq htpt tn]; exact hct
  have hne : render (scs ++ [sn]) ≠ render (tcs ++ [tn]) :=
    fun h => hST (render_injective ha.validS ha.validT h)
  have hcellv : (setContents (lockedMem m R (some l)) pt ((tn, v) :: tpt.contents)).cell v
      = some tv1 := by
    simp only [setContents, Mem.modify, hvpt, if_false, htv1]
  have hpsv : ps ≠ v := fun h => hvps h.symm
  obtain ⟨ps1, hps1, hps1c⟩ : ∃ ps1, (setAncestor (setContents (lockedMem m R (some l)) pt
      ((tn, v) :: tpt.contents)) v (some pt)).cell ps = some ps1 ∧
      ps1.contents = if ps = pt then (tn, v) :: tpt.contents else tps.contents := by
    by_cases hpp : ps = pt
    · subst hpp
      refine ⟨{ t1 with contents := (tn, v) :: tpt.contents }, ?_, by simp⟩
      simp only [setAncestor, setContents, Mem.modify, hpsv, if_false, if_true, ht1,
        Option.map_some']
    · exact ⟨t1, by simp only [setAncestor, setContents, Mem.modify, hpsv, hpp, if_false, ht1],
        by simp [hpp, hc1]⟩
  have hag : AncAgree m (setContents (setAncestor (setContents (lockedMem m R (some l)) pt
      ((tn, v) :: tpt.contents)) v (some pt)) ps (hmap_remove ps1.contents sn))
      (chain m root (commonComponents (scs ++ [sn]) (tcs ++ [tn]))) := by
    refine ancAgree_setContents (ancAgree_setAncestor (ancAgree_setContents ?_ _ _) _ _ hvchain) _ _
    exact ancAgree_lockedMem hwf _ _ _
  have hlen := (commonComponents_prefix_left (scs ++ [sn]) (tcs ++ [tn])).length_le
  have hu := unlock_path_spec hwf _ _ fuel (by omega) hag true
  rw [hl, hR, (held_writer_of_resolve_some hl).2, hd] at hu
  simp only [Option.isSome_some, Bool.and_self, hps1c] at hu
  have hgs := get_parent_tree_spec hwf hidle (scs ++ [sn]) (tcs ++ [tn]) fuel hfs scs sn
    ha.validS hs
  rw [hW, hR, hd, hl, hres] at hgs
  simp only [Option.isSome_some] at hgs
  have hgp := get_parent_tree_spec hwf hidle (scs ++ [sn]) (tcs ++ [tn]) fuel hfs tcs tn
    ha.validT ht
  rw [hW, hR, hd, hl, hrt] at hgp
  simp only [Option.isSome_some] at hgp
  simp only [tree_move, ha.check, lock_lca_spec hwf hidle ha fuel hfs, hW, hR, hd, hl,
    Option.isSome_some, hgs, ht1, hc1, hget, check_tree_and_unlock]
  simp only [hgp, hne, if_false, ht2, hc2, hmap_insert, hget2, set_contents_eq ht2, hcellv,
    set_ancestor_eq hcellv, hps1, set_contents_eq hps1, hu, hps1c]
  rw [unlockedMem_setContents, unlockedMem_setAncestor, unlockedMem_setContents,
    unlockedMem_lockedMem hidle]
  rfl

theorem hmap_get_remove (map : HashMap) (k k1 : Name) :
    hmap_get (hmap_remove map k) k1 = if k1 = k then none else hmap_get map k1 := by
  induction map with
  | nil => simp [hmap_remove, hmap_get]
  | cons kv rest ih =>
    simp only [hmap_remove] at ih ⊢
    by_cases h : kv.1 = k
    · simp only [List.filter_cons, h, ne_eq, not_true_eq_false, decide_False, Bool.false_eq_true,
        if_false, ih, hmap_get]
      by_cases h1 : k1 = k
      · simp [h1]
      · have : k ≠ k1 := fun h2 => h1 h2.symm
        simp [h1, this]
    · simp only [List.filter_cons, h, ne_eq, not_false_eq_true, decide_True, if_true, hmap_get, ih]
      by_cases h1 : k1 = k
      · subst h1
        simp [h]
      · simp [h1]

theorem mem_hmap_remove {map : HashMap} {k k1 : Name} {x : Nat} :
    (k1, x) ∈ hmap_remove map k ↔ (k1, x) ∈ map ∧ k1 ≠ k := by
  simp [hmap_remove, List.mem_filter]

theorem child_detach (m : Mem) (p : Nat) (k : Name) (a : Nat) (k1 : Name) :
    child (detach m p k) a k1 = if a = p ∧ k1 = k then none else child m a k1 := by
  by_cases ha : a = p
  · subst ha
    cases h : m.cell a with
    | none => simp [child, detach, Mem.modify, h]
    | some t =>
      simp only [child, detach, Mem.modify, h, if_true, Option.map_some', hmap_get_remove, true_and]
  · simp [child, detach, Mem.modify, ha]

theorem child_attach {m : Mem} {p : Nat} {tp : Tree} (hp : m.cell p = some tp) (k : Name)
    (x a : Nat) (k1 : Name) :
    child (attach m p k x) a k1 = if a = p ∧ k1 = k then some x else child m a k1 := by
  have key : ∀ (m1 : Mem) (y : Nat) (anc : Option Nat),
      child (m1.modify y (fun t => { t with ancestor := anc })) a k1 = child m1 a k1 := by
    intro m1 y anc
    by_cases hy : a = y
    · subst hy
      cases h : m1.cell a <;> simp [child, Mem.modify, h]
    · simp [child, Mem.modify, hy]
  rw [attach, key]
  by_cases ha : a = p
  · subst ha
    simp only [child, Mem.modify, hp, if_true, Option.map_some', hmap_get, true_and]
    by_cases hk : k1 = k
    · simp [hk]
    · have : k ≠ k1 := fun h => hk h.symm
      simp [hk, this]
  · simp [child, Mem.modify, ha]

theorem child_touch (m : Mem) (l a : Nat) (k : Name) : child (touch m l) a k = child m a k :=
  sameShape_child (sameShape_touch m l) a k

theorem child_free (m : Mem) (v a : Nat) (k : Name) :
    child (m.free v) a k = if a = v then none else child m a k := by
  by_cases h : a = v <;> simp [child, Mem.free, h]

theorem child_tree_new {m : Mem} {root : Nat} (hwf : WF m root) (a : Nat) (k : Name) :
    child (tree_new m).1 a k = child m a k := by
  by_cases h : a = m.next
  · subst h
    simp [child, tree_new, hwf.fresh _ (le_refl _), hmap_new, hmap_get]
  · simp [child, tree_new, h]

/-- Walking along a path gives the same node in two memories that agree on the edges
used. -/
theorem resolve_congr {m m1 : Mem} (q : List Name) (cur : Nat)
    (h : ∀ q1 k a, q1 ++ [k] <+: q → resolve m cur q1 = some a → child m1 a k = child m a k) :
    resolve m1 cur q = resolve m cur q := by
  induction q generalizing cur with
  | nil => rfl
  | cons k q ih =>
    have h0 : child m1 cur k = child m cur k :=
      h [] k cur ⟨q, by simp⟩ rfl
    simp only [resolve, h0]
    cases hc : child m cur k with
    | none => rfl
    | some x =>
      apply ih
      intro q1 k1 a hpre hres
      apply h (k :: q1) k1 a
      · obtain ⟨r, hr⟩ := hpre
        exact ⟨r, by simp [← hr]⟩
      · rw [resolve_cons_some hc]
        exact hres

/-! ## Well-formedness and idleness are kept -/

theorem wf_touch {m : Mem} {root : Nat} (hwf : WF m root) (l : Nat) : WF (touch m l) root :=
  sameShape_wf (sameShape_touch m l) rfl hwf

theorem idle_modify {m : Mem} (hidle : Idle m) (a : Nat) (f : Tree → Tree)
    (hf : ∀ t, (f t).readers_number = t.readers_number ∧ (f t).writers_number = t.writers_number ∧
      (f t).waiting_readers = t.waiting_readers ∧ (f t).waiting_writers = t.waiting_writers) :
    Idle (m.modify a f) := by
  intro x t hx
  by_cases hxa : x = a
  · subst hxa
    cases h : m.cell x with
    | none => simp [Mem.modify, h] at hx
    | some t0 =>
      simp only [Mem.modify, h, if_true, Option.map_some', Option.some.injEq] at hx
      subst hx
      obtain ⟨h1, h2, h3, h4⟩ := hf t0
      rw [h1, h2, h3, h4]
      exact hidle x t0 h
  · simp only [Mem.modify, hxa, if_false] at hx
    exact hidle x t hx

theorem idle_touch {m : Mem} (hidle : Idle m) (l : Nat) : Idle (touch m l) := by
  unfold touch
  apply idle_modify
  · exact hidle
  · intro t; exact ⟨rfl, rfl, rfl, rfl⟩

theorem idle_afterLock {m : Mem} (hidle : Idle m) (W : Option Nat) : Idle (afterLock m W) := by
  cases W with
  | none => exact hidle
  | some l => exact idle_touch hidle l

theorem sameShape_afterLock (m : Mem) (W : Option Nat) : SameShape m (afterLock m W) := by
  cases W with
  | none => exact sameShape_refl m
  | some l => exact sameShape_touch m l

theorem wf_afterLock {m : Mem} {root : Nat} (hwf : WF m root) (W : Option Nat) :
    WF (afterLock m W) root :=
  sameShape_wf (sameShape_afterLock m W) (by cases W <;> rfl) hwf

theorem idle_detach {m : Mem} (hidle : Idle m) (p : Nat) (k : Name) : Idle (detach m p k) := by
  unfold detach
  apply idle_modify
  · exact hidle
  · intro t; exact ⟨rfl, rfl, rfl, rfl⟩

theorem idle_attach {m : Mem} (hidle : Idle m) (p : Nat) (k : Name) (x : Nat) :
    Idle (attach m p k x) := by
  unfold attach
  apply idle_modify
  · apply idle_modify
    · exact hidle
    · intro t; exact ⟨rfl, rfl, rfl, rfl⟩
  · intro t; exact ⟨rfl, rfl, rfl, rfl⟩

theorem idle_free {m : Mem} (hidle : Idle m) (v : Nat) : Idle (m.free v) := by
  intro x t hx
  by_cases hxv : x = v
  · simp [Mem.free, hxv] at hx
  · simp only [Mem.free, hxv, if_false] at hx
    exact hidle x t hx

theorem idle_tree_new {m : Mem} (hidle : Idle m) : Idle (tree_new m).1 := by
  intro x t hx
  by_cases hxv : x = m.next
  · simp only [tree_new, hxv, if_true, Option.some.injEq] at hx
    subst hx
    exact ⟨rfl, rfl, rfl, rfl⟩
  · simp only [tree_new, hxv, if_false] at hx
    exact hidle x t hx

theorem wf_detach {m : Mem} {root : Nat} (hwf : WF m root) (p : Nat) (k : Name) :
    WF (detach m p k) root := by
  have hcell : ∀ a t1, (detach m p k).cell a = some t1 →
      ∃ t, m.cell a = some t ∧ t1.ancestor = t.ancestor ∧
        (t1.contents = t.contents ∨ t1.contents = hmap_remove t.contents k) := by
    intro a t1 h
    by_cases ha : a = p
    · subst ha
      cases h0 : m.cell a with
      | none => simp [detach, Mem.modify, h0] at h
      | some t =>
        simp only [detach, Mem.modify, h0, if_true, Option.map_some', Option.some.injEq] at h
        subst h
        exact ⟨t, rfl, rfl, Or.inr rfl⟩
    · simp only [detach, Mem.modify, ha, if_false] at h
      exact ⟨t1, h, rfl, Or.inl rfl⟩
  have hcell2 : ∀ a t, m.cell a = some t →
      ∃ t1, (detach m p k).cell a = some t1 ∧ t1.ancestor = t.ancestor := by
    intro a t h
    by_cases ha : a = p
    · subst ha
      exact ⟨{ t with contents := hmap_remove t.contents k }, by simp [detach, Mem.modify, h], rfl⟩
    · exact ⟨t, by simp [detach, Mem.modify, ha, h], rfl⟩
  have hsub : ∀ (t1 t : Tree), (t1.contents = t.contents ∨ t1.contents = hmap_remove t.contents k) →
      t1.contents.Sublist t.contents := by
    intro t1 t h
    rcases h with h | h
    · rw [h]
    · rw [h]; exact List.filter_sublist _
  constructor
  · obtain ⟨t, ht, ha⟩ := hwf.root_ok
    obtain ⟨t1, ht1, ha1⟩ := hcell2 root t ht
    exact ⟨t1, ht1, ha1.trans ha⟩
  · intro a t1 k1 c ht1 hmem
    obtain ⟨t, ht, -, hc⟩ := hcell a t1 ht1
    obtain ⟨tc, htc, hanc⟩ := hwf.child_ok a t k1 c ht ((hsub t1 t hc).subset hmem)
    obtain ⟨tc1, htc1, hanc1⟩ := hcell2 c tc htc
    exact ⟨tc1, htc1, hanc1.trans hanc⟩
  · intro a t1 ht1
    obtain ⟨t, ht, -, hc⟩ := hcell a t1 ht1
    exact ((hsub t1 t hc).map Prod.fst).nodup (hwf.keys_nodup a t ht)
  · intro a t1 ht1
    obtain ⟨t, ht, -, hc⟩ := hcell a t1 ht1
    exact ((hsub t1 t hc).map Prod.snd).nodup (hwf.vals_nodup a t ht)
  · intro a ha
    have := hwf.fresh a ha
    by_cases hap : a = p
    · subst hap; simp [detach, Mem.modify, this]
    · simp [detach, Mem.modify, hap, this]

theorem wf_free {m : Mem} {root : Nat} (hwf : WF m root) {v : Nat} (hv : Unlinked m v)
    (hroot : v ≠ root) : WF (m.free v) root := by
  constructor
  · obtain ⟨t, ht, ha⟩ := hwf.root_ok
    have : root ≠ v := fun h => hroot h.symm
    exact ⟨t, by simp [Mem.free, this, ht], ha⟩
  · intro a t k c ht hmem
    by_cases hav : a = v
    · simp [Mem.free, hav] at ht
    · simp only [Mem.free, hav, if_false] at ht
      obtain ⟨tc, htc, hanc⟩ := hwf.child_ok a t k c ht hmem
      have hcv : c ≠ v := by
        intro h
        subst h
        exact hv a t k ht hmem
      exact ⟨tc, by simp [Mem.free, hcv, htc], hanc⟩
  · intro a t ht
    by_cases hav : a = v
    · simp [Mem.free, hav] at ht
    · simp only [Mem.free, hav, if_false] at ht
      exact hwf.keys_nodup a t ht
  · intro a t ht
    by_cases hav : a = v
    · simp [Mem.free, hav] at ht
    · simp only [Mem.free, hav, if_false] at ht
      exact hwf.vals_nodup a t ht
  · intro a ha
    have := hwf.fresh a ha
    by_cases hav : a = v <;> simp [Mem.free, hav, this]

theorem wf_tree_new {m : Mem} {root : Nat} (hwf : WF m root) : WF (tree_new m).1 root := by
  have hold : ∀ a t, m.cell a = some t → (tree_new m).1.cell a = some t := by
    intro a t h
    rw [tree_new_cell_ne _ (hwf.ne_next h)]
    exact h
  constructor
  · obtain ⟨t, ht, ha⟩ := hwf.root_ok
    exact ⟨t, hold root t ht, ha⟩
  · intro a t k c ht hmem
    by_cases han : a = m.next
    · subst han
      rw [tree_new_cell_next] at ht
      cases ht
      simp [hmap_new] at hmem
    · rw [tree_new_cell_ne _ han] at ht
      obtain ⟨tc, htc, hanc⟩ := hwf.child_ok a t k c ht hmem
      exact ⟨tc, hold c tc htc, hanc⟩
  · intro a t ht
    by_cases han : a = m.next
    · subst han
      rw [tree_new_cell_next] at ht
      cases ht
      simp [hmap_new]
    · rw [tree_new_cell_ne _ han] at ht
      exact hwf.keys_nodup a t ht
  · intro a t ht
    by_cases han : a = m.next
    · subst han
      rw [tree_new_cell_next] at ht
      cases ht
      simp [hmap_new]
    · rw [tree_new_cell_ne _ han] at ht
      exact hwf.vals_nodup a t ht
  · intro a ha
    have h1 : (tree_new m).1.next = m.next + 1 := rfl
    rw [h1] at ha
    rw [tree_new_cell_ne _ (by omega)]
    exact hwf.fresh a (by omega)

theorem attach_cell (m : Mem) (p : Nat) (k : Name) (x a : Nat) :
    (attach m p k x).cell a =
      (m.cell a).map (fun t =>
        { t with ancestor := if a = x then some p else t.ancestor,
                 contents := if a = p then (k, x) :: t.contents else t.contents }) := by
  by_cases hx : a = x
  · subst hx
    by_cases hp : a = p
    · subst hp
      cases h : m.cell a <;> simp [attach, Mem.modify, h]
    · cases h : m.cell a <;> simp [attach, Mem.modify, h, hp]
  · by_cases hp : a = p
    · subst hp
      cases h : m.cell a <;> simp [attach, Mem.modify, h, hx]
    · cases h : m.cell a <;> simp [attach, Mem.modify, h, hx, hp]

theorem wf_attach {m : Mem} {root : Nat} (hwf : WF m root) {p x : Nat} {tp tx : Tree} {k : Name}
    (hp : m.cell p = some tp) (hx : m.cell x = some tx) (hxroot : x ≠ root)
    (hun : Unlinked m x) (hk : child m p k = none) : WF (attach m p k x) root := by
  have hkeys : k ∉ tp.contents.map Prod.fst := by
    rw [← hmap_get_eq_none_iff, ← child_eq hp k]
    exact hk
  have hvals : x ∉ tp.contents.map Prod.snd := by
    intro h
    obtain ⟨⟨k1, x1⟩, hmem, rfl⟩ := List.mem_map.1 h
    exact hun p tp k1 hp hmem
  have hcell : ∀ a t1, (attach m p k x).cell a = some t1 →
      ∃ t, m.cell a = some t ∧ t1.ancestor = (if a = x then some p else t.ancestor) ∧
        t1.contents = (if a = p then (k, x) :: t.contents else t.contents) := by
    intro a t1 h
    rw [attach_cell] at h
    cases h0 : m.cell a with
    | none => simp [h0] at h
    | some t =>
      simp only [h0, Option.map_some', Option.some.injEq] at h
      subst h
      exact ⟨t, rfl, rfl, rfl⟩
  constructor
  · obtain ⟨t, ht, ha⟩ := hwf.root_ok
    have : root ≠ x := fun h => hxroot h.symm
    refine ⟨_, by rw [attach_cell, ht]; rfl, ?_⟩
    simp [this, ha]
  · intro a t1 k1 c ht1 hmem
    obtain ⟨t, ht, -, hc⟩ := hcell a t1 ht1
    rw [hc] at hmem
    have hold : (k1, c) ∈ t.contents →
        ∃ tc, (attach m p k x).cell c = some tc ∧ tc.ancestor = some a := by
      intro hm
      obtain ⟨tc, htc, hanc⟩ := hwf.child_ok a t k1 c ht hm
      have hcx : c ≠ x := by
        intro h
        subst h
        exact hun a t k1 ht hm
      refine ⟨_, by rw [attach_cell, htc]; rfl, ?_⟩
      simp [hcx, hanc]
    by_cases hap : a = p
    · subst hap
      simp only [if_true, List.mem_cons, Prod.mk.injEq] at hmem
      rcases hmem with ⟨-, rfl⟩ | hm
      · refine ⟨_, by rw [attach_cell, hx]; rfl, ?_⟩
        simp
      · exact hold hm
    · simp only [hap, if_false] at hmem
      exact hold hmem
  · intro a t1 ht1
    obtain ⟨t, ht, -, hc⟩ := hcell a t1 ht1
    rw [hc]
    by_cases hap : a = p
    · subst hap
      rw [hp] at ht
      cases ht
      simp only [if_true, List.map_cons, List.nodup_cons]
      exact ⟨hkeys, hwf.keys_nodup a tp hp⟩
    · simp only [hap, if_false]
      exact hwf.keys_nodup a t ht
  · intro a t1 ht1
    obtain ⟨t, ht, -, hc⟩ := hcell a t1 ht1
    rw [hc]
    by_cases hap : a = p
    · subst hap
      rw [hp] at ht
      cases ht
      simp only [if_true, List.map_cons, List.nodup_cons]
      exact ⟨hvals, hwf.vals_nodup a tp hp⟩
    · simp only [hap, if_false]
      exact hwf.vals_nodup a t ht
  · intro a ha
    rw [attach_cell, hwf.fresh a ha]
    rfl

/-- After the entry of a child has been removed from its parent, no map holds the child. -/
theorem unlinked_detach {m : Mem} {root : Nat} (hwf : WF m root) {p v : Nat} {k : Name}
    (hc : child m p k = some v) : Unlinked (detach m p k) v := by
  intro a t1 k1 ht1 hmem
  obtain ⟨tp, htp, hkv⟩ := child_some hc
  obtain ⟨tv, htv, hanc⟩ := hwf.child_cell hc
  by_cases hap : a = p
  · subst hap
    simp only [detach, Mem.modify, htp, if_true, Option.map_some', Option.some.injEq] at ht1
    subst ht1
    obtain ⟨hm, hne⟩ := mem_hmap_remove.1 hmem
    have := List.inj_on_of_nodup_map (hwf.vals_nodup a tp htp) hm hkv rfl
    exact hne (Prod.mk.inj this).1
  · simp only [detach, Mem.modify, hap, if_false] at ht1
    obtain ⟨tv2, htv2, hanc2⟩ := hwf.child_ok a t1 k1 v ht1 hmem
    rw [htv] at htv2
    cases htv2
    rw [hanc] at hanc2
    exact hap (Option.some.inj hanc2).symm

theorem unlinked_next {m : Mem} {root : Nat} (hwf : WF m root) : Unlinked (tree_new m).1 m.next := by
  intro a t k ht hmem
  by_cases han : a = m.next
  · subst han
    rw [tree_new_cell_next] at ht
    cases ht
    simp [hmap_new] at hmem
  · rw [tree_new_cell_ne _ han] at ht
    obtain ⟨tc, htc, -⟩ := hwf.child_ok a t k _ ht hmem
    rw [hwf.fresh _ (le_refl _)] at htc
    cases htc

/-- A child is never the root. -/
theorem WF.child_ne_root {m : Mem} {root : Nat} (hwf : WF m root) {p v : Nat} {k : Name}
    (hc : child m p k = some v) : v ≠ root := by
  intro h
  subst h
  obtain ⟨tv, htv, hanc⟩ := hwf.child_cell hc
  obtain ⟨tr, htr, hr⟩ := hwf.root_ok
  rw [htv] at htr
  cases htr
  rw [hr] at hanc
  cases hanc

/-! ## Folders after a change of one edge -/

/-- A change of the single edge `(p, k)` is not seen by paths that do not go through the
folder `P ++ [k]`. -/
theorem resolve_off_edge {m m1 : Mem} {root : Nat} (hwf : WF m root) {P : List Name} {p : Nat}
    {k : Name} (hP : resolve m root P = some p)
    (hch : ∀ a k1, ¬ (a = p ∧ k1 = k) → child m1 a k1 = child m a k1)
    {q : List Name} (hq : ¬ (P ++ [k]) <+: q) : resolve m1 root q = resolve m root q := by
  apply resolve_congr
  intro q1 k1 a hpre hres
  apply hch
  rintro ⟨rfl, rfl⟩
  have := hwf.resolve_inj _ _ _ hres hP
  subst this
  exact hq hpre

theorem prefix_concat_self_false (P : List Name) (k : Name) : ¬ (P ++ [k]) <+: P := by
  intro h
  have := h.length_le
  simp at this

theorem resolve_detach_off {m : Mem} {root : Nat} (hwf : WF m root) {P : List Name} {p : Nat}
    (k : Name) (hP : resolve m root P = some p) {q : List Name} (hq : ¬ (P ++ [k]) <+: q) :
    resolve (detach m p k) root q = resolve m root q := by
  apply resolve_off_edge hwf hP _ hq
  intro a k1 h
  rw [child_detach, if_neg h]

theorem resolve_detach_under {m : Mem} {root : Nat} (hwf : WF m root) {P : List Name} {p : Nat}
    (k : Name) (hP : resolve m root P = some p) (s : List Name) :
    resolve (detach m p k) root (P ++ [k] ++ s) = none := by
  rw [List.append_assoc, resolve_append,
    resolve_detach_off hwf k hP (prefix_concat_self_false P k), hP]
  simp [resolve, child_detach]

theorem resolve_attach_off {m : Mem} {root : Nat} (hwf : WF m root) {P : List Name} {p : Nat}
    {tp : Tree} (k : Name) (x : Nat) (hP : resolve m root P = some p) (hp : m.cell p = some tp)
    {q : List Name} (hq : ¬ (P ++ [k]) <+: q) :
    resolve (attach m p k x) root q = resolve m root q := by
  apply resolve_off_edge hwf hP _ hq
  intro a k1 h
  rw [child_attach hp, if_neg h]

theorem resolve_attach_under {m : Mem} {root : Nat} (hwf : WF m root) {P : List Name} {p : Nat}
    {tp : Tree} (k : Name) (x : Nat) (hP : resolve m root P = some p) (hp : m.cell p = some tp)
    (hsub : ∀ s y, resolve m x s = some y → y ≠ p) (s : List Name) :
    resolve (attach m p k x) root (P ++ [k] ++ s) = resolve m x s := by
  rw [List.append_assoc, resolve_append,
    resolve_attach_off hwf k x hP hp (prefix_concat_self_false P k), hP]
  have h1 : child (attach m p k x) p k = some x := by
    rw [child_attach hp]; simp
  simp only [Option.some_bind, List.singleton_append, resolve, h1]
  apply resolve_congr
  intro q1 k1 a _ hres
  rw [child_attach hp, if_neg]
  rintro ⟨rfl, -⟩
  exact hsub q1 a hres rfl

/-- An unlinked node other than the root is the folder of no path. -/
theorem resolve_ne_unlinked {m : Mem} {root v : Nat} (hun : Unlinked m v) (hroot : v ≠ root)
    (q : List Name) : resolve m root q ≠ some v := by
  intro h
  rcases List.eq_nil_or_concat q with rfl | ⟨q1, k, rfl⟩
  · simp only [resolve, Option.some.injEq] at h
    exact hroot h.symm
  · rw [List.concat_eq_append] at h
    obtain ⟨p, -, hc⟩ := resolve_concat_eq_some.1 h
    obtain ⟨t, ht, hmem⟩ := child_some hc
    exact hun p t k ht hmem

theorem resolve_free {m : Mem} {root v : Nat} (hun : Unlinked m v) (hroot : v ≠ root)
    (q : List Name) : resolve (m.free v) root q = resolve m root q := by
  apply resolve_congr
  intro q1 k a _ hres
  rw [child_free, if_neg]
  intro h
  subst h
  exact resolve_ne_unlinked hun hroot q1 hres

theorem resolve_tree_new {m : Mem} {root : Nat} (hwf : WF m root) (cur : Nat) (q : List Name) :
    resolve (tree_new m).1 cur q = resolve m cur q :=
  resolve_congr q cur (fun _ k a _ _ => child_tree_new hwf a k)

theorem resolve_touch (m : Mem) (l cur : Nat) (q : List Name) :
    resolve (touch m l) cur q = resolve m cur q :=
  sameShape_resolve (sameShape_touch m l) cur q

/-- From a node that is not allocated no folder but the node itself is reached. -/
theorem resolve_unallocated {m : Mem} {x : Nat} (hx : m.cell x = none) (s : List Name) (y : Nat)
    (h : resolve m x s = some y) : s = [] ∧ y = x := by
  cases s with
  | nil =>
    simp only [resolve, Option.some.injEq] at h
    exact ⟨rfl, h.symm⟩
  | cons k s => simp [resolve, child, hx] at h

/-- The walk below a folder stays below it. -/
theorem resolve_below {m : Mem} {root : Nat} {S : List Name} {v : Nat}
    (hS : resolve m root S = some v) (s : List Name) :
    resolve m root (S ++ s) = resolve m v s := by
  rw [resolve_append, hS]
  rfl

/-! ## The memory after each successful operation -/

theorem createdMem_eq {m : Mem} {root : Nat} (hwf : WF m root) {pt : Nat} {tp : Tree} (c : Name)
    (htp : m.cell pt = some tp) :
    createdMem m pt c tp.contents = attach (tree_new (touch m pt)).1 pt c m.next := by
  have hptn : pt ≠ m.next := hwf.ne_next htp
  have hnpt : m.next ≠ pt := fun h => hptn h.symm
  apply Mem.ext_cell
  · intro a
    rw [attach_cell]
    by_cases ha : a = m.next
    · subst ha
      simp [createdMem, setAncestor, setContents, Mem.modify, tree_new, touch, hnpt]
    · by_cases hp : a = pt
      · subst hp
        simp [createdMem, setAncestor, setContents, Mem.modify, tree_new, touch, ha, htp]
      · simp [createdMem, setAncestor, setContents, Mem.modify, tree_new, touch, ha, hp]
  · rfl

theorem removedMem_eq {m : Mem} {pt : Nat} {tp : Tree} (c : Name) (v : Nat)
    (htp : m.cell pt = some tp) :
    removedMem m pt c v tp.contents = (detach (touch m pt) pt c).free v := by
  apply Mem.ext_cell
  · intro a
    by_cases ha : a = v
    · simp [removedMem, Mem.free, ha]
    · by_cases hp : a = pt
      · subst hp
        simp [removedMem, Mem.free, ha, setContents, detach, Mem.modify, touch, htp]
      · simp [removedMem, Mem.free, ha, setContents, detach, Mem.modify, touch, hp]
  · rfl

theorem hmap_remove_cons_ne (map : HashMap) {k k1 : Name} (x : Nat) (h : k1 ≠ k) :
    hmap_remove ((k1, x) :: map) k = (k1, x) :: hmap_remove map k := by
  simp [hmap_remove, List.filter_cons, h]

theorem modify_cell (m : Mem) (p : Nat) (f : Tree → Tree) (a : Nat) :
    (m.modify p f).cell a = (m.cell a).map (fun t => if a = p then f t else t) := by
  by_cases h : a = p
  · simp [Mem.modify, h]
  · simp [Mem.modify, h]

theorem movedMem_eq {m : Mem} {l ps pt v : Nat} {tps tpt : Tree} {sn tn : Name}
    (htps : m.cell ps = some tps) (htpt : m.cell pt = some tpt) (hvps : v ≠ ps) (hvpt : v ≠ pt)
    (hne : ps = pt → tn ≠ sn) :
    movedMem m l ps pt v sn tn tps.contents tpt.contents =
      attach (detach (touch m l) ps sn) pt tn v := by
  apply Mem.ext_cell
  · intro a
    rw [attach_cell]
    simp only [movedMem, setContents, setAncestor, detach, touch, modify_cell, Option.map_map]
    cases hc : m.cell a with
    | none => rfl
    | some t =>
      simp only [Option.map_some', Function.comp_apply, Option.some.injEq]
      by_cases hav : a = v
      · subst hav
        simp [hvps, hvpt]
      · by_cases hps : a = ps
        · subst hps
          rw [hc] at htps
          cases htps
          by_cases hpp : a = pt
          · subst hpp
            rw [hc] at htpt
            cases htpt
            rcases eq_or_ne a l with hal | hal
            · subst hal; simp [hav, hmap_remove_cons_ne _ _ (hne rfl)]
            · simp [hav, hmap_remove_cons_ne _ _ (hne rfl), hal]
          · rcases eq_or_ne a l with hal | hal
            · subst hal; simp [hav, hpp]
            · simp [hav, hpp, hal]
        · by_cases hpp : a = pt
          · subst hpp
            rw [hc] at htpt
            cases htpt
            rcases eq_or_ne a l with hal | hal
            · subst hal; simp [hav, hps]
            · simp [hav, hps, hal]
          · rcases eq_or_ne a l with hal | hal
            · subst hal; simp [hav, hps, hpp]
            · simp [hav, hps, hpp, hal]
  · rfl

/-! ## Facts about the tree after `tree_create` -/

theorem touch_cell_some {m : Mem} {a : Nat} {t : Tree} (l : Nat) (h : m.cell a = some t) :
    ∃ t1, (touch m l).cell a = some t1 ∧ t1.ancestor = t.ancestor ∧ t1.contents = t.contents :=
  sameShape_cell_some (sameShape_touch m l) h

theorem create_facts {m : Mem} {root : Nat} (hwf : WF m root) (hidle : Idle m)
    {cs : List Name} {c : Name} {pt : Nat} {tp : Tree} (hres : resolve m root cs = some pt)
    (htp : m.cell pt = some tp) (hc : child m pt c = none) :
    WF (createdMem m pt c tp.contents) root ∧ Idle (createdMem m pt c tp.contents) ∧
    (∀ s, resolve (createdMem m pt c tp.contents) root (cs ++ [c] ++ s) =
      if s = [] then some m.next else none) ∧
    (∀ q, ¬ (cs ++ [c]) <+: q →
      resolve (createdMem m pt c tp.contents) root q = resolve m root q) ∧
    (∃ t, (createdMem m pt c tp.contents).cell m.next = some t ∧ t.ancestor = some pt ∧
      t.contents = []) ∧
    (∃ t, (createdMem m pt c tp.contents).cell pt = some t ∧ t.ancestor = tp.ancestor ∧
      t.contents = (c, m.next) :: tp.contents) ∧
    (∀ a, a ≠ pt → a ≠ m.next → (createdMem m pt c tp.contents).cell a = m.cell a) := by
  rw [createdMem_eq hwf c htp]
  have hwfM : WF (tree_new (touch m pt)).1 root := wf_tree_new (wf_touch hwf pt)
  have hidleM : Idle (tree_new (touch m pt)).1 := idle_tree_new (idle_touch hidle pt)
  have hptn : pt ≠ m.next := hwf.ne_next htp
  obtain ⟨tp1, htp1, hanc1, hcon1⟩ := touch_cell_some pt htp
  have hMpt : (tree_new (touch m pt)).1.cell pt = some tp1 := by
    rw [tree_new_cell_ne (touch m pt) hptn]; exact htp1
  have hMn := tree_new_cell_next (touch m pt)
  have hnext : (touch m pt).next = m.next := rfl
  rw [hnext] at hMn
  have hun : Unlinked (tree_new (touch m pt)).1 m.next := unlinked_next (wf_touch hwf pt)
  have hresM : ∀ cur q, resolve (tree_new (touch m pt)).1 cur q = resolve m cur q := by
    intro cur q
    rw [resolve_tree_new (wf_touch hwf pt), resolve_touch]
  have hchM : child (tree_new (touch m pt)).1 pt c = none := by
    rw [child_tree_new (wf_touch hwf pt), child_touch]; exact hc
  have hroot : m.next ≠ root := by
    obtain ⟨t, ht⟩ := hwf.root_cell
    exact fun h => hwf.ne_next ht h.symm
  have hP : resolve (tree_new (touch m pt)).1 root cs = some pt := by rw [hresM]; exact hres
  have hfree : m.cell m.next = none := hwf.fresh _ (le_refl _)
  refine ⟨wf_attach hwfM hMpt hMn hroot hun hchM, idle_attach hidleM _ _ _, ?_, ?_, ?_, ?_, ?_⟩
  · intro s
    rw [resolve_attach_under hwfM c m.next hP hMpt ?_ s, hresM]
    · cases s with
      | nil => simp [resolve]
      | cons k s => simp [resolve, child, hfree]
    · intro s y hy
      rw [hresM] at hy
      obtain ⟨-, rfl⟩ := resolve_unallocated hfree s y hy
      exact fun h => hptn h.symm
  · intro q hq
    rw [resolve_attach_off hwfM c m.next hP hMpt hq, hresM]
  · refine ⟨_, by rw [attach_cell, hMn]; rfl, by simp, ?_⟩
    have : m.next ≠ pt := fun h => hptn h.symm
    simp [this, hmap_new]
  · refine ⟨_, by rw [attach_cell, hMpt]; rfl, ?_, ?_⟩
    · simp [hptn, hanc1]
    · simp [hcon1]
  · intro a ha han
    rw [attach_cell, tree_new_cell_ne (touch m pt) han]
    simp only [touch, Mem.modify, ha, if_false, han]
    cases m.cell a <;> rfl

theorem wf_initMem : WF initMem 0 := by
  constructor
  · exact ⟨_, rfl, rfl⟩
  · intro a t k c ht hmem
    by_cases ha : a = 0
    · subst ha
      simp only [initMem, tree_new, Mem.empty, if_true, Option.some.injEq] at ht
      subst ht
      simp [hmap_new] at hmem
    · simp [initMem, tree_new, Mem.empty, ha] at ht
  · intro a t ht
    by_cases ha : a = 0
    · subst ha
      simp only [initMem, tree_new, Mem.empty, if_true, Option.some.injEq] at ht
      subst ht
      simp [hmap_new]
    · simp [initMem, tree_new, Mem.empty, ha] at ht
  · intro a t ht
    by_cases ha : a = 0
    · subst ha
      simp only [initMem, tree_new, Mem.empty, if_true, Option.some.injEq] at ht
      subst ht
      simp [hmap_new]
    · simp [initMem, tree_new, Mem.empty, ha] at ht
  · intro a ha
    have h1 : initMem.next = 1 := rfl
    rw [h1] at ha
    have : a ≠ 0 := by omega
    simp [initMem, tree_new, Mem.empty, this]

theorem idle_initMem : Idle initMem := by
  intro a t ht
  by_cases ha : a = 0
  · subst ha
    simp only [initMem, tree_new, Mem.empty, if_true, Option.some.injEq] at ht
    subst ht
    exact ⟨rfl, rfl, rfl, rfl⟩
  · simp [initMem, tree_new, Mem.empty, ha] at ht

theorem valid_path_cases {p : Path} (h : is_path_valid p = true) :
    p = ['/'] ∨ ∃ cs c, (∀ x ∈ cs ++ [c], validName x = true) ∧ p = render (cs ++ [c]) := by
  obtain ⟨cs, hv, rfl⟩ := (is_path_valid_iff p).1 h
  rcases List.eq_nil_or_concat cs with rfl | ⟨cs1, c, rfl⟩
  · left; rfl
  · right
    rw [List.concat_eq_append] at hv ⊢
    exact ⟨cs1, c, hv, rfl⟩

theorem folder_render (m : Mem) (root : Nat) {cs : List Name}
    (hv : ∀ x ∈ cs, validName x = true) : folder m root (render cs) = resolve m root cs := by
  simp [folder, path_components_render cs hv]

theorem parentFolder_render (m : Mem) (root : Nat) {cs : List Name} {c : Name}
    (hv : ∀ x ∈ cs ++ [c], validName x = true) :
    parentFolder m root (render (cs ++ [c])) = resolve m root cs := by
  obtain ⟨hvcs, hvc⟩ := valid_of_concat hv
  simp [parentFolder, make_path_to_parent_render_concat cs c hvcs hvc, folder_render m root hvcs]

theorem fuel_of_length {cs : List Name} {fuel : Nat} (h : (render cs).length ≤ fuel) :
    cs.length < fuel := by
  have := render_length cs
  omega

theorem resolve_concat (m : Mem) (cur : Nat) (cs : List Name) (c : Name) :
    resolve m cur (cs ++ [c]) = (resolve m cur cs).bind (fun p => child m p c) := by
  rw [resolve_append]
  cases resolve m cur cs with
  | none => rfl
  | some p =>
    simp only [Option.some_bind, resolve]
    cases child m p c <;> rfl

theorem folder_eq_none_of_invalid (m : Mem) (root : Nat) {p : Path}
    (h : is_path_valid p = false) : folder m root p = none := by
  simp only [is_path_valid] at h
  cases hc : path_components p with
  | none => simp [folder, hc]
  | some cs => simp [hc] at h

/-! ## Claims about `tree_create` -/

/-- C1: on a well-formed tree whose rooms are idle, `tree_create` returns `EINVAL` for an
invalid path, otherwise `EEXIST` for `/`, otherwise `ENOENT` when the parent folder is
missing, otherwise `EEXIST` when the folder exists, otherwise `0`; and a second
`tree_create` of the same path right after a successful one returns `EEXIST`. -/
theorem tree_create_returns (m : Mem) (root : Nat) (path : Path) (fuel : Nat)
    (hwf : WF m root) (hidle : Idle m) (hfuel : path.length ≤ fuel) :
    ∃ m1, tree_create fuel m (some root) path = some (m1, create_code m root path) ∧
      (create_code m root path = 0 →
        ∃ m2, tree_create fuel m1 (some root) path = some (m2, EEXIST)) := by
  cases hval : is_path_valid path with
  | false =>
    refine ⟨m, ?_, ?_⟩
    · rw [tree_create_invalid fuel m _ path hval]
      simp [create_code, hval]
    · simp [create_code, hval, EINVAL]
  | true =>
    rcases valid_path_cases hval with rfl | ⟨cs, c, hv, rfl⟩
    · refine ⟨m, ?_, ?_⟩
      · rw [tree_create_root]
        simp [create_code, hval]
      · simp [create_code, hval, EEXIST]
    · have hf : cs.length < fuel := by
        have := fuel_of_length hfuel
        simp at this
        omega
      have hcode : create_code m root (render (cs ++ [c])) =
          if (resolve m root cs).isNone then ENOENT
          else if (resolve m root (cs ++ [c])).isSome then EEXIST else 0 := by
        simp only [create_code, hval, Bool.true_eq_false, if_false, render_concat_ne_root,
          parentFolder_render m root hv, folder_render m root hv]
      rw [hcode]
      cases hres : resolve m root cs with
      | none =>
        refine ⟨m, ?_, ?_⟩
        · rw [tree_create_noent hwf hidle cs c hv fuel hf hres]
          simp
        · simp [ENOENT]
      | some pt =>
        obtain ⟨tp, htp⟩ := hwf.folder_cell hres
        rw [resolve_concat, hres]
        simp only [Option.isNone_some, Bool.false_eq_true, if_false, Option.some_bind]
        have hcases : child m pt c = none ∨ ∃ v, child m pt c = some v := by
          cases child m pt c <;> simp
        rcases hcases with hc | ⟨v, hc⟩
        · refine ⟨createdMem m pt c tp.contents, ?_, ?_⟩
          · rw [tree_create_success hwf hidle cs c hv fuel hf hres htp hc]
            simp [hc]
          · intro _
            obtain ⟨hwf1, hidle1, hunder, hoff, -, -, -⟩ := create_facts hwf hidle hres htp hc
            have h1 : resolve (createdMem m pt c tp.contents) root cs = some pt := by
              rw [hoff cs (prefix_concat_self_false cs c)]
              exact hres
            have h2 := hunder []
            simp only [List.append_nil, if_true] at h2
            rw [resolve_concat, h1] at h2
            exact ⟨_, tree_create_exists hwf1 hidle1 cs c hv fuel hf h1 h2⟩
        · refine ⟨createFailedMem m pt, ?_, ?_⟩
          · rw [tree_create_exists hwf hidle cs c hv fuel hf hres hc]
            simp [hc]
          · simp [hc, EEXIST]

/-- Instance of C1 on the tree that holds the root alone. -/
theorem tree_create_returns_witness :
    WF initMem 0 ∧ Idle initMem ∧
    ∃ m1, tree_create 3 initMem (some 0) ['/', 'a', '/'] =
        some (m1, create_code initMem 0 ['/', 'a', '/']) ∧
      (create_code initMem 0 ['/', 'a', '/'] = 0 →
        ∃ m2, tree_create 3 m1 (some 0) ['/', 'a', '/'] = some (m2, EEXIST)) :=
  ⟨wf_initMem, idle_initMem,
    tree_create_returns initMem 0 ['/', 'a', '/'] 3 wf_initMem idle_initMem (by decide)⟩

theorem childNames_eq {m : Mem} {a : Nat} {t : Tree} (h : m.cell a = some t) :
    childNames m a = t.contents.map Prod.fst := by
  simp [childNames, h]

theorem resolve_concat_none_extend {m : Mem} {root : Nat} {cs : List Name} {c : Name}
    (h : resolve m root (cs ++ [c]) = none) (s : List Name) :
    resolve m root (cs ++ [c] ++ s) = none := by
  rw [resolve_append, h]
  rfl

/-- C2: a `tree_create` of a valid path other than `/` whose parent exists and which does
not exist itself returns `0`; afterwards the folder exists and has no children, its
`ancestor` is the parent folder, the names in the parent are the old ones plus the new
name, and every other folder and every other node is unchanged. -/
theorem tree_create_effect (m : Mem) (root : Nat) (path parent : Path) (name : Name)
    (pt fuel : Nat) (hwf : WF m root) (hidle : Idle m) (hfuel : path.length ≤ fuel)
    (hvalid : is_path_valid path = true) (hroot : path ≠ ['/'])
    (hsplit : make_path_to_parent path = some (parent, name))
    (hparent : folder m root parent = some pt) (hnew : folder m root path = none) :
    ∃ m1 created, tree_create fuel m (some root) path = some (m1, 0) ∧
      folder m1 root path = some created ∧
      (∃ t, m1.cell created = some t ∧ t.contents = [] ∧ t.ancestor = some pt) ∧
      folder m1 root parent = some pt ∧
      (childNames m1 pt).Perm (name :: childNames m pt) ∧
      (∀ q, q ≠ path → folder m1 root q = folder m root q) ∧
      (∀ a, a ≠ pt → a ≠ created → m1.cell a = m.cell a) := by
  rcases valid_path_cases hvalid with rfl | ⟨cs, c, hv, rfl⟩
  · exact absurd rfl hroot
  obtain ⟨hvcs, hvc⟩ := valid_of_concat hv
  rw [make_path_to_parent_render_concat cs c hvcs hvc] at hsplit
  simp only [Option.some.injEq, Prod.mk.injEq] at hsplit
  obtain ⟨rfl, rfl⟩ := hsplit
  rw [folder_render m root hvcs] at hparent
  rw [folder_render m root hv] at hnew
  have hf : cs.length < fuel := by
    have := fuel_of_length hfuel
    simp at this
    omega
  obtain ⟨tp, htp⟩ := hwf.folder_cell hparent
  have hc : child m pt c = none := by
    rw [resolve_concat, hparent] at hnew
    exact hnew
  obtain ⟨-, -, hunder, hoff, hcellnew, hcellpt, hother⟩ := create_facts hwf hidle hparent htp hc
  refine ⟨createdMem m pt c tp.contents, m.next,
    tree_create_success hwf hidle cs c hv fuel hf hparent htp hc, ?_, ?_, ?_, ?_, ?_, hother⟩
  · rw [folder_render _ root hv]
    simpa using hunder []
  · obtain ⟨t, h1, h2, h3⟩ := hcellnew
    exact ⟨t, h1, h3, h2⟩
  · rw [folder_render _ root hvcs, hoff cs (prefix_concat_self_false cs c)]
    exact hparent
  · obtain ⟨t, h1, -, h3⟩ := hcellpt
    rw [childNames_eq h1, childNames_eq htp, h3]
    simp
  · intro q hq
    cases hval : is_path_valid q with
    | false => rw [folder_eq_none_of_invalid _ root hval, folder_eq_none_of_invalid _ root hval]
    | true =>
      obtain ⟨qs, hqv, rfl⟩ := (is_path_valid_iff q).1 hval
      rw [folder_render _ root hqv, folder_render _ root hqv]
      by_cases hpre : (cs ++ [c]) <+: qs
      · obtain ⟨s, rfl⟩ := hpre
        have hs : s ≠ [] := by
          intro h
          subst h
          simp at hq
        rw [hunder s, if_neg hs, resolve_concat_none_extend hnew]
      · exact hoff qs hpre

/-- Instance of C2: creating `/a/` in the tree that holds the root alone. -/
theorem tree_create_effect_witness :
    WF initMem 0 ∧ Idle initMem ∧
    ∃ m1 created, tree_create 3 initMem (some 0) ['/', 'a', '/'] = some (m1, 0) ∧
      folder m1 0 ['/', 'a', '/'] = some created ∧
      (∃ t, m1.cell created = some t ∧ t.contents = [] ∧ t.ancestor = some 0) ∧
      folder m1 0 ['/'] = some 0 ∧
      (childNames m1 0).Perm (['a'] :: childNames initMem 0) ∧
      (∀ q, q ≠ ['/', 'a', '/'] → folder m1 0 q = folder initMem 0 q) ∧
      (∀ a, a ≠ 0 → a ≠ created → m1.cell a = initMem.cell a) :=
  ⟨wf_initMem, idle_initMem,
    tree_create_effect initMem 0 ['/', 'a', '/'] ['/'] ['a'] 0 3 wf_initMem idle_initMem
      (by decide) (by decide) (by decide) (by decide) (by decide) (by decide)⟩

theorem remove_facts {m : Mem} {root : Nat} (hwf : WF m root) (hidle : Idle m)
    {cs : List Name} {c : Name} {pt v : Nat} {tp : Tree} (hres : resolve m root cs = some pt)
    (htp : m.cell pt = some tp) (hc : child m pt c = some v) :
    WF (removedMem m pt c v tp.contents) root ∧ Idle (removedMem m pt c v tp.contents) ∧
    (∀ s, resolve (removedMem m pt c v tp.contents) root (cs ++ [c] ++ s) = none) ∧
    (∀ q, ¬ (cs ++ [c]) <+: q →
      resolve (removedMem m pt c v tp.contents) root q = resolve m root q) ∧
    (removedMem m pt c v tp.contents).cell v = none ∧
    (∃ t, (removedMem m pt c v tp.contents).cell pt = some t ∧ t.ancestor = tp.ancestor ∧
      t.contents = hmap_remove tp.contents c) ∧
    (∀ a, a ≠ pt → a ≠ v → (removedMem m pt c v tp.contents).cell a = m.cell a) := by
  rw [removedMem_eq c v htp]
  have hwfT : WF (touch m pt) root := wf_touch hwf pt
  have hcT : child (touch m pt) pt c = some v := by rw [child_touch]; exact hc
  have hresT : resolve (touch m pt) root cs = some pt := by rw [resolve_touch]; exact hres
  have hun : Unlinked (detach (touch m pt) pt c) v := unlinked_detach hwfT hcT
  have hvroot : v ≠ root := hwf.child_ne_root hc
  obtain ⟨tp1, htp1, hanc1, hcon1⟩ := touch_cell_some pt htp
  have hvpt : v ≠ pt := by
    intro h
    have h1 : resolve m root (cs ++ [c]) = some v := resolve_concat_eq_some.2 ⟨pt, hres, hc⟩
    rw [h] at h1
    have := congrArg List.length (hwf.resolve_inj _ _ _ h1 hres)
    simp at this
  refine ⟨wf_free (wf_detach hwfT pt c) hun hvroot,
    idle_free (idle_detach (idle_touch hidle pt) pt c) v, ?_, ?_, ?_, ?_, ?_⟩
  · intro s
    rw [resolve_free hun hvroot, resolve_detach_under hwfT c hresT]
  · intro q hq
    rw [resolve_free hun hvroot, resolve_detach_off hwfT c hresT hq, resolve_touch]
  · simp [Mem.free]
  · have : pt ≠ v := fun h => hvpt h.symm
    refine ⟨{ tp1 with contents := hmap_remove tp1.contents c }, ?_, hanc1, ?_⟩
    · simp [Mem.free, this, detach, Mem.modify, htp1]
    · simp [hcon1]
  · intro a ha hav
    simp only [Mem.free, hav, if_false, detach, touch, Mem.modify, ha]

/-- C3: on a well-formed tree whose rooms are idle, `tree_remove` returns `EINVAL` for an
invalid path, otherwise `EBUSY` for `/`, otherwise `ENOENT` when the parent folder is
missing or has no child of that name, otherwise `ENOTEMPTY` when the folder has a child,
otherwise `0`. -/
theorem tree_remove_returns (m : Mem) (root : Nat) (path : Path) (fuel : Nat)
    (hwf : WF m root) (hidle : Idle m) (hfuel : path.length ≤ fuel) :
    ∃ m1, tree_remove fuel m (some root) path = some (m1, remove_code m root path) := by
  cases hval : is_path_valid path with
  | false =>
    exact ⟨m, by rw [tree_remove_invalid fuel m _ path hval]; simp [remove_code, hval]⟩
  | true =>
    rcases valid_path_cases hval with rfl | ⟨cs, c, hv, rfl⟩
    · exact ⟨m, by rw [tree_remove_root]; simp [remove_code, hval]⟩
    · obtain ⟨hvcs, hvc⟩ := valid_of_concat hv
      have hf : cs.length < fuel := by
        have := fuel_of_length hfuel
        simp at this
        omega
      simp only [remove_code, hval, Bool.true_eq_false, if_false, render_concat_ne_root,
        make_path_to_parent_render_concat cs c hvcs hvc, folder_render m root hvcs]
      cases hres : resolve m root cs with
      | none => exact ⟨m, tree_remove_noent_parent hwf hidle cs c hv fuel hf hres⟩
      | some pt =>
        obtain ⟨tp, htp⟩ := hwf.folder_cell hres
        have hcases : child m pt c = none ∨ ∃ v, child m pt c = some v := by
          cases child m pt c <;> simp
        rcases hcases with hc | ⟨v, hc⟩
        · refine ⟨touch m pt, ?_⟩
          rw [tree_remove_noent_child hwf hidle cs c hv fuel hf hres hc]
          simp [hc]
        · obtain ⟨tv, htv, -⟩ := hwf.child_cell hc
          by_cases hcon : tv.contents = []
          · refine ⟨removedMem m pt c v tp.contents, ?_⟩
            rw [tree_remove_success hwf hidle cs c hv fuel hf hres htp hc htv hcon]
            simp [hc, childNames_eq htv, hcon]
          · refine ⟨touch m pt, ?_⟩
            rw [tree_remove_notempty hwf hidle cs c hv fuel hf hres hc htv hcon]
            simp [hc, childNames_eq htv, hcon]

/-- Instance of C3: removing `/a/` from the tree that holds the root alone. -/
theorem tree_remove_returns_witness :
    WF initMem 0 ∧ Idle initMem ∧
    ∃ m1, tree_remove 3 initMem (some 0) ['/', 'a', '/'] =
      some (m1, remove_code initMem 0 ['/', 'a', '/']) :=
  ⟨wf_initMem, idle_initMem,
    tree_remove_returns initMem 0 ['/', 'a', '/'] 3 wf_initMem idle_initMem (by decide)⟩

theorem map_fst_hmap_remove (map : HashMap) (c : Name) :
    (hmap_remove map c).map Prod.fst = (map.map Prod.fst).filter (fun k => decide (k ≠ c)) := by
  induction map with
  | nil => rfl
  | cons kv rest ih =>
    simp only [hmap_remove] at ih
    by_cases h : kv.1 = c
    · simp only [hmap_remove, List.filter_cons, h, ne_eq, not_true_eq_false, decide_False,
        Bool.false_eq_true, if_false, List.map_cons]
      exact ih
    · simp only [hmap_remove, List.filter_cons, h, ne_eq, not_false_eq_true, decide_True,
        if_true, List.map_cons]
      rw [← ih]

/-- C4: a `tree_remove` of a valid path other than `/` whose folder exists and has no
children returns `0`; afterwards the folder does not exist and its node is freed, the
names in the parent are the old ones minus the removed name, and every other folder and
every other node is unchanged. -/
theorem tree_remove_effect (m : Mem) (root : Nat) (path parent : Path) (name : Name)
    (v fuel : Nat) (hwf : WF m root) (hidle : Idle m) (hfuel : path.length ≤ fuel)
    (hvalid : is_path_valid path = true) (hroot : path ≠ ['/'])
    (hsplit : make_path_to_parent path = some (parent, name))
    (hexists : folder m root path = some v) (hleaf : childNames m v = []) :
    ∃ m1 pt, tree_remove fuel m (some root) path = some (m1, 0) ∧
      folder m root parent = some pt ∧ folder m1 root parent = some pt ∧
      folder m1 root path = none ∧ m1.cell v = none ∧
      (childNames m1 pt).Perm ((childNames m pt).erase name) ∧
      (∀ q, q ≠ path → folder m1 root q = folder m root q) ∧
      (∀ a, a ≠ pt → a ≠ v → m1.cell a = m.cell a) := by
  rcases valid_path_cases hvalid with rfl | ⟨cs, c, hv, rfl⟩
  · exact absurd rfl hroot
  obtain ⟨hvcs, hvc⟩ := valid_of_concat hv
  rw [make_path_to_parent_render_concat cs c hvcs hvc] at hsplit
  simp only [Option.some.injEq, Prod.mk.injEq] at hsplit
  obtain ⟨rfl, rfl⟩ := hsplit
  rw [folder_render m root hv] at hexists
  have hf : cs.length < fuel := by
    have := fuel_of_length hfuel
    simp at this
    omega
  obtain ⟨pt, hres, hc⟩ := resolve_concat_eq_some.1 hexists
  obtain ⟨tp, htp⟩ := hwf.folder_cell hres
  obtain ⟨tv, htv, -⟩ := hwf.child_cell hc
  have hcon : tv.contents = [] := by
    rw [childNames_eq htv] at hleaf
    exact List.map_eq_nil_iff.1 hleaf
  obtain ⟨-, -, hunder, hoff, hcellv, hcellpt, hother⟩ := remove_facts hwf hidle hres htp hc
  refine ⟨removedMem m pt c v tp.contents, pt,
    tree_remove_success hwf hidle cs c hv fuel hf hres htp hc htv hcon, ?_, ?_, ?_, hcellv, ?_, ?_,
    hother⟩
  · rw [folder_render m root hvcs]
    exact hres
  · rw [folder_render _ root hvcs, hoff cs (prefix_concat_self_false cs c)]
    exact hres
  · rw [folder_render _ root hv]
    simpa using hunder []
  · obtain ⟨t, h1, -, h3⟩ := hcellpt
    rw [childNames_eq h1, childNames_eq htp, h3, map_fst_hmap_remove,
      (hwf.keys_nodup pt tp htp).erase_eq_filter]
    have hfun : (fun k : Name => decide (k ≠ c)) = (fun x => x != c) := by
      funext k
      by_cases hk : k = c <;> simp [hk]
    rw [hfun]
  · intro q hq
    cases hval : is_path_valid q with
    | false => rw [folder_eq_none_of_invalid _ root hval, folder_eq_none_of_invalid _ root hval]
    | true =>
      obtain ⟨qs, hqv, rfl⟩ := (is_path_valid_iff q).1 hval
      rw [folder_render _ root hqv, folder_render _ root hqv]
      by_cases hpre : (cs ++ [c]) <+: qs
      · obtain ⟨s, rfl⟩ := hpre
        rw [hunder s, resolve_below hexists]
        cases s with
        | nil => simp at hq
        | cons k s => simp [resolve, child, htv, hcon, hmap_get]
      · exact hoff qs hpre

/-! ## Facts about the tree after `tree_move` -/

theorem move_facts {m : Mem} {root : Nat} (hwf : WF m root) (hidle : Idle m)
    {scs tcs : List Name} {sn tn : Name} {ps pt v : Nat} {tps tpt : Tree} (l : Nat)
    (hres : resolve m root scs = some ps) (htps : m.cell ps = some tps)
    (hc : child m ps sn = some v) (hrt : resolve m root tcs = some pt)
    (htpt : m.cell pt = some tpt) (hct : child m pt tn = none)
    (hnp : ¬ (scs ++ [sn]) <+: (tcs ++ [tn])) :
    WF (movedMem m l ps pt v sn tn tps.contents tpt.contents) root ∧
    Idle (movedMem m l ps pt v sn tn tps.contents tpt.contents) ∧
    (∀ s, resolve (movedMem m l ps pt v sn tn tps.contents tpt.contents) root
      (tcs ++ [tn] ++ s) = resolve m root (scs ++ [sn] ++ s)) ∧
    (∀ s, resolve (movedMem m l ps pt v sn tn tps.contents tpt.contents) root
      (scs ++ [sn] ++ s) = none) ∧
    (∀ q, ¬ (scs ++ [sn]) <+: q → ¬ (tcs ++ [tn]) <+: q →
      resolve (movedMem m l ps pt v sn tn tps.contents tpt.contents) root q = resolve m root q) ∧
    (∀ a t, m.cell a = some t →
      ∃ t1, (movedMem m l ps pt v sn tn tps.contents tpt.contents).cell a = some t1 ∧
        t1.ancestor = (if a = v then some pt else t.ancestor) ∧
        t1.contents = (if a = pt then [(tn, v)] else []) ++
          (if a = ps then hmap_remove t.contents sn else t.contents)) ∧
    (∀ a, m.cell a = none →
      (movedMem m l ps pt v sn tn tps.contents tpt.contents).cell a = none) := by
  have hSv : resolve m root (scs ++ [sn]) = some v := resolve_concat_eq_some.2 ⟨ps, hres, hc⟩
  obtain ⟨tv, htv, hancv⟩ := hwf.child_cell hc
  have hvpt : v ≠ pt := by
    intro h
    rw [h] at hSv
    have := hwf.resolve_inj _ _ _ hSv hrt
    exact hnp ⟨[tn], by rw [this]⟩
  have hvps : v ≠ ps := by
    intro h
    rw [h] at hSv
    have := congrArg List.length (hwf.resolve_inj _ _ _ hSv hres)
    simp at this
  have hne : ps = pt → tn ≠ sn := by
    intro hpp hts
    subst hpp
    subst hts
    rw [hc] at hct
    cases hct
  rw [movedMem_eq htps htpt hvps hvpt hne]
  have hwfT : WF (touch m l) root := wf_touch hwf l
  have hcT : child (touch m l) ps sn = some v := by rw [child_touch]; exact hc
  have hresT : resolve (touch m l) root scs = some ps := by rw [resolve_touch]; exact hres
  have hwfD : WF (detach (touch m l) ps sn) root := wf_detach hwfT ps sn
  have hun : Unlinked (detach (touch m l) ps sn) v := unlinked_detach hwfT hcT
  have hvroot : v ≠ root := hwf.child_ne_root hc
  have hnotpre : ¬ (scs ++ [sn]) <+: tcs := fun h => hnp (h.trans (List.prefix_append _ _))
  have hresD : resolve (detach (touch m l) ps sn) root tcs = some pt := by
    rw [resolve_detach_off hwfT sn hresT hnotpre, resolve_touch]; exact hrt
  have hcellD : ∀ a t, m.cell a = some t → (detach (touch m l) ps sn).cell a =
      some { t with contents := if a = ps then hmap_remove t.contents sn else t.contents,
                    whose_turn := if a = l then 1 else t.whose_turn } := by
    intro a t ht
    simp only [detach, touch, modify_cell, ht, Option.map_some', Option.map_map,
      Function.comp_apply]
    rcases eq_or_ne a ps with h1 | h1
    · subst h1
      rcases eq_or_ne a l with h2 | h2
      · subst h2; simp
      · simp [h2]
    · rcases eq_or_ne a l with h2 | h2
      · subst h2; simp [h1]
      · simp [h1, h2]
  have hcD : child (detach (touch m l) ps sn) pt tn = none := by
    rw [child_detach, child_touch, hct]
    simp
  have hsubtree : ∀ s, resolve (detach (touch m l) ps sn) v s = resolve m v s := by
    intro s
    rw [← resolve_touch m l v s]
    apply resolve_congr
    intro q1 k a _ hra
    rw [child_detach, if_neg]
    rintro ⟨rfl, -⟩
    rw [resolve_touch, ← resolve_below hSv] at hra
    have := congrArg List.length (hwf.resolve_inj _ _ _ hra hres)
    simp at this
  have hsub : ∀ s y, resolve (detach (touch m l) ps sn) v s = some y → y ≠ pt := by
    intro s y hy hypt
    rw [hsubtree, ← resolve_below hSv, hypt] at hy
    have := hwf.resolve_inj _ _ _ hy hrt
    exact hnotpre ⟨s, this⟩
  refine ⟨wf_attach hwfD (hcellD pt tpt htpt) (hcellD v tv htv) hvroot hun hcD,
    idle_attach (idle_detach (idle_touch hidle l) ps sn) pt tn v, ?_, ?_, ?_, ?_, ?_⟩
  · intro s
    rw [resolve_attach_under hwfD tn v hresD (hcellD pt tpt htpt) hsub s, hsubtree,
      resolve_below hSv]
  · intro s
    have hnT : ¬ (tcs ++ [tn]) <+: (scs ++ [sn] ++ s) := by
      intro h
      rcases List.prefix_or_prefix_of_prefix h (List.prefix_append (scs ++ [sn]) s) with h1 | h1
      · obtain ⟨r, hr⟩ := h1
        have hTnone : resolve m root (tcs ++ [tn]) = none := by
          rw [resolve_concat, hrt]; exact hct
        rw [← hr, resolve_append, hTnone] at hSv
        cases hSv
      · exact hnp h1
    rw [resolve_attach_off hwfD tn v hresD (hcellD pt tpt htpt) hnT,
      resolve_detach_under hwfT sn hresT]
  · intro q hqS hqT
    rw [resolve_attach_off hwfD tn v hresD (hcellD pt tpt htpt) hqT,
      resolve_detach_off hwfT sn hresT hqS, resolve_touch]
  · intro a t ht
    refine ⟨_, by rw [attach_cell, hcellD a t ht]; rfl, rfl, ?_⟩
    by_cases h1 : a = pt
    · simp only [h1, if_true, List.singleton_append]
    · simp only [h1, if_false, List.nil_append]
  · intro a ha
    rw [attach_cell]
    simp [detach, touch, modify_cell, ha]

/-! ## Claims about `tree_move` -/

/-- C5: `tree_move` applies its input rules in order and without looking at the tree:
`EINVAL` for an invalid path, then `EBUSY` for source `/`, then `EEXIST` for target `/`,
then `MY_ERROR` (`-1`) when source is a proper path prefix of target; the memory is
returned as it was. -/
theorem tree_move_input_rules (fuel : Nat) (m : Mem) (tree : Option Nat) (source target : Path) :
    ((is_path_valid source = false ∨ is_path_valid target = false) →
      tree_move fuel m tree source target = some (m, EINVAL)) ∧
    (is_path_valid source = true → is_path_valid target = true → source = ['/'] →
      tree_move fuel m tree source target = some (m, EBUSY)) ∧
    (is_path_valid source = true → is_path_valid target = true → source ≠ ['/'] →
      target = ['/'] → tree_move fuel m tree source target = some (m, EEXIST)) ∧
    (is_path_valid source = true → is_path_valid target = true → source ≠ ['/'] →
      target ≠ ['/'] → is_a_prefix_of source target = true → source ≠ target →
      tree_move fuel m tree source target = some (m, MY_ERROR)) ∧
    MY_ERROR = -1 := by
  refine ⟨?_, ?_, ?_, ?_, rfl⟩
  · intro h
    exact tree_move_rejected fuel m tree source target EINVAL
      (check_source_and_target_invalid source target h)
  · intro hs ht h1
    apply tree_move_rejected
    subst h1
    simp only [check_source_and_target, hs, ht, Bool.not_true, Bool.or_self,
      Bool.false_eq_true, if_false, if_true]
  · intro hs ht h1 h2
    apply tree_move_rejected
    subst h2
    simp only [check_source_and_target, hs, ht, h1, Bool.not_true, Bool.or_self,
      Bool.false_eq_true, if_false, if_true]
  · intro hs ht h1 h2 h3 h4
    apply tree_move_rejected
    have h5 : target ≠ source := fun h => h4 h.symm
    simp [check_source_and_target, hs, ht, h1, h2, h3, h5]

/-- Instances of C5 on the tree that holds the root alone, where neither `/a/` nor
`/a/b/` exists. -/
theorem tree_move_input_rules_witness :
    tree_move 0 initMem (some 0) ['a'] ['/'] = some (initMem, EINVAL) ∧
    tree_move 0 initMem (some 0) ['/'] ['/', 'a', '/'] = some (initMem, EBUSY) ∧
    tree_move 0 initMem (some 0) ['/', 'a', '/'] ['/'] = some (initMem, EEXIST) ∧
    tree_move 0 initMem (some 0) ['/', 'a', '/'] ['/', 'a', '/', 'b', '/'] =
      some (initMem, MY_ERROR) :=
  ⟨(tree_move_input_rules 0 initMem (some 0) ['a'] ['/']).1 (Or.inl (by decide)),
   (tree_move_input_rules 0 initMem (some 0) ['/'] ['/', 'a', '/']).2.1
     (by decide) (by decide) rfl,
   (tree_move_input_rules 0 initMem (some 0) ['/', 'a', '/'] ['/']).2.2.1
     (by decide) (by decide) (by decide) rfl,
   (tree_move_input_rules 0 initMem (some 0) ['/', 'a', '/'] ['/', 'a', '/', 'b', '/']).2.2.2.1
     (by decide) (by decide) (by decide) (by decide) (by decide) (by decide)⟩

/-- Valid paths other than `/` that pass the input rules of `tree_move`, as component
lists. -/
theorem moveArgs_of_paths {source target : Path} (hs : is_path_valid source = true)
    (ht : is_path_valid target = true) (hsr : source ≠ ['/']) (htr : target ≠ ['/'])
    (hrule : ¬ (is_a_prefix_of source target = true ∧ source ≠ target)) :
    ∃ scs sn tcs tn, source = render (scs ++ [sn]) ∧ target = render (tcs ++ [tn]) ∧
      MoveArgs (scs ++ [sn]) (tcs ++ [tn]) := by
  rcases valid_path_cases hs with rfl | ⟨scs, sn, hvs, rfl⟩
  · exact absurd rfl hsr
  rcases valid_path_cases ht with rfl | ⟨tcs, tn, hvt, rfl⟩
  · exact absurd rfl htr
  refine ⟨scs, sn, tcs, tn, rfl, rfl, hvs, hvt, by simp, by simp, ?_⟩
  rintro ⟨h1, h2⟩
  apply hrule
  rw [is_a_prefix_of_render _ _ hvs hvt]
  refine ⟨List.isPrefixOf_iff_prefix.2 h1, ?_⟩
  intro h
  exact h2 (render_injective hvs hvt h).symm

theorem move_code_render (m : Mem) (root : Nat) {scs tcs : List Name} {sn tn : Name}
    (ha : MoveArgs (scs ++ [sn]) (tcs ++ [tn])) :
    move_code m root (render (scs ++ [sn])) (render (tcs ++ [tn])) =
      match resolve m root scs, resolve m root (scs ++ [sn]), resolve m root tcs with
      | some _, some _, some pt =>
        if scs ++ [sn] = tcs ++ [tn] then 0
        else if (child m pt tn).isSome then EEXIST
        else 0
      | _, _, _ => ENOENT := by
  obtain ⟨hvscs, hvsn⟩ := valid_of_concat ha.validS
  obtain ⟨hvtcs, hvtn⟩ := valid_of_concat ha.validT
  have heq : (render (scs ++ [sn]) = render (tcs ++ [tn])) ↔ scs ++ [sn] = tcs ++ [tn] :=
    ⟨fun h => render_injective ha.validS ha.validT h, fun h => by rw [h]⟩
  simp only [move_code, make_path_to_parent_render_concat scs sn hvscs hvsn,
    make_path_to_parent_render_concat tcs tn hvtcs hvtn, folder_render m root hvscs,
    folder_render m root hvtcs, folder_render m root ha.validS, heq]

/-- C6: once the input rules are passed, `tree_move` returns `ENOENT` when the parent of
source, source itself or the parent of target is missing, otherwise `0` when source
equals target, otherwise `EEXIST` when the parent of target has a child with the target
name, otherwise `0`.  A target that is a proper prefix of source never gives `0`, and a
missing source gives `ENOENT` whatever the target. -/
theorem tree_move_returns (m : Mem) (root : Nat) (source target : Path) (fuel : Nat)
    (hwf : WF m root) (hidle : Idle m) (hfs : source.length ≤ fuel) (hft : target.length ≤ fuel)
    (hs : is_path_valid source = true) (ht : is_path_valid target = true)
    (hsr : source ≠ ['/']) (htr : target ≠ ['/'])
    (hrule : ¬ (is_a_prefix_of source target = true ∧ source ≠ target)) :
    (∃ m1, tree_move fuel m (some root) source target =
      some (m1, move_code m root source target)) ∧
    (is_a_prefix_of target source = true → target ≠ source →
      move_code m root source target = ENOENT ∨ move_code m root source target = EEXIST) ∧
    (folder m root source = none → move_code m root source target = ENOENT) := by
  obtain ⟨scs, sn, tcs, tn, rfl, rfl, ha⟩ := moveArgs_of_paths hs ht hsr htr hrule
  have hfs1 : (scs ++ [sn]).length < fuel := fuel_of_length hfs
  have hft1 : (tcs ++ [tn]).length < fuel := fuel_of_length hft
  rw [move_code_render m root ha, folder_render m root ha.validS,
    is_a_prefix_of_render _ _ ha.validT ha.validS]
  refine ⟨?_, ?_, ?_⟩
  · cases hres : resolve m root scs with
    | none =>
      exact ⟨_, tree_move_noent_source_parent hwf hidle ha fuel hfs1 hres⟩
    | some ps =>
      rw [resolve_concat, hres]
      simp only [Option.some_bind]
      have hcases : child m ps sn = none ∨ ∃ v, child m ps sn = some v := by
        cases child m ps sn <;> simp
      rcases hcases with hc | ⟨v, hc⟩
      · refine ⟨afterLock m (moveWriter m root (scs ++ [sn]) (tcs ++ [tn])), ?_⟩
        rw [tree_move_noent_source hwf hidle ha fuel hfs1 hres hc]
        simp [hc]
      · simp only [hc]
        cases hrt : resolve m root tcs with
        | none =>
          exact ⟨_, tree_move_noent_target_parent hwf hidle ha fuel hfs1 hft1 hres hc hrt⟩
        | some pt =>
          simp only []
          by_cases hST : scs ++ [sn] = tcs ++ [tn]
          · refine ⟨afterLock m (moveWriter m root (scs ++ [sn]) (tcs ++ [tn])), ?_⟩
            rw [tree_move_same hwf hidle ha fuel hfs1 hft1 hres hc hST]
            simp [hST]
          · have hcases2 : child m pt tn = none ∨ ∃ w, child m pt tn = some w := by
              cases child m pt tn <;> simp
            rcases hcases2 with hct | ⟨w, hct⟩
            · obtain ⟨l, hl, -, -⟩ := moveWriter_of_source (tcs ++ [tn]) hres hc
              obtain ⟨tps, htps⟩ := hwf.folder_cell hres
              obtain ⟨tpt, htpt⟩ := hwf.folder_cell hrt
              refine ⟨movedMem m l ps pt v sn tn tps.contents tpt.contents, ?_⟩
              rw [tree_move_success hwf hidle ha fuel hfs1 hft1 hl hres htps hc hrt htpt hct hST]
              simp [hST, hct]
            · refine ⟨afterLock m (moveWriter m root (scs ++ [sn]) (tcs ++ [tn])), ?_⟩
              rw [tree_move_exists hwf hidle ha fuel hfs1 hft1 hres hc hrt hct hST]
              simp [hST, hct]
  · intro hpre hne
    have hpre1 : (tcs ++ [tn]) <+: (scs ++ [sn]) := List.isPrefixOf_iff_prefix.1 hpre
    have hST : scs ++ [sn] ≠ tcs ++ [tn] := fun h => hne (by rw [h])
    cases hres : resolve m root scs with
    | none => left; rfl
    | some ps =>
      cases hS : resolve m root (scs ++ [sn]) with
      | none => left; rfl
      | some v =>
        cases hrt : resolve m root tcs with
        | none => left; rfl
        | some pt =>
          right
          obtain ⟨w, hw⟩ := resolve_of_isPrefix hpre1 hS
          rw [resolve_concat, hrt] at hw
          simp only [Option.some_bind] at hw
          simp [hST, hw]
  · intro hnone
    rw [hnone]
    cases resolve m root scs <;> rfl

theorem render_append (as bs : List Name) : render (as ++ bs) = render as ++ renderAux bs := by
  simp [render, renderAux_append]

theorem valid_append {as bs : List Name} (ha : ∀ x ∈ as, validName x = true)
    (hb : ∀ x ∈ bs, validName x = true) : ∀ x ∈ as ++ bs, validName x = true := by
  intro x hx
  rcases List.mem_append.1 hx with h | h
  · exact ha x h
  · exact hb x h

theorem not_prefix_of_is_a_prefix_of_false {as bs : List Name}
    (ha : ∀ x ∈ as, validName x = true) (hb : ∀ x ∈ bs, validName x = true)
    (h : is_a_prefix_of (render as) (render bs) = false) : ¬ as <+: bs := by
  rw [is_a_prefix_of_render _ _ ha hb] at h
  intro hp
  rw [List.isPrefixOf_iff_prefix.2 hp] at h
  cases h

/-- C7: a `tree_move` between two different valid paths other than `/`, where source
exists, the parent of target exists, target does not exist and source is not a prefix of
target, returns `0`; afterwards source does not exist, target is the moved node, every
path below target leads where the same path below source led before, the `ancestor` of
the moved node is the parent of target, and every folder outside the two subtrees is
unchanged: only the maps of the two parents and the `ancestor` of the moved node
differ. -/
theorem tree_move_effect (m : Mem) (root : Nat) (source target sparent tparent : Path)
    (sname tname : Name) (v pt fuel : Nat) (hwf : WF m root) (hidle : Idle m)
    (hfs : source.length ≤ fuel) (hft : target.length ≤ fuel)
    (hs : is_path_valid source = true) (ht : is_path_valid target = true)
    (hsr : source ≠ ['/']) (htr : target ≠ ['/']) (hne : source ≠ target)
    (hsplitS : make_path_to_parent source = some (sparent, sname))
    (hsplitT : make_path_to_parent target = some (tparent, tname))
    (hsrc : folder m root source = some v) (htp : folder m root tparent = some pt)
    (htgt : folder m root target = none) (hnp : is_a_prefix_of source target = false) :
    ∃ m1 ps, tree_move fuel m (some root) source target = some (m1, 0) ∧
      folder m root sparent = some ps ∧
      folder m1 root source = none ∧ folder m1 root target = some v ∧
      (∀ s, (∀ c ∈ s, validName c = true) →
        folder m1 root (target ++ renderAux s) = folder m root (source ++ renderAux s)) ∧
      (∃ t, m1.cell v = some t ∧ t.ancestor = some pt) ∧
      (∀ q, is_a_prefix_of source q = false → is_a_prefix_of target q = false →
        folder m1 root q = folder m root q) ∧
      (∀ a t, m.cell a = some t → ∃ t1, m1.cell a = some t1 ∧
        (a ≠ v → t1.ancestor = t.ancestor) ∧ (a ≠ ps → a ≠ pt → t1.contents = t.contents)) ∧
      (∀ a, m.cell a = none → m1.cell a = none) := by
  have hrule : ¬ (is_a_prefix_of source target = true ∧ source ≠ target) := by
    rw [hnp]; simp
  obtain ⟨scs, sn, tcs, tn, rfl, rfl, ha⟩ := moveArgs_of_paths hs ht hsr htr hrule
  obtain ⟨hvscs, hvsn⟩ := valid_of_concat ha.validS
  obtain ⟨hvtcs, hvtn⟩ := valid_of_concat ha.validT
  rw [make_path_to_parent_render_concat scs sn hvscs hvsn] at hsplitS
  rw [make_path_to_parent_render_concat tcs tn hvtcs hvtn] at hsplitT
  simp only [Option.some.injEq, Prod.mk.injEq] at hsplitS hsplitT
  obtain ⟨rfl, rfl⟩ := hsplitS
  obtain ⟨rfl, rfl⟩ := hsplitT
  rw [folder_render m root ha.validS] at hsrc
  rw [folder_render m root hvtcs] at htp
  rw [folder_render m root ha.validT] at htgt
  have hfs1 : (scs ++ [sn]).length < fuel := fuel_of_length hfs
  have hft1 : (tcs ++ [tn]).length < fuel := fuel_of_length hft
  have hST : scs ++ [sn] ≠ tcs ++ [tn] := fun h => hne (by rw [h])
  have hnpre := not_prefix_of_is_a_prefix_of_false ha.validS ha.validT hnp
  obtain ⟨ps, hres, hc⟩ := resolve_concat_eq_some.1 hsrc
  have hct : child m pt tn = none := by
    rw [resolve_concat, htp] at htgt
    exact htgt
  obtain ⟨l, hl, -, -⟩ := moveWriter_of_source (tcs ++ [tn]) hres hc
  obtain ⟨tps, htps⟩ := hwf.folder_cell hres
  obtain ⟨tpt, htpt⟩ := hwf.folder_cell htp
  obtain ⟨-, -, hunderT, hunderS, hoff, hcells, hnone⟩ :=
    move_facts hwf hidle l hres htps hc htp htpt hct hnpre
  refine ⟨movedMem m l ps pt v sn tn tps.contents tpt.contents, ps,
    tree_move_success hwf hidle ha fuel hfs1 hft1 hl hres htps hc htp htpt hct hST,
    ?_, ?_, ?_, ?_, ?_, ?_, ?_, hnone⟩
  · rw [folder_render m root hvscs]; exact hres
  · rw [folder_render _ root ha.validS]
    simpa using hunderS []
  · rw [folder_render _ root ha.validT]
    have := hunderT []
    simp only [List.append_nil] at this
    rw [this]; exact hsrc
  · intro s hvs
    rw [← render_append, ← render_append, folder_render _ root (valid_append ha.validT hvs),
      folder_render _ root (valid_append ha.validS hvs)]
    exact hunderT s
  · obtain ⟨tv, htv, -⟩ := hwf.child_cell hc
    obtain ⟨t1, h1, h2, -⟩ := hcells v tv htv
    exact ⟨t1, h1, by simpa using h2⟩
  · intro q hqS hqT
    cases hval : is_path_valid q with
    | false => rw [folder_eq_none_of_invalid _ root hval, folder_eq_none_of_invalid _ root hval]
    | true =>
      obtain ⟨qs, hqv, rfl⟩ := (is_path_valid_iff q).1 hval
      rw [folder_render _ root hqv, folder_render _ root hqv]
      exact hoff qs (not_prefix_of_is_a_prefix_of_false ha.validS hqv hqS)
        (not_prefix_of_is_a_prefix_of_false ha.validT hqv hqT)
  · intro a t hat
    obtain ⟨t1, h1, h2, h3⟩ := hcells a t hat
    refine ⟨t1, h1, ?_, ?_⟩
    · intro hav
      simpa [hav] using h2
    · intro haps hapt
      simpa [haps, hapt] using h3

theorem treeA_ok : WF treeA 0 ∧ Idle treeA := by
  have hres : resolve initMem 0 ([] : List Name) = some 0 := rfl
  have htp : initMem.cell 0 = some (idleNode none [] 2) := rfl
  have hc : child initMem 0 ['a'] = none := rfl
  have h := create_facts wf_initMem idle_initMem hres htp hc
  exact ⟨h.1, h.2.1⟩

theorem treeAB_ok : WF treeAB 0 ∧ Idle treeAB := by
  have hres : resolve treeA 0 ([] : List Name) = some 0 := rfl
  have htp : treeA.cell 0 = some (idleNode none [(['a'], 1)] 1) := by decide
  have hc : child treeA 0 ['b'] = none := by decide
  have h := create_facts treeA_ok.1 treeA_ok.2 hres htp hc
  exact ⟨h.1, h.2.1⟩

theorem treeABX_ok : WF treeABX 0 ∧ Idle treeABX := by
  have hres : resolve treeAB 0 [['a']] = some 1 := by decide
  have htp : treeAB.cell 1 = some (idleNode (some 0) [] 2) := by decide
  have hc : child treeAB 1 ['x'] = none := by decide
  have h := create_facts treeAB_ok.1 treeAB_ok.2 hres htp hc
  exact ⟨h.1, h.2.1⟩

/-- Instance of C4: removing `/a/` from the tree that holds `/a/` alone. -/
theorem tree_remove_effect_witness :
    WF treeA 0 ∧ Idle treeA ∧
    ∃ m1 pt, tree_remove 3 treeA (some 0) ['/', 'a', '/'] = some (m1, 0) ∧
      folder treeA 0 ['/'] = some pt ∧ folder m1 0 ['/'] = some pt ∧
      folder m1 0 ['/', 'a', '/'] = none ∧ m1.cell 1 = none ∧
      (childNames m1 pt).Perm ((childNames treeA pt).erase ['a']) ∧
      (∀ q, q ≠ ['/', 'a', '/'] → folder m1 0 q = folder treeA 0 q) ∧
      (∀ a, a ≠ pt → a ≠ 1 → m1.cell a = treeA.cell a) :=
  ⟨treeA_ok.1, treeA_ok.2,
    tree_remove_effect treeA 0 ['/', 'a', '/'] ['/'] ['a'] 1 3 treeA_ok.1 treeA_ok.2
      (by decide) (by decide) (by decide) (by decide) (by decide) (by decide)⟩

/-- Instance of C6: moving `/a/x/` to `/b/` in the tree with `/a/`, `/b/` and `/a/x/`. -/
theorem tree_move_returns_witness :
    WF treeABX 0 ∧ Idle treeABX ∧
    (∃ m1, tree_move 7 treeABX (some 0) ['/', 'a', '/', 'x', '/'] ['/', 'b', '/'] =
      some (m1, move_code treeABX 0 ['/', 'a', '/', 'x', '/'] ['/', 'b', '/'])) ∧
    (is_a_prefix_of ['/', 'b', '/'] ['/', 'a', '/', 'x', '/'] = true →
      ['/', 'b', '/'] ≠ ['/', 'a', '/', 'x', '/'] →
      move_code treeABX 0 ['/', 'a', '/', 'x', '/'] ['/', 'b', '/'] = ENOENT ∨
      move_code treeABX 0 ['/', 'a', '/', 'x', '/'] ['/', 'b', '/'] = EEXIST) ∧
    (folder treeABX 0 ['/', 'a', '/', 'x', '/'] = none →
      move_code treeABX 0 ['/', 'a', '/', 'x', '/'] ['/', 'b', '/'] = ENOENT) :=
  ⟨treeABX_ok.1, treeABX_ok.2,
    tree_move_returns treeABX 0 ['/', 'a', '/', 'x', '/'] ['/', 'b', '/'] 7
      treeABX_ok.1 treeABX_ok.2 (by decide) (by decide) (by decide) (by decide) (by decide)
      (by decide) (by decide)⟩

/-- Instance of C7: moving `/a/x/` to `/b/y/` in the tree with `/a/`, `/b/` and
`/a/x/`. -/
theorem tree_move_effect_witness :
    WF treeABX 0 ∧ Idle treeABX ∧
    ∃ m1 ps, tree_move 9 treeABX (some 0) ['/', 'a', '/', 'x', '/'] ['/', 'b', '/', 'y', '/'] =
        some (m1, 0) ∧
      folder treeABX 0 ['/', 'a', '/'] = some ps ∧
      folder m1 0 ['/', 'a', '/', 'x', '/'] = none ∧
      folder m1 0 ['/', 'b', '/', 'y', '/'] = some 3 ∧
      (∀ s, (∀ c ∈ s, validName c = true) →
        folder m1 0 (['/', 'b', '/', 'y', '/'] ++ renderAux s) =
          folder treeABX 0 (['/', 'a', '/', 'x', '/'] ++ renderAux s)) ∧
      (∃ t, m1.cell 3 = some t ∧ t.ancestor = some 2) ∧
      (∀ q, is_a_prefix_of ['/', 'a', '/', 'x', '/'] q = false →
        is_a_prefix_of ['/', 'b', '/', 'y', '/'] q = false →
        folder m1 0 q = folder treeABX 0 q) ∧
      (∀ a t, treeABX.cell a = some t → ∃ t1, m1.cell a = some t1 ∧
        (a ≠ 3 → t1.ancestor = t.ancestor) ∧ (a ≠ ps → a ≠ 2 → t1.contents = t.contents)) ∧
      (∀ a, treeABX.cell a = none → m1.cell a = none) :=
  ⟨treeABX_ok.1, treeABX_ok.2,
    tree_move_effect treeABX 0 ['/', 'a', '/', 'x', '/'] ['/', 'b', '/', 'y', '/']
      ['/', 'a', '/'] ['/', 'b', '/'] ['x'] ['y'] 3 2 9 treeABX_ok.1 treeABX_ok.2
      (by decide) (by decide) (by decide) (by decide) (by decide) (by decide) (by decide)
      (by decide) (by decide) (by decide) (by decide) (by decide) (by decide)⟩

/-- C8 as stated fails: in the tree that holds the root alone `/a/` is a valid path other
than `/`, and `tree_move` of `/a/` onto itself returns `ENOENT`, not `0`. -/
theorem move_onto_itself_missing :
    WF initMem 0 ∧ Idle initMem ∧ is_path_valid ['/', 'a', '/'] = true ∧
    ['/', 'a', '/'] ≠ ['/'] ∧
    (tree_move 3 initMem (some 0) ['/', 'a', '/'] ['/', 'a', '/']).map Prod.snd = some ENOENT ∧
    ENOENT ≠ 0 :=
  ⟨wf_initMem, idle_initMem, by decide, by decide, by decide, by decide⟩

/-- C8, amended: for a valid path other than `/`, `tree_move` of the path onto itself
returns `0` when the folder exists and `ENOENT` when it does not; in both cases every
node keeps its `ancestor` and its map, nothing is allocated, and every path leads to the
same folder as before. -/
theorem tree_move_same_path (m : Mem) (root : Nat) (p : Path) (fuel : Nat)
    (hwf : WF m root) (hidle : Idle m) (hf : p.length ≤ fuel)
    (hv : is_path_valid p = true) (hr : p ≠ ['/']) :
    ∃ m1, tree_move fuel m (some root) p p =
        some (m1, if (folder m root p).isSome then 0 else ENOENT) ∧
      (∀ a, (m1.cell a).map (fun t => (t.ancestor, t.contents)) =
        (m.cell a).map (fun t => (t.ancestor, t.contents))) ∧
      m1.next = m.next ∧ (∀ q, folder m1 root q = folder m root q) := by
  have hrule : ¬ (is_a_prefix_of p p = true ∧ p ≠ p) := fun h => h.2 rfl
  obtain ⟨scs, sn, tcs, tn, h1, h2, ha⟩ := moveArgs_of_paths hv hv hr hr hrule
  have hST : scs ++ [sn] = tcs ++ [tn] := render_injective ha.validS ha.validT (h1.symm.trans h2)
  have hcs : scs = tcs := List.append_inj_left' hST rfl
  have hn : sn = tn := by
    have := List.append_inj_right' hST rfl
    simpa using this
  subst hcs hn h1
  have hf1 : (scs ++ [sn]).length < fuel := fuel_of_length hf
  have hshape := sameShape_afterLock m (moveWriter m root (scs ++ [sn]) (scs ++ [sn]))
  have hnext : (afterLock m (moveWriter m root (scs ++ [sn]) (scs ++ [sn]))).next = m.next := by
    cases moveWriter m root (scs ++ [sn]) (scs ++ [sn]) <;> rfl
  refine ⟨afterLock m (moveWriter m root (scs ++ [sn]) (scs ++ [sn])), ?_, hshape, hnext,
    fun q => sameShape_folder hshape root q⟩
  rw [folder_render m root ha.validS, resolve_concat]
  cases hres : resolve m root scs with
  | none =>
    rw [tree_move_noent_source_parent hwf hidle ha fuel hf1 hres]
    simp
  | some ps =>
    have hcases : child m ps sn = none ∨ ∃ v, child m ps sn = some v := by
      cases child m ps sn <;> simp
    rcases hcases with hc | ⟨v, hc⟩
    · rw [tree_move_noent_source hwf hidle ha fuel hf1 hres hc]
      simp [hc]
    · rw [tree_move_same hwf hidle ha fuel hf1 hf1 hres hc rfl]
      simp [hc]

/-- Instance of the amended C8: moving `/a/` onto itself in the tree that holds `/a/`. -/
theorem tree_move_same_path_witness :
    WF treeA 0 ∧ Idle treeA ∧
    ∃ m1, tree_move 3 treeA (some 0) ['/', 'a', '/'] ['/', 'a', '/'] =
        some (m1, if (folder treeA 0 ['/', 'a', '/']).isSome then 0 else ENOENT) ∧
      (∀ a, (m1.cell a).map (fun t => (t.ancestor, t.contents)) =
        (treeA.cell a).map (fun t => (t.ancestor, t.contents))) ∧
      m1.next = treeA.next ∧ (∀ q, folder m1 0 q = folder treeA 0 q) :=
  ⟨treeA_ok.1, treeA_ok.2,
    tree_move_same_path treeA 0 ['/', 'a', '/'] 3 treeA_ok.1 treeA_ok.2
      (by decide) (by decide) (by decide)⟩

/-! ## `tree_create` followed by `tree_remove` -/

theorem hmap_remove_of_get_none {map : HashMap} {c : Name} (h : hmap_get map c = none) :
    hmap_remove map c = map := by
  rw [hmap_get_eq_none_iff] at h
  simp only [hmap_remove]
  rw [List.filter_eq_self]
  intro kv hkv
  simp only [ne_eq, decide_not, Bool.not_eq_true', decide_eq_false_iff_not]
  intro hk
  exact h (by rw [← hk]; exact List.mem_map_of_mem Prod.fst hkv)

theorem hmap_remove_cons_self (map : HashMap) (c : Name) (x : Nat) :
    hmap_remove ((c, x) :: map) c = hmap_remove map c := by
  simp [hmap_remove, List.filter_cons]

/-- A `tree_create` that returns `0` was called with a valid path `cs ++ [c]` whose parent
exists and has no child `c`. -/
theorem tree_create_zero {m : Mem} {root : Nat} (hwf : WF m root) (hidle : Idle m)
    {p : Path} {fuel : Nat} (hf : p.length ≤ fuel) {m1 : Mem}
    (h : tree_create fuel m (some root) p = some (m1, 0)) :
    ∃ cs c pt tp, p = render (cs ++ [c]) ∧ (∀ x ∈ cs ++ [c], validName x = true) ∧
      resolve m root cs = some pt ∧ m.cell pt = some tp ∧ child m pt c = none ∧
      m1 = createdMem m pt c tp.contents := by
  cases hval : is_path_valid p with
  | false =>
    rw [tree_create_invalid fuel m _ p hval] at h
    simp [EINVAL] at h
  | true =>
    rcases valid_path_cases hval with rfl | ⟨cs, c, hv, rfl⟩
    · rw [tree_create_root] at h
      simp [EEXIST] at h
    · have hf1 : cs.length < fuel := by
        have := fuel_of_length hf
        simp at this
        omega
      cases hres : resolve m root cs with
      | none =>
        rw [tree_create_noent hwf hidle cs c hv fuel hf1 hres] at h
        simp [ENOENT] at h
      | some pt =>
        obtain ⟨tp, htp⟩ := hwf.folder_cell hres
        have hcases : child m pt c = none ∨ ∃ v, child m pt c = some v := by
          cases child m pt c <;> simp
        rcases hcases with hc | ⟨v, hc⟩
        · rw [tree_create_success hwf hidle cs c hv fuel hf1 hres htp hc] at h
          simp only [Option.some.injEq, Prod.mk.injEq, and_true] at h
          exact ⟨cs, c, pt, tp, rfl, hv, hres, htp, hc, h.symm⟩
        · rw [tree_create_exists hwf hidle cs c hv fuel hf1 hres hc] at h
          simp [EEXIST] at h

/-- C10: when `tree_create` returns `0`, a `tree_remove` of the same path right after it
returns `0`, every path leads to the folder it led to before the create, and `tree_list`
gives the same result as before for every path. -/
theorem create_then_remove (m : Mem) (root : Nat) (p : Path) (fuel : Nat) (m1 : Mem)
    (hwf : WF m root) (hidle : Idle m) (hf : p.length ≤ fuel)
    (hcreate : tree_create fuel m (some root) p = some (m1, 0)) :
    ∃ m2, tree_remove fuel m1 (some root) p = some (m2, 0) ∧
      (∀ q, folder m2 root q = folder m root q) ∧
      (∀ q fuel1, q.length ≤ fuel1 → ∃ mA mB l,
        tree_list fuel1 m2 (some root) q = some (mA, l) ∧
        tree_list fuel1 m (some root) q = some (mB, l)) := by
  obtain ⟨cs, c, pt, tp, rfl, hv, hres, htp, hc, rfl⟩ := tree_create_zero hwf hidle hf hcreate
  have hf1 : cs.length < fuel := by
    have := fuel_of_length hf
    simp at this
    omega
  obtain ⟨hwf1, hidle1, hunder, hoff, ⟨tn, htn, -, htnc⟩, ⟨tp1, htp1, -, htp1c⟩, hother⟩ :=
    create_facts hwf hidle hres htp hc
  have hres1 : resolve (createdMem m pt c tp.contents) root cs = some pt := by
    rw [hoff cs (prefix_concat_self_false cs c)]; exact hres
  have hc1 : child (createdMem m pt c tp.contents) pt c = some m.next := by
    have h2 := hunder []
    simp only [List.append_nil, if_true] at h2
    rw [resolve_concat, hres1] at h2
    exact h2
  obtain ⟨hwf2, hidle2, hunder2, hoff2, hcellv2, ⟨tp2, htp2, -, htp2c⟩, hother2⟩ :=
    remove_facts hwf1 hidle1 hres1 htp1 hc1
  have hSnone : resolve m root (cs ++ [c]) = none := by
    rw [resolve_concat, hres]; exact hc
  have hresolve : ∀ qs, resolve (removedMem (createdMem m pt c tp.contents) pt c m.next
      tp1.contents) root qs = resolve m root qs := by
    intro qs
    by_cases hpre : (cs ++ [c]) <+: qs
    · obtain ⟨s, rfl⟩ := hpre
      rw [hunder2 s, resolve_concat_none_extend hSnone]
    · rw [hoff2 qs hpre, hoff qs hpre]
  have hlisting : ∀ a t, m.cell a = some t →
      listing (removedMem (createdMem m pt c tp.contents) pt c m.next tp1.contents) a =
        listing m a := by
    intro a t hat
    by_cases hap : a = pt
    · subst hap
      rw [htp] at hat
      cases hat
      have hget : hmap_get tp.contents c = none := by rw [← child_eq htp c]; exact hc
      simp only [listing]
      rw [htp2, htp]
      simp only [htp2c, htp1c, hmap_remove_cons_self, hmap_remove_of_get_none hget]
    · have han : a ≠ m.next := hwf.ne_next hat
      simp only [listing, hother2 a hap han, hother a hap han]
  refine ⟨removedMem (createdMem m pt c tp.contents) pt c m.next tp1.contents,
    tree_remove_success hwf1 hidle1 cs c hv fuel hf1 hres1 htp1 hc1 htn htnc, ?_, ?_⟩
  · intro q
    cases hval : is_path_valid q with
    | false => rw [folder_eq_none_of_invalid _ root hval, folder_eq_none_of_invalid _ root hval]
    | true =>
      obtain ⟨qs, hqv, rfl⟩ := (is_path_valid_iff q).1 hval
      rw [folder_render _ root hqv, folder_render _ root hqv]
      exact hresolve qs
  · intro q fuel1 hq
    cases hval : is_path_valid q with
    | false =>
      exact ⟨_, _, none, tree_list_invalid fuel1 _ _ q hval, tree_list_invalid fuel1 _ _ q hval⟩
    | true =>
      obtain ⟨qs, hqv, rfl⟩ := (is_path_valid_iff q).1 hval
      have hq1 : qs.length < fuel1 := fuel_of_length hq
      refine ⟨removedMem (createdMem m pt c tp.contents) pt c m.next tp1.contents, m,
        (resolve m root qs).bind (listing m), ?_, tree_list_valid hwf hidle qs hqv fuel1 hq1⟩
      rw [tree_list_valid hwf2 hidle2 qs hqv fuel1 hq1, hresolve]
      cases hr : resolve m root qs with
      | none => rfl
      | some a =>
        obtain ⟨t, hat⟩ := hwf.folder_cell hr
        simp only [Option.some_bind, hlisting a t hat]

/-- Instance of C10: creating and removing `/a/` in the tree that holds the root alone;
the memory after the create is `treeA`. -/
theorem create_then_remove_witness :
    WF initMem 0 ∧ Idle initMem ∧
    tree_create 3 initMem (some 0) ['/', 'a', '/'] = some (treeA, 0) ∧
    ∃ m2, tree_remove 3 treeA (some 0) ['/', 'a', '/'] = some (m2, 0) ∧
      (∀ q, folder m2 0 q = folder initMem 0 q) ∧
      (∀ q fuel1, q.length ≤ fuel1 → ∃ mA mB l,
        tree_list fuel1 m2 (some 0) q = some (mA, l) ∧
        tree_list fuel1 initMem (some 0) q = some (mB, l)) := by
  have hres : resolve initMem 0 ([] : List Name) = some 0 := rfl
  have htp : initMem.cell 0 = some (idleNode none [] 2) := rfl
  have hc : child initMem 0 ['a'] = none := rfl
  have hcreate : tree_create 3 initMem (some 0) ['/', 'a', '/'] = some (treeA, 0) :=
    tree_create_success wf_initMem idle_initMem [] ['a'] (by decide) 3 (by decide) hres htp hc
  exact ⟨wf_initMem, idle_initMem, hcreate,
    create_then_remove initMem 0 ['/', 'a', '/'] 3 treeA wf_initMem idle_initMem (by decide)
      hcreate⟩

/-! ## `tree_move` there and back -/

theorem check_source_and_target_some_ne_zero {a b : Path} {code : Int}
    (h : check_source_and_target a b = some code) : code ≠ 0 := by
  unfold check_source_and_target at h
  split_ifs at h <;> simp only [Option.some.injEq] at h <;> subst h <;> decide

theorem check_source_and_target_none {a b : Path} (h : check_source_and_target a b = none) :
    is_path_valid a = true ∧ is_path_valid b = true ∧ a ≠ ['/'] ∧ b ≠ ['/'] ∧
      ¬ (is_a_prefix_of a b = true ∧ a ≠ b) := by
  unfold check_source_and_target at h
  split_ifs at h with h1 h2 h3 h4
  simp only [Bool.or_eq_true, Bool.not_eq_true', not_or, Bool.not_eq_false] at h1
  refine ⟨h1.1, h1.2, h2, h3, ?_⟩
  rintro ⟨h5, h6⟩
  apply h4
  have h7 : b ≠ a := fun h => h6 h.symm
  simp [h5, h7]

/-- The two ways `tree_move` can end on a well-formed idle tree: either the tree keeps
its shape, or the move took place. -/
theorem move_outcome {m : Mem} {root : Nat} (hwf : WF m root) (hidle : Idle m) (a b : Path)
    (fuel : Nat) (hfa : a.length ≤ fuel) (hfb : b.length ≤ fuel) :
    (∃ m1 c, tree_move fuel m (some root) a b = some (m1, c) ∧ SameShape m m1 ∧
      m1.next = m.next ∧ Idle m1 ∧ (c = 0 → (folder m root a).isSome = true ∧ a = b)) ∨
    (∃ scs sn tcs tn l ps pt v tps tpt, a = render (scs ++ [sn]) ∧ b = render (tcs ++ [tn]) ∧
      MoveArgs (scs ++ [sn]) (tcs ++ [tn]) ∧ resolve m root scs = some ps ∧
      m.cell ps = some tps ∧ child m ps sn = some v ∧ resolve m root tcs = some pt ∧
      m.cell pt = some tpt ∧ child m pt tn = none ∧ scs ++ [sn] ≠ tcs ++ [tn] ∧
      tree_move fuel m (some root) a b =
        some (movedMem m l ps pt v sn tn tps.contents tpt.contents, 0)) := by
  cases hchk : check_source_and_target a b with
  | some code =>
    left
    refine ⟨m, code, tree_move_rejected fuel m _ a b code hchk, sameShape_refl m, rfl, hidle, ?_⟩
    intro h
    exact absurd h (check_source_and_target_some_ne_zero hchk)
  | none =>
    obtain ⟨hs, ht, hsr, htr, hrule⟩ := check_source_and_target_none hchk
    obtain ⟨scs, sn, tcs, tn, rfl, rfl, ha⟩ := moveArgs_of_paths hs ht hsr htr hrule
    have hfs1 : (scs ++ [sn]).length < fuel := fuel_of_length hfa
    have hft1 : (tcs ++ [tn]).length < fuel := fuel_of_length hfb
    have hfail : ∀ c : Int, c ≠ 0 →
        tree_move fuel m (some root) (render (scs ++ [sn])) (render (tcs ++ [tn])) =
          some (afterLock m (moveWriter m root (scs ++ [sn]) (tcs ++ [tn])), c) →
        ∃ m1 c, tree_move fuel m (some root) (render (scs ++ [sn])) (render (tcs ++ [tn])) =
          some (m1, c) ∧ SameShape m m1 ∧ m1.next = m.next ∧ Idle m1 ∧
          (c = 0 → (folder m root (render (scs ++ [sn]))).isSome = true ∧
            render (scs ++ [sn]) = render (tcs ++ [tn])) := by
      intro c hc h
      refine ⟨_, c, h, sameShape_afterLock m _, ?_, idle_afterLock hidle _, fun h0 => absurd h0 hc⟩
      cases moveWriter m root (scs ++ [sn]) (tcs ++ [tn]) <;> rfl
    cases hres : resolve m root scs with
    | none =>
      left
      exact hfail ENOENT (by decide) (tree_move_noent_source_parent hwf hidle ha fuel hfs1 hres)
    | some ps =>
      have hcases : child m ps sn = none ∨ ∃ v, child m ps sn = some v := by
        cases child m ps sn <;> simp
      rcases hcases with hc | ⟨v, hc⟩
      · left
        exact hfail ENOENT (by decide) (tree_move_noent_source hwf hidle ha fuel hfs1 hres hc)
      · cases hrt : resolve m root tcs with
        | none =>
          left
          exact hfail ENOENT (by decide)
            (tree_move_noent_target_parent hwf hidle ha fuel hfs1 hft1 hres hc hrt)
        | some pt =>
          by_cases hST : scs ++ [sn] = tcs ++ [tn]
          · left
            refine ⟨_, 0, tree_move_same hwf hidle ha fuel hfs1 hft1 hres hc hST,
              sameShape_afterLock m _, ?_, idle_afterLock hidle _, fun _ => ⟨?_, by rw [hST]⟩⟩
            · cases moveWriter m root (scs ++ [sn]) (tcs ++ [tn]) <;> rfl
            · rw [folder_render m root ha.validS, resolve_concat, hres]
              simp [hc]
          · have hcases2 : child m pt tn = none ∨ ∃ w, child m pt tn = some w := by
              cases child m pt tn <;> simp
            rcases hcases2 with hct | ⟨w, hct⟩
            · right
              obtain ⟨l, hl, -, -⟩ := moveWriter_of_source (tcs ++ [tn]) hres hc
              obtain ⟨tps, htps⟩ := hwf.folder_cell hres
              obtain ⟨tpt, htpt⟩ := hwf.folder_cell hrt
              exact ⟨scs, sn, tcs, tn, l, ps, pt, v, tps, tpt, rfl, rfl, ha, hres, htps, hc, hrt,
                htpt, hct, hST,
                tree_move_success hwf hidle ha fuel hfs1 hft1 hl hres htps hc hrt htpt hct hST⟩
            · left
              exact hfail EEXIST (by decide)
                (tree_move_exists hwf hidle ha fuel hfs1 hft1 hres hc hrt hct hST)

theorem sameShape_ancestor {m m1 : Mem} (h : SameShape m m1) (x : Nat) :
    (m1.cell x).map (fun t => t.ancestor) = (m.cell x).map (fun t => t.ancestor) := by
  have := congrArg (Option.map Prod.fst) (h x)
  simpa [Option.map_map, Function.comp] using this

theorem folder_eq_of_resolve_eq {m m1 : Mem} {root : Nat}
    (h : ∀ qs, resolve m1 root qs = resolve m root qs) (q : Path) :
    folder m1 root q = folder m root q := by
  unfold folder
  cases path_components q with
  | none => rfl
  | some cs => exact h cs

/-- C9: when folder `b` does not exist, `tree_move(a, b)` followed by `tree_move(b, a)`
both return, every path then leads to the folder it led to at the start, every node has
the `ancestor` it had at the start, and if the first move returned `0` so did the
second. -/
theorem tree_move_round_trip (m : Mem) (root : Nat) (a b : Path) (fuel : Nat)
    (hwf : WF m root) (hidle : Idle m) (hfa : a.length ≤ fuel) (hfb : b.length ≤ fuel)
    (hb : folder m root b = none) :
    ∃ m1 c1 m2 c2, tree_move fuel m (some root) a b = some (m1, c1) ∧
      tree_move fuel m1 (some root) b a = some (m2, c2) ∧
      (∀ q, folder m2 root q = folder m root q) ∧
      (∀ x, (m2.cell x).map (fun t => t.ancestor) = (m.cell x).map (fun t => t.ancestor)) ∧
      (c1 = 0 → c2 = 0) := by
  rcases move_outcome hwf hidle a b fuel hfa hfb with
    ⟨m1, c1, h1, hsh1, hn1, hid1, hz1⟩ |
    ⟨scs, sn, tcs, tn, l, ps, pt, v, tps, tpt, rfl, rfl, ha, hres, htps, hc, hrt, htpt, hct,
      hST, h1⟩
  · -- the first move leaves the shape of the tree as it is
    have hwf1 : WF m1 root := sameShape_wf hsh1 hn1 hwf
    have hc1 : c1 ≠ 0 := by
      intro h0
      obtain ⟨h2, h3⟩ := hz1 h0
      rw [h3, hb] at h2
      cases h2
    rcases move_outcome hwf1 hid1 b a fuel hfb hfa with
      ⟨m2, c2, h2, hsh2, -, -, -⟩ |
      ⟨scs, sn, tcs, tn, l, ps, pt, v, tps, tpt, rfl, rfl, ha, hres, htps, hc, -, -, -, -, -⟩
    · refine ⟨m1, c1, m2, c2, h1, h2, ?_, ?_, fun h => absurd h hc1⟩
      · intro q
        rw [sameShape_folder hsh2, sameShape_folder hsh1]
      · intro x
        rw [sameShape_ancestor hsh2, sameShape_ancestor hsh1]
    · exfalso
      rw [← sameShape_folder hsh1, folder_render m1 root ha.validS, resolve_concat, hres] at hb
      simp [hc] at hb
  · -- the first move takes place
    have hnp : ¬ (scs ++ [sn]) <+: (tcs ++ [tn]) := ha.not_under hST
    have hfs1 : (scs ++ [sn]).length < fuel := fuel_of_length hfa
    have hft1 : (tcs ++ [tn]).length < fuel := fuel_of_length hfb
    have hSv : resolve m root (scs ++ [sn]) = some v := resolve_concat_eq_some.2 ⟨ps, hres, hc⟩
    have hTnone : resolve m root (tcs ++ [tn]) = none := by
      rw [resolve_concat, hrt]; exact hct
    have hnp2 : ¬ (tcs ++ [tn]) <+: (scs ++ [sn]) := by
      intro h
      obtain ⟨w, hw⟩ := resolve_of_isPrefix h hSv
      rw [hTnone] at hw
      cases hw
    obtain ⟨hwf1, hidle1, hunderT, hunderS, hoff, hcells, hnone⟩ :=
      move_facts hwf hidle l hres htps hc hrt htpt hct hnp
    generalize movedMem m l ps pt v sn tn tps.contents tpt.contents = m1 at *
    have hrt1 : resolve m1 root tcs = some pt := by
      rw [hoff tcs (fun h => hnp (h.trans (List.prefix_append _ _)))
        (prefix_concat_self_false tcs tn)]
      exact hrt
    have hres1 : resolve m1 root scs = some ps := by
      rw [hoff scs (prefix_concat_self_false scs sn)
        (fun h => hnp2 (h.trans (List.prefix_append _ _)))]
      exact hres
    have hc1 : child m1 pt tn = some v := by
      have := hunderT []
      simp only [List.append_nil] at this
      rw [resolve_concat, hrt1, hSv] at this
      exact this
    have hct1 : child m1 ps sn = none := by
      have := hunderS []
      simp only [List.append_nil] at this
      rw [resolve_concat, hres1] at this
      exact this
    obtain ⟨tpt1, htpt1⟩ := hwf1.folder_cell hrt1
    obtain ⟨tps1, htps1⟩ := hwf1.folder_cell hres1
    have ha2 : MoveArgs (tcs ++ [tn]) (scs ++ [sn]) :=
      ⟨ha.validT, ha.validS, ha.neT, ha.neS, fun h => hnp2 h.1⟩
    have hTS : tcs ++ [tn] ≠ scs ++ [sn] := fun h => hST h.symm
    obtain ⟨l2, hl2, -, -⟩ := moveWriter_of_source (scs ++ [sn]) hrt1 hc1
    have h2 := tree_move_success hwf1 hidle1 ha2 fuel hft1 hfs1 hl2 hrt1 htpt1 hc1 hres1 htps1
      hct1 hTS
    obtain ⟨-, -, hunderT2, hunderS2, hoff2, hcells2, hnone2⟩ :=
      move_facts hwf1 hidle1 l2 hrt1 htpt1 hc1 hres1 htps1 hct1 hnp2
    refine ⟨m1, 0, _, 0, h1, h2, ?_, ?_, fun _ => rfl⟩
    · apply folder_eq_of_resolve_eq
      intro qs
      by_cases hS : (scs ++ [sn]) <+: qs
      · obtain ⟨s, rfl⟩ := hS
        rw [hunderT2 s, hunderT s]
      · by_cases hT : (tcs ++ [tn]) <+: qs
        · obtain ⟨s, rfl⟩ := hT
          rw [hunderS2 s, resolve_concat_none_extend hTnone]
        · rw [hoff2 qs hT hS, hoff qs hS hT]
    · intro x
      cases hx : m.cell x with
      | none =>
        rw [hnone2 x (hnone x hx)]
      | some t =>
        obtain ⟨t1, hx1, hanc1, -⟩ := hcells x t hx
        obtain ⟨t2, hx2, hanc2, -⟩ := hcells2 x t1 hx1
        rw [hx2]
        simp only [Option.map_some', Option.some.injEq]
        rw [hanc2, hanc1]
        by_cases hxv : x = v
        · subst hxv
          obtain ⟨tv, htv, hancv⟩ := hwf.child_cell hc
          rw [hx] at htv
          cases htv
          simp [hancv]
        · simp [hxv]

/-- Instance of C9: moving `/a/x/` to `/b/y/` and back in the tree with `/a/`, `/b/` and
`/a/x/`. -/
theorem tree_move_round_trip_witness :
    WF treeABX 0 ∧ Idle treeABX ∧
    ∃ m1 c1 m2 c2,
      tree_move 9 treeABX (some 0) ['/', 'a', '/', 'x', '/'] ['/', 'b', '/', 'y', '/'] =
        some (m1, c1) ∧
      tree_move 9 m1 (some 0) ['/', 'b', '/', 'y', '/'] ['/', 'a', '/', 'x', '/'] =
        some (m2, c2) ∧
      (∀ q, folder m2 0 q = folder treeABX 0 q) ∧
      (∀ x, (m2.cell x).map (fun t => t.ancestor) =
        (treeABX.cell x).map (fun t => t.ancestor)) ∧
      (c1 = 0 → c2 = 0) :=
  ⟨treeABX_ok.1, treeABX_ok.2,
    tree_move_round_trip treeABX 0 ['/', 'a', '/', 'x', '/'] ['/', 'b', '/', 'y', '/'] 9
      treeABX_ok.1 treeABX_ok.2 (by decide) (by decide) (by decide)⟩

/-! ## No partial success -/

theorem sameShape_wf_le {m m1 : Mem} {root : Nat} (h : SameShape m m1) (hn : m.next ≤ m1.next)
    (hwf : WF m root) : WF m1 root := by
  have hw : WF { m1 with next := m.next } root :=
    @sameShape_wf m { m1 with next := m.next } root h rfl hwf
  exact ⟨hw.root_ok, hw.child_ok, hw.keys_nodup, hw.vals_nodup,
    fun a ha => hw.fresh a (le_trans hn ha)⟩

theorem sameShape_createFailedMem {m : Mem} {root : Nat} (hwf : WF m root) (pt : Nat) :
    SameShape m (createFailedMem m pt) := by
  intro x
  by_cases hx : x = m.next
  · subst hx
    simp [createFailedMem, Mem.free, hwf.fresh _ (le_refl _)]
  · have h1 : (createFailedMem m pt).cell x = (touch m pt).cell x := by
      simp only [createFailedMem, Mem.free, hx, if_false]
      exact tree_new_cell_ne (touch m pt) hx
    rw [h1]
    exact sameShape_touch m pt x

theorem idle_createFailedMem {m : Mem} (hidle : Idle m) (pt : Nat) :
    Idle (createFailedMem m pt) :=
  idle_free (idle_tree_new (idle_touch hidle pt)) _

/-- The two ways `tree_create` can end on a well-formed idle tree: either it returns an
error code and the tree keeps its shape, or the folder was created. -/
theorem create_outcome {m : Mem} {root : Nat} (hwf : WF m root) (hidle : Idle m) (p : Path)
    (fuel : Nat) (hf : p.length ≤ fuel) :
    (∃ m1 c, tree_create fuel m (some root) p = some (m1, c) ∧ c ≠ 0 ∧ SameShape m m1 ∧
      m.next ≤ m1.next ∧ Idle m1) ∨
    (∃ cs c pt tp, p = render (cs ++ [c]) ∧ (∀ x ∈ cs ++ [c], validName x = true) ∧
      resolve m root cs = some pt ∧ m.cell pt = some tp ∧ child m pt c = none ∧
      tree_create fuel m (some root) p = some (createdMem m pt c tp.contents, 0)) := by
  cases hval : is_path_valid p with
  | false =>
    left
    exact ⟨m, EINVAL, tree_create_invalid fuel m _ p hval, by decide, sameShape_refl m,
      le_refl _, hidle⟩
  | true =>
    rcases valid_path_cases hval with rfl | ⟨cs, c, hv, rfl⟩
    · left
      exact ⟨m, EEXIST, tree_create_root fuel m _, by decide, sameShape_refl m, le_refl _, hidle⟩
    · have hfl : cs.length < fuel := by
        have := fuel_of_length hf
        simp at this
        omega
      cases hres : resolve m root cs with
      | none =>
        left
        exact ⟨m, ENOENT, tree_create_noent hwf hidle cs c hv fuel hfl hres, by decide,
          sameShape_refl m, le_refl _, hidle⟩
      | some pt =>
        obtain ⟨tp, htp⟩ := hwf.folder_cell hres
        have hcases : child m pt c = none ∨ ∃ v, child m pt c = some v := by
          cases child m pt c <;> simp
        rcases hcases with hc | ⟨v, hc⟩
        · right
          exact ⟨cs, c, pt, tp, rfl, hv, hres, htp, hc,
            tree_create_success hwf hidle cs c hv fuel hfl hres htp hc⟩
        · left
          exact ⟨createFailedMem m pt, EEXIST,
            tree_create_exists hwf hidle cs c hv fuel hfl hres hc, by decide,
            sameShape_createFailedMem hwf pt, Nat.le_succ _, idle_createFailedMem hidle pt⟩

/-- The two ways `tree_remove` can end on a well-formed idle tree: either it returns an
error code and the tree keeps its shape, or the folder was removed. -/
theorem remove_outcome {m : Mem} {root : Nat} (hwf : WF m root) (hidle : Idle m) (p : Path)
    (fuel : Nat) (hf : p.length ≤ fuel) :
    (∃ m1 c, tree_remove fuel m (some root) p = some (m1, c) ∧ c ≠ 0 ∧ SameShape m m1 ∧
      m.next ≤ m1.next ∧ Idle m1) ∨
    (∃ cs c pt v tp tv, p = render (cs ++ [c]) ∧ (∀ x ∈ cs ++ [c], validName x = true) ∧
      resolve m root cs = some pt ∧ m.cell pt = some tp ∧ child m pt c = some v ∧
      m.cell v = some tv ∧ tv.contents = [] ∧
      tree_remove fuel m (some root) p = some (removedMem m pt c v tp.contents, 0)) := by
  cases hval : is_path_valid p with
  | false =>
    left
    exact ⟨m, EINVAL, tree_remove_invalid fuel m _ p hval, by decide, sameShape_refl m,
      le_refl _, hidle⟩
  | true =>
    rcases valid_path_cases hval with rfl | ⟨cs, c, hv, rfl⟩
    · left
      exact ⟨m, EBUSY, tree_remove_root fuel m _, by decide, sameShape_refl m, le_refl _, hidle⟩
    · have hfl : cs.length < fuel := by
        have := fuel_of_length hf
        simp at this
        omega
      cases hres : resolve m root cs with
      | none =>
        left
        exact ⟨m, ENOENT, tree_remove_noent_parent hwf hidle cs c hv fuel hfl hres, by decide,
          sameShape_refl m, le_refl _, hidle⟩
      | some pt =>
        obtain ⟨tp, htp⟩ := hwf.folder_cell hres
        have hcases : child m pt c = none ∨ ∃ v, child m pt c = some v := by
          cases child m pt c <;> simp
        rcases hcases with hc | ⟨v, hc⟩
        · left
          exact ⟨touch m pt, ENOENT, tree_remove_noent_child hwf hidle cs c hv fuel hfl hres hc,
            by decide, sameShape_touch m pt, le_refl _, idle_touch hidle pt⟩
        · obtain ⟨tv, htv, -⟩ := hwf.child_cell hc
          by_cases hcon : tv.contents = []
          · right
            exact ⟨cs, c, pt, v, tp, tv, rfl, hv, hres, htp, hc, htv, hcon,
              tree_remove_success hwf hidle cs c hv fuel hfl hres htp hc htv hcon⟩
          · left
            exact ⟨touch m pt, ENOTEMPTY,
              tree_remove_notempty hwf hidle cs c hv fuel hfl hres hc htv hcon, by decide,
              sameShape_touch m pt, le_refl _, idle_touch hidle pt⟩

/-- C11: on a well-formed tree whose rooms are idle each of `tree_create`, `tree_remove`
and `tree_move` returns, and when the returned code is not `0` the memory afterwards holds
nodes at the same addresses as before, each with the child map and the parent pointer it
had, so that every path names the folder it named before. -/
theorem no_partial_success (m : Mem) (root : Nat) (fuel : Nat) (hwf : WF m root)
    (hidle : Idle m) :
    (∀ p : Path, p.length ≤ fuel →
      ∃ m1 c, tree_create fuel m (some root) p = some (m1, c) ∧
        (c ≠ 0 → SameShape m m1 ∧ ∀ q, folder m1 root q = folder m root q)) ∧
    (∀ p : Path, p.length ≤ fuel →
      ∃ m1 c, tree_remove fuel m (some root) p = some (m1, c) ∧
        (c ≠ 0 → SameShape m m1 ∧ ∀ q, folder m1 root q = folder m root q)) ∧
    (∀ a b : Path, a.length ≤ fuel → b.length ≤ fuel →
      ∃ m1 c, tree_move fuel m (some root) a b = some (m1, c) ∧
        (c ≠ 0 → SameShape m m1 ∧ ∀ q, folder m1 root q = folder m root q)) := by
  refine ⟨?_, ?_, ?_⟩
  · intro p hf
    rcases create_outcome hwf hidle p fuel hf with ⟨m1, c, h, -, hs, -, -⟩ | ⟨cs, c, pt, tp, -, -, -, -, -, h⟩
    · exact ⟨m1, c, h, fun _ => ⟨hs, fun q => sameShape_folder hs root q⟩⟩
    · exact ⟨_, 0, h, fun h0 => absurd rfl h0⟩
  · intro p hf
    rcases remove_outcome hwf hidle p fuel hf with ⟨m1, c, h, -, hs, -, -⟩ | ⟨cs, c, pt, v, tp, tv, -, -, -, -, -, -, -, h⟩
    · exact ⟨m1, c, h, fun _ => ⟨hs, fun q => sameShape_folder hs root q⟩⟩
    · exact ⟨_, 0, h, fun h0 => absurd rfl h0⟩
  · intro a b hfa hfb
    rcases move_outcome hwf hidle a b fuel hfa hfb with ⟨m1, c, h, hs, -, -, -⟩ | ⟨scs, sn, tcs, tn, l, ps, pt, v, tps, tpt, -, -, -, -, -, -, -, -, -, -, h⟩
    · exact ⟨m1, c, h, fun _ => ⟨hs, fun q => sameShape_folder hs root q⟩⟩
    · exact ⟨_, 0, h, fun h0 => absurd rfl h0⟩

/-- Instance of C11: creating `/a/` again, removing the non-empty `/a/` and moving `/b/`
onto `/a/` in the tree with `/a/`, `/b/` and `/a/x/`. -/
theorem no_partial_success_witness :
    WF treeABX 0 ∧ Idle treeABX ∧
    (∀ p : Path, p.length ≤ 9 →
      ∃ m1 c, tree_create 9 treeABX (some 0) p = some (m1, c) ∧
        (c ≠ 0 → SameShape treeABX m1 ∧ ∀ q, folder m1 0 q = folder treeABX 0 q)) ∧
    (∀ p : Path, p.length ≤ 9 →
      ∃ m1 c, tree_remove 9 treeABX (some 0) p = some (m1, c) ∧
        (c ≠ 0 → SameShape treeABX m1 ∧ ∀ q, folder m1 0 q = folder treeABX 0 q)) ∧
    (∀ a b : Path, a.length ≤ 9 → b.length ≤ 9 →
      ∃ m1 c, tree_move 9 treeABX (some 0) a b = some (m1, c) ∧
        (c ≠ 0 → SameShape treeABX m1 ∧ ∀ q, folder m1 0 q = folder treeABX 0 q)) :=
  ⟨treeABX_ok.1, treeABX_ok.2, no_partial_success treeABX 0 9 treeABX_ok.1 treeABX_ok.2⟩

/-! ## The node made by `tree_new` -/

/-- C20 as stated fails: the node `tree_new()` makes on the empty heap carries the turn
flag `2`, which is neither reader (`0`) nor writer (`1`). -/
theorem tree_new_turn_flag :
    ∃ t, (tree_new Mem.empty).1.cell (tree_new Mem.empty).2 = some t ∧
      t.whose_turn = 2 ∧ t.whose_turn ≠ 0 ∧ t.whose_turn ≠ 1 :=
  ⟨_, tree_new_cell_next Mem.empty, rfl, by decide, by decide⟩

/-- C20 (amended): the node returned by `tree_new` has an empty child map, no parent, the
four counters equal to `0` and the turn flag `2`; with this flag a reader does not wait at
the node, as with the flag `0`. -/
theorem tree_new_fresh_node (m : Mem) :
    ∃ t, (tree_new m).1.cell (tree_new m).2 = some t ∧
      t.contents = hmap_new ∧ hmap_size t.contents = 0 ∧ t.ancestor = none ∧
      t.readers_number = 0 ∧ t.writers_number = 0 ∧
      t.waiting_readers = 0 ∧ t.waiting_writers = 0 ∧ t.whose_turn = 2 ∧
      (start_reading (tree_new m).1 (tree_new m).2).isSome = true ∧
      (start_reading ((tree_new m).1.set (tree_new m).2 { t with whose_turn := 0 })
        (tree_new m).2).isSome = true :=
  ⟨_, tree_new_cell_next m, rfl, rfl, rfl, rfl, rfl, rfl, rfl, rfl,
    by simp [start_reading, tree_new], by simp [start_reading, tree_new, Mem.set]⟩

/-! ## The listing of a folder -/

theorem insertName_perm (n : Name) (xs : List Name) : (insertName n xs).Perm (n :: xs) := by
  induction xs with
  | nil => simp [insertName]
  | cons x xs ih =>
    unfold insertName
    split_ifs with h
    · exact List.Perm.refl _
    · exact (List.Perm.cons x ih).trans (List.Perm.swap n x xs)

theorem insertName_sorted (n : Name) (xs : List Name) (h : xs.Sorted (· ≤ ·)) :
    (insertName n xs).Sorted (· ≤ ·) := by
  induction xs with
  | nil => simp [insertName]
  | cons x xs ih =>
    have hx := List.rel_of_sorted_cons h
    have hs := List.Sorted.of_cons h
    unfold insertName
    split_ifs with hlt
    · refine List.sorted_cons.2 ⟨?_, h⟩
      intro y hy
      rcases List.mem_cons.1 hy with rfl | hy
      · exact le_of_lt hlt
      · exact le_trans (le_of_lt hlt) (hx y hy)
    · refine List.sorted_cons.2 ⟨?_, ih hs⟩
      intro y hy
      rcases List.mem_cons.1 ((insertName_perm n xs).mem_iff.1 hy) with rfl | hy
      · exact not_lt.1 hlt
      · exact hx y hy

theorem sortNames_perm (xs : List Name) : (sortNames xs).Perm xs := by
  induction xs with
  | nil => exact List.Perm.refl _
  | cons x xs ih => exact (insertName_perm x _).trans (List.Perm.cons x ih)

theorem sortNames_sorted (xs : List Name) : (sortNames xs).Sorted (· ≤ ·) := by
  induction xs with
  | nil => simp [sortNames]
  | cons x xs ih => exact insertName_sorted x _ ih

theorem joinNames_eq_intercalate (xs : List Name) : joinNames xs = List.intercalate [','] xs := by
  induction xs with
  | nil => rfl
  | cons x xs ih =>
    cases xs with
    | nil => simp [joinNames, List.intercalate, List.intersperse]
    | cons y ys =>
      simp only [joinNames, ih]
      simp [List.intercalate, List.intersperse]

/-- C12: on a well-formed tree whose rooms are idle `tree_list` returns and leaves the
memory as it was; it returns `NULL` exactly when the path is not valid or names no folder,
and otherwise the names of the children of the folder, each once, in ascending
lexicographic order, joined by `,` (the empty string when there is no child). -/
theorem tree_list_result (m : Mem) (root : Nat) (p : Path) (fuel : Nat)
    (hwf : WF m root) (hidle : Idle m) (hfuel : p.length ≤ fuel) :
    ∃ r, tree_list fuel m (some root) p = some (m, r) ∧
      (r = none ↔ (is_path_valid p = false ∨ folder m root p = none)) ∧
      (∀ a, folder m root p = some a →
        ∃ names : List Name, names.Perm (childNames m a) ∧ names.Sorted (· ≤ ·) ∧
          r = some (List.intercalate [','] names) ∧
          (childNames m a = [] → r = some [])) := by
  cases hval : is_path_valid p with
  | false =>
    refine ⟨none, tree_list_invalid fuel m _ p hval, by simp, ?_⟩
    intro a ha
    rw [folder_eq_none_of_invalid m root hval] at ha
    cases ha
  | true =>
    obtain ⟨cs, hv, rfl⟩ := (is_path_valid_iff _).1 hval
    have hf : cs.length < fuel := fuel_of_length hfuel
    refine ⟨_, tree_list_valid hwf hidle cs hv fuel hf, ?_, ?_⟩
    · rw [folder_render m root hv]
      cases hres : resolve m root cs with
      | none => simp
      | some a =>
        obtain ⟨t, ht⟩ := hwf.folder_cell hres
        simp [listing, ht]
    · intro a ha
      rw [folder_render m root hv] at ha
      obtain ⟨t, ht⟩ := hwf.folder_cell ha
      refine ⟨sortNames (t.contents.map Prod.fst), ?_, sortNames_sorted _, ?_, ?_⟩
      · rw [childNames_eq ht]
        exact sortNames_perm _
      · simp [ha, listing, ht, make_map_contents_string, joinNames_eq_intercalate]
      · intro hnil
        rw [childNames_eq ht] at hnil
        simp [ha, listing, ht, make_map_contents_string, hnil, sortNames, joinNames]

/-- Instance of C12: listing `/` in the tree with `/a/`, `/b/` and `/a/x/`. -/
theorem tree_list_result_witness :
    WF treeABX 0 ∧ Idle treeABX ∧
    ∃ r, tree_list 1 treeABX (some 0) ['/'] = some (treeABX, r) ∧
      (r = none ↔ (is_path_valid ['/'] = false ∨ folder treeABX 0 ['/'] = none)) ∧
      (∀ a, folder treeABX 0 ['/'] = some a →
        ∃ names : List Name, names.Perm (childNames treeABX a) ∧ names.Sorted (· ≤ ·) ∧
          r = some (List.intercalate [','] names) ∧
          (childNames treeABX a = [] → r = some [])) :=
  ⟨treeABX_ok.1, treeABX_ok.2,
    tree_list_result treeABX 0 ['/'] 1 treeABX_ok.1 treeABX_ok.2 (by decide)⟩

/-! ## The structural invariant -/

theorem connected_of_sameShape {m m1 : Mem} {root : Nat} (h : SameShape m m1)
    (hc : Connected m root) : Connected m1 root := by
  intro a t1 ha
  obtain ⟨t, ht, -, -⟩ := sameShape_cell_some (sameShape_symm h) ha
  obtain ⟨cs, hcs⟩ := hc a t ht
  exact ⟨cs, by rw [sameShape_resolve h]; exact hcs⟩

theorem connected_created {m : Mem} {root : Nat} (hwf : WF m root) (hidle : Idle m)
    (hcon : Connected m root) {cs : List Name} {c : Name} {pt : Nat} {tp : Tree}
    (hres : resolve m root cs = some pt) (htp : m.cell pt = some tp)
    (hc : child m pt c = none) : Connected (createdMem m pt c tp.contents) root := by
  obtain ⟨-, -, hnew, hoff, -, -, hother⟩ := create_facts hwf hidle hres htp hc
  intro a t1 ha
  by_cases han : a = m.next
  · refine ⟨cs ++ [c] ++ [], ?_⟩
    rw [hnew []]
    simp [han]
  · by_cases hap : a = pt
    · refine ⟨cs, ?_⟩
      rw [hoff cs (prefix_concat_self_false cs c), hap]
      exact hres
    · rw [hother a hap han] at ha
      obtain ⟨q, hq⟩ := hcon a t1 ha
      refine ⟨q, ?_⟩
      rw [hoff q ?_]
      · exact hq
      · rintro ⟨s, rfl⟩
        obtain ⟨x, hx, -⟩ := resolve_prefix_some hq
        obtain ⟨p, hp, hpc⟩ := resolve_concat_eq_some.1 hx
        rw [hres] at hp
        cases hp
        rw [hc] at hpc
        cases hpc

theorem connected_removed {m : Mem} {root : Nat} (hwf : WF m root) (hidle : Idle m)
    (hcon : Connected m root) {cs : List Name} {c : Name} {pt v : Nat} {tp tv : Tree}
    (hres : resolve m root cs = some pt) (htp : m.cell pt = some tp)
    (hc : child m pt c = some v) (htv : m.cell v = some tv) (hempty : tv.contents = []) :
    Connected (removedMem m pt c v tp.contents) root := by
  obtain ⟨-, -, -, hoff, hv, -, hother⟩ := remove_facts hwf hidle hres htp hc
  intro a t1 ha
  have hav : a ≠ v := by
    rintro rfl
    rw [hv] at ha
    cases ha
  by_cases hap : a = pt
  · refine ⟨cs, ?_⟩
    rw [hoff cs (prefix_concat_self_false cs c), hap]
    exact hres
  · rw [hother a hap hav] at ha
    obtain ⟨q, hq⟩ := hcon a t1 ha
    refine ⟨q, ?_⟩
    rw [hoff q ?_]
    · exact hq
    · rintro ⟨s, rfl⟩
      have hSv : resolve m root (cs ++ [c]) = some v := resolve_concat_eq_some.2 ⟨pt, hres, hc⟩
      rw [resolve_below hSv] at hq
      cases s with
      | nil =>
        simp only [resolve, Option.some.injEq] at hq
        exact hav hq.symm
      | cons k s => simp [resolve, child, htv, hempty, hmap_get] at hq

theorem connected_moved {m : Mem} {root : Nat} (hwf : WF m root) (hidle : Idle m)
    (hcon : Connected m root)
    {scs tcs : List Name} {sn tn : Name} {ps pt v : Nat} {tps tpt : Tree} (l : Nat)
    (hres : resolve m root scs = some ps) (htps : m.cell ps = some tps)
    (hc : child m ps sn = some v) (hrt : resolve m root tcs = some pt)
    (htpt : m.cell pt = some tpt) (hct : child m pt tn = none)
    (hnp : ¬ (scs ++ [sn]) <+: (tcs ++ [tn])) :
    Connected (movedMem m l ps pt v sn tn tps.contents tpt.contents) root := by
  obtain ⟨-, -, hunder, -, hoff, -, hnone⟩ :=
    move_facts hwf hidle l hres htps hc hrt htpt hct hnp
  intro a t1 ha
  have hcases : m.cell a = none ∨ ∃ t, m.cell a = some t := by
    cases m.cell a <;> simp
  rcases hcases with h0 | ⟨t, ht⟩
  · rw [hnone a h0] at ha
    cases ha
  · obtain ⟨q, hq⟩ := hcon a t ht
    by_cases hS : (scs ++ [sn]) <+: q
    · obtain ⟨s, rfl⟩ := hS
      exact ⟨tcs ++ [tn] ++ s, by rw [hunder s]; exact hq⟩
    · refine ⟨q, ?_⟩
      rw [hoff q hS ?_]
      · exact hq
      · rintro ⟨s, rfl⟩
        obtain ⟨x, hx, -⟩ := resolve_prefix_some hq
        obtain ⟨p, hp, hpc⟩ := resolve_concat_eq_some.1 hx
        rw [hrt] at hp
        cases hp
        rw [hct] at hpc
        cases hpc

theorem connected_initMem : Connected initMem 0 := by
  intro a t ha
  have : a = 0 := by
    by_contra h
    simp [initMem, tree_new, Mem.empty, h] at ha
  exact ⟨[], by simp [resolve, this]⟩

/-- Every reachable memory holds a well-formed tree with idle rooms and no node outside
the tree. -/
theorem reachable_inv {m : Mem} (h : Reachable m) : WF m 0 ∧ Idle m ∧ Connected m 0 := by
  induction h with
  | init => exact ⟨wf_initMem, idle_initMem, connected_initMem⟩
  | create fuel p _ hf hop ih =>
    obtain ⟨hwf, hidle, hcon⟩ := ih
    rcases create_outcome hwf hidle p fuel hf with
      ⟨m2, c, h, -, hs, hn, hi⟩ | ⟨cs, c, pt, tp, -, -, hres, htp, hc, h⟩
    · rw [h] at hop
      cases hop
      exact ⟨sameShape_wf_le hs hn hwf, hi, connected_of_sameShape hs hcon⟩
    · rw [h] at hop
      cases hop
      obtain ⟨h1, h2, -⟩ := create_facts hwf hidle hres htp hc
      exact ⟨h1, h2, connected_created hwf hidle hcon hres htp hc⟩
  | remove fuel p _ hf hop ih =>
    obtain ⟨hwf, hidle, hcon⟩ := ih
    rcases remove_outcome hwf hidle p fuel hf with
      ⟨m2, c, h, -, hs, hn, hi⟩ | ⟨cs, c, pt, v, tp, tv, -, -, hres, htp, hc, htv, hempty, h⟩
    · rw [h] at hop
      cases hop
      exact ⟨sameShape_wf_le hs hn hwf, hi, connected_of_sameShape hs hcon⟩
    · rw [h] at hop
      cases hop
      obtain ⟨h1, h2, -⟩ := remove_facts hwf hidle hres htp hc
      exact ⟨h1, h2, connected_removed hwf hidle hcon hres htp hc htv hempty⟩
  | move fuel a b _ hfa hfb hop ih =>
    obtain ⟨hwf, hidle, hcon⟩ := ih
    rcases move_outcome hwf hidle a b fuel hfa hfb with
      ⟨m2, c, h, hs, hn, hi, -⟩ |
      ⟨scs, sn, tcs, tn, l, ps, pt, v, tps, tpt, -, -, ha, hres, htps, hc, hrt, htpt, hct, hST, h⟩
    · rw [h] at hop
      cases hop
      exact ⟨sameShape_wf_le hs (le_of_eq hn.symm) hwf, hi, connected_of_sameShape hs hcon⟩
    · rw [h] at hop
      cases hop
      have hnp := ha.not_under hST
      obtain ⟨h1, h2, -⟩ := move_facts hwf hidle l hres htps hc hrt htpt hct hnp
      exact ⟨h1, h2, connected_moved hwf hidle hcon l hres htps hc hrt htpt hct hnp⟩

theorem ancestor_iter_resolve {m : Mem} {root : Nat} (hwf : WF m root) :
    ∀ (k : Nat) (cs : List Name) (n x : Nat), resolve m root cs = some n →
      ancestor_iter m k n = some x →
      k ≤ cs.length ∧ resolve m root (cs.take (cs.length - k)) = some x := by
  intro k
  induction k with
  | zero =>
    intro cs n x hn hx
    simp only [ancestor_iter, Option.some.injEq] at hx
    subst hx
    simp [hn]
  | succ k ih =>
    intro cs n x hn hx
    rcases List.eq_nil_or_concat cs with rfl | ⟨cs1, c, rfl⟩
    · simp only [resolve, Option.some.injEq] at hn
      subst hn
      obtain ⟨t, ht, ha⟩ := hwf.root_ok
      simp [ancestor_iter, ht, ha] at hx
    · rw [List.concat_eq_append] at hn ⊢
      obtain ⟨p, hp, hpc⟩ := resolve_concat_eq_some.1 hn
      obtain ⟨t, ht, ha⟩ := hwf.child_cell hpc
      simp only [ancestor_iter, ht, ha] at hx
      obtain ⟨h1, h2⟩ := ih cs1 p x hp hx
      refine ⟨by simp; omega, ?_⟩
      have : (cs1 ++ [c]).length - (k + 1) = cs1.length - k := by simp
      rw [this, List.take_append_of_le_length (by omega)]
      exact h2

/-- C13: in every memory reached from `tree_new()` by calls of `tree_create`,
`tree_remove` and `tree_move`, whatever they return, the nodes form a tree rooted at the
root: every allocated node is the folder of a path, the root has no `ancestor` and is the
only such node, every other node has as `ancestor` the one node whose map holds it, that
map holds it once, under one name, and no node is reached from itself by following
`ancestor` pointers. -/
theorem reachable_rooted_tree (m : Mem) (h : Reachable m) :
    (∃ t, m.cell 0 = some t ∧ t.ancestor = none) ∧
    (∀ n t, m.cell n = some t → ∃ cs, resolve m 0 cs = some n) ∧
    (∀ n t, m.cell n = some t → t.ancestor = none → n = 0) ∧
    (∀ n t, m.cell n = some t → n ≠ 0 →
      ∃ p tp k, t.ancestor = some p ∧ m.cell p = some tp ∧ (k, n) ∈ tp.contents ∧
        (tp.contents.map Prod.snd).count n = 1 ∧
        (∀ k1, (k1, n) ∈ tp.contents → k1 = k) ∧
        (∀ a ta k1, m.cell a = some ta → (k1, n) ∈ ta.contents → a = p)) ∧
    (∀ n k, 0 < k → ancestor_iter m k n ≠ some n) := by
  obtain ⟨hwf, -, hcon⟩ := reachable_inv h
  have hpar : ∀ n t, m.cell n = some t → n ≠ 0 →
      ∃ p tp k, t.ancestor = some p ∧ m.cell p = some tp ∧ (k, n) ∈ tp.contents := by
    intro n t hn hne
    obtain ⟨cs, hcs⟩ := hcon n t hn
    rcases List.eq_nil_or_concat cs with rfl | ⟨cs1, c, rfl⟩
    · simp only [resolve, Option.some.injEq] at hcs
      exact absurd hcs.symm hne
    · rw [List.concat_eq_append] at hcs
      obtain ⟨p, -, hpc⟩ := resolve_concat_eq_some.1 hcs
      obtain ⟨t1, ht1, ha⟩ := hwf.child_cell hpc
      rw [hn] at ht1
      cases ht1
      obtain ⟨tp, htp, hmem⟩ := child_some hpc
      exact ⟨p, tp, c, ha, htp, hmem⟩
  refine ⟨hwf.root_ok, hcon, ?_, ?_, ?_⟩
  · intro n t hn ha
    by_contra hne
    obtain ⟨p, tp, k, hp, -, -⟩ := hpar n t hn hne
    rw [ha] at hp
    cases hp
  · intro n t hn hne
    obtain ⟨p, tp, k, hp, htp, hmem⟩ := hpar n t hn hne
    have hnd := hwf.vals_nodup p tp htp
    have hmem2 : n ∈ tp.contents.map Prod.snd := List.mem_map.2 ⟨(k, n), hmem, rfl⟩
    refine ⟨p, tp, k, hp, htp, hmem, List.count_eq_one_of_mem hnd hmem2, ?_, ?_⟩
    · intro k1 hk1
      have := List.inj_on_of_nodup_map hnd hk1 hmem rfl
      exact (Prod.mk.inj this).1
    · intro a ta k1 hta hk1
      obtain ⟨tn, htn, hanc⟩ := hwf.child_ok a ta k1 n hta hk1
      rw [hn] at htn
      cases htn
      rw [hp] at hanc
      exact (Option.some.inj hanc).symm
  · intro n k hk hx
    have hcases : m.cell n = none ∨ ∃ t, m.cell n = some t := by
      cases m.cell n <;> simp
    rcases hcases with h0 | ⟨t, ht⟩
    · obtain ⟨j, rfl⟩ : ∃ j, k = j + 1 := ⟨k - 1, by omega⟩
      simp [ancestor_iter, h0] at hx
    · obtain ⟨cs, hcs⟩ := hcon n t ht
      obtain ⟨h1, h2⟩ := ancestor_iter_resolve hwf k cs n n hcs hx
      have := congrArg List.length (hwf.resolve_inj _ _ _ h2 hcs)
      simp at this
      omega

/-- Instance of C13: the memory after `tree_create` of `/a/` on the fresh tree. -/
theorem reachable_rooted_tree_witness :
    Reachable treeA ∧
    (∃ t, treeA.cell 0 = some t ∧ t.ancestor = none) ∧
    (∀ n t, treeA.cell n = some t → ∃ cs, resolve treeA 0 cs = some n) ∧
    (∀ n t, treeA.cell n = some t → t.ancestor = none → n = 0) ∧
    (∀ n t, treeA.cell n = some t → n ≠ 0 →
      ∃ p tp k, t.ancestor = some p ∧ treeA.cell p = some tp ∧ (k, n) ∈ tp.contents ∧
        (tp.contents.map Prod.snd).count n = 1 ∧
        (∀ k1, (k1, n) ∈ tp.contents → k1 = k) ∧
        (∀ a ta k1, treeA.cell a = some ta → (k1, n) ∈ ta.contents → a = p)) ∧
    (∀ n k, 0 < k → ancestor_iter treeA k n ≠ some n) :=
  have hr : Reachable treeA :=
    Reachable.create 3 ['/', 'a', '/'] Reachable.init (by decide)
      (@tree_create_success initMem 0 wf_initMem idle_initMem [] ['a'] (by decide) 3
        (by decide) 0 (idleNode none [] 2) rfl rfl rfl)
  ⟨hr, reachable_rooted_tree treeA hr⟩

/-! ## The room invariant -/

theorem reader_loop_inv (s : Room) (t : Tree) (b : Bool)
    (hr : t.readers_number = s.reading) (hw : t.writers_number = s.writing)
    (h1 : s.writing ≤ 1) (h2 : 0 < s.reading → s.writing = 0) :
    RoomInv (reader_loop s t b) := by
  unfold reader_loop
  by_cases hc : reader_waits t = true
  · simp only [hc, if_true]
    exact ⟨hr, hw, h1, h2⟩
  · simp only [hc, if_false]
    simp only [reader_waits, decide_eq_true_eq, not_or] at hc
    have h3 : s.writing ≠ 1 := fun h => hc.1 (by rw [hw, h]; rfl)
    refine ⟨?_, hw, h1, fun _ => ?_⟩
    · show t.readers_number + 1 = ((s.reading + 1 : Nat) : Int)
      rw [hr]; rfl
    · show s.writing = 0
      omega

theorem writer_loop_inv (s : Room) (t : Tree) (b : Bool)
    (hr : t.readers_number = s.reading) (hw : t.writers_number = s.writing)
    (h1 : s.writing ≤ 1) (h2 : 0 < s.reading → s.writing = 0) :
    RoomInv (writer_loop s t b) := by
  unfold writer_loop
  by_cases hc : writer_waits t = true
  · simp only [hc, if_true]
    exact ⟨hr, hw, h1, h2⟩
  · simp only [hc, if_false]
    simp only [writer_waits, decide_eq_true_eq, not_or, hr, hw] at hc
    have h3 : s.writing ≠ 1 := fun h => hc.2 (by rw [h]; rfl)
    have h4 : s.reading = 0 := by
      have := hc.1
      omega
    refine ⟨hr, ?_, ?_, fun h5 => ?_⟩
    · show t.writers_number + 1 = ((s.writing + 1 : Nat) : Int)
      rw [hw]; rfl
    · show s.writing + 1 ≤ 1
      omega
    · have : 0 < s.reading := h5
      omega

theorem room_step_inv {s s1 : Room} {c : RoomCall} (h : room_step s c = some s1)
    (hinv : RoomInv s) : RoomInv s1 := by
  obtain ⟨hr, hw, h1, h2⟩ := hinv
  cases c with
  | start_reading =>
    simp only [room_step, Option.some.injEq] at h
    subst h
    exact reader_loop_inv s _ _ hr hw h1 h2
  | wake_reader =>
    simp only [room_step] at h
    split_ifs at h with h0
    simp only [Option.some.injEq] at h
    subst h
    exact reader_loop_inv s _ _ hr hw h1 h2
  | finish_reading =>
    simp only [room_step] at h
    split_ifs at h with h0
    simp only [Option.some.injEq] at h
    subst h
    refine ⟨?_, hw, h1, fun _ => h2 (by omega)⟩
    show s.node.readers_number - 1 = ((s.reading - 1 : Nat) : Int)
    rw [hr]
    omega
  | start_writing =>
    simp only [room_step, Option.some.injEq] at h
    subst h
    exact writer_loop_inv s _ _ hr hw h1 h2
  | wake_writer =>
    simp only [room_step] at h
    split_ifs at h with h0
    simp only [Option.some.injEq] at h
    subst h
    exact writer_loop_inv s _ _ hr hw h1 h2
  | finish_writing =>
    simp only [room_step] at h
    split_ifs at h with h0 h3
    · simp only [Option.some.injEq] at h
      subst h
      refine ⟨hr, ?_, ?_, fun h5 => ?_⟩
      · show s.node.writers_number - 1 = ((s.writing - 1 : Nat) : Int)
        rw [hw]; omega
      · show s.writing - 1 ≤ 1
        omega
      · show s.writing - 1 = 0
        omega
    · simp only [Option.some.injEq] at h
      subst h
      refine ⟨hr, ?_, ?_, fun h5 => ?_⟩
      · show s.node.writers_number - 1 = ((s.writing - 1 : Nat) : Int)
        rw [hw]; omega
      · show s.writing - 1 ≤ 1
        omega
      · show s.writing - 1 = 0
        omega

theorem room_run_inv : ∀ (calls : List RoomCall) (s s1 : Room), room_run s calls = some s1 →
    RoomInv s → RoomInv s1 := by
  intro calls
  induction calls with
  | nil =>
    intro s s1 h hinv
    simp only [room_run, Option.some.injEq] at h
    subst h
    exact hinv
  | cons c cs ih =>
    intro s s1 h hinv
    simp only [room_run] at h
    cases hs : room_step s c with
    | none => simp [hs] at h
    | some s2 =>
      simp only [hs] at h
      exact ih s2 s1 h (room_step_inv hs hinv)

/-- The function `start_reading` of the sequential embedding returns exactly when the
loop condition is false, with the effect `rIn` on the node. -/
theorem start_reading_eq {m : Mem} {a : Nat} {t : Tree} (ht : m.cell a = some t) :
    start_reading m a = if reader_waits t then none else some (m.set a (rIn t)) := by
  simp only [start_reading, ht, reader_waits, decide_eq_true_eq, rIn]

/-- The function `start_writing` of the sequential embedding returns exactly when the
loop condition is false, with the effect `wIn` on the node. -/
theorem start_writing_eq {m : Mem} {a : Nat} {t : Tree} (ht : m.cell a = some t) :
    start_writing m a =
      if writer_waits { t with whose_turn := 1 } then none else some (m.set a (wIn t)) := by
  simp only [start_writing, ht, writer_waits, decide_eq_true_eq, wIn]

/-- A caller of `start_reading` that need not wait has the effect `rIn` on the node. -/
theorem room_step_start_reading (s : Room) (h : reader_waits s.node = false) :
    room_step s RoomCall.start_reading =
      some { s with node := rIn s.node, reading := s.reading + 1 } := by
  simp only [room_step, reader_loop, h, Bool.false_eq_true, if_false, rIn]

/-- A caller of `start_writing` that need not wait has the effect `wIn` on the node. -/
theorem room_step_start_writing (s : Room)
    (h : writer_waits { s.node with whose_turn := 1 } = false) :
    room_step s RoomCall.start_writing =
      some { s with node := wIn s.node, writing := s.writing + 1 } := by
  simp only [room_step, writer_loop, h, Bool.false_eq_true, if_false, wIn]

/-- The step `finish_reading` has the effect `rOut` on the node. -/
theorem room_step_finish_reading (s : Room) (hin : s.reading ≠ 0) :
    room_step s RoomCall.finish_reading =
      some { s with node := rOut s.node, reading := s.reading - 1 } := by
  simp only [room_step, hin, if_false, rOut]

/-- The step `finish_writing` has the effect `wOut` on the node. -/
theorem room_step_finish_writing (s : Room) (hin : s.writing ≠ 0) :
    room_step s RoomCall.finish_writing =
      some { s with node := wOut s.node, writing := s.writing - 1 } := by
  simp only [room_step, hin, if_false, wOut]

/-- C16: from a node whose `readers_number` and `writers_number` are `0`, as `tree_new`
leaves them, after any sequence of steps of `start_reading`, `finish_reading`,
`start_writing` and `finish_writing` in which a finish step is taken only while a caller
of the matching start function is inside, `readers_number` is not negative,
`writers_number` is `0` or `1`, and they are not positive and `1` together. -/
theorem room_invariant (t : Tree) (calls : List RoomCall) (s : Room)
    (h0 : t.readers_number = 0 ∧ t.writers_number = 0)
    (hrun : room_run (room_init t) calls = some s) :
    0 ≤ s.node.readers_number ∧
      (s.node.writers_number = 0 ∨ s.node.writers_number = 1) ∧
      ¬ (s.node.readers_number > 0 ∧ s.node.writers_number = 1) := by
  have hinit : RoomInv (room_init t) :=
    ⟨h0.1, h0.2, Nat.zero_le _, fun _ => rfl⟩
  obtain ⟨hr, hw, h1, h2⟩ := room_run_inv calls _ s hrun hinit
  rw [hr, hw]
  refine ⟨by omega, by omega, ?_⟩
  rintro ⟨h3, h4⟩
  have : 0 < s.reading := by omega
  have := h2 this
  omega

/-- Instance of C16: at the node of `tree_new` a reader enters, a writer arrives and
waits, the reader leaves, the writer wakes and enters, a reader arrives and waits, the
writer leaves. -/
theorem room_invariant_witness :
    (fresh_node.readers_number = 0 ∧ fresh_node.writers_number = 0) ∧
    (∃ s, room_run (room_init fresh_node)
        [RoomCall.start_reading, RoomCall.start_writing, RoomCall.finish_reading,
          RoomCall.wake_writer, RoomCall.start_reading, RoomCall.finish_writing] = some s ∧
      s.node.whose_turn = 0 ∧ s.asleep_readers = 1 ∧
      0 ≤ s.node.readers_number ∧
      (s.node.writers_number = 0 ∨ s.node.writers_number = 1) ∧
      ¬ (s.node.readers_number > 0 ∧ s.node.writers_number = 1)) :=
  ⟨⟨rfl, rfl⟩, _, rfl, by decide, by decide,
    room_invariant fresh_node
      [RoomCall.start_reading, RoomCall.start_writing, RoomCall.finish_reading,
        RoomCall.wake_writer, RoomCall.start_reading, RoomCall.finish_writing] _
      ⟨rfl, rfl⟩ rfl⟩

theorem tree_new_fresh (m : Mem) : (tree_new m).1.cell (tree_new m).2 = some fresh_node :=
  tree_new_cell_next m

/-! ## The log of `lock_path` and `unlock_path` -/

theorem sameShape_set {m : Mem} {a : Nat} {t t1 : Tree} (ht : m.cell a = some t)
    (ha : t1.ancestor = t.ancestor) (hc : t1.contents = t.contents) :
    SameShape m (m.set a t1) := by
  intro x
  by_cases hx : x = a
  · subst hx
    simp [Mem.set, ht, ha, hc]
  · simp [Mem.set, hx]

theorem sameShape_start_reading {m m1 : Mem} {a : Nat} (h : start_reading m a = some m1) :
    SameShape m m1 := by
  unfold start_reading at h
  cases ht : m.cell a with
  | none => simp [ht] at h
  | some t =>
    simp only [ht] at h
    split_ifs at h
    simp only [Option.some.injEq] at h
    subst h
    exact sameShape_set ht rfl rfl

theorem sameShape_start_writing {m m1 : Mem} {a : Nat} (h : start_writing m a = some m1) :
    SameShape m m1 := by
  unfold start_writing at h
  cases ht : m.cell a with
  | none => simp [ht] at h
  | some t =>
    simp only [ht] at h
    split_ifs at h
    simp only [Option.some.injEq] at h
    subst h
    exact sameShape_set ht rfl rfl

theorem sameShape_finish_reading {m m1 : Mem} {a : Nat} (h : finish_reading m a = some m1) :
    SameShape m m1 := by
  cases ht : m.cell a with
  | none => simp [finish_reading, ht] at h
  | some t =>
    rw [finish_reading_eq ht, Option.some.injEq] at h
    subst h
    exact sameShape_set ht rfl rfl

theorem lockEvents_nil (m : Mem) (w : Bool) (cur : Nat) :
    lockEvents m w cur [] =
      [if w then Event.start_writing cur else Event.start_reading cur] := by
  cases w <;> simp [lockEvents, heldReaders, heldWriter]

theorem lockEvents_cons (m : Mem) (w : Bool) (cur : Nat) (c : Name) (cs : List Name) :
    lockEvents m w cur (c :: cs) =
      Event.start_reading cur ::
        (match child m cur c with
         | none => []
         | some x => lockEvents m w x cs) := by
  cases hc : child m cur c <;> simp [lockEvents, heldReaders, heldWriter, hc]

theorem lockEvents_congr {m m1 : Mem} (h : SameShape m m1) (w : Bool) (cur : Nat)
    (cs : List Name) : lockEvents m1 w cur cs = lockEvents m w cur cs := by
  induction cs generalizing cur with
  | nil => rw [lockEvents_nil, lockEvents_nil]
  | cons c cs ih =>
    rw [lockEvents_cons, lockEvents_cons, sameShape_child h]
    cases child m cur c with
    | none => rfl
    | some x => simp only [ih x]

/-- The function `lock_path_loop` with the log does what `lock_path_loop` does and logs
the start events along the way. -/
theorem lock_path_loop_log_eq (w s : Bool) :
    ∀ (cs : List Name) (fuel : Nat) (m : Mem) (l : List Event) (ll cur : Nat) (t : Tree),
      (∀ c ∈ cs, validName c = true) → m.cell cur = some t →
      lock_path_loop_log w s fuel (m, l) ll cur t.contents (render cs) =
        (lock_path_loop w s fuel m ll cur t.contents (render cs)).map
          (fun r => ((r.1, l ++ lockEvents m w cur cs), r.2.1, r.2.2)) := by
  intro cs
  induction cs with
  | nil =>
    intro fuel m l ll cur t _ ht
    cases fuel with
    | zero => simp [lock_path_loop_log, lock_path_loop]
    | succ f =>
      simp only [lock_path_loop_log, lock_path_loop, split_path_render_nil, lockEvents_nil]
      cases w with
      | true =>
        simp only [if_true, start_writing_log]
        cases start_writing m cur <;> simp
      | false =>
        simp only [Bool.false_eq_true, if_false, start_reading_log]
        cases start_reading m cur <;> simp
  | cons c cs ih =>
    intro fuel m l ll cur t hv ht
    have hc : validName c = true := hv c (by simp)
    have hcs : ∀ x ∈ cs, validName x = true := fun x hx => hv x (by simp [hx])
    cases fuel with
    | zero => simp [lock_path_loop_log, lock_path_loop]
    | succ f =>
      simp only [lock_path_loop_log, lock_path_loop, split_path_render_cons c cs hc,
        start_reading_log, lockEvents_cons, child_eq ht]
      cases hsr : start_reading m cur with
      | none => simp
      | some m1 =>
        have hsh := sameShape_start_reading hsr
        cases hg : hmap_get t.contents c with
        | none => simp
        | some x =>
          cases hx : m1.cell x with
          | none => simp [hx]
          | some tx =>
            simp only [hx, Option.map_some']
            rw [ih f m1 (l ++ [Event.start_reading cur]) x x tx hcs hx,
              lockEvents_congr hsh]
            cases lock_path_loop w s f m1 x x tx.contents (render cs) <;> simp

/-- The function `lock_path` with the log does what `lock_path` does and logs the start
events along the way. -/
theorem lock_path_log_eq (w s : Bool) (cs : List Name) (fuel : Nat) (m : Mem)
    (l : List Event) (root : Nat) (hv : ∀ c ∈ cs, validName c = true) :
    lock_path_log fuel (m, l) (some root) (render cs) w s =
      (lock_path fuel m (some root) (render cs) w s).map
        (fun r => ((r.1, l ++ lockEvents m w root cs), r.2.1, r.2.2)) := by
  simp only [lock_path_log, lock_path]
  cases ht : m.cell root with
  | none => simp
  | some t => exact lock_path_loop_log_eq w s cs fuel m l root root t hv ht

/-- What `lock_path` does and logs on a well-formed tree whose rooms are idle. -/
theorem lock_path_log_spec {m : Mem} {root : Nat} (hwf : WF m root) (hidle : Idle m)
    (writer s : Bool) (cs : List Name) (fuel : Nat) (hf : cs.length < fuel)
    (hv : ∀ c ∈ cs, validName c = true) (l : List Event) :
    lock_path_log fuel (m, l) (some root) (render cs) writer s =
      some ((lockedMem m (heldReaders m writer root cs) (heldWriter m writer root cs),
          l ++ lockEvents m writer root cs),
        some (deepest m root cs), s || (resolve m root cs).isSome) := by
  rw [lock_path_log_eq writer s cs fuel m l root hv,
    lock_path_spec hwf hidle writer s cs fuel hf hv]
  rfl

theorem loopEvents_none (fuel : Nat) (m : Mem) (c : Option Nat) :
    loopEvents fuel m none c = [] := by
  cases fuel <;> simp [loopEvents]

theorem parent_of_sameShape {m m1 : Mem} (h : SameShape m m1) (x : Option Nat) :
    parent_of m1 x = parent_of m x := by
  cases x with
  | none => rfl
  | some c =>
    cases ht : m.cell c with
    | none => simp [parent_of, ht, sameShape_cell_none h ht]
    | some t =>
      obtain ⟨t1, ht1, ha, -⟩ := sameShape_cell_some h ht
      simp [parent_of, ht, ht1, ha]

theorem next_ancestor_eq {m : Mem} {c cn : Option Nat} (h : next_ancestor m c = some cn) :
    cn = parent_of m c := by
  cases c with
  | none =>
    simp only [next_ancestor, Option.some.injEq] at h
    exact h.symm
  | some x =>
    cases hx : m.cell x with
    | none => simp [next_ancestor, hx] at h
    | some t =>
      simp only [next_ancestor, hx, Option.some.injEq] at h
      simp [parent_of, hx, h]

theorem loopEvents_congr {m m1 : Mem} (h : SameShape m m1) :
    ∀ (fuel : Nat) (p c : Option Nat), loopEvents fuel m1 p c = loopEvents fuel m p c := by
  intro fuel
  induction fuel with
  | zero =>
    intro p c
    cases p <;> simp [loopEvents]
  | succ f ih =>
    intro p c
    cases p with
    | none => simp [loopEvents]
    | some x => simp only [loopEvents, ih, parent_of_sameShape h]

/-- The loop of `unlock_path` with the log does what the loop does and logs a
`finish_reading` for every node it passes. -/
theorem unlock_path_loop_log_eq :
    ∀ (fuel : Nat) (m : Mem) (l : List Event) (prev curr : Option Nat),
      unlock_path_loop_log fuel (m, l) prev curr =
        (unlock_path_loop fuel m prev curr).map
          (fun m1 => (m1, l ++ loopEvents fuel m prev curr)) := by
  intro fuel
  induction fuel with
  | zero =>
    intro m l prev curr
    cases prev <;> simp [unlock_path_loop_log, unlock_path_loop, loopEvents]
  | succ f ih =>
    intro m l prev curr
    cases prev with
    | none => simp [unlock_path_loop_log, unlock_path_loop, loopEvents]
    | some p =>
      simp only [unlock_path_loop_log, unlock_path_loop, loopEvents, finish_reading_log]
      cases hfr : finish_reading m p with
      | none => simp
      | some m1 =>
        have hsh := sameShape_finish_reading hfr
        simp only []
        cases hn : next_ancestor m1 curr with
        | none => simp
        | some cn =>
          simp only [Option.map_some']
          rw [ih m1 (l ++ [Event.finish_reading p]) curr cn, loopEvents_congr hsh,
            next_ancestor_eq hn, parent_of_sameShape hsh]
          cases unlock_path_loop f m1 curr (parent_of m curr) <;> simp

theorem sameShape_finish_writing {m m1 : Mem} {a : Nat} (h : finish_writing m a = some m1) :
    SameShape m m1 := by
  cases ht : m.cell a with
  | none => simp [finish_writing, ht] at h
  | some t =>
    rw [finish_writing_eq ht, Option.some.injEq] at h
    subst h
    refine sameShape_set ht ?_ ?_ <;> (unfold wOut; split_ifs <;> rfl)

/-- The function `unlock_path` with the log does what `unlock_path` does and logs the
finish events on the way up. -/
theorem unlock_path_log_eq (fuel : Nat) (m : Mem) (l : List Event) (tree : Option Nat)
    (w : Bool) :
    unlock_path_log fuel (m, l) tree w =
      (unlock_path fuel m tree w).map (fun m1 => (m1, l ++ unlockEvents fuel m tree w)) := by
  cases tree with
  | none => simp [unlock_path_log, unlock_path, unlockEvents]
  | some p =>
    simp only [unlock_path_log, unlock_path, unlockEvents]
    cases ht : m.cell p with
    | none => simp
    | some t =>
      simp only []
      have hpar : parent_of m (some p) = t.ancestor := by simp [parent_of, ht]
      rw [hpar]
      have key : ∀ (m1 : Mem) (e : Event), SameShape m m1 →
          (match next_ancestor m1 t.ancestor with
            | none => none
            | some curr_next => unlock_path_loop_log fuel (m1, l ++ [e]) t.ancestor curr_next) =
          (match next_ancestor m1 t.ancestor with
            | none => none
            | some curr_next => unlock_path_loop fuel m1 t.ancestor curr_next).map
            (fun m2 => (m2, l ++ e :: loopEvents fuel m t.ancestor (parent_of m t.ancestor))) := by
        intro m1 e hsh
        cases hn : next_ancestor m1 t.ancestor with
        | none => simp
        | some cn =>
          simp only []
          rw [unlock_path_loop_log_eq, loopEvents_congr hsh, next_ancestor_eq hn,
            parent_of_sameShape hsh]
          cases unlock_path_loop fuel m1 t.ancestor (parent_of m t.ancestor) <;> simp
      cases w with
      | true =>
        simp only [if_true, finish_writing_log]
        cases hfw : finish_writing m p with
        | none => simp
        | some m1 => exact key m1 _ (sameShape_finish_writing hfw)
      | false =>
        simp only [Bool.false_eq_true, if_false, finish_reading_log]
        cases hfr : finish_reading m p with
        | none => simp
        | some m1 => exact key m1 _ (sameShape_finish_reading hfr)

theorem parent_of_ancAgree {m m2 : Mem} {K : List Nat} (hag : AncAgree m m2 K) {x : Nat}
    (hx : x ∈ K) : parent_of m2 (some x) = parent_of m (some x) := by
  obtain ⟨t, t2, h1, h2, h3⟩ := hag x hx
  simp [parent_of, h1, h2, h3]

theorem loopEvents_chain {m : Mem} {root : Nat} (hwf : WF m root) :
    ∀ (pre : List Name) (a : Nat), resolve m root pre = some a →
      ∀ (m2 : Mem) (fuel : Nat), pre.length < fuel → AncAgree m m2 (chain m root pre) →
        loopEvents fuel m2 (some a) (parent_of m2 (some a)) =
          ((chain m root pre).map Event.finish_reading).reverse := by
  intro pre
  induction pre using List.reverseRecOn with
  | nil =>
    intro a ha m2 fuel hf hag
    obtain ⟨f, rfl⟩ : ∃ f, fuel = f + 1 := ⟨fuel - 1, by omega⟩
    simp only [resolve, Option.some.injEq] at ha
    subst ha
    obtain ⟨tr, htr, hr⟩ := hwf.root_ok
    have hp : parent_of m2 (some root) = none := by
      rw [parent_of_ancAgree hag (by simp [chain])]
      simp [parent_of, htr, hr]
    simp [loopEvents, hp, loopEvents_none, chain]
  | append_singleton pre1 c ih =>
    intro a ha m2 fuel hf hag
    obtain ⟨f, rfl⟩ : ∃ f, fuel = f + 1 := ⟨fuel - 1, by simp at hf; omega⟩
    obtain ⟨p, hp, hpc⟩ := resolve_concat_eq_some.1 ha
    obtain ⟨ta, hta, hanc⟩ := hwf.child_cell hpc
    have hch := chain_concat hp hpc
    rw [hch] at hag ⊢
    have hpa : parent_of m2 (some a) = some p := by
      rw [parent_of_ancAgree hag (by simp)]
      simp [parent_of, hta, hanc]
    have hag1 : AncAgree m m2 (chain m root pre1) :=
      ancAgree_mono hag (fun x hx => by simp [hx])
    simp only [loopEvents, hpa]
    rw [ih p hp m2 f (by simp at hf; omega) hag1]
    simp

/-- The events of the `unlock_path` that matches a `lock_path` are the finish events of
the holds taken, in the opposite order. -/
theorem unlockEvents_eq {m : Mem} {root : Nat} (hwf : WF m root) (cs : List Name) (m2 : Mem)
    (fuel : Nat) (hf : cs.length < fuel) (hag : AncAgree m m2 (chain m root cs)) (w : Bool) :
    unlockEvents fuel m2 (some (deepest m root cs)) ((resolve m root cs).isSome && w) =
      releaseEvents m w root cs := by
  obtain ⟨pre, hpre, hr, hch⟩ := deepest_is_folder m root cs
  have hlen := hpre.length_le
  have hmem := deepest_mem_chain m root cs
  have key : ∃ R, R ++ [deepest m root cs] = chain m root cs ∧
      loopEvents fuel m2 (parent_of m2 (some (deepest m root cs)))
          (parent_of m2 (parent_of m2 (some (deepest m root cs)))) =
        (R.map Event.finish_reading).reverse := by
    rcases List.eq_nil_or_concat pre with rfl | ⟨pre1, c, rfl⟩
    · simp only [resolve, Option.some.injEq] at hr
      obtain ⟨tr, htr, hanc⟩ := hwf.root_ok
      have hp : parent_of m2 (some (deepest m root cs)) = none := by
        rw [parent_of_ancAgree hag hmem, ← hr]
        simp [parent_of, htr, hanc]
      refine ⟨[], ?_, ?_⟩
      · rw [hch, ← hr]
        simp [chain]
      · simp [hp, loopEvents_none]
    · rw [List.concat_eq_append] at hr hch hlen
      obtain ⟨p, hp, hpc⟩ := resolve_concat_eq_some.1 hr
      obtain ⟨ta, hta, hanc⟩ := hwf.child_cell hpc
      have hch2 := chain_concat hp hpc
      have hpa : parent_of m2 (some (deepest m root cs)) = some p := by
        rw [parent_of_ancAgree hag hmem]
        simp [parent_of, hta, hanc]
      have hag1 : AncAgree m m2 (chain m root pre1) :=
        ancAgree_mono hag (fun x hx => by rw [hch, hch2]; simp [hx])
      refine ⟨chain m root pre1, by rw [hch, hch2], ?_⟩
      rw [hpa]
      exact loopEvents_chain hwf pre1 p hp m2 fuel (by simp at hlen; omega) hag1
  obtain ⟨R, hR, hloop⟩ := key
  simp only [unlockEvents, hloop, releaseEvents, lockEvents]
  cases hres : resolve m root cs with
  | none =>
    obtain ⟨hR1, hW1⟩ := held_of_resolve_none w hres
    simp [hR1, hW1, ← hR, Event.finish]
  | some a =>
    cases w with
    | false =>
      obtain ⟨hR1, hW1⟩ := heldReaders_reader m root cs
      simp [hR1, hW1, ← hR, Event.finish]
    | true =>
      obtain ⟨hR1, hW1⟩ := held_writer_of_resolve_some hres
      have hda := resolve_some_deepest hres
      rw [← hda] at hR1 hW1
      have hReq : heldReaders m true root cs = R := List.append_inj_left' (hR1.trans hR.symm) rfl
      simp [hReq, hW1, Event.finish]

/-- What `unlock_path` does and logs when called on the node returned by `lock_path` with
the mode matching the hold taken there. -/
theorem unlock_path_log_spec {m : Mem} {root : Nat} (hwf : WF m root) (cs : List Name)
    (m2 : Mem) (fuel : Nat) (hf : cs.length < fuel) (hag : AncAgree m m2 (chain m root cs))
    (w : Bool) (l : List Event) :
    unlock_path_log fuel (m2, l) (some (deepest m root cs)) ((resolve m root cs).isSome && w) =
      some (unlockedMem m2 (heldReaders m w root cs) (heldWriter m w root cs),
        l ++ releaseEvents m w root cs) := by
  rw [unlock_path_log_eq, unlock_path_spec hwf cs m2 fuel hf hag w,
    unlockEvents_eq hwf cs m2 fuel hf hag w]
  rfl

/-- Lock followed by unlock with the log, nothing in between. -/
theorem unlock_after_lock_log {m : Mem} {root : Nat} (hwf : WF m root) (hidle : Idle m)
    (cs : List Name) (fuel : Nat) (hf : cs.length < fuel) (w : Bool) (l : List Event) :
    unlock_path_log fuel (lockedMem m (heldReaders m w root cs) (heldWriter m w root cs), l)
        (some (deepest m root cs)) ((resolve m root cs).isSome && w) =
      some (afterLock m (heldWriter m w root cs), l ++ releaseEvents m w root cs) := by
  rw [unlock_path_log_spec hwf cs _ fuel hf (ancAgree_lockedMem hwf cs _ _) w,
    unlockedMem_lockedMem hidle]

/-! ## The log of `tree_list`, `tree_create` and `tree_remove` -/

theorem get_and_lock_parent_log_none {m : Mem} {root : Nat} (hwf : WF m root) (hidle : Idle m)
    (cs : List Name) (c : Name) (hv : ∀ x ∈ cs ++ [c], validName x = true) (fuel : Nat)
    (hf : cs.length < fuel) (hres : resolve m root cs = none) (l : List Event) :
    get_and_lock_parent_log fuel (m, l) (some root) (render (cs ++ [c])) =
      some ((m, l ++ lockEvents m true root cs ++ releaseEvents m true root cs), none, c,
        some (deepest m root cs)) := by
  obtain ⟨hvcs, hvc⟩ := valid_of_concat hv
  have hu := unlock_after_lock_log hwf hidle cs fuel hf true (l ++ lockEvents m true root cs)
  rw [hres, (held_of_resolve_none true hres).2] at hu
  simp only [get_and_lock_parent_log, make_path_to_parent_render_concat cs c hvcs hvc,
    lock_path_log_spec hwf hidle true false cs fuel hf hvcs,
    get_folder_tree_eq (wf_lockedMem hwf _ _) cs fuel hf hvcs,
    sameShape_resolve (sameShape_lockedMem m _ _), hres]
  rw [(held_of_resolve_none true hres).2]
  simp only [Option.isSome_none, Bool.false_and] at hu
  simp only [hu, afterLock]

theorem get_and_lock_parent_log_some {m : Mem} {root : Nat} (hwf : WF m root) (hidle : Idle m)
    (cs : List Name) (c : Name) (hv : ∀ x ∈ cs ++ [c], validName x = true) (fuel : Nat)
    (hf : cs.length < fuel) {pt : Nat} (hres : resolve m root cs = some pt) (l : List Event) :
    get_and_lock_parent_log fuel (m, l) (some root) (render (cs ++ [c])) =
      some ((lockedMem m (heldReaders m true root cs) (some pt), l ++ lockEvents m true root cs),
        some pt, c, some pt) := by
  obtain ⟨hvcs, hvc⟩ := valid_of_concat hv
  simp only [get_and_lock_parent_log, make_path_to_parent_render_concat cs c hvcs hvc,
    lock_path_log_spec hwf hidle true false cs fuel hf hvcs,
    get_folder_tree_eq (wf_lockedMem hwf _ _) cs fuel hf hvcs,
    sameShape_resolve (sameShape_lockedMem m _ _), hres,
    (held_writer_of_resolve_some hres).2, resolve_some_deepest hres]

theorem tree_list_log_invalid (fuel : Nat) (s : Run) (tree : Option Nat) (p : Path)
    (h : is_path_valid p = false) : tree_list_log fuel s tree p = some (s, none) := by
  simp [tree_list_log, h]

theorem tree_list_log_valid {m : Mem} {root : Nat} (hwf : WF m root) (hidle : Idle m)
    (cs : List Name) (hv : ∀ x ∈ cs, validName x = true) (fuel : Nat) (hf : cs.length < fuel)
    (l : List Event) :
    tree_list_log fuel (m, l) (some root) (render cs) =
      some ((m, l ++ lockEvents m false root cs ++ releaseEvents m false root cs),
        (resolve m root cs).bind (listing m)) := by
  have hval : is_path_valid (render cs) = true := (is_path_valid_iff _).2 ⟨cs, hv, rfl⟩
  have hu := unlock_after_lock_log hwf hidle cs fuel hf false (l ++ lockEvents m false root cs)
  rw [(heldReaders_reader m root cs).1, (heldReaders_reader m root cs).2] at hu
  simp only [Bool.and_false, afterLock] at hu
  simp only [tree_list_log, hval, Bool.not_true, Bool.false_eq_true, if_false,
    lock_path_log_spec hwf hidle false false cs fuel hf hv,
    get_folder_tree_eq (wf_lockedMem hwf _ _) cs fuel hf hv,
    sameShape_resolve (sameShape_lockedMem m _ _),
    (heldReaders_reader m root cs).1, (heldReaders_reader m root cs).2]
  cases hres : resolve m root cs with
  | none => simp only [hu, Option.none_bind]
  | some a =>
    obtain ⟨t, ht⟩ := hwf.folder_cell hres
    obtain ⟨t1, ht1, -, hc⟩ := sameShape_cell_some (sameShape_lockedMem m (chain m root cs) none) ht
    simp only [ht1, hu, Option.some_bind, listing, ht, hc]

theorem tree_create_log_invalid (fuel : Nat) (s : Run) (tree : Option Nat) (p : Path)
    (h : is_path_valid p = false) : tree_create_log fuel s tree p = some (s, EINVAL) := by
  simp [tree_create_log, h]

theorem tree_create_log_root (fuel : Nat) (s : Run) (tree : Option Nat) :
    tree_create_log fuel s tree ['/'] = some (s, EEXIST) := by
  have : is_path_valid ['/'] = true := by decide
  simp [tree_create_log, this]

theorem tree_create_log_noent {m : Mem} {root : Nat} (hwf : WF m root) (hidle : Idle m)
    (cs : List Name) (c : Name) (hv : ∀ x ∈ cs ++ [c], validName x = true) (fuel : Nat)
    (hf : cs.length < fuel) (hres : resolve m root cs = none) (l : List Event) :
    tree_create_log fuel (m, l) (some root) (render (cs ++ [c])) =
      some ((m, l ++ lockEvents m true root cs ++ releaseEvents m true root cs), ENOENT) := by
  simp only [tree_create_log, is_path_valid_render hv, render_concat_ne_root, Bool.not_true,
    Bool.false_eq_true, if_false, get_and_lock_parent_log_none hwf hidle cs c hv fuel hf hres]

theorem tree_create_log_success {m : Mem} {root : Nat} (hwf : WF m root) (hidle : Idle m)
    (cs : List Name) (c : Name) (hv : ∀ x ∈ cs ++ [c], validName x = true) (fuel : Nat)
    (hf : cs.length < fuel) {pt : Nat} {tp : Tree} (hres : resolve m root cs = some pt)
    (htp : m.cell pt = some tp) (hc : child m pt c = none) (l : List Event) :
    tree_create_log fuel (m, l) (some root) (render (cs ++ [c])) =
      some ((createdMem m pt c tp.contents,
        l ++ lockEvents m true root cs ++ [Event.alloc m.next, Event.map_insert pt] ++
          releaseEvents m true root cs), 0) := by
  have hW := (held_writer_of_resolve_some hres).2
  have hd := resolve_some_deepest hres
  obtain ⟨t1, ht1, -, hc1⟩ := sameShape_cell_some
    (sameShape_lockedMem m (heldReaders m true root cs) (some pt)) htp
  have hptn : pt ≠ m.next := hwf.ne_next htp
  have hget : hmap_get tp.contents c = none := by rw [← child_eq htp c]; exact hc
  have hnext : (lockedMem m (heldReaders m true root cs) (some pt)).next = m.next := rfl
  have hcellp : (tree_new (lockedMem m (heldReaders m true root cs) (some pt))).1.cell pt
      = some t1 := by
    rw [tree_new_cell_ne _ (by rw [hnext]; exact hptn), ht1]
  have hcelln : (setContents (tree_new (lockedMem m (heldReaders m true root cs) (some pt))).1 pt
      ((c, m.next) :: tp.contents)).cell m.next =
      some { ancestor := none, contents := hmap_new, readers_number := 0, writers_number := 0,
             waiting_readers := 0, waiting_writers := 0, whose_turn := 2 } := by
    have : m.next ≠ pt := fun h => hptn h.symm
    have h1 : (setContents (tree_new (lockedMem m (heldReaders m true root cs) (some pt))).1 pt
        ((c, m.next) :: tp.contents)).cell m.next =
        (tree_new (lockedMem m (heldReaders m true root cs) (some pt))).1.cell m.next := by
      simp only [setContents, Mem.modify, this, if_false]
    rw [h1]
    exact tree_new_cell_next (lockedMem m (heldReaders m true root cs) (some pt))
  have hag : AncAgree m (setAncestor (setContents
      (tree_new (lockedMem m (heldReaders m true root cs) (some pt))).1 pt
      ((c, m.next) :: tp.contents)) m.next (some pt)) (chain m root cs) :=
    ancAgree_setAncestor (ancAgree_setContents (ancAgree_tree_new
      (ancAgree_lockedMem hwf cs _ _) (hwf.next_not_mem_chain cs)) _ _) _ _
      (hwf.next_not_mem_chain cs)
  have hu := unlock_path_log_spec hwf cs _ fuel hf hag true
    (l ++ lockEvents m true root cs ++ [Event.alloc m.next] ++ [Event.map_insert pt])
  rw [hres, hW, hd] at hu
  simp only [Option.isSome_some, Bool.and_self] at hu
  have hRn : m.next ∉ heldReaders m true root cs := by
    intro h
    apply hwf.next_not_mem_chain cs
    rw [← (held_writer_of_resolve_some hres).1]
    simp [h]
  simp only [tree_create_log, is_path_valid_render hv, render_concat_ne_root, Bool.not_true,
    Bool.false_eq_true, if_false, get_and_lock_parent_log_some hwf hidle cs c hv fuel hf hres,
    tree_new_log]
  simp only [hcellp, hnext, hmap_insert, hc1, hget, set_contents_eq hcellp, hcelln,
    set_ancestor_eq hcelln, hu]
  rw [unlockedMem_setAncestor, unlockedMem_setContents,
    unlockedMem_tree_new _ _ _ (by rw [hnext]; exact hRn)
      (by rw [hnext]; intro h; exact hptn (Option.some.inj h)),
    unlockedMem_lockedMem hidle]
  simp only [List.append_assoc, List.cons_append, List.nil_append]
  rfl

theorem tree_free_log_leaf {m : Mem} {a : Nat} {t : Tree} (fuel : Nat) (hf : 0 < fuel)
    (h : m.cell a = some t) (hc : t.contents = []) (l : List Event) :
    tree_free_log fuel (m, l) a = some (m.free a, l ++ [Event.free a]) := by
  obtain ⟨f, rfl⟩ : ∃ f, fuel = f + 1 := ⟨fuel - 1, by omega⟩
  simp only [tree_free_log, h, hc, List.foldlM_nil]

theorem tree_create_log_exists {m : Mem} {root : Nat} (hwf : WF m root) (hidle : Idle m)
    (cs : List Name) (c : Name) (hv : ∀ x ∈ cs ++ [c], validName x = true) (fuel : Nat)
    (hf : cs.length < fuel) {pt v : Nat} (hres : resolve m root cs = some pt)
    (hc : child m pt c = some v) (l : List Event) :
    tree_create_log fuel (m, l) (some root) (render (cs ++ [c])) =
      some ((createFailedMem m pt,
        l ++ lockEvents m true root cs ++
          [Event.alloc m.next, Event.map_insert pt, Event.free m.next] ++
          releaseEvents m true root cs), EEXIST) := by
  obtain ⟨tp, htp⟩ := hwf.folder_cell hres
  have hW := (held_writer_of_resolve_some hres).2
  have hd := resolve_some_deepest hres
  obtain ⟨t1, ht1, -, hc1⟩ := sameShape_cell_some
    (sameShape_lockedMem m (heldReaders m true root cs) (some pt)) htp
  have hptn : pt ≠ m.next := hwf.ne_next htp
  have hget : hmap_get tp.contents c = some v := by rw [← child_eq htp c]; exact hc
  have hnext : (lockedMem m (heldReaders m true root cs) (some pt)).next = m.next := rfl
  have hcellp : (tree_new (lockedMem m (heldReaders m true root cs) (some pt))).1.cell pt
      = some t1 := by
    rw [tree_new_cell_ne _ (by rw [hnext]; exact hptn), ht1]
  have hfree := tree_free_log_leaf (m := (tree_new (lockedMem m (heldReaders m true root cs)
    (some pt))).1) fuel (by omega) (tree_new_cell_next _) rfl
    (l ++ lockEvents m true root cs ++ [Event.alloc m.next] ++ [Event.map_insert pt])
  rw [hnext] at hfree
  have hag : AncAgree m ((tree_new (lockedMem m (heldReaders m true root cs) (some pt))).1.free
      m.next) (chain m root cs) :=
    ancAgree_free (ancAgree_tree_new (ancAgree_lockedMem hwf cs _ _)
      (hwf.next_not_mem_chain cs)) _ (hwf.next_not_mem_chain cs)
  have hu := unlock_path_log_spec hwf cs _ fuel hf hag true
    (l ++ lockEvents m true root cs ++ [Event.alloc m.next] ++ [Event.map_insert pt] ++
      [Event.free m.next])
  rw [hres, hW, hd] at hu
  simp only [Option.isSome_some, Bool.and_self] at hu
  have hRn : m.next ∉ heldReaders m true root cs := by
    intro h
    apply hwf.next_not_mem_chain cs
    rw [← (held_writer_of_resolve_some hres).1]
    simp [h]
  simp only [tree_create_log, is_path_valid_render hv, render_concat_ne_root, Bool.not_true,
    Bool.false_eq_true, if_false, get_and_lock_parent_log_some hwf hidle cs c hv fuel hf hres,
    tree_new_log]
  simp only [hcellp, hnext, hmap_insert, hc1, hget, hfree, hu]
  rw [unlockedMem_free, unlockedMem_tree_new _ _ _ (by rw [hnext]; exact hRn)
      (by rw [hnext]; intro h; exact hptn (Option.some.inj h)),
    unlockedMem_lockedMem hidle]
  simp [createFailedMem, afterLock]

theorem tree_remove_log_invalid (fuel : Nat) (s : Run) (tree : Option Nat) (p : Path)
    (h : is_path_valid p = false) : tree_remove_log fuel s tree p = some (s, EINVAL) := by
  simp [tree_remove_log, h]

theorem tree_remove_log_root (fuel : Nat) (s : Run) (tree : Option Nat) :
    tree_remove_log fuel s tree ['/'] = some (s, EBUSY) := by
  have : is_path_valid ['/'] = true := by decide
  simp [tree_remove_log, this]

theorem tree_remove_log_noent_parent {m : Mem} {root : Nat} (hwf : WF m root) (hidle : Idle m)
    (cs : List Name) (c : Name) (hv : ∀ x ∈ cs ++ [c], validName x = true) (fuel : Nat)
    (hf : cs.length < fuel) (hres : resolve m root cs = none) (l : List Event) :
    tree_remove_log fuel (m, l) (some root) (render (cs ++ [c])) =
      some ((m, l ++ lockEvents m true root cs ++ releaseEvents m true root cs), ENOENT) := by
  simp only [tree_remove_log, is_path_valid_render hv, render_concat_ne_root, Bool.not_true,
    Bool.false_eq_true, if_false, get_and_lock_parent_log_none hwf hidle cs c hv fuel hf hres]

theorem unlock_after_parent_lock_log {m : Mem} {root : Nat} (hwf : WF m root) (hidle : Idle m)
    (cs : List Name) (fuel : Nat) (hf : cs.length < fuel) {pt : Nat}
    (hres : resolve m root cs = some pt) (l : List Event) :
    unlock_path_log fuel (lockedMem m (heldReaders m true root cs) (some pt), l) (some pt) true =
      some (touch m pt, l ++ releaseEvents m true root cs) := by
  have hu := unlock_after_lock_log hwf hidle cs fuel hf true l
  rw [hres, (held_writer_of_resolve_some hres).2, resolve_some_deepest hres] at hu
  simpa [afterLock] using hu

theorem tree_remove_log_noent_child {m : Mem} {root : Nat} (hwf : WF m root) (hidle : Idle m)
    (cs : List Name) (c : Name) (hv : ∀ x ∈ cs ++ [c], validName x = true) (fuel : Nat)
    (hf : cs.length < fuel) {pt : Nat} (hres : resolve m root cs = some pt)
    (hc : child m pt c = none) (l : List Event) :
    tree_remove_log fuel (m, l) (some root) (render (cs ++ [c])) =
      some ((touch m pt, l ++ lockEvents m true root cs ++ releaseEvents m true root cs),
        ENOENT) := by
  obtain ⟨tp, htp⟩ := hwf.folder_cell hres
  obtain ⟨t1, ht1, -, hc1⟩ := sameShape_cell_some
    (sameShape_lockedMem m (heldReaders m true root cs) (some pt)) htp
  have hget : hmap_get tp.contents c = none := by rw [← child_eq htp c]; exact hc
  simp only [tree_remove_log, is_path_valid_render hv, render_concat_ne_root, Bool.not_true,
    Bool.false_eq_true, if_false, get_and_lock_parent_log_some hwf hidle cs c hv fuel hf hres,
    ht1, hc1, hget, unlock_after_parent_lock_log hwf hidle cs fuel hf hres]

theorem tree_remove_log_notempty {m : Mem} {root : Nat} (hwf : WF m root) (hidle : Idle m)
    (cs : List Name) (c : Name) (hv : ∀ x ∈ cs ++ [c], validName x = true) (fuel : Nat)
    (hf : cs.length < fuel) {pt v : Nat} {tv : Tree} (hres : resolve m root cs = some pt)
    (hc : child m pt c = some v) (htv : m.cell v = some tv) (hne : tv.contents ≠ [])
    (l : List Event) :
    tree_remove_log fuel (m, l) (some root) (render (cs ++ [c])) =
      some ((touch m pt, l ++ lockEvents m true root cs ++ releaseEvents m true root cs),
        ENOTEMPTY) := by
  obtain ⟨tp, htp⟩ := hwf.folder_cell hres
  obtain ⟨t1, ht1, -, hc1⟩ := sameShape_cell_some
    (sameShape_lockedMem m (heldReaders m true root cs) (some pt)) htp
  obtain ⟨tv1, htv1, -, hcv1⟩ := sameShape_cell_some
    (sameShape_lockedMem m (heldReaders m true root cs) (some pt)) htv
  have hget : hmap_get tp.contents c = some v := by rw [← child_eq htp c]; exact hc
  have hsize : hmap_size tv.contents ≠ 0 := by
    simpa [hmap_size] using hne
  simp only [tree_remove_log, is_path_valid_render hv, render_concat_ne_root, Bool.not_true,
    Bool.false_eq_true, if_false, get_and_lock_parent_log_some hwf hidle cs c hv fuel hf hres,
    ht1, hc1, hget, htv1, hcv1, hsize, ne_eq, not_false_eq_true, if_true,
    unlock_after_parent_lock_log hwf hidle cs fuel hf hres]

theorem tree_remove_log_success {m : Mem} {root : Nat} (hwf : WF m root) (hidle : Idle m)
    (cs : List Name) (c : Name) (hv : ∀ x ∈ cs ++ [c], validName x = true) (fuel : Nat)
    (hf : cs.length < fuel) {pt v : Nat} {tp tv : Tree} (hres : resolve m root cs = some pt)
    (htp : m.cell pt = some tp)
    (hc : child m pt c = some v) (htv : m.cell v = some tv) (hempty : tv.contents = [])
    (l : List Event) :
    tree_remove_log fuel (m, l) (some root) (render (cs ++ [c])) =
      some ((removedMem m pt c v tp.contents,
        l ++ lockEvents m true root cs ++ [Event.map_remove pt, Event.free v] ++
          releaseEvents m true root cs), 0) := by
  have hW := (held_writer_of_resolve_some hres).2
  have hd := resolve_some_deepest hres
  obtain ⟨t1, ht1, -, hc1⟩ := sameShape_cell_some
    (sameShape_lockedMem m (heldReaders m true root cs) (some pt)) htp
  obtain ⟨tv1, htv1, -, hcv1⟩ := sameShape_cell_some
    (sameShape_lockedMem m (heldReaders m true root cs) (some pt)) htv
  have hget : hmap_get tp.contents c = some v := by rw [← child_eq htp c]; exact hc
  have hsize : hmap_size tv.contents = 0 := by simp [hmap_size, hempty]
  have hvchain := hwf.child_not_mem_chain hres hc
  have hvpt : v ≠ pt := by
    intro h
    apply hvchain
    rw [h]
    have := deepest_mem_chain m root cs
    rwa [hd] at this
  have hcellv : (setContents (lockedMem m (heldReaders m true root cs) (some pt)) pt
      (hmap_remove tp.contents c)).cell v = some tv1 := by
    simp only [setContents, Mem.modify, hvpt, if_false, htv1]
  have hfree := tree_free_log_leaf fuel (by omega) hcellv (hcv1.trans hempty)
    (l ++ lockEvents m true root cs ++ [Event.map_remove pt])
  have hag : AncAgree m ((setContents (lockedMem m (heldReaders m true root cs) (some pt)) pt
      (hmap_remove tp.contents c)).free v) (chain m root cs) :=
    ancAgree_free (ancAgree_setContents (ancAgree_lockedMem hwf cs _ _) _ _) _ hvchain
  have hu := unlock_path_log_spec hwf cs _ fuel hf hag true
    (l ++ lockEvents m true root cs ++ [Event.map_remove pt] ++ [Event.free v])
  rw [hres, hW, hd] at hu
  simp only [Option.isSome_some, Bool.and_self] at hu
  simp only [tree_remove_log, is_path_valid_render hv, render_concat_ne_root, Bool.not_true,
    Bool.false_eq_true, if_false, get_and_lock_parent_log_some hwf hidle cs c hv fuel hf hres,
    ht1, hc1, hget, htv1, hcv1, hsize, ne_eq, not_true_eq_false, set_contents_eq ht1, hfree, hu]
  rw [unlockedMem_free, unlockedMem_setContents, unlockedMem_lockedMem hidle]
  simp only [List.append_assoc, List.cons_append, List.nil_append]
  rfl

/-! ## The log of `tree_move` -/

theorem lock_lca_log_spec {m : Mem} {root : Nat} (hwf : WF m root) (hidle : Idle m)
    {S T : List Name} (ha : MoveArgs S T) (fuel : Nat) (hf : S.length < fuel) (l : List Event) :
    lock_lca_log fuel (m, l) (some root) (render S) (render T) false =
      some ((lockedMem m (heldReaders m true root (commonComponents S T)) (moveWriter m root S T),
          l ++ lockEvents m true root (commonComponents S T)),
        some (deepest m root (commonComponents S T)),
        (resolve m root (commonComponents S T)).isSome) := by
  have hlen := (commonComponents_prefix_left S T).length_le
  have hvL := valid_of_isPrefix (commonComponents_prefix_left S T) ha.validS
  simp only [lock_lca_log, last_common_ancestor_render S T ha.validS ha.validT,
    lock_path_log_spec hwf hidle true false _ fuel (by omega) hvL, Bool.false_or, moveWriter]

theorem unlock_after_lca_log {m : Mem} {root : Nat} (hwf : WF m root) (hidle : Idle m)
    (S T : List Name) (fuel : Nat) (hf : S.length < fuel) (l : List Event) :
    unlock_path_log fuel
        (lockedMem m (heldReaders m true root (commonComponents S T)) (moveWriter m root S T), l)
        (some (deepest m root (commonComponents S T)))
        (resolve m root (commonComponents S T)).isSome =
      some (afterLock m (moveWriter m root S T),
        l ++ releaseEvents m true root (commonComponents S T)) := by
  have hlen := (commonComponents_prefix_left S T).length_le
  have hu := unlock_after_lock_log hwf hidle (commonComponents S T) fuel (by omega) true l
  simpa [moveWriter] using hu

theorem check_tree_and_unlock_log_none {m : Mem} {root : Nat} (hwf : WF m root)
    (hidle : Idle m) (S T : List Name) (fuel : Nat) (hf : S.length < fuel) (l : List Event) :
    check_tree_and_unlock_log fuel
        (lockedMem m (heldReaders m true root (commonComponents S T)) (moveWriter m root S T), l)
        none (some (deepest m root (commonComponents S T)))
        (resolve m root (commonComponents S T)).isSome =
      some ((afterLock m (moveWriter m root S T),
        l ++ releaseEvents m true root (commonComponents S T)), false) := by
  have hu := unlock_after_lca_log hwf hidle S T fuel hf l
  cases h : (resolve m root (commonComponents S T)).isSome <;>
    simp only [check_tree_and_unlock_log, h, if_true, if_false, Bool.false_eq_true] <;>
    rw [h] at hu <;> simp only [hu]

theorem get_parent_tree_log_spec {m : Mem} {root : Nat} (hwf : WF m root) (hidle : Idle m)
    (S T : List Name) (fuel : Nat) (hf : S.length < fuel) (cs : List Name) (c : Name)
    (hv : ∀ x ∈ cs ++ [c], validName x = true) (hcs : cs.length < fuel) (l : List Event) :
    get_parent_tree_log fuel
        (lockedMem m (heldReaders m true root (commonComponents S T)) (moveWriter m root S T), l)
        (some root) (render (cs ++ [c])) (some (deepest m root (commonComponents S T)))
        (resolve m root (commonComponents S T)).isSome =
      match resolve m root cs with
      | none => some ((afterLock m (moveWriter m root S T),
          l ++ releaseEvents m true root (commonComponents S T)), none, c)
      | some p => some ((lockedMem m (heldReaders m true root (commonComponents S T))
          (moveWriter m root S T), l), some p, c) := by
  obtain ⟨hvcs, hvc⟩ := valid_of_concat hv
  simp only [get_parent_tree_log, make_path_to_parent_render_concat cs c hvcs hvc,
    get_folder_tree_eq (wf_lockedMem hwf _ _) cs fuel hcs hvcs,
    sameShape_resolve (sameShape_lockedMem m _ _)]
  cases hres : resolve m root cs with
  | none =>
    simp only [check_tree_and_unlock_log_none hwf hidle S T fuel hf, Bool.false_eq_true,
      if_false]
  | some p => simp only [check_tree_and_unlock_log, if_true]

theorem tree_move_log_rejected (fuel : Nat) (s : Run) (tree : Option Nat)
    (source target : Path) (code : Int) (h : check_source_and_target source target = some code) :
    tree_move_log fuel s tree source target = some (s, code) := by
  simp [tree_move_log, h]

theorem tree_move_log_noent_source_parent {m : Mem} {root : Nat} (hwf : WF m root)
    (hidle : Idle m)
    {scs tcs : List Name} {sn tn : Name} (ha : MoveArgs (scs ++ [sn]) (tcs ++ [tn]))
    (fuel : Nat) (hfs : (scs ++ [sn]).length < fuel)
    (hres : resolve m root scs = none) (l : List Event) :
    tree_move_log fuel (m, l) (some root) (render (scs ++ [sn])) (render (tcs ++ [tn])) =
      some ((afterLock m (moveWriter m root (scs ++ [sn]) (tcs ++ [tn])),
        l ++ lockEvents m true root (commonComponents (scs ++ [sn]) (tcs ++ [tn])) ++
          releaseEvents m true root (commonComponents (scs ++ [sn]) (tcs ++ [tn]))),
        ENOENT) := by
  have hs : scs.length < fuel := by simp at hfs; omega
  simp only [tree_move_log, ha.check, lock_lca_log_spec hwf hidle ha fuel hfs,
    get_parent_tree_log_spec hwf hidle _ _ fuel hfs scs sn ha.validS hs, hres]

theorem tree_move_log_noent_source {m : Mem} {root : Nat} (hwf : WF m root) (hidle : Idle m)
    {scs tcs : List Name} {sn tn : Name} (ha : MoveArgs (scs ++ [sn]) (tcs ++ [tn]))
    (fuel : Nat) (hfs : (scs ++ [sn]).length < fuel)
    {ps : Nat} (hres : resolve m root scs = some ps)
    (hc : child m ps sn = none) (l : List Event) :
    tree_move_log fuel (m, l) (some root) (render (scs ++ [sn])) (render (tcs ++ [tn])) =
      some ((afterLock m (moveWriter m root (scs ++ [sn]) (tcs ++ [tn])),
        l ++ lockEvents m true root (commonComponents (scs ++ [sn]) (tcs ++ [tn])) ++
          releaseEvents m true root (commonComponents (scs ++ [sn]) (tcs ++ [tn]))),
        ENOENT) := by
  have hs : scs.length < fuel := by simp at hfs; omega
  obtain ⟨tp, htp⟩ := hwf.folder_cell hres
  obtain ⟨t1, ht1, -, hc1⟩ := sameShape_cell_some
    (sameShape_lockedMem m (heldReaders m true root (commonComponents (scs ++ [sn]) (tcs ++ [tn])))
      (moveWriter m root (scs ++ [sn]) (tcs ++ [tn]))) htp
  have hget : hmap_get tp.contents sn = none := by rw [← child_eq htp sn]; exact hc
  simp only [tree_move_log, ha.check, lock_lca_log_spec hwf hidle ha fuel hfs,
    get_parent_tree_log_spec hwf hidle _ _ fuel hfs scs sn ha.validS hs, hres, ht1, hc1, hget,
    check_tree_and_unlock_log_none hwf hidle _ _ fuel hfs]

theorem tree_move_log_noent_target_parent {m : Mem} {root : Nat} (hwf : WF m root)
    (hidle : Idle m)
    {scs tcs : List Name} {sn tn : Name} (ha : MoveArgs (scs ++ [sn]) (tcs ++ [tn]))
    (fuel : Nat) (hfs : (scs ++ [sn]).length < fuel) (hft : (tcs ++ [tn]).length < fuel)
    {ps v : Nat} (hres : resolve m root scs = some ps)
    (hc : child m ps sn = some v) (hrt : resolve m root tcs = none) (l : List Event) :
    tree_move_log fuel (m, l) (some root) (render (scs ++ [sn])) (render (tcs ++ [tn])) =
      some ((afterLock m (moveWriter m root (scs ++ [sn]) (tcs ++ [tn])),
        l ++ lockEvents m true root (commonComponents (scs ++ [sn]) (tcs ++ [tn])) ++
          releaseEvents m true root (commonComponents (scs ++ [sn]) (tcs ++ [tn]))),
        ENOENT) := by
  have hs : scs.length < fuel := by simp at hfs; omega
  have ht : tcs.length < fuel := by simp at hft; omega
  obtain ⟨tp, htp⟩ := hwf.folder_cell hres
  obtain ⟨t1, ht1, -, hc1⟩ := sameShape_cell_some
    (sameShape_lockedMem m (heldReaders m true root (commonComponents (scs ++ [sn]) (tcs ++ [tn])))
      (moveWriter m root (scs ++ [sn]) (tcs ++ [tn]))) htp
  have hget : hmap_get tp.contents sn = some v := by rw [← child_eq htp sn]; exact hc
  simp only [tree_move_log, ha.check, lock_lca_log_spec hwf hidle ha fuel hfs,
    get_parent_tree_log_spec hwf hidle _ _ fuel hfs scs sn ha.validS hs, hres, ht1, hc1, hget,
    check_tree_and_unlock_log,
    get_parent_tree_log_spec hwf hidle _ _ fuel hfs tcs tn ha.validT ht, hrt]

theorem tree_move_log_same {m : Mem} {root : Nat} (hwf : WF m root) (hidle : Idle m)
    {scs tcs : List Name} {sn tn : Name} (ha : MoveArgs (scs ++ [sn]) (tcs ++ [tn]))
    (fuel : Nat) (hfs : (scs ++ [sn]).length < fuel) (hft : (tcs ++ [tn]).length < fuel)
    {ps v : Nat} (hres : resolve m root scs = some ps)
    (hc : child m ps sn = some v) (hST : scs ++ [sn] = tcs ++ [tn]) (l : List Event) :
    tree_move_log fuel (m, l) (some root) (render (scs ++ [sn])) (render (tcs ++ [tn])) =
      some ((afterLock m (moveWriter m root (scs ++ [sn]) (tcs ++ [tn])),
        l ++ lockEvents m true root (commonComponents (scs ++ [sn]) (tcs ++ [tn])) ++
          releaseEvents m true root (commonComponents (scs ++ [sn]) (tcs ++ [tn]))), 0) := by
  have h1 : scs = tcs := List.append_inj_left' hST rfl
  have h2 : sn = tn := by
    have := List.append_inj_right' hST rfl
    simpa using this
  subst h1 h2
  have hs : scs.length < fuel := by simp at hfs; omega
  obtain ⟨tp, htp⟩ := hwf.folder_cell hres
  obtain ⟨t1, ht1, -, hc1⟩ := sameShape_cell_some
    (sameShape_lockedMem m (heldReaders m true root (commonComponents (scs ++ [sn]) (scs ++ [sn])))
      (moveWriter m root (scs ++ [sn]) (scs ++ [sn]))) htp
  have hget : hmap_get tp.contents sn = some v := by rw [← child_eq htp sn]; exact hc
  obtain ⟨l1, hl, hW, hd⟩ := moveWriter_of_source (scs ++ [sn]) hres hc
  have hu := unlock_after_lca_log hwf hidle (scs ++ [sn]) (scs ++ [sn]) fuel hfs
    (l ++ lockEvents m true root (commonComponents (scs ++ [sn]) (scs ++ [sn])))
  rw [hl] at hu
  simp only [Option.isSome_some] at hu
  simp only [tree_move_log, ha.check, lock_lca_log_spec hwf hidle ha fuel hfs,
    get_parent_tree_log_spec hwf hidle _ _ fuel hfs scs sn ha.validS hs, hres, ht1, hc1, hget,
    check_tree_and_unlock_log,
    if_true, hu]

theorem tree_move_log_exists {m : Mem} {root : Nat} (hwf : WF m root) (hidle : Idle m)
    {scs tcs : List Name} {sn tn : Name} (ha : MoveArgs (scs ++ [sn]) (tcs ++ [tn]))
    (fuel : Nat) (hfs : (scs ++ [sn]).length < fuel) (hft : (tcs ++ [tn]).length < fuel)
    {ps pt v w : Nat} (hres : resolve m root scs = some ps)
    (hc : child m ps sn = some v) (hrt : resolve m root tcs = some pt)
    (hct : child m pt tn = some w) (hST : scs ++ [sn] ≠ tcs ++ [tn]) (l : List Event) :
    tree_move_log fuel (m, l) (some root) (render (scs ++ [sn])) (render (tcs ++ [tn])) =
      some ((afterLock m (moveWriter m root (scs ++ [sn]) (tcs ++ [tn])),
        l ++ lockEvents m true root (commonComponents (scs ++ [sn]) (tcs ++ [tn])) ++
          [Event.map_insert pt] ++
          releaseEvents m true root (commonComponents (scs ++ [sn]) (tcs ++ [tn]))),
        EEXIST) := by
  have hs : scs.length < fuel := by simp at hfs; omega
  have ht : tcs.length < fuel := by simp at hft; omega
  obtain ⟨tp, htp⟩ := hwf.folder_cell hres
  obtain ⟨t1, ht1, -, hc1⟩ := sameShape_cell_some
    (sameShape_lockedMem m (heldReaders m true root (commonComponents (scs ++ [sn]) (tcs ++ [tn])))
      (moveWriter m root (scs ++ [sn]) (tcs ++ [tn]))) htp
  obtain ⟨tq, htq⟩ := hwf.folder_cell hrt
  obtain ⟨t2, ht2, -, hc2⟩ := sameShape_cell_some
    (sameShape_lockedMem m (heldReaders m true root (commonComponents (scs ++ [sn]) (tcs ++ [tn])))
      (moveWriter m root (scs ++ [sn]) (tcs ++ [tn]))) htq
  have hget : hmap_get tp.contents sn = some v := by rw [← child_eq htp sn]; exact hc
  have hget2 : hmap_get tq.contents tn = some w := by rw [← child_eq htq tn]; exact hct
  obtain ⟨l1, hl, hW, hd⟩ := moveWriter_of_source (tcs ++ [tn]) hres hc
  have hu := unlock_after_lca_log hwf hidle (scs ++ [sn]) (tcs ++ [tn]) fuel hfs
    (l ++ lockEvents m true root (commonComponents (scs ++ [sn]) (tcs ++ [tn])) ++
      [Event.map_insert pt])
  rw [hl] at hu
  simp only [Option.isSome_some] at hu
  have hne : render (scs ++ [sn]) ≠ render (tcs ++ [tn]) :=
    fun h => hST (render_injective ha.validS ha.validT h)
  simp only [tree_move_log, ha.check, lock_lca_log_spec hwf hidle ha fuel hfs,
    get_parent_tree_log_spec hwf hidle _ _ fuel hfs scs sn ha.validS hs, hres, ht1, hc1, hget,
    check_tree_and_unlock_log,
    get_parent_tree_log_spec hwf hidle _ _ fuel hfs tcs tn ha.validT ht, hrt, hne, if_false,
    ht2, hc2, hmap_insert, hget2, hu]

theorem tree_move_log_success {m : Mem} {root : Nat} (hwf : WF m root) (hidle : Idle m)
    {scs tcs : List Name} {sn tn : Name} (ha : MoveArgs (scs ++ [sn]) (tcs ++ [tn]))
    (fuel : Nat) (hfs : (scs ++ [sn]).length < fuel) (hft : (tcs ++ [tn]).length < fuel)
    {l ps pt v : Nat} {tps tpt : Tree}
    (hl : resolve m root (commonComponents (scs ++ [sn]) (tcs ++ [tn])) = some l)
    (hres : resolve m root scs = some ps) (htps : m.cell ps = some tps)
    (hc : child m ps sn = some v) (hrt : resolve m root tcs = some pt)
    (htpt : m.cell pt = some tpt)
    (hct : child m pt tn = none) (hST : scs ++ [sn] ≠ tcs ++ [tn]) (lg : List Event) :
    tree_move_log fuel (m, lg) (some root) (render (scs ++ [sn])) (render (tcs ++ [tn])) =
      some ((movedMem m l ps pt v sn tn tps.contents tpt.contents,
        lg ++ lockEvents m true root (commonComponents (scs ++ [sn]) (tcs ++ [tn])) ++
          [Event.map_insert pt, Event.map_remove ps] ++
          releaseEvents m true root (commonComponents (scs ++ [sn]) (tcs ++ [tn]))), 0) := by
  have hs : scs.length < fuel := by simp at hfs; omega
  have ht : tcs.length < fuel := by simp at hft; omega
  have hW : moveWriter m root (scs ++ [sn]) (tcs ++ [tn]) = some l :=
    (held_writer_of_resolve_some hl).2
  have hd := resolve_some_deepest hl
  have hSv : resolve m root (scs ++ [sn]) = some v := resolve_concat_eq_some.2 ⟨ps, hres, hc⟩
  obtain ⟨tv, htv, -⟩ := hwf.child_cell hc
  have hnp := ha.not_under hST
  have hvpt : v ≠ pt := by
    intro h
    rw [h] at hSv
    have := hwf.resolve_inj _ _ _ hSv hrt
    exact hnp ⟨[tn], by rw [this]⟩
  have hvps : v ≠ ps := by
    intro h
    rw [h] at hSv
    have := hwf.resolve_inj _ _ _ hSv hres
    have := congrArg List.length this
    simp at this
  have hvchain : v ∉ chain m root (commonComponents (scs ++ [sn]) (tcs ++ [tn])) := by
    intro h
    obtain ⟨q, hq, hrq⟩ := mem_chain h
    have hqS := hwf.resolve_inj _ _ _ hrq hSv
    rw [hqS] at hq
    exact hnp (hq.trans (commonComponents_prefix_right _ _))
  generalize hLE : lockEvents m true root (commonComponents (scs ++ [sn]) (tcs ++ [tn])) = LE
  generalize hRE : releaseEvents m true root (commonComponents (scs ++ [sn]) (tcs ++ [tn])) = RE
  generalize hR : heldReaders m true root (commonComponents (scs ++ [sn]) (tcs ++ [tn])) = R
  have hshape := sameShape_lockedMem m R (some l)
  obtain ⟨t1, ht1, -, hc1⟩ := sameShape_cell_some hshape htps
  obtain ⟨t2, ht2, -, hc2⟩ := sameShape_cell_some hshape htpt
  obtain ⟨tv1, htv1, -, -⟩ := sameShape_cell_some hshape htv
  have hget : hmap_get tps.contents sn = some v := by rw [← child_eq htps sn]; exact hc
  have hget2 : hmap_get tpt.contents tn = none := by rw [← child_eq htpt tn]; exact hct
  have hne : render (scs ++ [sn]) ≠ render (tcs ++ [tn]) :=
    fun h => hST (render_injective ha.validS ha.validT h)
  have hcellv : (setContents (lockedMem m R (some l)) pt ((tn, v) :: tpt.contents)).cell v
      = some tv1 := by
    simp only [setContents, Mem.modify, hvpt, if_false, htv1]
  have hpsv : ps ≠ v := fun h => hvps h.symm
  obtain ⟨ps1, hps1, hps1c⟩ : ∃ ps1, (setAncestor (setContents (lockedMem m R (some l)) pt
      ((tn, v) :: tpt.contents)) v (some pt)).cell ps = some ps1 ∧
      ps1.contents = if ps = pt then (tn, v) :: tpt.contents else tps.contents := by
    by_cases hpp : ps = pt
    · subst hpp
      refine ⟨{ t1 with contents := (tn, v) :: tpt.contents }, ?_, by simp⟩
      simp only [setAncestor, setContents, Mem.modify, hpsv, if_false, if_true, ht1,
        Option.map_some']
    · exact ⟨t1, by simp only [setAncestor, setContents, Mem.modify, hpsv, hpp, if_false, ht1],
        by simp [hpp, hc1]⟩
  have hag : AncAgree m (setContents (setAncestor (setContents (lockedMem m R (some l)) pt
      ((tn, v) :: tpt.contents)) v (some pt)) ps (hmap_remove ps1.contents sn))
      (chain m root (commonComponents (scs ++ [sn]) (tcs ++ [tn]))) := by
    refine ancAgree_setContents (ancAgree_setAncestor (ancAgree_setContents ?_ _ _) _ _ hvchain) _ _
    exact ancAgree_lockedMem hwf _ _ _
  have hlen := (commonComponents_prefix_left (scs ++ [sn]) (tcs ++ [tn])).length_le
  have hu := unlock_path_log_spec hwf _ _ fuel (by omega) hag true
    (lg ++ LE ++ [Event.map_insert pt, Event.map_remove ps])
  rw [hl, hR, (held_writer_of_resolve_some hl).2, hd, hRE] at hu
  simp only [Option.isSome_some, Bool.and_self, hps1c] at hu
  have hgs := get_parent_tree_log_spec hwf hidle (scs ++ [sn]) (tcs ++ [tn]) fuel hfs scs sn
    ha.validS hs (lg ++ LE)
  rw [hW, hR, hd, hl, hres] at hgs
  simp only [Option.isSome_some] at hgs
  have hgp := get_parent_tree_log_spec hwf hidle (scs ++ [sn]) (tcs ++ [tn]) fuel hfs tcs tn
    ha.validT ht (lg ++ LE)
  rw [hW, hR, hd, hl, hrt] at hgp
  simp only [Option.isSome_some] at hgp
  simp only [tree_move_log, ha.check, lock_lca_log_spec hwf hidle ha fuel hfs, hW, hR, hd, hl,
    hLE, Option.isSome_some, hgs, ht1, hc1, hget, check_tree_and_unlock_log]
  simp only [hgp, hne, if_false, ht2, hc2, hmap_insert, hget2, set_contents_eq ht2, hcellv,
    set_ancestor_eq hcellv, hps1, set_contents_eq hps1, hu, hps1c]
  rw [unlockedMem_setContents, unlockedMem_setAncestor, unlockedMem_setContents,
    unlockedMem_lockedMem hidle]
  rfl

/-! ## Shape of the logs -/

theorem lockEvents_isStart (m : Mem) (w : Bool) (cur : Nat) (cs : List Name) :
    ∀ e ∈ lockEvents m w cur cs, e.isStart = true := by
  intro e he
  simp only [lockEvents, List.mem_append, List.mem_map] at he
  rcases he with ⟨a, -, rfl⟩ | he
  · rfl
  · cases hW : heldWriter m w cur cs with
    | none => simp [hW] at he
    | some a =>
      simp only [hW, List.mem_singleton] at he
      subst he
      rfl

theorem lockEvents_ne_nil (m : Mem) (w : Bool) (cur : Nat) (cs : List Name) :
    lockEvents m w cur cs ≠ [] := by
  cases cs with
  | nil => rw [lockEvents_nil]; simp
  | cons c cs => rw [lockEvents_cons]; simp

theorem finish_isFinish {e : Event} (h : e.isStart = true) : e.finish.isFinish = true := by
  cases e <;> simp_all [Event.isStart, Event.finish, Event.isFinish]

theorem releaseEvents_isFinish (m : Mem) (w : Bool) (cur : Nat) (cs : List Name) :
    ∀ e ∈ releaseEvents m w cur cs, e.isFinish = true := by
  intro e he
  simp only [releaseEvents, List.mem_reverse, List.mem_map] at he
  obtain ⟨x, hx, rfl⟩ := he
  exact finish_isFinish (lockEvents_isStart m w cur cs x hx)

theorem releaseEvents_ne_nil (m : Mem) (w : Bool) (cur : Nat) (cs : List Name) :
    releaseEvents m w cur cs ≠ [] := by
  simp [releaseEvents, lockEvents_ne_nil]

theorem bracketed_nil : Bracketed [] :=
  ⟨[], [], rfl, by simp, by simp⟩

theorem bracketed_lock (m : Mem) (w : Bool) (cur : Nat) (cs : List Name) (A : List Event)
    (hA : ∀ e ∈ A, e.isHeap = true ∨ e.isMapCall = true) :
    Bracketed (lockEvents m w cur cs ++ A ++ releaseEvents m w cur cs) :=
  ⟨lockEvents m w cur cs, A, rfl, lockEvents_isStart m w cur cs, hA⟩

theorem count_starts (a : Nat) (L : List Event) (hL : ∀ e ∈ L, e.isStart = true) :
    (L.map Event.finish).count (Event.finish_reading a) = L.count (Event.start_reading a) ∧
    (L.map Event.finish).count (Event.finish_writing a) = L.count (Event.start_writing a) ∧
    L.count (Event.finish_reading a) = 0 ∧ L.count (Event.finish_writing a) = 0 ∧
    (L.map Event.finish).count (Event.start_reading a) = 0 ∧
    (L.map Event.finish).count (Event.start_writing a) = 0 := by
  induction L with
  | nil => simp
  | cons e L ih =>
    obtain ⟨h1, h2, h3, h4, h5, h6⟩ := ih (fun x hx => hL x (by simp [hx]))
    have he := hL e (by simp)
    cases e <;> simp_all [Event.isStart, Event.finish, List.count_cons]

theorem count_inner (A : List Event) (hA : ∀ e ∈ A, e.isHeap = true ∨ e.isMapCall = true)
    (x : Event) (hx : x.isHeap = false ∧ x.isMapCall = false) : A.count x = 0 := by
  rw [List.count_eq_zero]
  intro h
  rcases hA x h with h1 | h1
  · rw [hx.1] at h1; cases h1
  · rw [hx.2] at h1; cases h1

theorem matched_of_bracketed {log : List Event} (h : Bracketed log) : Matched log := by
  obtain ⟨L, A, rfl, hL, hA⟩ := h
  intro a
  obtain ⟨h1, h2, h3, h4, h5, h6⟩ := count_starts a L hL
  simp only [List.count_append, List.count_reverse, h1, h2, h3, h4, h5, h6,
    count_inner A hA (Event.start_reading a) ⟨rfl, rfl⟩,
    count_inner A hA (Event.finish_reading a) ⟨rfl, rfl⟩,
    count_inner A hA (Event.start_writing a) ⟨rfl, rfl⟩,
    count_inner A hA (Event.finish_writing a) ⟨rfl, rfl⟩]
  omega

/-! ## Every way the operations can end, with the log -/

theorem list_log_outcome {m : Mem} {root : Nat} (hwf : WF m root) (hidle : Idle m) (p : Path)
    (fuel : Nat) (hf : p.length ≤ fuel) :
    ∃ r, tree_list fuel m (some root) p = some (m, r) ∧
      (tree_list_log fuel (m, []) (some root) p = some ((m, []), r) ∨
       ∃ P, tree_list_log fuel (m, []) (some root) p =
         some ((m, lockEvents m false root P ++ [] ++ releaseEvents m false root P), r)) := by
  cases hval : is_path_valid p with
  | false =>
    exact ⟨none, tree_list_invalid fuel m _ p hval, Or.inl (tree_list_log_invalid fuel _ _ p hval)⟩
  | true =>
    obtain ⟨cs, hv, rfl⟩ := (is_path_valid_iff _).1 hval
    have hfl : cs.length < fuel := fuel_of_length hf
    refine ⟨_, tree_list_valid hwf hidle cs hv fuel hfl, Or.inr ⟨cs, ?_⟩⟩
    rw [tree_list_log_valid hwf hidle cs hv fuel hfl []]
    simp

theorem create_log_outcome {m : Mem} {root : Nat} (hwf : WF m root) (hidle : Idle m) (p : Path)
    (fuel : Nat) (hf : p.length ≤ fuel) :
    ∃ m1 c, tree_create fuel m (some root) p = some (m1, c) ∧ Idle m1 ∧
      (tree_create_log fuel (m, []) (some root) p = some ((m1, []), c) ∨
       ∃ P A, tree_create_log fuel (m, []) (some root) p =
           some ((m1, lockEvents m true root P ++ A ++ releaseEvents m true root P), c) ∧
         (A = [] ∨ (∃ pt, A = [Event.alloc m.next, Event.map_insert pt]) ∨
           ∃ pt, A = [Event.alloc m.next, Event.map_insert pt, Event.free m.next])) := by
  cases hval : is_path_valid p with
  | false =>
    exact ⟨m, EINVAL, tree_create_invalid fuel m _ p hval, hidle,
      Or.inl (tree_create_log_invalid fuel _ _ p hval)⟩
  | true =>
    rcases valid_path_cases hval with rfl | ⟨cs, c, hv, rfl⟩
    · exact ⟨m, EEXIST, tree_create_root fuel m _, hidle, Or.inl (tree_create_log_root fuel _ _)⟩
    · have hfl : cs.length < fuel := by
        have := fuel_of_length hf
        simp at this
        omega
      cases hres : resolve m root cs with
      | none =>
        refine ⟨m, ENOENT, tree_create_noent hwf hidle cs c hv fuel hfl hres, hidle,
          Or.inr ⟨cs, [], ?_, Or.inl rfl⟩⟩
        rw [tree_create_log_noent hwf hidle cs c hv fuel hfl hres []]
        simp
      | some pt =>
        obtain ⟨tp, htp⟩ := hwf.folder_cell hres
        have hcases : child m pt c = none ∨ ∃ v, child m pt c = some v := by
          cases child m pt c <;> simp
        rcases hcases with hc | ⟨v, hc⟩
        · refine ⟨_, 0, tree_create_success hwf hidle cs c hv fuel hfl hres htp hc,
            (create_facts hwf hidle hres htp hc).2.1, Or.inr ⟨cs, _, ?_, Or.inr (Or.inl ⟨pt, rfl⟩)⟩⟩
          rw [tree_create_log_success hwf hidle cs c hv fuel hfl hres htp hc []]
          simp
        · refine ⟨_, EEXIST, tree_create_exists hwf hidle cs c hv fuel hfl hres hc,
            idle_createFailedMem hidle pt, Or.inr ⟨cs, _, ?_, Or.inr (Or.inr ⟨pt, rfl⟩)⟩⟩
          rw [tree_create_log_exists hwf hidle cs c hv fuel hfl hres hc []]
          simp

theorem remove_log_outcome {m : Mem} {root : Nat} (hwf : WF m root) (hidle : Idle m) (p : Path)
    (fuel : Nat) (hf : p.length ≤ fuel) :
    ∃ m1 c, tree_remove fuel m (some root) p = some (m1, c) ∧ Idle m1 ∧
      (tree_remove_log fuel (m, []) (some root) p = some ((m1, []), c) ∨
       ∃ P A, tree_remove_log fuel (m, []) (some root) p =
           some ((m1, lockEvents m true root P ++ A ++ releaseEvents m true root P), c) ∧
         (A = [] ∨ ∃ pt v, A = [Event.map_remove pt, Event.free v])) := by
  cases hval : is_path_valid p with
  | false =>
    exact ⟨m, EINVAL, tree_remove_invalid fuel m _ p hval, hidle,
      Or.inl (tree_remove_log_invalid fuel _ _ p hval)⟩
  | true =>
    rcases valid_path_cases hval with rfl | ⟨cs, c, hv, rfl⟩
    · exact ⟨m, EBUSY, tree_remove_root fuel m _, hidle, Or.inl (tree_remove_log_root fuel _ _)⟩
    · have hfl : cs.length < fuel := by
        have := fuel_of_length hf
        simp at this
        omega
      cases hres : resolve m root cs with
      | none =>
        refine ⟨m, ENOENT, tree_remove_noent_parent hwf hidle cs c hv fuel hfl hres, hidle,
          Or.inr ⟨cs, [], ?_, Or.inl rfl⟩⟩
        rw [tree_remove_log_noent_parent hwf hidle cs c hv fuel hfl hres []]
        simp
      | some pt =>
        obtain ⟨tp, htp⟩ := hwf.folder_cell hres
        have hcases : child m pt c = none ∨ ∃ v, child m pt c = some v := by
          cases child m pt c <;> simp
        rcases hcases with hc | ⟨v, hc⟩
        · refine ⟨_, ENOENT, tree_remove_noent_child hwf hidle cs c hv fuel hfl hres hc,
            idle_touch hidle pt, Or.inr ⟨cs, [], ?_, Or.inl rfl⟩⟩
          rw [tree_remove_log_noent_child hwf hidle cs c hv fuel hfl hres hc []]
          simp
        · obtain ⟨tv, htv, -⟩ := hwf.child_cell hc
          by_cases hcon : tv.contents = []
          · refine ⟨_, 0, tree_remove_success hwf hidle cs c hv fuel hfl hres htp hc htv hcon,
              (remove_facts hwf hidle hres htp hc).2.1,
              Or.inr ⟨cs, _, ?_, Or.inr ⟨pt, v, rfl⟩⟩⟩
            rw [tree_remove_log_success hwf hidle cs c hv fuel hfl hres htp hc htv hcon []]
            simp
          · refine ⟨_, ENOTEMPTY,
              tree_remove_notempty hwf hidle cs c hv fuel hfl hres hc htv hcon,
              idle_touch hidle pt, Or.inr ⟨cs, [], ?_, Or.inl rfl⟩⟩
            rw [tree_remove_log_notempty hwf hidle cs c hv fuel hfl hres hc htv hcon []]
            simp

theorem move_log_outcome {m : Mem} {root : Nat} (hwf : WF m root) (hidle : Idle m) (a b : Path)
    (fuel : Nat) (hfa : a.length ≤ fuel) (hfb : b.length ≤ fuel) :
    ∃ m1 c, tree_move fuel m (some root) a b = some (m1, c) ∧ Idle m1 ∧
      (tree_move_log fuel (m, []) (some root) a b = some ((m1, []), c) ∨
       ∃ P A, tree_move_log fuel (m, []) (some root) a b =
           some ((m1, lockEvents m true root P ++ A ++ releaseEvents m true root P), c) ∧
         (A = [] ∨ (∃ pt, A = [Event.map_insert pt]) ∨
           ∃ pt ps, A = [Event.map_insert pt, Event.map_remove ps])) := by
  cases hchk : check_source_and_target a b with
  | some code =>
    exact ⟨m, code, tree_move_rejected fuel m _ a b code hchk, hidle,
      Or.inl (tree_move_log_rejected fuel _ _ a b code hchk)⟩
  | none =>
    obtain ⟨hs, ht, hsr, htr, hrule⟩ := check_source_and_target_none hchk
    obtain ⟨scs, sn, tcs, tn, rfl, rfl, ha⟩ := moveArgs_of_paths hs ht hsr htr hrule
    have hfs1 : (scs ++ [sn]).length < fuel := fuel_of_length hfa
    have hft1 : (tcs ++ [tn]).length < fuel := fuel_of_length hfb
    cases hres : resolve m root scs with
    | none =>
      refine ⟨_, ENOENT, tree_move_noent_source_parent hwf hidle ha fuel hfs1 hres,
        idle_afterLock hidle _, Or.inr ⟨commonComponents (scs ++ [sn]) (tcs ++ [tn]), [], ?_, Or.inl rfl⟩⟩
      rw [tree_move_log_noent_source_parent hwf hidle ha fuel hfs1 hres []]
      simp
    | some ps =>
      have hcases : child m ps sn = none ∨ ∃ v, child m ps sn = some v := by
        cases child m ps sn <;> simp
      rcases hcases with hc | ⟨v, hc⟩
      · refine ⟨_, ENOENT, tree_move_noent_source hwf hidle ha fuel hfs1 hres hc,
          idle_afterLock hidle _, Or.inr ⟨commonComponents (scs ++ [sn]) (tcs ++ [tn]), [], ?_, Or.inl rfl⟩⟩
        rw [tree_move_log_noent_source hwf hidle ha fuel hfs1 hres hc []]
        simp
      · cases hrt : resolve m root tcs with
        | none =>
          refine ⟨_, ENOENT, tree_move_noent_target_parent hwf hidle ha fuel hfs1 hft1 hres hc hrt,
            idle_afterLock hidle _, Or.inr ⟨commonComponents (scs ++ [sn]) (tcs ++ [tn]), [], ?_, Or.inl rfl⟩⟩
          rw [tree_move_log_noent_target_parent hwf hidle ha fuel hfs1 hft1 hres hc hrt []]
          simp
        | some pt =>
          by_cases hST : scs ++ [sn] = tcs ++ [tn]
          · refine ⟨_, 0, tree_move_same hwf hidle ha fuel hfs1 hft1 hres hc hST,
              idle_afterLock hidle _, Or.inr ⟨commonComponents (scs ++ [sn]) (tcs ++ [tn]), [], ?_, Or.inl rfl⟩⟩
            rw [tree_move_log_same hwf hidle ha fuel hfs1 hft1 hres hc hST []]
            simp
          · have hcases2 : child m pt tn = none ∨ ∃ w, child m pt tn = some w := by
              cases child m pt tn <;> simp
            rcases hcases2 with hct | ⟨w, hct⟩
            · obtain ⟨l, hl, -, -⟩ := moveWriter_of_source (tcs ++ [tn]) hres hc
              obtain ⟨tps, htps⟩ := hwf.folder_cell hres
              obtain ⟨tpt, htpt⟩ := hwf.folder_cell hrt
              refine ⟨_, 0,
                tree_move_success hwf hidle ha fuel hfs1 hft1 hl hres htps hc hrt htpt hct hST,
                (move_facts hwf hidle l hres htps hc hrt htpt hct (ha.not_under hST)).2.1,
                Or.inr ⟨commonComponents (scs ++ [sn]) (tcs ++ [tn]), _, ?_,
                  Or.inr (Or.inr ⟨pt, ps, rfl⟩)⟩⟩
              rw [tree_move_log_success hwf hidle ha fuel hfs1 hft1 hl hres htps hc hrt htpt
                hct hST []]
              simp
            · refine ⟨_, EEXIST, tree_move_exists hwf hidle ha fuel hfs1 hft1 hres hc hrt hct hST,
                idle_afterLock hidle _, Or.inr ⟨commonComponents (scs ++ [sn]) (tcs ++ [tn]), _, ?_,
                  Or.inr (Or.inl ⟨pt, rfl⟩)⟩⟩
              rw [tree_move_log_exists hwf hidle ha fuel hfs1 hft1 hres hc hrt hct hST []]
              simp

/-! ## Holds are released -/

theorem bracketed_of_cases {m : Mem} {root : Nat} {log : List Event}
    (h : log = [] ∨ ∃ (w : Bool) (P : List Name) (A : List Event),
      log = lockEvents m w root P ++ A ++ releaseEvents m w root P ∧
        ∀ e ∈ A, e.isHeap = true ∨ e.isMapCall = true) :
    Bracketed log ∧ Matched log := by
  have hb : Bracketed log := by
    rcases h with rfl | ⟨w, P, A, rfl, hA⟩
    · exact bracketed_nil
    · exact bracketed_lock m w root P A hA
  exact ⟨hb, matched_of_bracketed hb⟩

/-- C14: on a well-formed tree whose rooms are idle each of `tree_list`, `tree_create`,
`tree_remove` and `tree_move`, on any arguments, returns (no room function waits), leaves
every room of the memory idle, and its log is made of start events, then events that are
neither start nor finish events, then the finish events of exactly the holds taken, the
last hold first; so every node has one `finish_reading` for each `start_reading` and one
`finish_writing` for each `start_writing`. -/
theorem holds_released (m : Mem) (root : Nat) (fuel : Nat) (hwf : WF m root) (hidle : Idle m) :
    (∀ p : Path, p.length ≤ fuel →
      ∃ m1 log r, tree_list_log fuel (m, []) (some root) p = some ((m1, log), r) ∧
        tree_list fuel m (some root) p = some (m1, r) ∧
        Idle m1 ∧ Bracketed log ∧ Matched log) ∧
    (∀ p : Path, p.length ≤ fuel →
      ∃ m1 log c, tree_create_log fuel (m, []) (some root) p = some ((m1, log), c) ∧
        tree_create fuel m (some root) p = some (m1, c) ∧
        Idle m1 ∧ Bracketed log ∧ Matched log) ∧
    (∀ p : Path, p.length ≤ fuel →
      ∃ m1 log c, tree_remove_log fuel (m, []) (some root) p = some ((m1, log), c) ∧
        tree_remove fuel m (some root) p = some (m1, c) ∧
        Idle m1 ∧ Bracketed log ∧ Matched log) ∧
    (∀ a b : Path, a.length ≤ fuel → b.length ≤ fuel →
      ∃ m1 log c, tree_move_log fuel (m, []) (some root) a b = some ((m1, log), c) ∧
        tree_move fuel m (some root) a b = some (m1, c) ∧
        Idle m1 ∧ Bracketed log ∧ Matched log) := by
  refine ⟨?_, ?_, ?_, ?_⟩
  · intro p hf
    obtain ⟨r, h1, h2⟩ := list_log_outcome hwf hidle p fuel hf
    rcases h2 with h2 | ⟨P, h2⟩
    · exact ⟨m, [], r, h2, h1, hidle, @bracketed_of_cases m root [] (Or.inl rfl)⟩
    · exact ⟨m, _, r, h2, h1, hidle,
        bracketed_of_cases (Or.inr ⟨false, P, [], rfl, by simp⟩)⟩
  · intro p hf
    obtain ⟨m1, c, h1, hi, h2⟩ := create_log_outcome hwf hidle p fuel hf
    rcases h2 with h2 | ⟨P, A, h2, hA⟩
    · exact ⟨m1, [], c, h2, h1, hi, @bracketed_of_cases m root [] (Or.inl rfl)⟩
    · refine ⟨m1, _, c, h2, h1, hi, bracketed_of_cases (Or.inr ⟨true, P, A, rfl, ?_⟩)⟩
      rcases hA with rfl | ⟨pt, rfl⟩ | ⟨pt, rfl⟩ <;> simp [Event.isHeap, Event.isMapCall]
  · intro p hf
    obtain ⟨m1, c, h1, hi, h2⟩ := remove_log_outcome hwf hidle p fuel hf
    rcases h2 with h2 | ⟨P, A, h2, hA⟩
    · exact ⟨m1, [], c, h2, h1, hi, @bracketed_of_cases m root [] (Or.inl rfl)⟩
    · refine ⟨m1, _, c, h2, h1, hi, bracketed_of_cases (Or.inr ⟨true, P, A, rfl, ?_⟩)⟩
      rcases hA with rfl | ⟨pt, v, rfl⟩ <;> simp [Event.isHeap, Event.isMapCall]
  · intro a b hfa hfb
    obtain ⟨m1, c, h1, hi, h2⟩ := move_log_outcome hwf hidle a b fuel hfa hfb
    rcases h2 with h2 | ⟨P, A, h2, hA⟩
    · exact ⟨m1, [], c, h2, h1, hi, @bracketed_of_cases m root [] (Or.inl rfl)⟩
    · refine ⟨m1, _, c, h2, h1, hi, bracketed_of_cases (Or.inr ⟨true, P, A, rfl, ?_⟩)⟩
      rcases hA with rfl | ⟨pt, rfl⟩ | ⟨pt, ps, rfl⟩ <;> simp [Event.isHeap, Event.isMapCall]

/-- Instance of C14: the four operations on the tree with `/a/`, `/b/` and `/a/x/`. -/
theorem holds_released_witness :
    WF treeABX 0 ∧ Idle treeABX ∧
    (∀ p : Path, p.length ≤ 9 →
      ∃ m1 log r, tree_list_log 9 (treeABX, []) (some 0) p = some ((m1, log), r) ∧
        tree_list 9 treeABX (some 0) p = some (m1, r) ∧
        Idle m1 ∧ Bracketed log ∧ Matched log) ∧
    (∀ p : Path, p.length ≤ 9 →
      ∃ m1 log c, tree_create_log 9 (treeABX, []) (some 0) p = some ((m1, log), c) ∧
        tree_create 9 treeABX (some 0) p = some (m1, c) ∧
        Idle m1 ∧ Bracketed log ∧ Matched log) ∧
    (∀ p : Path, p.length ≤ 9 →
      ∃ m1 log c, tree_remove_log 9 (treeABX, []) (some 0) p = some ((m1, log), c) ∧
        tree_remove 9 treeABX (some 0) p = some (m1, c) ∧
        Idle m1 ∧ Bracketed log ∧ Matched log) ∧
    (∀ a b : Path, a.length ≤ 9 → b.length ≤ 9 →
      ∃ m1 log c, tree_move_log 9 (treeABX, []) (some 0) a b = some ((m1, log), c) ∧
        tree_move 9 treeABX (some 0) a b = some (m1, c) ∧
        Idle m1 ∧ Bracketed log ∧ Matched log) :=
  ⟨treeABX_ok.1, treeABX_ok.2, holds_released treeABX 0 9 treeABX_ok.1 treeABX_ok.2⟩

/-- The log of moving `/a/x/` to `/b/y/` in the tree with `/a/`, `/b/` and `/a/x/`: the
root is held by the writer, the two maps change, the writer leaves. -/
theorem move_log_example :
    (tree_move_log 9 (treeABX, []) (some 0) ['/', 'a', '/', 'x', '/']
        ['/', 'b', '/', 'y', '/']).map (fun r => (r.1.2, r.2)) =
      some ([Event.start_writing 0, Event.map_insert 2, Event.map_remove 1,
        Event.finish_writing 0], 0) := by
  rfl

/-! ## Where `malloc` and `free` stand among the holds -/

/-- C19 as stated fails: in `tree_create` of `/a/` on the fresh tree the node is
allocated after the writer has entered the root, in `tree_remove` of `/a/` afterwards
the node is freed before the writer leaves the root, and a second `tree_create` of `/a/`
frees the rejected node before the writer leaves the root. -/
theorem heap_calls_under_hold :
    (tree_create_log 3 (initMem, []) (some 0) ['/', 'a', '/']).map (fun r => (r.1.2, r.2)) =
      some ([Event.start_writing 0, Event.alloc 1, Event.map_insert 0,
        Event.finish_writing 0], 0) ∧
    (tree_remove_log 3 (treeA, []) (some 0) ['/', 'a', '/']).map (fun r => (r.1.2, r.2)) =
      some ([Event.start_writing 0, Event.map_remove 0, Event.free 1,
        Event.finish_writing 0], 0) ∧
    (tree_create_log 3 (treeA, []) (some 0) ['/', 'a', '/']).map (fun r => (r.1.2, r.2)) =
      some ([Event.start_writing 0, Event.alloc 2, Event.map_insert 0, Event.free 2,
        Event.finish_writing 0], EEXIST) :=
  ⟨rfl, rfl, rfl⟩

/-- C19 (amended): on a well-formed tree whose rooms are idle the log of `tree_create`
and of `tree_remove` is made of start events, then the `malloc`, map and `free` events,
then finish events; when there is a `malloc` or a `free`, holds are taken before it and
released after it.  `tree_create` allocates the new node after its holds are taken and
frees the rejected node before any is released; `tree_remove` frees the victim before any
hold is released. -/
theorem heap_calls_inside_holds (m : Mem) (root : Nat) (p : Path) (fuel : Nat)
    (hwf : WF m root) (hidle : Idle m) (hfuel : p.length ≤ fuel) :
    (∃ m1 log c, tree_create_log fuel (m, []) (some root) p = some ((m1, log), c) ∧
      ∃ L A U, log = L ++ A ++ U ∧ (∀ e ∈ L, e.isStart = true) ∧
        (∀ e ∈ U, e.isFinish = true) ∧
        (A = [] ∨ (L ≠ [] ∧ U ≠ [] ∧ ∃ pt, A = [Event.alloc m.next, Event.map_insert pt] ∨
          A = [Event.alloc m.next, Event.map_insert pt, Event.free m.next]))) ∧
    (∃ m1 log c, tree_remove_log fuel (m, []) (some root) p = some ((m1, log), c) ∧
      ∃ L A U, log = L ++ A ++ U ∧ (∀ e ∈ L, e.isStart = true) ∧
        (∀ e ∈ U, e.isFinish = true) ∧
        (A = [] ∨ (L ≠ [] ∧ U ≠ [] ∧ ∃ pt v, A = [Event.map_remove pt, Event.free v]))) := by
  constructor
  · obtain ⟨m1, c, -, -, h2⟩ := create_log_outcome hwf hidle p fuel hfuel
    rcases h2 with h2 | ⟨P, A, h2, hA⟩
    · exact ⟨m1, [], c, h2, [], [], [], rfl, by simp, by simp, Or.inl rfl⟩
    · refine ⟨m1, _, c, h2, _, A, _, rfl, lockEvents_isStart m true root P,
        releaseEvents_isFinish m true root P, ?_⟩
      rcases hA with rfl | ⟨pt, rfl⟩ | ⟨pt, rfl⟩
      · exact Or.inl rfl
      · exact Or.inr ⟨lockEvents_ne_nil _ _ _ _, releaseEvents_ne_nil _ _ _ _, pt, Or.inl rfl⟩
      · exact Or.inr ⟨lockEvents_ne_nil _ _ _ _, releaseEvents_ne_nil _ _ _ _, pt, Or.inr rfl⟩
  · obtain ⟨m1, c, -, -, h2⟩ := remove_log_outcome hwf hidle p fuel hfuel
    rcases h2 with h2 | ⟨P, A, h2, hA⟩
    · exact ⟨m1, [], c, h2, [], [], [], rfl, by simp, by simp, Or.inl rfl⟩
    · refine ⟨m1, _, c, h2, _, A, _, rfl, lockEvents_isStart m true root P,
        releaseEvents_isFinish m true root P, ?_⟩
      rcases hA with rfl | ⟨pt, v, rfl⟩
      · exact Or.inl rfl
      · exact Or.inr ⟨lockEvents_ne_nil _ _ _ _, releaseEvents_ne_nil _ _ _ _, pt, v, rfl⟩

/-- Instance of C19 (amended): `tree_create` and `tree_remove` of `/a/x/` in the tree with
`/a/`, `/b/` and `/a/x/`. -/
theorem heap_calls_inside_holds_witness :
    WF treeABX 0 ∧ Idle treeABX ∧
    (∃ m1 log c, tree_create_log 9 (treeABX, []) (some 0) ['/', 'a', '/', 'x', '/'] =
        some ((m1, log), c) ∧
      ∃ L A U, log = L ++ A ++ U ∧ (∀ e ∈ L, e.isStart = true) ∧
        (∀ e ∈ U, e.isFinish = true) ∧
        (A = [] ∨ (L ≠ [] ∧ U ≠ [] ∧ ∃ pt, A = [Event.alloc treeABX.next, Event.map_insert pt] ∨
          A = [Event.alloc treeABX.next, Event.map_insert pt, Event.free treeABX.next]))) ∧
    (∃ m1 log c, tree_remove_log 9 (treeABX, []) (some 0) ['/', 'a', '/', 'x', '/'] =
        some ((m1, log), c) ∧
      ∃ L A U, log = L ++ A ++ U ∧ (∀ e ∈ L, e.isStart = true) ∧
        (∀ e ∈ U, e.isFinish = true) ∧
        (A = [] ∨ (L ≠ [] ∧ U ≠ [] ∧ ∃ pt v, A = [Event.map_remove pt, Event.free v]))) :=
  ⟨treeABX_ok.1, treeABX_ok.2,
    heap_calls_inside_holds treeABX 0 ['/', 'a', '/', 'x', '/'] 9 treeABX_ok.1 treeABX_ok.2
      (by decide)⟩

/-! ## The shape of a path lock -/

theorem chain_head (m : Mem) (cur : Nat) (cs : List Name) :
    (chain m cur cs).head? = some cur := by
  cases cs with
  | nil => rfl
  | cons c cs => cases hc : child m cur c <;> simp [chain, hc]

theorem chain_descends (m : Mem) (cur : Nat) (cs : List Name) :
    List.Chain' (fun a b => ∃ c, child m a c = some b) (chain m cur cs) := by
  induction cs generalizing cur with
  | nil => simp [chain]
  | cons c cs ih =>
    cases hc : child m cur c with
    | none => simp [chain, hc]
    | some x =>
      simp only [chain, hc]
      refine List.Chain'.cons' (ih x) ?_
      intro y hy
      rw [chain_head] at hy
      cases hy
      exact ⟨c, hc⟩

theorem chain_getElem_resolve (m : Mem) :
    ∀ (cs : List Name) (cur k x : Nat), (chain m cur cs)[k]? = some x →
      resolve m cur (cs.take k) = some x := by
  intro cs
  induction cs with
  | nil =>
    intro cur k x h
    cases k with
    | zero =>
      simp only [chain, List.getElem?_cons_zero, Option.some.injEq] at h
      simp [resolve, h]
    | succ k => simp [chain] at h
  | cons c cs ih =>
    intro cur k x h
    cases k with
    | zero =>
      have hh := chain_head m cur (c :: cs)
      rw [List.head?_eq_getElem?] at hh
      rw [hh] at h
      simp only [Option.some.injEq] at h
      simp [resolve, h]
    | succ k =>
      cases hc : child m cur c with
      | none => simp [chain, hc] at h
      | some y =>
        simp only [chain, hc, List.getElem?_cons_succ] at h
        simp only [List.take_succ_cons, resolve, hc]
        exact ih y k x h

theorem chain_getLast (m : Mem) (cur : Nat) (cs : List Name) :
    (chain m cur cs).getLast? = some (deepest m cur cs) := by
  obtain ⟨R, hR⟩ := chain_eq_append_deepest m cur cs
  rw [← hR]
  simp

theorem chain_dropLast (m : Mem) (cur : Nat) (cs : List Name) :
    (chain m cur cs).dropLast ++ [deepest m cur cs] = chain m cur cs := by
  obtain ⟨R, hR⟩ := chain_eq_append_deepest m cur cs
  rw [← hR]
  simp

theorem lockedMem_counters {m : Mem} (hidle : Idle m) (R : List Nat) (W : Option Nat)
    {x : Nat} {t1 : Tree} (h : (lockedMem m R W).cell x = some t1) :
    t1.readers_number = (if W = some x then 0 else if x ∈ R then 1 else 0) ∧
      t1.writers_number = (if W = some x then 1 else 0) := by
  simp only [lockedMem] at h
  cases ht : m.cell x with
  | none =>
    rw [ht] at h
    split_ifs at h <;> simp at h
  | some t =>
    obtain ⟨h1, h2, -, -⟩ := hidle x t ht
    rw [ht] at h
    split_ifs at h with hw hr
    · simp only [Option.map_some', Option.some.injEq] at h
      subst h
      simp [wIn, h1, h2, hw]
    · simp only [Option.map_some', Option.some.injEq] at h
      subst h
      simp [rIn, h1, h2, hw, hr]
    · simp only [Option.some.injEq] at h
      subst h
      simp [h1, h2, hw, hr]

theorem lockEvents_nodes (m : Mem) (w : Bool) (cur : Nat) (cs : List Name) :
    (lockEvents m w cur cs).map Event.node = chain m cur cs := by
  induction cs generalizing cur with
  | nil => cases w <;> simp [lockEvents_nil, chain, Event.node]
  | cons c cs ih =>
    rw [lockEvents_cons]
    cases hc : child m cur c with
    | none => simp [chain, hc, Event.node]
    | some x => simp [chain, hc, Event.node, ih x]

/-- C17: on a well-formed tree whose rooms are idle `lock_path` on a valid path returns
after start events on the nodes of the way down from the root, in this order, each node
the child of the one before: the node of the `k`-th event is the folder of the first `k`
components.  When the folder exists the events are a `start_reading` on
each strict ancestor and one start event on the folder (`start_writing` iff `writer`),
`*success` is set, the folder is returned, and afterwards each strict ancestor holds one
reader, the folder one reader or one writer, and no other node anything.  When a component
is missing `*success` is untouched, the deepest existing node is returned, and it and its
ancestors hold one reader and no writer each. -/
theorem lock_path_shape (m : Mem) (root : Nat) (p : Path) (cs : List Name)
    (writer success : Bool) (fuel : Nat) (hwf : WF m root) (hidle : Idle m)
    (hp : path_components p = some cs) (hfuel : p.length ≤ fuel) :
    ∃ m1 log s1,
      lock_path_log fuel (m, []) (some root) p writer success =
        some ((m1, log), some (deepest m root cs), s1) ∧
      lock_path fuel m (some root) p writer success = some (m1, some (deepest m root cs), s1) ∧
      (∀ e ∈ log, e.isStart = true) ∧
      log.map Event.node = chain m root cs ∧
      (chain m root cs).head? = some root ∧
      (chain m root cs).getLast? = some (deepest m root cs) ∧
      List.Chain' (fun a b => ∃ c, child m a c = some b) (chain m root cs) ∧
      (∀ k x, (chain m root cs)[k]? = some x → resolve m root (cs.take k) = some x) ∧
      (∀ a, resolve m root cs = some a →
        deepest m root cs = a ∧ s1 = true ∧
        log = (chain m root cs).dropLast.map Event.start_reading ++
          [if writer then Event.start_writing a else Event.start_reading a] ∧
        ∀ x t1, m1.cell x = some t1 →
          t1.readers_number =
            (if x ∈ (chain m root cs).dropLast ∨ (x = a ∧ writer = false) then 1 else 0) ∧
          t1.writers_number = (if x = a ∧ writer = true then 1 else 0)) ∧
      (resolve m root cs = none →
        s1 = success ∧ log = (chain m root cs).map Event.start_reading ∧
        ∀ x t1, m1.cell x = some t1 →
          t1.readers_number = (if x ∈ chain m root cs then 1 else 0) ∧
          t1.writers_number = 0) := by
  obtain ⟨rfl, hv⟩ := path_components_eq_some hp
  have hf : cs.length < fuel := fuel_of_length hfuel
  have hnd := hwf.chain_nodup cs
  refine ⟨_, _, _, lock_path_log_spec hwf hidle writer success cs fuel hf hv [],
    lock_path_spec hwf hidle writer success cs fuel hf hv, ?_, ?_,
    chain_head m root cs, chain_getLast m root cs, chain_descends m root cs,
    chain_getElem_resolve m cs root, ?_, ?_⟩
  · intro e he
    rw [List.nil_append] at he
    exact lockEvents_isStart m writer root cs e he
  · rw [List.nil_append]
    exact lockEvents_nodes m writer root cs
  · intro a ha
    have hd := resolve_some_deepest ha
    have hdl := chain_dropLast m root cs
    rw [hd] at hdl
    have ha_notin : a ∉ (chain m root cs).dropLast := by
      intro h
      rw [← hdl] at hnd
      exact List.disjoint_of_nodup_append hnd h (by simp)
    refine ⟨hd, by simp [ha], ?_, ?_⟩
    · cases writer with
      | true =>
        obtain ⟨hR1, hW1⟩ := held_writer_of_resolve_some ha
        have hReq : heldReaders m true root cs = (chain m root cs).dropLast :=
          List.append_inj_left' (hR1.trans hdl.symm) rfl
        simp [lockEvents, hReq, hW1]
      | false =>
        obtain ⟨hR1, hW1⟩ := heldReaders_reader m root cs
        simp only [lockEvents, hR1, hW1, List.nil_append, List.append_nil, Bool.false_eq_true,
          if_false]
        conv_lhs => rw [← hdl]
        simp
    · intro x t1 hx
      obtain ⟨h1, h2⟩ := lockedMem_counters hidle _ _ hx
      cases writer with
      | true =>
        obtain ⟨hR1, hW1⟩ := held_writer_of_resolve_some ha
        have hReq : heldReaders m true root cs = (chain m root cs).dropLast :=
          List.append_inj_left' (hR1.trans hdl.symm) rfl
        rw [hReq, hW1] at h1
        rw [hW1] at h2
        by_cases hxa : x = a
        · subst hxa
          simp [h1, h2, ha_notin]
        · have hxa2 : ¬ (some a = some x) := fun h => hxa (Option.some.inj h).symm
          simp [h1, h2, hxa, hxa2]
      | false =>
        obtain ⟨hR1, hW1⟩ := heldReaders_reader m root cs
        rw [hR1, hW1] at h1
        rw [hW1] at h2
        have hmem : x ∈ chain m root cs ↔ x ∈ (chain m root cs).dropLast ∨ x = a := by
          conv_lhs => rw [← hdl]
          simp
        simp [h1, h2, hmem]
  · intro hnone
    obtain ⟨hR1, hW1⟩ := held_of_resolve_none writer hnone
    refine ⟨by simp [hnone], by simp [lockEvents, hR1, hW1], ?_⟩
    intro x t1 hx
    obtain ⟨h1, h2⟩ := lockedMem_counters hidle _ _ hx
    rw [hR1, hW1] at h1
    rw [hW1] at h2
    simp [h1, h2]

/-- Instance of C17: locking `/a/x/` for a writer in the tree with `/a/`, `/b/` and
`/a/x/`. -/
theorem lock_path_shape_witness :
    WF treeABX 0 ∧ Idle treeABX ∧
    path_components ['/', 'a', '/', 'x', '/'] = some [['a'], ['x']] ∧
    ∃ m1 log s1,
      lock_path_log 5 (treeABX, []) (some 0) ['/', 'a', '/', 'x', '/'] true false =
        some ((m1, log), some (deepest treeABX 0 [['a'], ['x']]), s1) ∧
      lock_path 5 treeABX (some 0) ['/', 'a', '/', 'x', '/'] true false =
        some (m1, some (deepest treeABX 0 [['a'], ['x']]), s1) ∧
      (∀ e ∈ log, e.isStart = true) ∧
      log.map Event.node = chain treeABX 0 [['a'], ['x']] ∧
      (chain treeABX 0 [['a'], ['x']]).head? = some 0 ∧
      (chain treeABX 0 [['a'], ['x']]).getLast? = some (deepest treeABX 0 [['a'], ['x']]) ∧
      List.Chain' (fun a b => ∃ c, child treeABX a c = some b) (chain treeABX 0 [['a'], ['x']]) ∧
      (∀ k x, (chain treeABX 0 [['a'], ['x']])[k]? = some x →
        resolve treeABX 0 ([['a'], ['x']].take k) = some x) ∧
      (∀ a, resolve treeABX 0 [['a'], ['x']] = some a →
        deepest treeABX 0 [['a'], ['x']] = a ∧ s1 = true ∧
        log = (chain treeABX 0 [['a'], ['x']]).dropLast.map Event.start_reading ++
          [if true then Event.start_writing a else Event.start_reading a] ∧
        ∀ x t1, m1.cell x = some t1 →
          t1.readers_number =
            (if x ∈ (chain treeABX 0 [['a'], ['x']]).dropLast ∨ (x = a ∧ true = false)
              then 1 else 0) ∧
          t1.writers_number = (if x = a ∧ true = true then 1 else 0)) ∧
      (resolve treeABX 0 [['a'], ['x']] = none →
        s1 = false ∧ log = (chain treeABX 0 [['a'], ['x']]).map Event.start_reading ∧
        ∀ x t1, m1.cell x = some t1 →
          t1.readers_number = (if x ∈ chain treeABX 0 [['a'], ['x']] then 1 else 0) ∧
          t1.writers_number = 0) :=
  ⟨treeABX_ok.1, treeABX_ok.2, by decide,
    lock_path_shape treeABX 0 ['/', 'a', '/', 'x', '/'] [['a'], ['x']] true false 5
      treeABX_ok.1 treeABX_ok.2 (by decide) (by decide)⟩

/-- The log of locking `/a/x/` for a writer in the tree with `/a/`, `/b/` and `/a/x/`: a
reader enters the root and `/a/`, the writer enters `/a/x/`. -/
theorem lock_path_example :
    (lock_path_log 5 (treeABX, []) (some 0) ['/', 'a', '/', 'x', '/'] true false).map
        (fun r => (r.1.2, r.2)) =
      some ([Event.start_reading 0, Event.start_reading 1, Event.start_writing 3], some 3, true) :=
  rfl

/-! ## The maps `tree_move` touches and the common ancestor -/

theorem treeNested_ok : WF treeNested 0 ∧ Idle treeNested := by
  have hres : resolve treeA 0 [['a']] = some 1 := by decide
  have htp : treeA.cell 1 = some (idleNode (some 0) [] 2) := by decide
  have hc : child treeA 1 ['b'] = none := by decide
  have h := create_facts treeA_ok.1 treeA_ok.2 hres htp hc
  exact ⟨h.1, h.2.1⟩

/-- In a well-formed tree no walk leads down to the root. -/
theorem resolve_root_only {m : Mem} {root : Nat} (hwf : WF m root) {x : Nat} {s : List Name}
    (h : resolve m x s = some root) : s = [] ∧ x = root := by
  rcases List.eq_nil_or_concat s with rfl | ⟨s1, c, rfl⟩
  · simp only [resolve, Option.some.injEq] at h
    exact ⟨rfl, h⟩
  · rw [List.concat_eq_append] at h
    obtain ⟨p, -, hpc⟩ := resolve_concat_eq_some.1 h
    exact absurd rfl (hwf.child_ne_root hpc)

/-- When neither path of a move lies on the other, the parent of the source and the
parent of the target are the node of the common ancestor or below it. -/
theorem move_parents_below_lca {m : Mem} {root : Nat} {scs tcs : List Name} {sn tn : Name}
    {l ps pt : Nat} (hST : ¬ (scs ++ [sn]) <+: (tcs ++ [tn]))
    (hTS : ¬ (tcs ++ [tn]) <+: (scs ++ [sn]))
    (hl : resolve m root (commonComponents (scs ++ [sn]) (tcs ++ [tn])) = some l)
    (hres : resolve m root scs = some ps) (hrt : resolve m root tcs = some pt) :
    (∃ s, resolve m l s = some ps) ∧ (∃ s, resolve m l s = some pt) := by
  have h1 := commonComponents_prefix_left (scs ++ [sn]) (tcs ++ [tn])
  have h2 := commonComponents_prefix_right (scs ++ [sn]) (tcs ++ [tn])
  have hS : commonComponents (scs ++ [sn]) (tcs ++ [tn]) <+: scs := by
    rcases List.prefix_concat_iff.1 h1 with h | h
    · exact absurd (h ▸ h2) hST
    · exact h
  have hT : commonComponents (scs ++ [sn]) (tcs ++ [tn]) <+: tcs := by
    rcases List.prefix_concat_iff.1 h2 with h | h
    · exact absurd (h ▸ h1) hTS
    · exact h
  obtain ⟨rs, hrs⟩ := hS
  obtain ⟨rt, hrt2⟩ := hT
  refine ⟨⟨rs, ?_⟩, ⟨rt, ?_⟩⟩
  · rw [← resolve_below hl, hrs]; exact hres
  · rw [← resolve_below hl, hrt2]; exact hrt

/-- C18 fails on the code: in the tree with `/a/` and `/a/b/` the move of `/a/b/` to
`/a/` passes the input rules, source, its parent and the parent of the target exist and
the paths differ; the common ancestor is `/a/` (node 1), which the writer enters, while
the parent of the target is the root (node 0), held by a reader only; `tree_move` calls
`hmap_insert` on the map of the root and returns `EEXIST`, and the root is neither node 1
nor below it. -/
theorem move_inserts_above_lca :
    check_source_and_target ['/', 'a', '/', 'b', '/'] ['/', 'a', '/'] = none ∧
    parentFolder treeNested 0 ['/', 'a', '/', 'b', '/'] = some 1 ∧
    folder treeNested 0 ['/', 'a', '/', 'b', '/'] = some 2 ∧
    parentFolder treeNested 0 ['/', 'a', '/'] = some 0 ∧
    ['/', 'a', '/', 'b', '/'] ≠ ['/', 'a', '/'] ∧
    last_common_ancestor ['/', 'a', '/', 'b', '/'] ['/', 'a', '/'] = some ['/', 'a', '/'] ∧
    folder treeNested 0 ['/', 'a', '/'] = some 1 ∧
    (tree_move_log 6 (treeNested, []) (some 0) ['/', 'a', '/', 'b', '/']
        ['/', 'a', '/']).map (fun r => (r.1.2, r.2)) =
      some ([Event.start_reading 0, Event.start_writing 1, Event.map_insert 0,
        Event.finish_writing 1, Event.finish_reading 0], EEXIST) ∧
    (tree_move 6 treeNested (some 0) ['/', 'a', '/', 'b', '/'] ['/', 'a', '/']).map Prod.snd =
      some EEXIST ∧
    (∀ s, resolve treeNested 1 s ≠ some 0) := by
  refine ⟨by decide, by decide, by decide, by decide, by decide, by decide, by decide, rfl,
    rfl, ?_⟩
  intro s h
  have := (resolve_root_only treeNested_ok.1 h).2
  cases this

end FolderTree
